import Mathlib

/-!
# Labeling-based propositional interpolation over a resolution proof

A shallow embedding of `src/proof/PGInterpolator.cc` (class `ProofGraph`) and of the
collaborators it calls.  Functions that the source defines are transcribed statement by
statement; collaborators that live outside the transcribed file (term store, partition
manager, assumption oracle, per-run interpolation info, theory handler) are either fields
of the proof graph or carry a doc comment saying that they are modelled from the
specification.

Conventions.

* A C++ exception is a value of `Exn`; a function that can throw and that mutates state
  returns a pair `(Except Exn result, state)`, so the state at the moment of the throw
  stays visible.
* `assert` is a no-op (release build), except where the statement that follows would read
  through an undefined reference (a null node, `PTRef_Undef`, a missing clause element,
  an end iterator); those places yield `Exn.undefined_reference`.
* `PTRef_Undef` is `none` in an `Option PTRef`.
-/

namespace OpenSMT

/-! ## Basic data -/

/-- The enumeration `icolor_t`: class or color of a variable, clause or pivot. -/
inductive icolor_t
  | I_UNDEF
  | I_A
  | I_B
  | I_AB
  | I_S
  deriving DecidableEq

/-- SAT-solver variables are numbered. -/
abbrev Var := Nat

/-- A literal: a variable and a sign; `sign = true` is the negated literal (MiniSat). -/
structure Lit where
  x : Var
  sign : Bool
  deriving DecidableEq

/-- The accessor `var(l)`. -/
def var (l : Lit) : Var := l.x

/-- The accessor `sign(l)`. -/
def sign (l : Lit) : Bool := l.sign

/-- The constructor `mkLit(v)`: the positive literal of `v`. -/
def mkLit (v : Var) : Lit := ⟨v, false⟩

/-- The operator `~l`: same variable, flipped sign. -/
def Lit.neg (l : Lit) : Lit := ⟨l.x, !l.sign⟩

/-- Partition masks (`ipartitions_t`) are arbitrary-precision integers used as bit sets;
`&` is `Int.land` and `~` is `Int.lnot` (two's complement, as in GMP). -/
abbrev ipartitions_t := Int

/-- Exceptions thrown by the transcribed code, one constructor per `throw` site. -/
inductive Exn
  /-- `OsmtApiException("Please choose 0/1/2/3/4/5 as values for itp_bool_algo")`. -/
  | api_choose_itp_bool_algo
  /-- `OsmtApiException("No interpolation algorithm chosen")`. -/
  | api_no_algorithm_chosen
  /-- `OsmtInternalException("Pivot v has no class")`. -/
  | pivot_has_no_class (v : Var)
  /-- `OsmtInternalException("No class could have been determined")`. -/
  | no_class_determined
  /-- `OsmtInternalException("; Leaf node with non-leaf clause type")`. -/
  | leaf_with_non_leaf_type
  /-- `OsmtInternalException("Unexpected class")`. -/
  | unexpected_class
  /-- `OsmtInternalException("Asserting negation of theory clause did not result in
  conflict in theory solver!")`. -/
  | theory_no_conflict
  /-- `OsmtInternalException("Pivot has no color")`. -/
  | pivot_has_no_color
  /-- An exception raised inside the theory backend's `getInterpolant`. -/
  | theory_backend (code : Nat)
  /-- Not an exception of the source: the run reads through an undefined reference. -/
  | undefined_reference
  deriving DecidableEq

/-- Modelled from the spec: the kind of a proof node (the declaration of `clause_type`
is not part of the transcribed file).  The four leaf kinds carry the names the source
uses; `CLA_RESOLVENT` stands for every non-leaf kind. -/
inductive clause_type
  | CLA_ORIG
  | CLA_THEORY
  | CLA_SPLIT
  | CLA_ASSUMPTION
  | CLA_RESOLVENT
  deriving DecidableEq

/-- Modelled from the spec: `isLeafClauseType`, true on ORIG, THEORY, SPLIT, ASSUMPTION. -/
def isLeafClauseType (t : clause_type) : Bool :=
  match t with
  | .CLA_RESOLVENT => false
  | _ => true

/-- Modelled from the spec: a proof node (class `ProofNode` is declared outside the
transcribed file).  `ants` holds the ids of the two antecedents of a resolvent and is
`none` for a leaf; `pivot` is meaningful for resolvents only; `clauseRef` is the clause
reference used to look up the partition mask of a leaf. -/
structure ProofNode where
  id : Nat
  type : clause_type
  clause : List Lit
  clauseRef : Nat
  ants : Option (Nat × Nat)
  pivot : Var
  deriving DecidableEq

/-- The accessor `isLeaf()`: no antecedents. -/
def ProofNode.isLeaf (n : ProofNode) : Bool := n.ants.isNone

/-- Modelled from the spec: the labeling-system selector (the configuration class is not
part of the transcribed file).  `unset` is any configuration value that selects none of
the six recognised systems. -/
inductive ItpAlgorithm
  | mcmillan
  | pudlak
  | mcmillanp
  | ps
  | psw
  | pss
  | unset
  deriving DecidableEq

/-- The term store as far as the interpolator uses it (`Logic`): the two constants and the
three constructors.  `mkAnd` and `mkOr` take the argument vector; the binary overloads of
the source are calls with a two-element vector. -/
structure Logic (PTRef : Type) where
  getTerm_true : PTRef
  getTerm_false : PTRef
  mkNot : PTRef → PTRef
  mkAnd : List PTRef → PTRef
  mkOr : List PTRef → PTRef

/-- Result of a theory check (`TRes`). -/
inductive TRes
  | UNKNOWN
  | SAT
  | UNSAT
  deriving DecidableEq

/-- The theory handler as far as the interpolator uses it (spec section 6.5), over an
explicit handler state `TS`.  `getInterpolant` receives the A-mask and the color map
(term of each clause atom with its color in the node) and may raise. -/
structure THandlerOps (TS PTRef : Type) where
  backtrack : Int → TS → TS
  assertLits : List Lit → TS → Bool × TS
  check : Bool → TS → TRes × TS
  getInterpolant : ipartitions_t → List (PTRef × icolor_t) → TS → Except Exn PTRef × TS

/-- The resolution proof together with the read-only collaborators the interpolator
consults: partition manager (`getVarPartition`, `getClauseClassMask`), assumption oracle
(`isAssumedVar`, `isAssumedLiteral`), term mapper (`varToPTRef`), configuration
(`itp_bool_algo`, `usingAlternativeInterpolant`), term store (`logic_`) and theory
handler (`thandler`).  `graph` is the node arena indexed by node id, `DFSv` is the
sequence returned by `topolSortingTopDown()`. -/
structure ProofGraph (PTRef TS : Type) where
  graph : List (Option ProofNode)
  root : Nat
  proof_variables : List Var
  leaves_ids : List Nat
  DFSv : List Nat
  isAssumedVar : Var → Bool
  isAssumedLiteral : Lit → Bool
  getVarPartition : Var → ipartitions_t
  getClauseClassMask : Nat → ipartitions_t
  varToPTRef : Var → PTRef
  itp_bool_algo : ItpAlgorithm
  usingAlternativeInterpolant : Bool
  logic_ : Logic PTRef
  thandler : THandlerOps TS PTRef

/-- Modelled from the spec: the per-run interpolation info (class `InterpolationInfo` is
declared outside the transcribed file).  `varClass` is the variable-class cache
(`I_UNDEF` for a variable that was never seeded); the per-node AB coloring is kept as two
bit sets per node, `colA n v` and `colB n v`: color A is the A bit alone, color B the B bit
alone, color AB both bits, no entry neither bit; `partialInterpolant` is the per-node
slot, `none` while undefined. -/
structure InterpolationInfo (PTRef : Type) where
  varClass : Var → icolor_t
  colA : Nat → Var → Bool
  colB : Nat → Var → Bool
  partialInterpolant : Nat → Option PTRef

variable {PTRef TS : Type}

/-- The accessor `getNode(id)`: the node stored at index `id`, if any. -/
def ProofGraph.getNode (g : ProofGraph PTRef TS) (id : Nat) : Option ProofNode :=
  (g.graph.get? id).join

/-! ## Interpolation info (modelled from the spec) -/

/-- Modelled from the spec: `InterpolationInfo::getVarClass`, a read of the class cache. -/
def InterpolationInfo.getVarClass (info : InterpolationInfo PTRef) (v : Var) : icolor_t :=
  info.varClass v

/-- Modelled from the spec: `InterpolationInfo::colorA`, the entry of `v` in node `n`
becomes A. -/
def InterpolationInfo.colorA (info : InterpolationInfo PTRef) (n : ProofNode) (v : Var) :
    InterpolationInfo PTRef :=
  { info with
    colA := fun m w => if m = n.id ∧ w = v then true else info.colA m w
    colB := fun m w => if m = n.id ∧ w = v then false else info.colB m w }

/-- Modelled from the spec: `InterpolationInfo::colorB`, the entry of `v` in node `n`
becomes B. -/
def InterpolationInfo.colorB (info : InterpolationInfo PTRef) (n : ProofNode) (v : Var) :
    InterpolationInfo PTRef :=
  { info with
    colA := fun m w => if m = n.id ∧ w = v then false else info.colA m w
    colB := fun m w => if m = n.id ∧ w = v then true else info.colB m w }

/-- Modelled from the spec: `InterpolationInfo::colorAB`, the entry of `v` in node `n`
becomes AB. -/
def InterpolationInfo.colorAB (info : InterpolationInfo PTRef) (n : ProofNode) (v : Var) :
    InterpolationInfo PTRef :=
  { info with
    colA := fun m w => if m = n.id ∧ w = v then true else info.colA m w
    colB := fun m w => if m = n.id ∧ w = v then true else info.colB m w }

/-- Modelled from the spec: `InterpolationInfo::updateColoringfromAnts`, the coloring of a
resolvent becomes the union of the colorings of its two antecedents (a leaf is left
alone). -/
def InterpolationInfo.updateColoringfromAnts (info : InterpolationInfo PTRef)
    (n : ProofNode) : InterpolationInfo PTRef :=
  match n.ants with
  | none => info
  | some (a1, a2) =>
    { info with
      colA := fun m w => if m = n.id then (info.colA a1 w || info.colA a2 w) else info.colA m w
      colB := fun m w => if m = n.id then (info.colB a1 w || info.colB a2 w) else info.colB m w }

/-- Modelled from the spec: `InterpolationInfo::clearPivotColoring`, the entry of the
pivot of `n` is removed from the coloring of `n`. -/
def InterpolationInfo.clearPivotColoring (info : InterpolationInfo PTRef)
    (n : ProofNode) : InterpolationInfo PTRef :=
  { info with
    colA := fun m w => if m = n.id ∧ w = n.pivot then false else info.colA m w
    colB := fun m w => if m = n.id ∧ w = n.pivot then false else info.colB m w }

/-- Modelled from the spec: `InterpolationInfo::getPartialInterpolant`. -/
def InterpolationInfo.getPartialInterpolant (info : InterpolationInfo PTRef)
    (id : Nat) : Option PTRef :=
  info.partialInterpolant id

/-- Modelled from the spec: `InterpolationInfo::setPartialInterpolant`. -/
def InterpolationInfo.setPartialInterpolant (info : InterpolationInfo PTRef)
    (n : ProofNode) (t : PTRef) : InterpolationInfo PTRef :=
  { info with
    partialInterpolant := fun m => if m = n.id then some t else info.partialInterpolant m }

/-- Modelled from the spec: `ProofGraph::getSharedVarColorInNode`, the per-node AB
coloring entry of `v` in `n`; `I_UNDEF` when the node has no entry for `v`. -/
def getSharedVarColorInNode (info : InterpolationInfo PTRef) (v : Var) (n : ProofNode) :
    icolor_t :=
  match info.colA n.id v, info.colB n.id v with
  | true, false => .I_A
  | false, true => .I_B
  | true, true => .I_AB
  | false, false => .I_UNDEF

/-! ## Class and color resolution (`PGInterpolator.cc`, lines 51-122) -/

/-- The helper `getClass(mask, A_mask)` (lines 91-106). -/
def getClass (mask A_mask : ipartitions_t) : Except Exn icolor_t :=
  let B_mask := Int.lnot A_mask
  let in_A : Bool := decide (Int.land mask A_mask ≠ 0)
  let in_B : Bool := decide (Int.land mask B_mask ≠ 0)
  if in_A && !in_B then .ok .I_A
  else if !in_A && in_B then .ok .I_B
  else if in_A && in_B then .ok .I_AB
  else .error .no_class_determined

/-- The method `ProofGraph::getVarClass(v, A_mask)` (lines 111-115). -/
def ProofGraph.getVarClass (g : ProofGraph PTRef TS) (v : Var) (A_mask : ipartitions_t) :
    Except Exn icolor_t :=
  if g.isAssumedVar v then .ok .I_AB
  else getClass (g.getVarPartition v) A_mask

/-- The method `ProofGraph::getClauseColor(clause, A_mask)` (lines 119-122). -/
def ProofGraph.getClauseColor (g : ProofGraph PTRef TS) (clause : Nat)
    (A_mask : ipartitions_t) : Except Exn icolor_t :=
  getClass (g.getClauseClassMask clause) A_mask

/-- The method `ProofGraph::getVarColor(n, v)` (lines 51-59). -/
def getVarColor (info : InterpolationInfo PTRef) (n : ProofNode) (v : Var) : icolor_t :=
  let var_class := info.getVarClass v
  if var_class = .I_B ∨ var_class = .I_A then var_class
  else getSharedVarColorInNode info v n

/-- The method `ProofGraph::getPivotColor(n)` (lines 64-88): the color, or the exception,
together with the interpolation info as the call leaves it. -/
def ProofGraph.getPivotColor (g : ProofGraph PTRef TS) (info : InterpolationInfo PTRef)
    (n : ProofNode) : Except Exn icolor_t × InterpolationInfo PTRef :=
  let v := n.pivot
  let var_class := info.getVarClass v
  if var_class ≠ .I_A ∧ var_class ≠ .I_B ∧ var_class ≠ .I_AB then
    (.error (.pivot_has_no_class v), info)
  else
    let info1 := info.updateColoringfromAnts n
    if var_class ≠ .I_A ∧ var_class ≠ .I_B then
      let var_color := getSharedVarColorInNode info1 v n
      let info2 := info1.clearPivotColoring n
      if g.isAssumedVar v then (.ok .I_S, info2) else (.ok var_color, info2)
    else
      if g.isAssumedVar v then (.ok .I_S, info1) else (.ok var_class, info1)

/-! ## Leaves: restricted clause and original-clause interpolant (lines 316-367) -/

/-- The method `ProofGraph::getRestrictedNodeClause(node, wantedVarClass)`
(lines 316-332): the loop over the clause, `push_back` appending to the result. -/
def ProofGraph.getRestrictedNodeClause (g : ProofGraph PTRef TS)
    (info : InterpolationInfo PTRef) (node : ProofNode) (wantedVarClass : icolor_t) :
    List Lit :=
  node.clause.foldl
    (fun restrictedClause l =>
      if g.isAssumedLiteral l.neg then restrictedClause
      else
        let v := var l
        let var_class := info.getVarClass v
        let var_color :=
          if var_class = .I_B ∨ var_class = .I_A then var_class
          else getSharedVarColorInNode info v node
        if var_color = wantedVarClass then restrictedClause ++ [l] else restrictedClause)
    []

/-- The method `ProofGraph::getInterpolantForOriginalClause(node, clauseClass)`
(lines 334-350). -/
def ProofGraph.getInterpolantForOriginalClause (g : ProofGraph PTRef TS)
    (info : InterpolationInfo PTRef) (node : ProofNode) (clauseClass : icolor_t) :
    Except Exn PTRef :=
  if clauseClass ≠ .I_A ∧ clauseClass ≠ .I_B then .error .unexpected_class
  else
    let otherClass := if clauseClass = .I_A then icolor_t.I_B else icolor_t.I_A
    let clauseIsA : Bool := decide (clauseClass = .I_A)
    let restricted_clause := g.getRestrictedNodeClause info node otherClass
    if restricted_clause.isEmpty then
      .ok (if clauseIsA then g.logic_.getTerm_false else g.logic_.getTerm_true)
    else
      let args := restricted_clause.foldl
        (fun args l =>
          let litTerm := g.varToPTRef (var l)
          let litTerm := if sign l = clauseIsA then g.logic_.mkNot litTerm else litTerm
          args ++ [litTerm])
        []
      .ok (if clauseClass = .I_A then g.logic_.mkOr args else g.logic_.mkAnd args)

/-- The method `ProofGraph::computePartialInterpolantForOriginalClause(n, A_mask)`
(lines 354-367). -/
def ProofGraph.computePartialInterpolantForOriginalClause (g : ProofGraph PTRef TS)
    (info : InterpolationInfo PTRef) (n : ProofNode) (A_mask : ipartitions_t) :
    Except Exn PTRef :=
  match g.getClauseColor n.clauseRef A_mask with
  | .error e => .error e
  | .ok clause_color0 =>
    let clause_color := if clause_color0 = .I_AB then icolor_t.I_A else clause_color0
    g.getInterpolantForOriginalClause info n clause_color

/-! ## Resolvents (lines 29-48 and 397-442) -/

/-- The helper `decideOnAlternativeInterpolation(I1, I2, logic)` (lines 29-48). -/
def decideOnAlternativeInterpolation [DecidableEq PTRef] (I1 I2 : PTRef)
    (logic : Logic PTRef) : Bool :=
  let I1_is_true : Bool := decide (I1 = logic.getTerm_true)
  let I2_is_true : Bool := decide (I2 = logic.getTerm_true)
  let I1_is_false : Bool := decide (I1 = logic.getTerm_false)
  let I2_is_false : Bool := decide (I2 = logic.getTerm_false)
  let I1_is_none : Bool := !I1_is_true && !I1_is_false
  let I2_is_none : Bool := !I2_is_true && !I2_is_false
  if I1_is_false && I2_is_none then true
  else if I1_is_none && I2_is_false then true
  else if I1_is_false && I2_is_false then true
  else false

/-- The method `ProofGraph::compInterpLabelingInner(n)` (lines 397-442): the term, or the
exception, together with the interpolation info as the call leaves it. -/
def ProofGraph.compInterpLabelingInner [DecidableEq PTRef] (g : ProofGraph PTRef TS)
    (info : InterpolationInfo PTRef) (n : ProofNode) :
    Except Exn PTRef × InterpolationInfo PTRef :=
  match n.ants with
  | none => (.error .undefined_reference, info)
  | some (a1, a2) =>
    match info.getPartialInterpolant a1, info.getPartialInterpolant a2 with
    | some partial_interp_ant1, some partial_interp_ant2 =>
      match g.getPivotColor info n with
      | (.error e, info1) => (.error e, info1)
      | (.ok pivot_color, info1) =>
        if pivot_color = .I_S then
          let pos := mkLit n.pivot
          if g.isAssumedLiteral pos then (.ok partial_interp_ant2, info1)
          else (.ok partial_interp_ant1, info1)
        else if pivot_color = .I_A then
          (.ok (g.logic_.mkOr [partial_interp_ant1, partial_interp_ant2]), info1)
        else if pivot_color = .I_B then
          (.ok (g.logic_.mkAnd [partial_interp_ant1, partial_interp_ant2]), info1)
        else if pivot_color = .I_AB then
          let piv := g.varToPTRef n.pivot
          let choose_alternative :=
            if g.usingAlternativeInterpolant then
              decideOnAlternativeInterpolation partial_interp_ant1 partial_interp_ant2 g.logic_
            else false
          if choose_alternative then
            let and_1 := g.logic_.mkAnd [partial_interp_ant1, g.logic_.mkNot piv]
            let and_2 := g.logic_.mkAnd [partial_interp_ant2, piv]
            (.ok (g.logic_.mkOr [and_1, and_2]), info1)
          else
            let or_1 := g.logic_.mkOr [partial_interp_ant1, piv]
            let or_2 := g.logic_.mkOr [partial_interp_ant2, g.logic_.mkNot piv]
            (.ok (g.logic_.mkAnd [or_1, or_2]), info1)
        else (.error .pivot_has_no_color, info1)
    | _, _ => (.error .undefined_reference, info)

/-! ## Proof-statistics labels (lines 124-161) -/

/-- A `std::map` keyed by variables: an association list kept in increasing key order. -/
abbrev StdMap (α : Type) := List (Var × α)

/-- The call `m.find(k)`: `none` is the end iterator. -/
def StdMap.find {α : Type} (m : StdMap α) (k : Var) : Option α :=
  List.lookup k m

/-- The assignment `m[k] = a`: replaces the value of an existing key, otherwise adds the
key at its place in the order. -/
def StdMap.assign {α : Type} (m : StdMap α) (k : Var) (a : α) : StdMap α :=
  match m with
  | [] => [(k, a)]
  | (k1, a1) :: rest =>
    if k < k1 then (k, a) :: (k1, a1) :: rest
    else if k = k1 then (k, a) :: rest
    else (k1, a1) :: StdMap.assign rest k a

/-- The call `m.insert({k, a})`: no effect when the key is present. -/
def StdMap.insert {α : Type} (m : StdMap α) (k : Var) (a : α) : StdMap α :=
  match StdMap.find m k with
  | some _ => m
  | none => StdMap.assign m k a

/-- The statement `++m[k]` on a counter map: a missing key starts from zero. -/
def StdMap.increment (m : StdMap Int) (k : Var) : StdMap Int :=
  StdMap.assign m k ((StdMap.find m k).getD 0 + 1)

/-- The statement `if (m.find(k) == m.end()) m[k] = 0`. -/
def StdMap.ensureKey (m : StdMap Int) (k : Var) : StdMap Int :=
  match StdMap.find m k with
  | some _ => m
  | none => StdMap.assign m k 0

/-- The inner loop of `computePSFunction` (lines 137-151): one leaf clause of color `col`
updates the two occurrence tables. -/
def countOccurrences (info : InterpolationInfo PTRef) (col : icolor_t) (clause : List Lit)
    (occ : StdMap Int × StdMap Int) : StdMap Int × StdMap Int :=
  clause.foldl
    (fun (occ : StdMap Int × StdMap Int) l =>
      let v := var l
      let vclass := info.getVarClass v
      if vclass ≠ .I_AB then occ
      else if col = .I_A then (StdMap.increment occ.1 v, StdMap.ensureKey occ.2 v)
      else if col = .I_B then (StdMap.ensureKey occ.1 v, StdMap.increment occ.2 v)
      else occ)
    occ

/-- The outer loop of `computePSFunction` (lines 130-152) over `leaves_ids`. -/
def ProofGraph.collectOccurrences (g : ProofGraph PTRef TS) (info : InterpolationInfo PTRef)
    (A_mask : ipartitions_t) (leaves : List Nat) (occ : StdMap Int × StdMap Int) :
    Except Exn (StdMap Int × StdMap Int) :=
  match leaves with
  | [] => .ok occ
  | leafId :: rest =>
    match g.getNode leafId with
    | none => .error .undefined_reference
    | some n =>
      if n.type ≠ .CLA_ORIG then g.collectOccurrences info A_mask rest occ
      else
        match g.getClauseColor n.clauseRef A_mask with
        | .error e => .error e
        | .ok col => g.collectOccurrences info A_mask rest (countOccurrences info col n.clause occ)

/-- The final loop of `computePSFunction` (lines 154-159) over the entries of `occ_a`. -/
def buildLabels (occ_b : StdMap Int) (entries : List (Var × Int)) (labels : StdMap icolor_t) :
    Except Exn (StdMap icolor_t) :=
  match entries with
  | [] => .ok labels
  | (v, qtta) :: rest =>
    match StdMap.find occ_b v with
    | none => .error .undefined_reference
    | some qttb =>
      buildLabels occ_b rest
        (StdMap.insert labels v (if qtta > qttb then icolor_t.I_A else icolor_t.I_B))

/-- The method `ProofGraph::computePSFunction(A_mask)` (lines 124-161). -/
def ProofGraph.computePSFunction (g : ProofGraph PTRef TS) (info : InterpolationInfo PTRef)
    (A_mask : ipartitions_t) : Except Exn (StdMap icolor_t) :=
  match g.collectOccurrences info A_mask g.leaves_ids ([], []) with
  | .error e => .error e
  | .ok (occ_a, occ_b) => buildLabels occ_b occ_a []

/-! ## Leaf labeling (lines 301-314 and 444-490) -/

/-- The configuration queries `usingMcMillanInterpolation()` and its five siblings
(modelled from the spec: exactly the selected system answers true). -/
def ProofGraph.usingMcMillanInterpolation (g : ProofGraph PTRef TS) : Bool :=
  decide (g.itp_bool_algo = .mcmillan)

/-- See `usingMcMillanInterpolation`. -/
def ProofGraph.usingPudlakInterpolation (g : ProofGraph PTRef TS) : Bool :=
  decide (g.itp_bool_algo = .pudlak)

/-- See `usingMcMillanInterpolation`. -/
def ProofGraph.usingMcMillanPrimeInterpolation (g : ProofGraph PTRef TS) : Bool :=
  decide (g.itp_bool_algo = .mcmillanp)

/-- See `usingMcMillanInterpolation`. -/
def ProofGraph.usingPSInterpolation (g : ProofGraph PTRef TS) : Bool :=
  decide (g.itp_bool_algo = .ps)

/-- See `usingMcMillanInterpolation`. -/
def ProofGraph.usingPSWInterpolation (g : ProofGraph PTRef TS) : Bool :=
  decide (g.itp_bool_algo = .psw)

/-- See `usingMcMillanInterpolation`. -/
def ProofGraph.usingPSSInterpolation (g : ProofGraph PTRef TS) : Bool :=
  decide (g.itp_bool_algo = .pss)

/-- Modelled from the spec: `needProofStatistics()`, true for the proof-sensitive
systems PS, PSW and PSS. -/
def ProofGraph.needProofStatistics (g : ProofGraph PTRef TS) : Bool :=
  g.usingPSInterpolation || g.usingPSWInterpolation || g.usingPSSInterpolation

/-- Modelled from the spec: the template `ProofGraph::setLeafLabeling(node, colorABVar)`
(spec section 4.4): every variable of the leaf's clause that is AB-class and is not an
assumption variable gets its coloring entry from `colorABVar`; A- and B-class variables
and assumption variables store nothing. -/
def ProofGraph.setLeafLabeling (g : ProofGraph PTRef TS) (info : InterpolationInfo PTRef)
    (node : ProofNode)
    (colorABVar : InterpolationInfo PTRef → ProofNode → Var →
      Except Exn Unit × InterpolationInfo PTRef) :
    Except Exn Unit × InterpolationInfo PTRef :=
  node.clause.foldl
    (fun (acc : Except Exn Unit × InterpolationInfo PTRef) l =>
      match acc with
      | (.error e, i) => (.error e, i)
      | (.ok _, i) =>
        let v := var l
        if g.isAssumedVar v then (.ok (), i)
        else if i.getVarClass v = .I_AB then colorABVar i node v
        else (.ok (), i))
    (.ok (), info)

/-- The method `ProofGraph::setLeafPSLabeling` (lines 444-452); dereferencing the end
iterator of `labels` is an undefined reference. -/
def ProofGraph.setLeafPSLabeling (g : ProofGraph PTRef TS) (info : InterpolationInfo PTRef)
    (n : ProofNode) (labels : StdMap icolor_t) : Except Exn Unit × InterpolationInfo PTRef :=
  g.setLeafLabeling info n fun i node v =>
    match StdMap.find labels v with
    | none => (.error .undefined_reference, i)
    | some c => if c = .I_A then (.ok (), i.colorA node v) else (.ok (), i.colorB node v)

/-- The method `ProofGraph::setLeafPSWLabeling` (lines 454-462). -/
def ProofGraph.setLeafPSWLabeling (g : ProofGraph PTRef TS) (info : InterpolationInfo PTRef)
    (n : ProofNode) (labels : StdMap icolor_t) : Except Exn Unit × InterpolationInfo PTRef :=
  g.setLeafLabeling info n fun i node v =>
    match StdMap.find labels v with
    | none => (.error .undefined_reference, i)
    | some c => if c = .I_A then (.ok (), i.colorA node v) else (.ok (), i.colorAB node v)

/-- The method `ProofGraph::setLeafPSSLabeling` (lines 464-472). -/
def ProofGraph.setLeafPSSLabeling (g : ProofGraph PTRef TS) (info : InterpolationInfo PTRef)
    (n : ProofNode) (labels : StdMap icolor_t) : Except Exn Unit × InterpolationInfo PTRef :=
  g.setLeafLabeling info n fun i node v =>
    match StdMap.find labels v with
    | none => (.error .undefined_reference, i)
    | some c => if c = .I_A then (.ok (), i.colorAB node v) else (.ok (), i.colorB node v)

/-- The method `ProofGraph::setLeafPudlakLabeling` (lines 474-478). -/
def ProofGraph.setLeafPudlakLabeling (g : ProofGraph PTRef TS)
    (info : InterpolationInfo PTRef) (n : ProofNode) :
    Except Exn Unit × InterpolationInfo PTRef :=
  g.setLeafLabeling info n fun i node v => (.ok (), i.colorAB node v)

/-- The method `ProofGraph::setLeafMcMillanLabeling` (lines 480-484). -/
def ProofGraph.setLeafMcMillanLabeling (g : ProofGraph PTRef TS)
    (info : InterpolationInfo PTRef) (n : ProofNode) :
    Except Exn Unit × InterpolationInfo PTRef :=
  g.setLeafLabeling info n fun i node v => (.ok (), i.colorB node v)

/-- The method `ProofGraph::setLeafMcMillanPrimeLabeling` (lines 486-490). -/
def ProofGraph.setLeafMcMillanPrimeLabeling (g : ProofGraph PTRef TS)
    (info : InterpolationInfo PTRef) (n : ProofNode) :
    Except Exn Unit × InterpolationInfo PTRef :=
  g.setLeafLabeling info n fun i node v => (.ok (), i.colorA node v)

/-- The method `ProofGraph::labelLeaf(n, PSFunction)` (lines 301-314); `PSFunction` is
`none` for the null pointer, and dereferencing it is an undefined reference. -/
def ProofGraph.labelLeaf (g : ProofGraph PTRef TS) (info : InterpolationInfo PTRef)
    (n : ProofNode) (PSFunction : Option (StdMap icolor_t)) :
    Except Exn Unit × InterpolationInfo PTRef :=
  if g.usingPSInterpolation then
    match PSFunction with
    | none => (.error .undefined_reference, info)
    | some labels => g.setLeafPSLabeling info n labels
  else if g.usingPSWInterpolation then
    match PSFunction with
    | none => (.error .undefined_reference, info)
    | some labels => g.setLeafPSWLabeling info n labels
  else if g.usingPSSInterpolation then
    match PSFunction with
    | none => (.error .undefined_reference, info)
    | some labels => g.setLeafPSSLabeling info n labels
  else if g.usingMcMillanInterpolation then g.setLeafMcMillanLabeling info n
  else if g.usingPudlakInterpolation then g.setLeafPudlakLabeling info n
  else if g.usingMcMillanPrimeInterpolation then g.setLeafMcMillanPrimeLabeling info n
  else (.error .api_no_algorithm_chosen, info)

/-! ## Theory leaves (lines 369-393 and 492-499) -/

/-- The method `ProofGraph::clearTSolver()` (lines 493-495). -/
def ProofGraph.clearTSolver (g : ProofGraph PTRef TS) (ts : TS) : TS :=
  g.thandler.backtrack (-1) ts

/-- The method `ProofGraph::assertLiteralsToTSolver(vec)` (lines 497-499). -/
def ProofGraph.assertLiteralsToTSolver (g : ProofGraph PTRef TS) (vec : List Lit) (ts : TS) :
    Bool × TS :=
  g.thandler.assertLits vec ts

/-- The call `ptref2label.insert({t, c})` on a `std::map<PTRef, icolor_t>`: no effect
when the key is present (the entries are kept in insertion order). -/
def colorMapInsert [DecidableEq PTRef] (m : List (PTRef × icolor_t)) (t : PTRef)
    (c : icolor_t) : List (PTRef × icolor_t) :=
  if m.any (fun e => decide (e.1 = t)) then m else m ++ [(t, c)]

/-- The method `ProofGraph::computePartialInterpolantForTheoryClause(n, A_mask)`
(lines 369-393): the term, or the exception, together with the theory handler's state as
the call leaves it. -/
def ProofGraph.computePartialInterpolantForTheoryClause [DecidableEq PTRef]
    (g : ProofGraph PTRef TS) (info : InterpolationInfo PTRef) (ts : TS) (n : ProofNode)
    (A_mask : ipartitions_t) : Except Exn PTRef × TS :=
  let ts0 := g.clearTSolver ts
  let oldvec := n.clause
  let newvec := oldvec.foldl (fun newvec l => newvec ++ [l.neg]) []
  let asserted := g.assertLiteralsToTSolver newvec ts0
  let checked : Bool × TS :=
    if asserted.1 then
      let tres := g.thandler.check true asserted.2
      (decide (tres.1 ≠ TRes.UNSAT), tres.2)
    else (false, asserted.2)
  if checked.1 then (.error .theory_no_conflict, checked.2)
  else
    let ptref2label := oldvec.foldl
      (fun m l => colorMapInsert m (g.varToPTRef (var l)) (getVarColor info n (var l))) []
    match g.thandler.getInterpolant A_mask ptref2label checked.2 with
    | (.error e, ts1) => (.error e, ts1)
    | (.ok interpolant, ts1) => (.ok interpolant, g.clearTSolver ts1)

/-! ## The driver (lines 165-294) -/

/-- The method `ProofGraph::checkInterAlgo()` (lines 265-294); the diagnostic output is
not modelled. -/
def ProofGraph.checkInterAlgo (g : ProofGraph PTRef TS) : Except Exn Unit :=
  if !(g.usingMcMillanInterpolation
        || g.usingPudlakInterpolation
        || g.usingMcMillanPrimeInterpolation
        || g.usingPSInterpolation
        || g.usingPSWInterpolation
        || g.usingPSSInterpolation) then .error .api_choose_itp_bool_algo
  else .ok ()

/-- Modelled from the spec: the interpolation info right after it has been cleared: no
variable class, no coloring entry, no partial interpolant. -/
def InterpolationInfo.cleared : InterpolationInfo PTRef :=
  { varClass := fun _ => .I_UNDEF
    colA := fun _ _ => false
    colB := fun _ _ => false
    partialInterpolant := fun _ => none }

/-- Modelled from the spec: `InterpolationInfo::reset(nodeCount, variables, getVarClass)`
(spec section 4.1, step 2): the info is cleared and the class of every proof variable is
seeded from the callback, in order; an exception of the callback leaves the info as seeded
so far. -/
def InterpolationInfo.reset (vars : List Var) (getVarClass : Var → Except Exn icolor_t) :
    Except Exn Unit × InterpolationInfo PTRef :=
  vars.foldl
    (fun (acc : Except Exn Unit × InterpolationInfo PTRef) v =>
      match acc with
      | (.error e, i) => (.error e, i)
      | (.ok _, i) =>
        match getVarClass v with
        | .error e => (.error e, i)
        | .ok c => (.ok (), { i with varClass := fun w => if w = v then c else i.varClass w }))
    (.ok (), InterpolationInfo.cleared)

/-- The mutable state of one run: the interpolation info and the theory handler. -/
structure RunState (PTRef TS : Type) where
  interpolationInfo : InterpolationInfo PTRef
  tstate : TS

/-- The body of the traversal loop of `produceSingleInterpolant` (lines 193-238) for the
node with id `id`. -/
def ProofGraph.processNode [DecidableEq PTRef] (g : ProofGraph PTRef TS)
    (A_mask : ipartitions_t) (PSFunction : Option (StdMap icolor_t))
    (st : RunState PTRef TS) (id : Nat) : Except Exn Unit × RunState PTRef TS :=
  match g.getNode id with
  | none => (.error .undefined_reference, st)
  | some n =>
    if n.isLeaf then
      if !isLeafClauseType n.type then (.error .leaf_with_non_leaf_type, st)
      else
        match g.labelLeaf st.interpolationInfo n PSFunction with
        | (.error e, info1) => (.error e, { st with interpolationInfo := info1 })
        | (.ok _, info1) =>
          if n.type = .CLA_ORIG then
            match g.computePartialInterpolantForOriginalClause info1 n A_mask with
            | .error e => (.error e, { st with interpolationInfo := info1 })
            | .ok partial_interp =>
              (.ok (), { st with
                interpolationInfo := info1.setPartialInterpolant n partial_interp })
          else if n.type = .CLA_THEORY then
            match g.computePartialInterpolantForTheoryClause info1 st.tstate n A_mask with
            | (.error e, ts1) => (.error e, { interpolationInfo := info1, tstate := ts1 })
            | (.ok partial_interp, ts1) =>
              (.ok (), { interpolationInfo := info1.setPartialInterpolant n partial_interp,
                         tstate := ts1 })
          else if n.type = .CLA_SPLIT then
            match n.clause.head? with
            | none => (.error .undefined_reference, { st with interpolationInfo := info1 })
            | some l0 =>
              let color := getVarColor info1 n (var l0)
              let partial_interp :=
                if color = .I_A then g.logic_.getTerm_false
                else if color = .I_B then g.logic_.getTerm_true
                else g.logic_.getTerm_false
              (.ok (), { st with
                interpolationInfo := info1.setPartialInterpolant n partial_interp })
          else
            (.ok (), { st with
              interpolationInfo := info1.setPartialInterpolant n g.logic_.getTerm_true })
    else
      match g.compInterpLabelingInner st.interpolationInfo n with
      | (.error e, info1) => (.error e, { st with interpolationInfo := info1 })
      | (.ok partial_interp, info1) =>
        (.ok (), { st with interpolationInfo := info1.setPartialInterpolant n partial_interp })

/-- The traversal loop of `produceSingleInterpolant` (lines 191-239) over the remaining
part of `DFSv`; it stops at the first exception. -/
def ProofGraph.traverse [DecidableEq PTRef] (g : ProofGraph PTRef TS)
    (A_mask : ipartitions_t) (PSFunction : Option (StdMap icolor_t))
    (ids : List Nat) (st : RunState PTRef TS) : Except Exn Unit × RunState PTRef TS :=
  match ids with
  | [] => (.ok (), st)
  | id :: rest =>
    match g.processNode A_mask PSFunction st id with
    | (.error e, st1) => (.error e, st1)
    | (.ok _, st1) => g.traverse A_mask PSFunction rest st1

/-- The initialisation `needProofStatistics() ? computePSFunction(A_mask) : nullptr` of
`PSFunction` (line 188); `none` is the null pointer. -/
def ProofGraph.selectPSFunction (g : ProofGraph PTRef TS) (info : InterpolationInfo PTRef)
    (A_mask : ipartitions_t) : Except Exn (Option (StdMap icolor_t)) :=
  if g.needProofStatistics then
    match g.computePSFunction info A_mask with
    | .error e => .error e
    | .ok labels => .ok (some labels)
  else .ok none

/-- What a call of `produceSingleInterpolant` leaves behind: whether it returned or
threw, the run state, and the output vector `interpolants`. -/
structure RunResult (PTRef TS : Type) where
  result : Except Exn Unit
  state : RunState PTRef TS
  interpolants : List PTRef

/-- The method `ProofGraph::produceSingleInterpolant(interpolants, A_mask)`
(lines 165-263); the diagnostic output and the optional pedantic verification are not
modelled. -/
def ProofGraph.produceSingleInterpolant [DecidableEq PTRef] (g : ProofGraph PTRef TS)
    (interpolants : List PTRef) (A_mask : ipartitions_t) (st : RunState PTRef TS) :
    RunResult PTRef TS :=
  match g.checkInterAlgo with
  | .error e => { result := .error e, state := st, interpolants := interpolants }
  | .ok _ =>
    match InterpolationInfo.reset g.proof_variables (fun v => g.getVarClass v A_mask) with
    | (.error e, info0) =>
      { result := .error e, state := { st with interpolationInfo := info0 },
        interpolants := interpolants }
    | (.ok _, info0) =>
      match g.selectPSFunction info0 A_mask with
      | .error e =>
        { result := .error e, state := { st with interpolationInfo := info0 },
          interpolants := interpolants }
      | .ok PSFunction =>
        match g.traverse A_mask PSFunction g.DFSv { st with interpolationInfo := info0 } with
        | (.error e, st1) => { result := .error e, state := st1, interpolants := interpolants }
        | (.ok _, st1) =>
          match g.getNode g.root with
          | none => { result := .error .undefined_reference, state := st1,
                      interpolants := interpolants }
          | some rootNode =>
            match st1.interpolationInfo.getPartialInterpolant rootNode.id with
            | none => { result := .error .undefined_reference, state := st1,
                        interpolants := interpolants }
            | some rootInterpolant =>
              { result := .ok (), state := st1,
                interpolants := interpolants ++ [rootInterpolant] }


/-! ## Resolution refutations and the semantics of terms -/

/-- Truth value of a literal under a valuation of the variables. -/
def evalLit (σ : Var → Bool) (l : Lit) : Bool :=
  if sign l then !σ (var l) else σ (var l)

/-- Truth value of a clause: some literal is true. -/
def evalClause (σ : Var → Bool) (c : List Lit) : Bool :=
  c.any (evalLit σ)

/-- The term store `L` with term mapper `varToPTRef` has the truth-value semantics
`eval`: the constants, `mkNot`, `mkAnd`, `mkOr` and the atoms of proof variables denote
what their names say. -/
structure LogicSemantics (L : Logic PTRef) (varToPTRef : Var → PTRef)
    (eval : (Var → Bool) → PTRef → Bool) : Prop where
  eval_true : ∀ σ, eval σ L.getTerm_true = true
  eval_false : ∀ σ, eval σ L.getTerm_false = false
  eval_not : ∀ σ t, eval σ (L.mkNot t) = !eval σ t
  eval_and : ∀ σ ts, eval σ (L.mkAnd ts) = ts.all (eval σ)
  eval_or : ∀ σ ts, eval σ (L.mkOr ts) = ts.any (eval σ)
  eval_var : ∀ σ v, eval σ (varToPTRef v) = σ v

/-- The relation `occurs v t` (variable `v` occurs in term `t`) is compatible with the
term store `L` and the term mapper: constants contain no variable, a constructed term
contains only variables of its arguments, and the atom of `w` contains only `w`. -/
structure LogicOccurrence (L : Logic PTRef) (varToPTRef : Var → PTRef)
    (occurs : Var → PTRef → Prop) : Prop where
  true_closed : ∀ v, ¬ occurs v L.getTerm_true
  false_closed : ∀ v, ¬ occurs v L.getTerm_false
  of_not : ∀ v t, occurs v (L.mkNot t) → occurs v t
  of_and : ∀ v ts, occurs v (L.mkAnd ts) → ∃ t ∈ ts, occurs v t
  of_or : ∀ v ts, occurs v (L.mkOr ts) → ∃ t ∈ ts, occurs v t
  of_var : ∀ v w, occurs v (varToPTRef w) → v = w

/-- Check of one node of the traversal order against the ids `seen` before it: the node
exists, carries its own id, is new, mentions proof variables only, and, if it is a
resolvent, both antecedents come earlier, the positive pivot literal is in the first
antecedent only, the negative one in the second only, and the clause consists of exactly
the other literals of the two antecedents. -/
def ProofGraph.checkNode (g : ProofGraph PTRef TS) (seen : List Nat) (id : Nat) : Bool :=
  match g.getNode id with
  | none => false
  | some n =>
    decide (n.id = id) && !seen.contains id &&
    n.clause.all (fun l => g.proof_variables.contains (var l)) &&
    match n.ants with
    | none => true
    | some (a1, a2) =>
      seen.contains a1 && seen.contains a2 &&
      match g.getNode a1, g.getNode a2 with
      | some n1, some n2 =>
        n1.clause.contains (mkLit n.pivot) && n2.clause.contains (mkLit n.pivot).neg &&
        !n1.clause.contains (mkLit n.pivot).neg && !n2.clause.contains (mkLit n.pivot) &&
        n1.clause.all (fun l => decide (var l = n.pivot) || n.clause.contains l) &&
        n2.clause.all (fun l => decide (var l = n.pivot) || n.clause.contains l) &&
        n.clause.all (fun l =>
          decide (var l ≠ n.pivot) && (n1.clause.contains l || n2.clause.contains l))
      | _, _ => false

/-- Check of a traversal order: every node passes `checkNode` against the nodes before
it (so the order is topological, antecedents first). -/
def ProofGraph.checkOrder (g : ProofGraph PTRef TS) : List Nat → List Nat → Bool
  | _, [] => true
  | seen, id :: rest => g.checkNode seen id && g.checkOrder (id :: seen) rest

/-- A valid resolution refutation: the traversal order passes `checkOrder`, and the root
is one of its nodes and carries the empty clause. -/
def ProofGraph.isRefutation (g : ProofGraph PTRef TS) : Bool :=
  g.checkOrder [] g.DFSv && g.DFSv.contains g.root &&
  match g.getNode g.root with
  | none => false
  | some r => r.clause.isEmpty

/-- The leaf `n` is attributed to A: its clause mask yields class A or AB
(`computePartialInterpolantForOriginalClause` treats AB as A). -/
def ProofGraph.attributedToA (g : ProofGraph PTRef TS) (A_mask : ipartitions_t)
    (n : ProofNode) : Prop :=
  g.getClauseColor n.clauseRef A_mask = .ok .I_A ∨
  g.getClauseColor n.clauseRef A_mask = .ok .I_AB

/-- The leaf `n` is attributed to B: its clause mask yields class B. -/
def ProofGraph.attributedToB (g : ProofGraph PTRef TS) (A_mask : ipartitions_t)
    (n : ProofNode) : Prop :=
  g.getClauseColor n.clauseRef A_mask = .ok .I_B

/-- The valuation `σ` satisfies the conjunction of the leaf clauses attributed to A. -/
def ProofGraph.satisfiesA (g : ProofGraph PTRef TS) (A_mask : ipartitions_t)
    (σ : Var → Bool) : Prop :=
  ∀ id ∈ g.DFSv, ∀ n, g.getNode id = some n → n.isLeaf = true →
    g.attributedToA A_mask n → evalClause σ n.clause = true

/-- The valuation `σ` satisfies the conjunction of the leaf clauses attributed to B. -/
def ProofGraph.satisfiesB (g : ProofGraph PTRef TS) (A_mask : ipartitions_t)
    (σ : Var → Bool) : Prop :=
  ∀ id ∈ g.DFSv, ∀ n, g.getNode id = some n → n.isLeaf = true →
    g.attributedToB A_mask n → evalClause σ n.clause = true

/-- The term `I` is a Craig interpolant of the proof's A-part and B-part: A implies `I`,
and `I` is false wherever B holds. -/
def ProofGraph.isInterpolant (g : ProofGraph PTRef TS) (A_mask : ipartitions_t)
    (eval : (Var → Bool) → PTRef → Bool) (I : PTRef) : Prop :=
  (∀ σ, g.satisfiesA A_mask σ → eval σ I = true) ∧
  (∀ σ, g.satisfiesB A_mask σ → eval σ I = false)

/-! ## Invariants of a run -/

/-- The class cache agrees with `getVarClass`: a cached class is either `I_UNDEF` (never
seeded) or what `getVarClass` returns for the variable under the run's A-mask. -/
def ClassesOK (g : ProofGraph PTRef TS) (A_mask : ipartitions_t)
    (info : InterpolationInfo PTRef) : Prop :=
  ∀ v, info.varClass v = .I_UNDEF ∨ g.getVarClass v A_mask = .ok (info.varClass v)

/-- Only AB-class variables carry coloring entries. -/
def BitsOK (info : InterpolationInfo PTRef) : Prop :=
  ∀ m v, (info.colA m v = true ∨ info.colB m v = true) → info.varClass v = .I_AB

/-- Every variable occurring in a stored partial interpolant satisfies `P`. -/
def TermsOK (occurs : Var → PTRef → Prop) (P : Var → Prop)
    (info : InterpolationInfo PTRef) : Prop :=
  ∀ m t, info.partialInterpolant m = some t → ∀ v, occurs v t → P v

/-- The variable `v` counts as A-colored in node `m`: its class is A, or its class is AB
and its entry in `m` has the A bit (colors A and AB). -/
def hasA (info : InterpolationInfo PTRef) (m : Nat) (v : Var) : Prop :=
  info.varClass v = .I_A ∨ (info.varClass v = .I_AB ∧ info.colA m v = true)

/-- The variable `v` counts as B-colored in node `m`: its class is B, or its class is AB
and its entry in `m` has the B bit (colors B and AB). -/
def hasB (info : InterpolationInfo PTRef) (m : Nat) (v : Var) : Prop :=
  info.varClass v = .I_B ∨ (info.varClass v = .I_AB ∧ info.colB m v = true)

/-- The partial-interpolant invariant of labeled interpolation systems at a processed
node `n`: a partial interpolant `I` is stored, every variable of the clause is colored,
A together with the falsity of the A-colored literals of the clause implies `I`, and B
together with the falsity of the B-colored literals implies the negation of `I`. -/
def NodeGood (g : ProofGraph PTRef TS) (A_mask : ipartitions_t)
    (eval : (Var → Bool) → PTRef → Bool) (info : InterpolationInfo PTRef)
    (n : ProofNode) : Prop :=
  ∃ I, info.partialInterpolant n.id = some I ∧
    (∀ l ∈ n.clause, hasA info n.id (var l) ∨ hasB info n.id (var l)) ∧
    (∀ σ, g.satisfiesA A_mask σ →
      (∀ l ∈ n.clause, hasA info n.id (var l) → evalLit σ l = false) → eval σ I = true) ∧
    (∀ σ, g.satisfiesB A_mask σ →
      (∀ l ∈ n.clause, hasB info n.id (var l) → evalLit σ l = false) → eval σ I = false)

/-- The info `info2` differs from `info1` at most in the coloring and the partial
interpolant of node `id`. -/
def FrameAt (id : Nat) (info1 info2 : InterpolationInfo PTRef) : Prop :=
  info2.varClass = info1.varClass ∧
  ∀ m, m ≠ id →
    info2.colA m = info1.colA m ∧ info2.colB m = info1.colB m ∧
    info2.partialInterpolant m = info1.partialInterpolant m

/-- The invariant of the traversal after the nodes `seen`: every proof variable has a
class, and every processed node exists under its own id, mentions proof variables only
and satisfies `NodeGood`. -/
def RunInv (g : ProofGraph PTRef TS) (A_mask : ipartitions_t)
    (eval : (Var → Bool) → PTRef → Bool) (seen : List Nat)
    (info : InterpolationInfo PTRef) : Prop :=
  (∀ v ∈ g.proof_variables,
    info.varClass v = .I_A ∨ info.varClass v = .I_B ∨ info.varClass v = .I_AB) ∧
  (∀ m ∈ seen, ∃ n, g.getNode m = some n ∧ n.id = m ∧
    (∀ l ∈ n.clause, var l ∈ g.proof_variables) ∧ NodeGood g A_mask eval info n)

/-! ## A concrete term store and handler for worked instances -/

/-- Terms of a small term store: constants, atoms of proof variables, negation, binary
conjunction and disjunction. -/
inductive Term
  | tt
  | ff
  | atom (v : Var)
  | neg (t : Term)
  | conj (a b : Term)
  | disj (a b : Term)
  deriving DecidableEq

/-- Negation with constant simplification and double-negation removal. -/
def Term.mkNot : Term → Term
  | .tt => .ff
  | .ff => .tt
  | .neg t => t
  | t => .neg t

/-- Disjunction of a vector: `⊥` arguments are dropped, a `⊤` argument gives `⊤`, no
argument left gives `⊥`. -/
def Term.mkOr (ts : List Term) : Term :=
  let args := ts.filter (fun t => decide (t ≠ Term.ff))
  if args.any (fun t => decide (t = Term.tt)) then .tt
  else
    match args with
    | [] => .ff
    | t :: rest => rest.foldl Term.disj t

/-- Conjunction of a vector: `⊤` arguments are dropped, a `⊥` argument gives `⊥`, no
argument left gives `⊤`. -/
def Term.mkAnd (ts : List Term) : Term :=
  let args := ts.filter (fun t => decide (t ≠ Term.tt))
  if args.any (fun t => decide (t = Term.ff)) then .ff
  else
    match args with
    | [] => .tt
    | t :: rest => rest.foldl Term.conj t

/-- The small term store as a `Logic`. -/
def termLogic : Logic Term :=
  { getTerm_true := .tt
    getTerm_false := .ff
    mkNot := Term.mkNot
    mkAnd := Term.mkAnd
    mkOr := Term.mkOr }

/-- Truth value of a term of the small store under a valuation of the variables. -/
def Term.eval (σ : Var → Bool) : Term → Bool
  | .tt => true
  | .ff => false
  | .atom v => σ v
  | .neg t => !(Term.eval σ t)
  | .conj a b => Term.eval σ a && Term.eval σ b
  | .disj a b => Term.eval σ a || Term.eval σ b

/-- Variables occurring in a term of the small store. -/
def Term.vars : Term → List Var
  | .tt => []
  | .ff => []
  | .atom v => [v]
  | .neg t => Term.vars t
  | .conj a b => Term.vars a ++ Term.vars b
  | .disj a b => Term.vars a ++ Term.vars b

/-- A theory handler without state that reports a conflict on every assertion and
answers `⊤` as interpolant. -/
def idleHandler : THandlerOps Unit Term :=
  { backtrack := fun _ ts => ts
    assertLits := fun _ ts => (false, ts)
    check := fun _ ts => (TRes.UNSAT, ts)
    getInterpolant := fun _ _ ts => (.ok Term.tt, ts) }

/-- Scenario S1 of the specification as a proof graph: atoms `p` = 0 and `q` = 1,
partition 1 (mask 1) is A and partition 2 (mask 2) is B; leaves `p ∨ q` (node 0, A),
`¬p` (node 1, A), `¬q` (node 2, B); node 3 resolves 0 and 1 on `p` giving `q`; node 4, the
root, resolves 3 and 2 on `q` giving the empty clause. -/
def s1Graph (algo : ItpAlgorithm) (alt : Bool) : ProofGraph Term Unit :=
  { graph :=
      [ some ⟨0, .CLA_ORIG, [⟨0, false⟩, ⟨1, false⟩], 0, none, 0⟩,
        some ⟨1, .CLA_ORIG, [⟨0, true⟩], 1, none, 0⟩,
        some ⟨2, .CLA_ORIG, [⟨1, true⟩], 2, none, 0⟩,
        some ⟨3, .CLA_RESOLVENT, [⟨1, false⟩], 0, some (0, 1), 0⟩,
        some ⟨4, .CLA_RESOLVENT, [], 0, some (3, 2), 1⟩ ]
    root := 4
    proof_variables := [0, 1]
    leaves_ids := [0, 1, 2]
    DFSv := [0, 1, 3, 2, 4]
    isAssumedVar := fun _ => false
    isAssumedLiteral := fun _ => false
    getVarPartition := fun v => if v = 0 then 1 else 3
    getClauseClassMask := fun c => if c = 2 then 2 else 1
    varToPTRef := Term.atom
    itp_bool_algo := algo
    usingAlternativeInterpolant := alt
    logic_ := termLogic
    thandler := idleHandler }

/-- Node 3 of `s1Graph`. -/
def s1Node3 : ProofNode := ⟨3, .CLA_RESOLVENT, [⟨1, false⟩], 0, some (0, 1), 0⟩

/-- Node 4 of `s1Graph`. -/
def s1Node4 : ProofNode := ⟨4, .CLA_RESOLVENT, [], 0, some (3, 2), 1⟩

/-- An interpolation info for `s1Graph` in which `p` is A-class, `q` is AB-class and
colored AB in nodes 2 and 3, leaf 0 has interpolant `q` and nodes 1, 2, 3 have `⊥`. -/
def s1Info : InterpolationInfo Term :=
  { varClass := fun v => if v = 0 then .I_A else .I_AB
    colA := fun m v => decide ((m = 2 ∨ m = 3) ∧ v = 1)
    colB := fun m v => decide ((m = 2 ∨ m = 3) ∧ v = 1)
    partialInterpolant := fun m =>
      if m = 0 then some (.atom 1) else if m = 1 ∨ m = 2 ∨ m = 3 then some .ff else none }

/-- Scenario S4 of the specification as a proof graph: `a` = 2 is an assumption variable
with assumed literal `a`; node 0 is the ASSUMPTION leaf `a`, node 1 the ORIG leaf `¬a` of
partition A, node 2 (the root) resolves them on `a`. -/
def s4Graph : ProofGraph Term Unit :=
  { graph :=
      [ some ⟨0, .CLA_ASSUMPTION, [⟨2, false⟩], 0, none, 0⟩,
        some ⟨1, .CLA_ORIG, [⟨2, true⟩], 1, none, 0⟩,
        some ⟨2, .CLA_RESOLVENT, [], 0, some (0, 1), 2⟩ ]
    root := 2
    proof_variables := [2]
    leaves_ids := [0, 1]
    DFSv := [0, 1, 2]
    isAssumedVar := fun v => decide (v = 2)
    isAssumedLiteral := fun l => decide (l = ⟨2, false⟩)
    getVarPartition := fun _ => 1
    getClauseClassMask := fun _ => 1
    varToPTRef := Term.atom
    itp_bool_algo := .mcmillan
    usingAlternativeInterpolant := false
    logic_ := termLogic
    thandler := idleHandler }

/-- Node 2 of `s4Graph`. -/
def s4Node2 : ProofNode := ⟨2, .CLA_RESOLVENT, [], 0, some (0, 1), 2⟩

/-- An interpolation info for `s4Graph` after its two leaves: `a` is AB-class, leaf 0 has
interpolant `⊤` and leaf 1 has `⊥`. -/
def s4Info : InterpolationInfo Term :=
  { varClass := fun _ => .I_AB
    colA := fun _ _ => false
    colB := fun _ _ => false
    partialInterpolant := fun m =>
      if m = 0 then some .tt else if m = 1 then some .ff else none }

/-- Node 0 of `s4Graph`: the ASSUMPTION leaf `a`. -/
def s4Node0 : ProofNode := ⟨0, .CLA_ASSUMPTION, [⟨2, false⟩], 0, none, 0⟩

/-- Reference definition, from the words of the specification (section 4.2): the node
with id `id` is an original leaf of class `side` whose clause contains a literal over
`v`. -/
def ProofGraph.isOrigLeafOver (g : ProofGraph PTRef TS) (A_mask : ipartitions_t)
    (side : icolor_t) (v : Var) (id : Nat) : Bool :=
  match g.getNode id with
  | none => false
  | some n =>
    decide (n.type = .CLA_ORIG) &&
    (match g.getClauseColor n.clauseRef A_mask with
      | .ok c => decide (c = side)
      | .error _ => false) &&
    n.clause.any (fun l => decide (var l = v))

/-- Reference definition, from the words of the specification (section 4.2): `occ_A(v)`
(for `side = A`) and `occ_B(v)` (for `side = B`), the number of leaves in the set of leaves
that are original leaves of class `side` whose clause contains a literal over `v`. -/
def ProofGraph.occRef (g : ProofGraph PTRef TS) (A_mask : ipartitions_t) (side : icolor_t)
    (v : Var) : Nat :=
  (g.leaves_ids.toFinset.filter (fun id => g.isOrigLeafOver A_mask side v id = true)).card

/-- Reference definition, from the words of the specification (section 4.2): the PS label
of `v` is A if `occ_A(v) > occ_B(v)` and B otherwise. -/
def ProofGraph.psLabelRef (g : ProofGraph PTRef TS) (A_mask : ipartitions_t) (v : Var) :
    icolor_t :=
  if g.occRef A_mask .I_A v > g.occRef A_mask .I_B v then .I_A else .I_B

/-- Scenario S3 of the specification as a proof graph: atoms `v` = 0 (shared), `x` = 1 and
`y` = 2 (A-local); partition 1 (mask 1) is A and partition 2 (mask 2) is B; the A-leaves
`v ∨ x` (node 0), `v ∨ ¬x ∨ y` (node 1), `v ∨ ¬y` (node 2) and the B-leaf `¬v` (node 3), so
`v` occurs in three A-leaves and one B-leaf; node 4 resolves 0 and 1 on `x`, node 5
resolves 4 and 2 on `y`, node 6 (the root) resolves 5 and 3 on `v`. -/
def s3Graph (algo : ItpAlgorithm) : ProofGraph Term Unit :=
  { graph :=
      [ some ⟨0, .CLA_ORIG, [⟨0, false⟩, ⟨1, false⟩], 0, none, 0⟩,
        some ⟨1, .CLA_ORIG, [⟨0, false⟩, ⟨1, true⟩, ⟨2, false⟩], 1, none, 0⟩,
        some ⟨2, .CLA_ORIG, [⟨0, false⟩, ⟨2, true⟩], 2, none, 0⟩,
        some ⟨3, .CLA_ORIG, [⟨0, true⟩], 3, none, 0⟩,
        some ⟨4, .CLA_RESOLVENT, [⟨0, false⟩, ⟨2, false⟩], 0, some (0, 1), 1⟩,
        some ⟨5, .CLA_RESOLVENT, [⟨0, false⟩], 0, some (4, 2), 2⟩,
        some ⟨6, .CLA_RESOLVENT, [], 0, some (5, 3), 0⟩ ]
    root := 6
    proof_variables := [0, 1, 2]
    leaves_ids := [0, 1, 2, 3]
    DFSv := [0, 1, 4, 2, 5, 3, 6]
    isAssumedVar := fun _ => false
    isAssumedLiteral := fun _ => false
    getVarPartition := fun v => if v = 0 then 3 else 1
    getClauseClassMask := fun c => if c = 3 then 2 else 1
    varToPTRef := Term.atom
    itp_bool_algo := algo
    usingAlternativeInterpolant := false
    logic_ := termLogic
    thandler := idleHandler }

/-- The class cache of a run on `s3Graph` with A-mask 1: `v` is AB-class, `x` and `y` are
A-class; nothing colored, no partial interpolant. -/
def s3Info : InterpolationInfo Term :=
  { varClass := fun v => if v = 0 then .I_AB else if v = 1 ∨ v = 2 then .I_A else .I_UNDEF
    colA := fun _ _ => false
    colB := fun _ _ => false
    partialInterpolant := fun _ => none }

/-- A refutation in which the shared atom `t` = 0 occurs in no A-class and in no B-class
original leaf: node 0 is the THEORY leaf `t`, node 1 is the ORIG leaf `¬t` whose clause
mask 3 lies in both partitions (its class is AB), node 2 (the root) resolves them on
`t`. -/
def psGapGraph (algo : ItpAlgorithm) : ProofGraph Term Unit :=
  { graph :=
      [ some ⟨0, .CLA_THEORY, [⟨0, false⟩], 0, none, 0⟩,
        some ⟨1, .CLA_ORIG, [⟨0, true⟩], 1, none, 0⟩,
        some ⟨2, .CLA_RESOLVENT, [], 0, some (0, 1), 0⟩ ]
    root := 2
    proof_variables := [0]
    leaves_ids := [0, 1]
    DFSv := [0, 1, 2]
    isAssumedVar := fun _ => false
    isAssumedLiteral := fun _ => false
    getVarPartition := fun _ => 3
    getClauseClassMask := fun _ => 3
    varToPTRef := Term.atom
    itp_bool_algo := algo
    usingAlternativeInterpolant := false
    logic_ := termLogic
    thandler := idleHandler }

/-- Scenario S5 of the specification as a proof graph: atoms `b1` = 0 and `b2` = 1 are
B-local (partition 2); node 0 is the SPLIT leaf `b1 ∨ b2`, nodes 1 and 2 are the B-leaves
`¬b1` and `¬b2`; node 3 resolves 0 and 1 on `b1`, node 4 (the root) resolves 3 and 2 on
`b2`. -/
def s5Graph : ProofGraph Term Unit :=
  { graph :=
      [ some ⟨0, .CLA_SPLIT, [⟨0, false⟩, ⟨1, false⟩], 0, none, 0⟩,
        some ⟨1, .CLA_ORIG, [⟨0, true⟩], 1, none, 0⟩,
        some ⟨2, .CLA_ORIG, [⟨1, true⟩], 2, none, 0⟩,
        some ⟨3, .CLA_RESOLVENT, [⟨1, false⟩], 0, some (0, 1), 0⟩,
        some ⟨4, .CLA_RESOLVENT, [], 0, some (3, 2), 1⟩ ]
    root := 4
    proof_variables := [0, 1]
    leaves_ids := [0, 1, 2]
    DFSv := [0, 1, 3, 2, 4]
    isAssumedVar := fun _ => false
    isAssumedLiteral := fun _ => false
    getVarPartition := fun _ => 2
    getClauseClassMask := fun _ => 2
    varToPTRef := Term.atom
    itp_bool_algo := .mcmillan
    usingAlternativeInterpolant := false
    logic_ := termLogic
    thandler := idleHandler }

/-- Node 0 of `s5Graph`: the SPLIT leaf `b1 ∨ b2`. -/
def s5Node0 : ProofNode := ⟨0, .CLA_SPLIT, [⟨0, false⟩, ⟨1, false⟩], 0, none, 0⟩

/-- The same proof graph with the alternative-interpolant toggle set to `b`. -/
def ProofGraph.withAlternative (g : ProofGraph PTRef TS) (b : Bool) : ProofGraph PTRef TS :=
  { g with usingAlternativeInterpolant := b }

/-- Two tables of partial interpolants are defined on the same nodes and hold logically
equivalent terms there. -/
def EquivSlots (eval : (Var → Bool) → PTRef → Bool) (p1 p2 : Nat → Option PTRef) : Prop :=
  ∀ m, (p1 m = none ↔ p2 m = none) ∧
    ∀ t1 t2, p1 m = some t1 → p2 m = some t2 → ∀ σ, eval σ t1 = eval σ t2

/-- Scenario S2 of the specification as a proof graph: atoms `p` = 0 and `q` = 1 are
shared (mask 3); the A-leaves `p ∨ q` (node 0) and `¬p ∨ q` (node 1), the B-leaf `¬q`
(node 2); node 3 resolves 0 and 1 on the AB pivot `p` (both antecedent interpolants are
`⊥` under Pudlak), node 4 (the root) resolves 3 and 2 on `q`. -/
def s2Graph (alt : Bool) : ProofGraph Term Unit :=
  { graph :=
      [ some ⟨0, .CLA_ORIG, [⟨0, false⟩, ⟨1, false⟩], 0, none, 0⟩,
        some ⟨1, .CLA_ORIG, [⟨0, true⟩, ⟨1, false⟩], 1, none, 0⟩,
        some ⟨2, .CLA_ORIG, [⟨1, true⟩], 2, none, 0⟩,
        some ⟨3, .CLA_RESOLVENT, [⟨1, false⟩], 0, some (0, 1), 0⟩,
        some ⟨4, .CLA_RESOLVENT, [], 0, some (3, 2), 1⟩ ]
    root := 4
    proof_variables := [0, 1]
    leaves_ids := [0, 1, 2]
    DFSv := [0, 1, 3, 2, 4]
    isAssumedVar := fun _ => false
    isAssumedLiteral := fun _ => false
    getVarPartition := fun _ => 3
    getClauseClassMask := fun c => if c = 2 then 2 else 1
    varToPTRef := Term.atom
    itp_bool_algo := .pudlak
    usingAlternativeInterpolant := alt
    logic_ := termLogic
    thandler := idleHandler }

/-- Scenario S4 with the assumption of the other polarity: `a` = 2 is an assumption
variable whose assumed literal is `¬a`; node 0 is the ORIG leaf `a` of partition A (the
positive occurrence of the pivot, antecedent 1), node 1 the ASSUMPTION leaf `¬a` (the
negative occurrence, antecedent 2), node 2 (the root) resolves them on `a`. -/
def s4NegGraph : ProofGraph Term Unit :=
  { graph :=
      [ some ⟨0, .CLA_ORIG, [⟨2, false⟩], 0, none, 0⟩,
        some ⟨1, .CLA_ASSUMPTION, [⟨2, true⟩], 1, none, 0⟩,
        some ⟨2, .CLA_RESOLVENT, [], 0, some (0, 1), 2⟩ ]
    root := 2
    proof_variables := [2]
    leaves_ids := [0, 1]
    DFSv := [0, 1, 2]
    isAssumedVar := fun v => decide (v = 2)
    isAssumedLiteral := fun l => decide (l = ⟨2, true⟩)
    getVarPartition := fun _ => 1
    getClauseClassMask := fun _ => 1
    varToPTRef := Term.atom
    itp_bool_algo := .mcmillan
    usingAlternativeInterpolant := false
    logic_ := termLogic
    thandler := idleHandler }

/-- The exception is an `OsmtApiException`, the user-facing configuration error; every
other exception of the transcribed code is an `OsmtInternalException`. -/
def Exn.isApi : Exn → Bool
  | .api_choose_itp_bool_algo => true
  | .api_no_algorithm_chosen => true
  | _ => false

/-! ## The theory handler (`THandler.cc`, lines 18-81, 157-161, 439, 448) -/

/-- The polarity of an asserted atom (`lbool`). -/
inductive lbool
  | l_True
  | l_False
  | l_Undef
  deriving DecidableEq

/-- An atom with the polarity it is asserted with (`PtAsgn`). -/
structure PtAsgn (PTRef : Type) where
  tr : PTRef
  sgn : lbool
  deriving DecidableEq

/-- What `THandler` consults and drives; the declarations are outside the transcribed
files, so they are parameters: the two constants of the term store, the term mapper
`tmap` (`varToPTRef`, `getLit`), the query `isDeclared`, and the solver handler over the
states `S` of the solvers of its schedule: `assertLit`, `check` and `getInterpolant` act on
the whole schedule, `popBacktrackPoints` on one solver.  `getInterpolant` receives the
color map pointer, `none` for the null pointer. -/
structure THandlerEnv (PTRef S : Type) where
  getTerm_true : PTRef
  getTerm_false : PTRef
  varToPTRef : Var → PTRef
  getLit : PTRef → Lit
  isDeclared : Var → Bool
  assertLit : PtAsgn PTRef → List S → Bool × List S
  popBacktrackPoints : Nat → S → S
  check : Bool → List S → TRes × List S
  getInterpolant :
    ipartitions_t → Option (List (PTRef × icolor_t)) → List S → Except Exn PTRef × List S

/-- The members of `THandler` that `backtrack` and `assertLits` read and write: the
vector `stack` (its last element is the top), `checked_trail_size`, and the states of the
solvers in `solverSchedule`.  Sizes are natural numbers; the casts to `int` of the source
are exact below 2^31 elements. -/
structure THandlerState (PTRef S : Type) where
  stack : List PTRef
  checked_trail_size : Nat
  solvers : List S

/-- The method `THandler::PTRefToLit(tr)` (line 439). -/
def THandlerEnv.PTRefToLit {S : Type} (env : THandlerEnv PTRef S) (tr : PTRef) : Lit :=
  env.getLit tr

/-- The `while` loop of `THandler::backtrack` (lines 22-32) over the stack read from its
top: the argument list is the stack reversed, so its head is `stack.last()` and its tail
is the stack after `stack.pop()`; the result is the remaining stack (reversed) and
`backTrackPointsCounter`. -/
def THandler.backtrackLoop [DecidableEq PTRef] {S : Type} (env : THandlerEnv PTRef S)
    (lev : Int) : List PTRef → Nat → List PTRef × Nat
  | [], backTrackPointsCounter => ([], backTrackPointsCounter)
  | e :: rest, backTrackPointsCounter =>
    if ((rest.length + 1 : Nat) : Int) > (if lev > 0 then lev else 0) then
      if e = env.getTerm_true ∨ e = env.getTerm_false then
        THandler.backtrackLoop env lev rest backTrackPointsCounter
      else if !env.isDeclared (var (env.PTRefToLit e)) then
        THandler.backtrackLoop env lev rest backTrackPointsCounter
      else THandler.backtrackLoop env lev rest (backTrackPointsCounter + 1)
    else (e :: rest, backTrackPointsCounter)

/-- The method `THandler::backtrack(lev)` (lines 18-38). -/
def THandler.backtrack [DecidableEq PTRef] {S : Type} (env : THandlerEnv PTRef S)
    (lev : Int) (st : THandlerState PTRef S) : THandlerState PTRef S :=
  let r := THandler.backtrackLoop env lev st.stack.reverse 0
  let stack := r.1.reverse
  { stack := stack
    checked_trail_size := stack.length
    solvers := st.solvers.map (env.popBacktrackPoints r.2) }

/-- The method `THandler::assertLit(pta)` (line 448). -/
def THandlerEnv.assertLitH {S : Type} (env : THandlerEnv PTRef S) (pta : PtAsgn PTRef)
    (solvers : List S) : Bool × List S :=
  env.assertLit pta solvers

/-- The `for` loop of `THandler::assertLits` (lines 52-69) over the literals
`trail[i]`, `i ≥ checked_trail_size`, that are left; the loop condition `res != false` is
tested first. -/
def THandler.assertLitsLoop [DecidableEq PTRef] {S : Type} (env : THandlerEnv PTRef S) :
    List Lit → Bool → List PTRef → List S → Bool × List PTRef × List S
  | [], res, stack, solvers => (res, stack, solvers)
  | l :: rest, res, stack, solvers =>
    if res = false then (res, stack, solvers)
    else
      let v := var l
      let pt_r := env.varToPTRef v
      let stack := stack ++ [pt_r]
      if !env.isDeclared v then THandler.assertLitsLoop env rest res stack solvers
      else if pt_r = env.getTerm_true then THandler.assertLitsLoop env rest res stack solvers
      else if pt_r = env.getTerm_false then THandler.assertLitsLoop env rest res stack solvers
      else
        let r := env.assertLitH ⟨pt_r, if sign l then lbool.l_False else lbool.l_True⟩ solvers
        THandler.assertLitsLoop env rest r.1 stack r.2

/-- The method `THandler::assertLits(trail)` (lines 41-73); the assertions are not
checked. -/
def THandler.assertLits [DecidableEq PTRef] {S : Type} (env : THandlerEnv PTRef S)
    (trail : List Lit) (st : THandlerState PTRef S) : Bool × THandlerState PTRef S :=
  let r := THandler.assertLitsLoop env (trail.drop st.checked_trail_size) true st.stack
    st.solvers
  (r.1, { stack := r.2.1, checked_trail_size := r.2.1.length, solvers := r.2.2 })

/-- The method `THandler::check(complete)` (lines 77-81). -/
def THandler.check {S : Type} (env : THandlerEnv PTRef S) (complete : Bool)
    (st : THandlerState PTRef S) : TRes × THandlerState PTRef S :=
  let r := env.check complete st.solvers
  (r.1, { st with solvers := r.2 })

/-- The method `THandler::getInterpolant(mask, labels, pmanager)` (lines 157-161). -/
def THandler.getInterpolant {S : Type} (env : THandlerEnv PTRef S) (mask : ipartitions_t)
    (labels : Option (List (PTRef × icolor_t))) (st : THandlerState PTRef S) :
    Except Exn PTRef × THandlerState PTRef S :=
  let r := env.getInterpolant mask labels st.solvers
  (r.1, { st with solvers := r.2 })

/-- The theory handler as the interpolator drives it: `computePartialInterpolantForTheoryClause`
passes the address of its color map, so the pointer is never null. -/
def THandler.ops [DecidableEq PTRef] {S : Type} (env : THandlerEnv PTRef S) :
    THandlerOps (THandlerState PTRef S) PTRef :=
  { backtrack := THandler.backtrack env
    assertLits := THandler.assertLits env
    check := THandler.check env
    getInterpolant := fun mask labels st => THandler.getInterpolant env mask (some labels) st }

/-! ## The arithmetic backend (`LATHandler.cc`, lines 19-30) -/

/-- The exception `OsmtInternalException("LIA interpolation requires partitioning map, but
no map was provided")` of the theory backend. -/
def Exn.lia_requires_partitioning_map : Exn := .theory_backend 0

/-- The exception `OsmtInternalException("Mixed arithmetic interpolation not supported
yet")` of the theory backend. -/
def Exn.mixed_arithmetic_not_supported : Exn := .theory_backend 1

/-- What `LATHandler::getInterpolant` consults; the declarations are outside the
transcribed files, so they are parameters: the sort queries of the logic and the two
interpolation procedures of the arithmetic solver (the partition manager is part of
them). -/
structure LATHandlerEnv (PTRef : Type) where
  hasReals : Bool
  hasIntegers : Bool
  getRealInterpolant : ipartitions_t → Option (List (PTRef × icolor_t)) → PTRef
  getIntegerInterpolant : List (PTRef × icolor_t) → PTRef

/-- The method `LATHandler::getInterpolant(mask, labels, pmanager)` (lines 19-30); `labels`
is `none` for the null pointer. -/
def LATHandler.getInterpolant (env : LATHandlerEnv PTRef) (mask : ipartitions_t)
    (labels : Option (List (PTRef × icolor_t))) : Except Exn PTRef :=
  if env.hasReals && !env.hasIntegers then
    .ok (env.getRealInterpolant mask labels)
  else if env.hasIntegers && !env.hasReals then
    match labels with
    | none => .error Exn.lia_requires_partitioning_map
    | some m => .ok (env.getIntegerInterpolant m)
  else .error Exn.mixed_arithmetic_not_supported

/-! ## Reference notions for the theory handler and a concrete handler -/

/-- Reference definition, from the words of the specification: a stack entry accounts for
a backtrack point when it is neither `true` nor `false` and its variable is declared. -/
def THandlerEnv.isCounted [DecidableEq PTRef] {S : Type} (env : THandlerEnv PTRef S)
    (e : PTRef) : Bool :=
  decide (e ≠ env.getTerm_true) && decide (e ≠ env.getTerm_false) &&
    env.isDeclared (var (env.getLit e))

/-- Reference definition, from the words of the specification: a trail literal is sent to
the solvers when its variable is declared and its term is neither `true` nor `false`. -/
def THandlerEnv.isSent [DecidableEq PTRef] {S : Type} (env : THandlerEnv PTRef S)
    (l : Lit) : Bool :=
  env.isDeclared (var l) && decide (env.varToPTRef (var l) ≠ env.getTerm_true) &&
    decide (env.varToPTRef (var l) ≠ env.getTerm_false)

/-- Reference definition, from the words of the specification: what is sent for a trail
literal, its term with polarity `l_False` if and only if the literal is negated. -/
def THandlerEnv.asgnOf {S : Type} (env : THandlerEnv PTRef S) (l : Lit) : PtAsgn PTRef :=
  ⟨env.varToPTRef (var l), if sign l then lbool.l_False else lbool.l_True⟩

/-- Reference definition: the solver states after `assertLit` has been called, in order,
once for every literal of `ls` that is sent. -/
def THandlerEnv.sendAll [DecidableEq PTRef] {S : Type} (env : THandlerEnv PTRef S) :
    List Lit → List S → List S
  | [], solvers => solvers
  | l :: rest, solvers =>
    if env.isSent l then env.sendAll rest (env.assertLit (env.asgnOf l) solvers).2
    else env.sendAll rest solvers

/-- Reference definition: the solvers accept every literal of `ls` that is sent, the calls
being made in order. -/
def THandlerEnv.acceptsAll [DecidableEq PTRef] {S : Type} (env : THandlerEnv PTRef S) :
    List Lit → List S → Bool
  | [], _ => true
  | l :: rest, solvers =>
    if env.isSent l then
      (env.assertLit (env.asgnOf l) solvers).1 &&
        env.acceptsAll rest (env.assertLit (env.asgnOf l) solvers).2
    else env.acceptsAll rest solvers

/-- A handler environment over the small term store: variable 7 is mapped to `⊤`, every
other variable to its atom; variable 5 is the only one not declared; the state of a solver
is the list of assignments it holds, one backtrack point each; the solvers reject the atom
of `reject` and accept every other, `check` answers `checkRes` and `getInterpolant`
answers `itp`. -/
def demoEnv (reject : Var) (checkRes : TRes)
    (itp : ipartitions_t → Option (List (Term × icolor_t)) → Except Exn Term) :
    THandlerEnv Term (List (PtAsgn Term)) :=
  { getTerm_true := Term.tt
    getTerm_false := Term.ff
    varToPTRef := fun v => if v = 7 then Term.tt else Term.atom v
    getLit := fun t =>
      match t with
      | .atom v => ⟨v, false⟩
      | .tt => ⟨7, false⟩
      | _ => ⟨0, false⟩
    isDeclared := fun v => decide (v ≠ 5)
    assertLit := fun pta solvers =>
      (decide (pta.tr ≠ Term.atom reject), solvers.map (fun s => s ++ [pta]))
    popBacktrackPoints := fun n s => s.take (s.length - n)
    check := fun _ solvers => (checkRes, solvers)
    getInterpolant := fun mask labels solvers => (itp mask labels, solvers) }

/-- A refutation with a theory lemma over the handler `THandler.ops env`: atoms `s` = 0
(A-local) and `t` = 1 (B-local); node 0 is the THEORY leaf `s ∨ ¬t`, node 1 the A-leaf
`¬s`, node 2 the B-leaf `t`; node 3 resolves 0 and 1 on `s` giving `¬t`, node 4 (the
root) resolves 2 and 3 on `t`. -/
def thGraph (env : THandlerEnv Term (List (PtAsgn Term))) :
    ProofGraph Term (THandlerState Term (List (PtAsgn Term))) :=
  { graph :=
      [ some ⟨0, .CLA_THEORY, [⟨0, false⟩, ⟨1, true⟩], 0, none, 0⟩,
        some ⟨1, .CLA_ORIG, [⟨0, true⟩], 1, none, 0⟩,
        some ⟨2, .CLA_ORIG, [⟨1, false⟩], 2, none, 0⟩,
        some ⟨3, .CLA_RESOLVENT, [⟨1, true⟩], 0, some (0, 1), 0⟩,
        some ⟨4, .CLA_RESOLVENT, [], 0, some (2, 3), 1⟩ ]
    root := 4
    proof_variables := [0, 1]
    leaves_ids := [0, 1, 2]
    DFSv := [0, 1, 3, 2, 4]
    isAssumedVar := fun _ => false
    isAssumedLiteral := fun _ => false
    getVarPartition := fun v => if v = 0 then 1 else 2
    getClauseClassMask := fun c => if c = 2 then 2 else 1
    varToPTRef := Term.atom
    itp_bool_algo := .mcmillan
    usingAlternativeInterpolant := false
    logic_ := termLogic
    thandler := THandler.ops env }

/-- Node 0 of `thGraph`: the THEORY leaf `s ∨ ¬t`. -/
def thNode0 : ProofNode := ⟨0, .CLA_THEORY, [⟨0, false⟩, ⟨1, true⟩], 0, none, 0⟩

/-- A handler state with one solver that holds nothing. -/
def thState0 : THandlerState Term (List (PtAsgn Term)) :=
  { stack := [], checked_trail_size := 0, solvers := [[]] }

/-- The arithmetic backend of a logic with both sorts over the small term store. -/
def mixedLA : LATHandlerEnv Term :=
  { hasReals := true
    hasIntegers := true
    getRealInterpolant := fun _ _ => Term.tt
    getIntegerInterpolant := fun _ => Term.ff }

/-! ## The difference-logic solver (`STPSolver.cpp`, lines 19-62) -/

/-- An edge of the constraint graph (`Edge`): it stands for the constraint
`from - to ≤ cost`.  The number type `opensmt::Number` is declared outside the transcribed
files, so `Number` is a parameter; the fields `from` and `to` of the source are `from_` and `to_`. -/
structure Edge (PTRef Number : Type) where
  from_ : PTRef
  to_ : PTRef
  cost : Number
  deriving DecidableEq

/-- What `STPSolver::parseEdge` reads from the term store (`LALogic`, declared outside the
transcribed files): the argument vector of a term (`getPterm(t)[i]`), the value of a
numeric constant and the test for a numeric variable. -/
structure LALogicOps (PTRef Number : Type) where
  getPterm : PTRef → List PTRef
  getNumConst : PTRef → Number
  isNumVar : PTRef → Bool

/-- The method `STPSolver::parseEdge(e)` (lines 19-32); reading an argument that the term
does not have is an undefined reference. -/
def STPSolver.parseEdge {Number : Type} [Ring Number] (logic : LALogicOps PTRef Number)
    (e : PTRef) : Except Exn (Edge PTRef Number) :=
  match (logic.getPterm e)[0]?, (logic.getPterm e)[1]? with
  | some e0, some add =>
    let c := logic.getNumConst e0 * -1
    match (logic.getPterm add)[0]?, (logic.getPterm add)[1]? with
    | some y0, some mul0 =>
      let y := if !logic.isNumVar y0 then mul0 else y0
      let mul := if !logic.isNumVar y0 then y0 else mul0
      match (logic.getPterm mul)[1]? with
      | some x => .ok { from_ := x, to_ := y, cost := c }
      | none => .error .undefined_reference
    | _, _ => .error .undefined_reference
  | _, _ => .error .undefined_reference

/-- The method `STPSolver::assertLit(asgn, b)` (lines 45-62) over the state `G` of the
constraint graph; `addEdge` is `graph.addEdge`, declared outside the transcribed files. -/
def STPSolver.assertLit {Number G : Type} [Ring Number] (logic : LALogicOps PTRef Number)
    (addEdge : Edge PTRef Number → G → Bool × G) (asgn : PtAsgn PTRef) (_b : Bool)
    (graph : G) : Except Exn (Bool × G) :=
  match STPSolver.parseEdge logic asgn.tr with
  | .error ex => .error ex
  | .ok e =>
    let e :=
      if asgn.sgn = lbool.l_False then
        let tmp := e.from_
        let e := { e with from_ := e.to_ }
        let e := { e with to_ := tmp }
        { e with cost := -(e.cost + 1) }
      else e
    .ok (addEdge e graph)

/-- Reference definition, from the words of the specification: the negation of an edge,
`(to, from, -(cost + 1))`. -/
def Edge.negated {Number : Type} [Ring Number] (e : Edge PTRef Number) : Edge PTRef Number :=
  { from_ := e.to_, to_ := e.from_, cost := -(e.cost + 1) }

/-- Reference definition, from the words of the specification: the constraint
`from - to ≤ cost` of an edge holds under an integer valuation of the variables. -/
def Edge.holds {Number : Type} [LinearOrderedRing Number] (val : PTRef → Int)
    (e : Edge PTRef Number) : Prop :=
  ((val e.from_ : Int) : Number) - ((val e.to_ : Int) : Number) ≤ e.cost

instance Edge.holdsDecidable {Number : Type} [LinearOrderedRing Number] (val : PTRef → Int)
    (e : Edge PTRef Number) : Decidable (Edge.holds val e) := by
  unfold Edge.holds
  infer_instance

/-- A term store over numbered terms for worked instances: term 10 is the atom
`-c ≤ -x + y` with the constant term 11 of value `-c` and the sum 12; the sum has the
variable `y` = 2 and the product 13 = `-1 * x` with `x` = 1; the terms 1 and 2 are the
numeric variables. -/
def stpLogic (c : ℚ) : LALogicOps Nat ℚ :=
  { getPterm := fun t =>
      if t = 10 then [11, 12] else if t = 12 then [2, 13] else if t = 13 then [14, 1] else []
    getNumConst := fun t => if t = 11 then -c else if t = 14 then -1 else 0
    isNumVar := fun t => decide (t = 1 ∨ t = 2) }

/-- A constraint graph for worked instances: the list of its edges; every edge is
accepted. -/
def stpAddEdge (e : Edge Nat ℚ) (graph : List (Edge Nat ℚ)) : Bool × List (Edge Nat ℚ) :=
  (true, graph ++ [e])

/-- A refutation whose leaves are all ORIG clauses over an assumption variable: `a` = 2 is
an assumption variable with assumed literal `a`; node 0 is the ORIG leaf `a` of partition
A (mask 1), node 1 the ORIG leaf `¬a` of partition B (mask 2), node 2 (the root) resolves
them on `a`. -/
def asmGraph : ProofGraph Term Unit :=
  { graph :=
      [ some ⟨0, .CLA_ORIG, [⟨2, false⟩], 0, none, 0⟩,
        some ⟨1, .CLA_ORIG, [⟨2, true⟩], 1, none, 0⟩,
        some ⟨2, .CLA_RESOLVENT, [], 0, some (0, 1), 2⟩ ]
    root := 2
    proof_variables := [2]
    leaves_ids := [0, 1]
    DFSv := [0, 1, 2]
    isAssumedVar := fun v => decide (v = 2)
    isAssumedLiteral := fun l => decide (l = ⟨2, false⟩)
    getVarPartition := fun _ => 3
    getClauseClassMask := fun c => if c = 1 then 2 else 1
    varToPTRef := Term.atom
    itp_bool_algo := .mcmillan
    usingAlternativeInterpolant := false
    logic_ := termLogic
    thandler := idleHandler }

/-- A proof whose A-leaf mentions the shared atom `v` = 0 twice: node 0 is the ORIG leaf
`v ∨ v` of partition A (mask 1), node 1 the ORIG leaf `¬v` of partition B (mask 2), node 2
(the root) resolves them on `v`; `v` occurs in one A-leaf and in one B-leaf, with two
literals in the A-leaf. -/
def dupGraph : ProofGraph Term Unit :=
  { graph :=
      [ some ⟨0, .CLA_ORIG, [⟨0, false⟩, ⟨0, false⟩], 0, none, 0⟩,
        some ⟨1, .CLA_ORIG, [⟨0, true⟩], 1, none, 0⟩,
        some ⟨2, .CLA_RESOLVENT, [], 0, some (0, 1), 0⟩ ]
    root := 2
    proof_variables := [0]
    leaves_ids := [0, 1]
    DFSv := [0, 1, 2]
    isAssumedVar := fun _ => false
    isAssumedLiteral := fun _ => false
    getVarPartition := fun _ => 3
    getClauseClassMask := fun c => if c = 1 then 2 else 1
    varToPTRef := Term.atom
    itp_bool_algo := .ps
    usingAlternativeInterpolant := false
    logic_ := termLogic
    thandler := idleHandler }

/-! # Theorems -/

/-! ## Class resolution -/

theorem land_ldiff_eq_zero (m a : Nat) (h1 : m &&& a = 0) (h2 : Nat.ldiff m a = 0) :
    m = 0 := by
  apply Nat.eq_of_testBit_eq
  intro i
  have e1 := congrArg (fun x => Nat.testBit x i) h1
  have e2 := congrArg (fun x => Nat.testBit x i) h2
  simp only [Nat.testBit_land, Nat.testBit_ldiff, Nat.zero_testBit] at e1 e2
  rw [Nat.zero_testBit]
  cases hm : m.testBit i <;> cases ha : a.testBit i <;> simp_all

theorem mask_split (M α : Int) :
    (Int.land M α = 0 ∧ Int.land M (Int.lnot α) = 0) ↔ M = 0 := by
  constructor
  · rintro ⟨h1, h2⟩
    cases M with
    | ofNat m =>
      cases α with
      | ofNat a =>
        simp only [Int.land, Int.lnot] at h1 h2
        have h1' : m &&& a = 0 := by exact_mod_cast h1
        have h2' : Nat.ldiff m a = 0 := by exact_mod_cast h2
        simp [land_ldiff_eq_zero m a h1' h2']
      | negSucc a =>
        simp only [Int.land, Int.lnot] at h1 h2
        have h1' : Nat.ldiff m a = 0 := by exact_mod_cast h1
        have h2' : m &&& a = 0 := by exact_mod_cast h2
        simp [land_ldiff_eq_zero m a h2' h1']
    | negSucc m =>
      cases α with
      | ofNat a => simp [Int.land, Int.lnot] at h2
      | negSucc a => simp [Int.land, Int.lnot] at h1
  · rintro rfl
    cases α with
    | ofNat a => simp [Int.land, Int.lnot, Nat.ldiff]
    | negSucc a => simp [Int.land, Int.lnot, Nat.ldiff]

theorem getClass_cases (M α : ipartitions_t) :
    getClass M α =
      if Int.land M α ≠ 0 ∧ Int.land M (Int.lnot α) = 0 then .ok .I_A
      else if Int.land M α = 0 ∧ Int.land M (Int.lnot α) ≠ 0 then .ok .I_B
      else if Int.land M α ≠ 0 ∧ Int.land M (Int.lnot α) ≠ 0 then .ok .I_AB
      else .error .no_class_determined := by
  unfold getClass
  by_cases hA : Int.land M α = 0 <;> by_cases hB : Int.land M (Int.lnot α) = 0 <;>
    simp [hA, hB]

/-- C4. Class resolution: with `in_A = ((M & α) ≠ 0)` and `in_B = ((M & ~α) ≠ 0)`,
`getClass` returns A iff `in_A` and not `in_B`, B iff `in_B` and not `in_A`, AB iff both;
it never returns UNDEF or S; it raises exactly when `M` is the zero mask, which is exactly
when neither holds.  `getVarClass` returns AB for every assumption variable, whatever the
partition manager holds for it, and `getClass` of the variable's mask otherwise. -/
theorem getClass_resolution (M α : ipartitions_t) :
    (getClass M α = .ok .I_A ↔ (Int.land M α ≠ 0 ∧ ¬ Int.land M (Int.lnot α) ≠ 0)) ∧
    (getClass M α = .ok .I_B ↔ (Int.land M (Int.lnot α) ≠ 0 ∧ ¬ Int.land M α ≠ 0)) ∧
    (getClass M α = .ok .I_AB ↔ (Int.land M α ≠ 0 ∧ Int.land M (Int.lnot α) ≠ 0)) ∧
    getClass M α ≠ .ok .I_UNDEF ∧ getClass M α ≠ .ok .I_S ∧
    ((∃ e, getClass M α = .error e) ↔ M = 0) ∧
    (M = 0 ↔ (¬ Int.land M α ≠ 0 ∧ ¬ Int.land M (Int.lnot α) ≠ 0)) ∧
    (∀ (g : ProofGraph PTRef TS) (v : Var),
      (g.isAssumedVar v = true → g.getVarClass v α = .ok .I_AB) ∧
      (g.isAssumedVar v = false → g.getVarClass v α = getClass (g.getVarPartition v) α)) := by
  have hz := mask_split M α
  rw [getClass_cases]
  by_cases hA : Int.land M α = 0 <;> by_cases hB : Int.land M (Int.lnot α) = 0 <;>
    simp [hA, hB, ProofGraph.getVarClass] at hz ⊢ <;> (try simp [hz]) <;>
    (intro g v; constructor <;> intro h1 h2 <;> simp [h1] at h2)

/-! ## Colors in a node and the restricted clause -/

theorem foldl_push_filter {α : Type} (p : α → Bool) (xs acc : List α) :
    xs.foldl (fun r x => if p x = true then r ++ [x] else r) acc = acc ++ xs.filter p := by
  induction xs generalizing acc with
  | nil => simp
  | cons a xs ih =>
    simp only [List.foldl_cons, ih, List.filter_cons]
    by_cases h : p a = true <;> simp [h]

theorem foldl_push_map {α β : Type} (f : α → β) (xs : List α) (acc : List β) :
    xs.foldl (fun r x => r ++ [f x]) acc = acc ++ xs.map f := by
  induction xs generalizing acc with
  | nil => simp
  | cons a xs ih => simp [List.foldl_cons, ih]

theorem getRestrictedNodeClause_eq_filter (g : ProofGraph PTRef TS)
    (info : InterpolationInfo PTRef) (node : ProofNode) (w : icolor_t) :
    g.getRestrictedNodeClause info node w =
      node.clause.filter (fun l =>
        !g.isAssumedLiteral l.neg && decide (getVarColor info node (var l) = w)) := by
  unfold ProofGraph.getRestrictedNodeClause
  have e := foldl_push_filter
    (fun l => !g.isAssumedLiteral l.neg && decide (getVarColor info node (var l) = w))
    node.clause []
  simp only [List.nil_append] at e
  rw [← e]
  congr 1
  funext r l
  by_cases ha : g.isAssumedLiteral l.neg = true
  · simp [ha]
  · by_cases hc : getVarColor info node (var l) = w
    · have hc2 := hc
      unfold getVarColor at hc2
      simp [ha, hc, hc2]
    · have hc2 := hc
      unfold getVarColor at hc2
      simp [ha, hc, hc2]

/-- C5. Soundness of labeling: `getVarColor n v` is the class of `v` when that class is A
or B, whatever coloring is stored for `n` (any info with the same class cache gives the
same answer), and is the per-node shared coloring entry of `v` in `n` when the class is
AB; `getRestrictedNodeClause` keeps a literal of the clause exactly when its negation is
not assumed and `getVarColor` of its variable is the wanted color, so the two agree on
the color of every variable in the node. -/
theorem getVarColor_sound (g : ProofGraph PTRef TS) (info : InterpolationInfo PTRef)
    (n : ProofNode) (v : Var) :
    (info.getVarClass v = .I_A → getVarColor info n v = .I_A) ∧
    (info.getVarClass v = .I_B → getVarColor info n v = .I_B) ∧
    (info.getVarClass v = .I_AB →
      getVarColor info n v = getSharedVarColorInNode info v n) ∧
    (∀ info2 : InterpolationInfo PTRef, info2.varClass = info.varClass →
      info.getVarClass v = .I_A ∨ info.getVarClass v = .I_B →
      getVarColor info2 n v = getVarColor info n v) ∧
    (∀ (w : icolor_t) (l : Lit), l ∈ g.getRestrictedNodeClause info n w ↔
      (l ∈ n.clause ∧ g.isAssumedLiteral l.neg = false ∧ getVarColor info n (var l) = w)) := by
  refine ⟨?_, ?_, ?_, ?_, ?_⟩
  · intro h; simp [getVarColor, h]
  · intro h; simp [getVarColor, h]
  · intro h; simp [getVarColor, h]
  · intro info2 h2 h
    have e : info2.getVarClass v = info.getVarClass v := by
      simp [InterpolationInfo.getVarClass, h2]
    rcases h with h | h <;> simp [getVarColor, e, h]
  · intro w l
    rw [getRestrictedNodeClause_eq_filter]
    simp [List.mem_filter]

/-- C7. For every node and wanted color `w`, `getRestrictedNodeClause` returns exactly the
sub-list of the node's clause, in clause order and with multiplicity, of the literals `l`
such that the negation of `l` is not an assumed literal and the color of `var l` in this
node equals `w`: it is the filter of the clause by the two conditions, hence a sub-list of
the clause, and every literal occurs in it as often as in the clause if it satisfies both
conditions and not at all otherwise. -/
theorem getRestrictedNodeClause_exact (g : ProofGraph PTRef TS)
    (info : InterpolationInfo PTRef) (node : ProofNode) (w : icolor_t) :
    g.getRestrictedNodeClause info node w =
      node.clause.filter (fun l =>
        !g.isAssumedLiteral l.neg && decide (getVarColor info node (var l) = w)) ∧
    List.Sublist (g.getRestrictedNodeClause info node w) node.clause ∧
    (∀ l : Lit, (g.getRestrictedNodeClause info node w).count l =
      if g.isAssumedLiteral l.neg = false ∧ getVarColor info node (var l) = w
      then node.clause.count l else 0) := by
  have e := getRestrictedNodeClause_eq_filter g info node w
  refine ⟨e, ?_, ?_⟩
  · rw [e]
    exact List.filter_sublist _
  · intro l
    rw [e]
    by_cases h : g.isAssumedLiteral l.neg = false ∧ getVarColor info node (var l) = w
    · rw [if_pos h]
      apply List.count_filter
      simp [h.1, h.2]
    · rw [if_neg h]
      apply List.count_eq_zero_of_not_mem
      intro hm
      have := (List.mem_filter.mp hm).2
      simp only [Bool.and_eq_true, Bool.not_eq_true', decide_eq_true_eq] at this
      exact h this

/-! ## The ORIG leaf rule -/

theorem getClauseColor_ne_undef (g : ProofGraph PTRef TS) (c : Nat) (A_mask : ipartitions_t)
    (col : icolor_t) (h : g.getClauseColor c A_mask = .ok col) :
    col = .I_A ∨ col = .I_B ∨ col = .I_AB := by
  unfold ProofGraph.getClauseColor at h
  rw [getClass_cases] at h
  split_ifs at h <;> cases h <;> simp

theorem getInterpolantForOriginalClause_A (g : ProofGraph PTRef TS)
    (info : InterpolationInfo PTRef) (n : ProofNode) :
    g.getInterpolantForOriginalClause info n .I_A =
      .ok (if g.getRestrictedNodeClause info n .I_B = [] then g.logic_.getTerm_false
           else g.logic_.mkOr ((g.getRestrictedNodeClause info n .I_B).map fun l =>
             if sign l = true then g.logic_.mkNot (g.varToPTRef (var l))
             else g.varToPTRef (var l))) := by
  unfold ProofGraph.getInterpolantForOriginalClause
  have e := foldl_push_map
    (fun l => if sign l = true then g.logic_.mkNot (g.varToPTRef (var l))
              else g.varToPTRef (var l))
    (g.getRestrictedNodeClause info n .I_B) []
  simp only [List.nil_append] at e
  by_cases hR : g.getRestrictedNodeClause info n .I_B = []
  · simp [hR]
  · simp [hR, List.isEmpty_iff, e]

theorem getInterpolantForOriginalClause_B (g : ProofGraph PTRef TS)
    (info : InterpolationInfo PTRef) (n : ProofNode) :
    g.getInterpolantForOriginalClause info n .I_B =
      .ok (if g.getRestrictedNodeClause info n .I_A = [] then g.logic_.getTerm_true
           else g.logic_.mkAnd ((g.getRestrictedNodeClause info n .I_A).map fun l =>
             if sign l = true then g.varToPTRef (var l)
             else g.logic_.mkNot (g.varToPTRef (var l)))) := by
  unfold ProofGraph.getInterpolantForOriginalClause
  have e := foldl_push_map
    (fun l => if sign l = true then g.varToPTRef (var l)
              else g.logic_.mkNot (g.varToPTRef (var l)))
    (g.getRestrictedNodeClause info n .I_A) []
  simp only [List.nil_append] at e
  by_cases hR : g.getRestrictedNodeClause info n .I_A = []
  · simp [hR]
  · simp only [hR, List.isEmpty_iff, if_false]
    rw [← e]
    simp only [ne_eq, reduceCtorEq, not_false_eq_true, not_true_eq_false, and_false,
      if_false, decide_False, Bool.false_eq_true, hR]
    have hf : (fun (args : List PTRef) (l : Lit) =>
          args ++ [if sign l = false then g.logic_.mkNot (g.varToPTRef (var l))
                   else g.varToPTRef (var l)]) =
        (fun r x => r ++ [if sign x = true then g.varToPTRef (var x)
                          else g.logic_.mkNot (g.varToPTRef (var x))]) := by
      funext r l
      cases hs : sign l <;> simp
    rw [hf]

/-- C6. ORIG leaf rule: with `c` = A when the clause mask yields class A or AB and B when
it yields B, and `R` the restricted clause for the side opposite to `c`,
`computePartialInterpolantForOriginalClause` returns `⊥` when `c` = A and `R` is empty,
`⊤` when `c` = B and `R` is empty, the disjunction over `R` of each literal with its own
polarity when `c` = A, and the conjunction over `R` of each literal with negated polarity
when `c` = B.  The AB-masked case gives exactly the A-class result, and the
"Unexpected class" error is never reached. -/
theorem computePartialInterpolantForOriginalClause_rule (g : ProofGraph PTRef TS)
    (info : InterpolationInfo PTRef) (n : ProofNode) (A_mask : ipartitions_t) :
    ((g.getClauseColor n.clauseRef A_mask = .ok .I_A ∨
        g.getClauseColor n.clauseRef A_mask = .ok .I_AB) →
      g.computePartialInterpolantForOriginalClause info n A_mask =
        .ok (if g.getRestrictedNodeClause info n .I_B = [] then g.logic_.getTerm_false
             else g.logic_.mkOr ((g.getRestrictedNodeClause info n .I_B).map fun l =>
               if sign l = true then g.logic_.mkNot (g.varToPTRef (var l))
               else g.varToPTRef (var l)))) ∧
    (g.getClauseColor n.clauseRef A_mask = .ok .I_B →
      g.computePartialInterpolantForOriginalClause info n A_mask =
        .ok (if g.getRestrictedNodeClause info n .I_A = [] then g.logic_.getTerm_true
             else g.logic_.mkAnd ((g.getRestrictedNodeClause info n .I_A).map fun l =>
               if sign l = true then g.varToPTRef (var l)
               else g.logic_.mkNot (g.varToPTRef (var l))))) ∧
    g.computePartialInterpolantForOriginalClause info n A_mask ≠ .error .unexpected_class := by
  refine ⟨?_, ?_, ?_⟩
  · rintro (h | h)
    · simp only [ProofGraph.computePartialInterpolantForOriginalClause, h]
      simpa using getInterpolantForOriginalClause_A g info n
    · simp only [ProofGraph.computePartialInterpolantForOriginalClause, h]
      simpa using getInterpolantForOriginalClause_A g info n
  · intro h
    simp only [ProofGraph.computePartialInterpolantForOriginalClause, h]
    simpa using getInterpolantForOriginalClause_B g info n
  · unfold ProofGraph.computePartialInterpolantForOriginalClause
    cases h : g.getClauseColor n.clauseRef A_mask with
    | error e =>
      unfold ProofGraph.getClauseColor at h
      rw [getClass_cases] at h
      split_ifs at h
      cases h
      simp
    | ok col =>
      rcases getClauseColor_ne_undef g _ _ _ h with rfl | rfl | rfl
      · simp [getInterpolantForOriginalClause_A]
      · simp [getInterpolantForOriginalClause_B]
      · simp [getInterpolantForOriginalClause_A]

/-! ## The resolvent combinator -/

theorem compInterpLabelingInner_eq [DecidableEq PTRef] (g : ProofGraph PTRef TS)
    (info : InterpolationInfo PTRef) (n : ProofNode) (a1 a2 : Nat) (I1 I2 : PTRef)
    (hants : n.ants = some (a1, a2))
    (h1 : info.getPartialInterpolant a1 = some I1)
    (h2 : info.getPartialInterpolant a2 = some I2)
    (c : icolor_t) (hc : (g.getPivotColor info n).1 = .ok c) :
    (g.compInterpLabelingInner info n).1 =
      if c = .I_S then
        (if g.isAssumedLiteral (mkLit n.pivot) then .ok I2 else .ok I1)
      else if c = .I_A then .ok (g.logic_.mkOr [I1, I2])
      else if c = .I_B then .ok (g.logic_.mkAnd [I1, I2])
      else if c = .I_AB then
        (if (g.usingAlternativeInterpolant && decideOnAlternativeInterpolation I1 I2 g.logic_)
            = true then
          .ok (g.logic_.mkOr [g.logic_.mkAnd [I1, g.logic_.mkNot (g.varToPTRef n.pivot)],
                               g.logic_.mkAnd [I2, g.varToPTRef n.pivot]])
         else
          .ok (g.logic_.mkAnd [g.logic_.mkOr [I1, g.varToPTRef n.pivot],
                                g.logic_.mkOr [I2, g.logic_.mkNot (g.varToPTRef n.pivot)]]))
      else .error .pivot_has_no_color := by
  unfold ProofGraph.compInterpLabelingInner
  simp only [hants, h1, h2]
  rcases hp : g.getPivotColor info n with ⟨r, i⟩
  rw [hp] at hc
  simp only at hc
  subst hc
  simp only
  by_cases hS : c = .I_S
  · simp only [hS, if_true]
    split <;> rfl
  · by_cases hA : c = .I_A
    · simp [hA]
    · by_cases hB : c = .I_B
      · simp [hB]
      · by_cases hAB : c = .I_AB
        · subst hAB
          cases hu : g.usingAlternativeInterpolant <;>
            cases hd : decideOnAlternativeInterpolation I1 I2 g.logic_ <;> simp [hd]
        · simp [hS, hA, hB, hAB]

theorem getPivotColor_varToPTRef (g : ProofGraph PTRef TS) (f : Var → PTRef)
    (info : InterpolationInfo PTRef) (n : ProofNode) :
    ({ g with varToPTRef := f } : ProofGraph PTRef TS).getPivotColor info n =
      g.getPivotColor info n := rfl

/-- C8. For every resolvent whose antecedents have partial interpolants `I1` and `I2`:
when the pivot color is A, `compInterpLabelingInner` returns `mkOr(I1, I2)`; when it is B,
it returns `mkAnd(I1, I2)`; in both cases the pivot term is not part of the constructed
connective (its arguments are exactly `I1` and `I2`, and the result does not depend on
the term the term mapper gives to the pivot). -/
theorem compInterpLabelingInner_pivot_A_B [DecidableEq PTRef] (g : ProofGraph PTRef TS)
    (info : InterpolationInfo PTRef) (n : ProofNode) (a1 a2 : Nat) (I1 I2 : PTRef)
    (hants : n.ants = some (a1, a2))
    (h1 : info.getPartialInterpolant a1 = some I1)
    (h2 : info.getPartialInterpolant a2 = some I2) :
    ((g.getPivotColor info n).1 = .ok .I_A →
      (g.compInterpLabelingInner info n).1 = .ok (g.logic_.mkOr [I1, I2])) ∧
    ((g.getPivotColor info n).1 = .ok .I_B →
      (g.compInterpLabelingInner info n).1 = .ok (g.logic_.mkAnd [I1, I2])) ∧
    ((g.getPivotColor info n).1 = .ok .I_A ∨ (g.getPivotColor info n).1 = .ok .I_B →
      ∀ f : Var → PTRef,
        (({ g with varToPTRef := f } : ProofGraph PTRef TS).compInterpLabelingInner info n).1 =
          (g.compInterpLabelingInner info n).1) := by
  refine ⟨?_, ?_, ?_⟩
  · intro hc
    rw [compInterpLabelingInner_eq g info n a1 a2 I1 I2 hants h1 h2 _ hc]
    simp
  · intro hc
    rw [compInterpLabelingInner_eq g info n a1 a2 I1 I2 hants h1 h2 _ hc]
    simp
  · intro hc f
    rcases hc with hc | hc
    · rw [compInterpLabelingInner_eq g info n a1 a2 I1 I2 hants h1 h2 _ hc,
        compInterpLabelingInner_eq _ info n a1 a2 I1 I2 hants h1 h2 _
          ((getPivotColor_varToPTRef g f info n).symm ▸ hc)]
      simp
    · rw [compInterpLabelingInner_eq g info n a1 a2 I1 I2 hants h1 h2 _ hc,
        compInterpLabelingInner_eq _ info n a1 a2 I1 I2 hants h1 h2 _
          ((getPivotColor_varToPTRef g f info n).symm ▸ hc)]
      simp

/-- C8, instance: node 3 of scenario S1 resolves on the A-class pivot `p` two antecedents
with interpolants `q` and `⊥`, and gets `mkOr(q, ⊥)`, which the store simplifies to `q`. -/
theorem compInterpLabelingInner_pivot_A_B_witness :
    ((s1Graph .mcmillan false).getPivotColor s1Info s1Node3).1 = .ok .I_A ∧
    ((s1Graph .mcmillan false).compInterpLabelingInner s1Info s1Node3).1 =
      .ok (Term.atom 1) :=
  ⟨rfl, (compInterpLabelingInner_pivot_A_B (s1Graph .mcmillan false) s1Info s1Node3 0 1
    (Term.atom 1) Term.ff rfl rfl rfl).1 rfl⟩

/-- C9. For every resolvent with AB pivot color, pivot term `p` and antecedent
interpolants `I1`, `I2`: when the alternative-interpolant toggle is enabled and one of
(`I1 = ⊥` and `I2` is neither `⊤` nor `⊥`), (`I1` is neither `⊤` nor `⊥` and `I2 = ⊥`),
(`I1 = ⊥` and `I2 = ⊥`) holds, `compInterpLabelingInner` returns the alternative form
`(I1 ∧ ¬p) ∨ (I2 ∧ p)`; in every other case, including whenever the toggle is disabled,
it returns the standard form `(I1 ∨ p) ∧ (I2 ∨ ¬p)`.  Where the two forms are different
terms, the alternative form is returned if and only if the condition holds. -/
theorem compInterpLabelingInner_pivot_AB [DecidableEq PTRef] (g : ProofGraph PTRef TS)
    (info : InterpolationInfo PTRef) (n : ProofNode) (a1 a2 : Nat) (I1 I2 : PTRef)
    (hants : n.ants = some (a1, a2))
    (h1 : info.getPartialInterpolant a1 = some I1)
    (h2 : info.getPartialInterpolant a2 = some I2)
    (hc : (g.getPivotColor info n).1 = .ok .I_AB) :
    ((g.usingAlternativeInterpolant = true ∧
        ((I1 = g.logic_.getTerm_false ∧ I2 ≠ g.logic_.getTerm_true ∧
            I2 ≠ g.logic_.getTerm_false) ∨
         (I1 ≠ g.logic_.getTerm_true ∧ I1 ≠ g.logic_.getTerm_false ∧
            I2 = g.logic_.getTerm_false) ∨
         (I1 = g.logic_.getTerm_false ∧ I2 = g.logic_.getTerm_false))) →
      (g.compInterpLabelingInner info n).1 =
        .ok (g.logic_.mkOr [g.logic_.mkAnd [I1, g.logic_.mkNot (g.varToPTRef n.pivot)],
                             g.logic_.mkAnd [I2, g.varToPTRef n.pivot]])) ∧
    (¬ (g.usingAlternativeInterpolant = true ∧
        ((I1 = g.logic_.getTerm_false ∧ I2 ≠ g.logic_.getTerm_true ∧
            I2 ≠ g.logic_.getTerm_false) ∨
         (I1 ≠ g.logic_.getTerm_true ∧ I1 ≠ g.logic_.getTerm_false ∧
            I2 = g.logic_.getTerm_false) ∨
         (I1 = g.logic_.getTerm_false ∧ I2 = g.logic_.getTerm_false))) →
      (g.compInterpLabelingInner info n).1 =
        .ok (g.logic_.mkAnd [g.logic_.mkOr [I1, g.varToPTRef n.pivot],
                              g.logic_.mkOr [I2, g.logic_.mkNot (g.varToPTRef n.pivot)]])) ∧
    (g.logic_.mkOr [g.logic_.mkAnd [I1, g.logic_.mkNot (g.varToPTRef n.pivot)],
                     g.logic_.mkAnd [I2, g.varToPTRef n.pivot]] ≠
      g.logic_.mkAnd [g.logic_.mkOr [I1, g.varToPTRef n.pivot],
                       g.logic_.mkOr [I2, g.logic_.mkNot (g.varToPTRef n.pivot)]] →
      ((g.compInterpLabelingInner info n).1 =
          .ok (g.logic_.mkOr [g.logic_.mkAnd [I1, g.logic_.mkNot (g.varToPTRef n.pivot)],
                               g.logic_.mkAnd [I2, g.varToPTRef n.pivot]]) ↔
        (g.usingAlternativeInterpolant = true ∧
          ((I1 = g.logic_.getTerm_false ∧ I2 ≠ g.logic_.getTerm_true ∧
              I2 ≠ g.logic_.getTerm_false) ∨
           (I1 ≠ g.logic_.getTerm_true ∧ I1 ≠ g.logic_.getTerm_false ∧
              I2 = g.logic_.getTerm_false) ∨
           (I1 = g.logic_.getTerm_false ∧ I2 = g.logic_.getTerm_false))))) := by
  have hd : (g.usingAlternativeInterpolant && decideOnAlternativeInterpolation I1 I2 g.logic_)
        = true ↔
      (g.usingAlternativeInterpolant = true ∧
        ((I1 = g.logic_.getTerm_false ∧ I2 ≠ g.logic_.getTerm_true ∧
            I2 ≠ g.logic_.getTerm_false) ∨
         (I1 ≠ g.logic_.getTerm_true ∧ I1 ≠ g.logic_.getTerm_false ∧
            I2 = g.logic_.getTerm_false) ∨
         (I1 = g.logic_.getTerm_false ∧ I2 = g.logic_.getTerm_false))) := by
    unfold decideOnAlternativeInterpolation
    by_cases e1 : I1 = g.logic_.getTerm_true <;> by_cases e2 : I1 = g.logic_.getTerm_false <;>
      by_cases e3 : I2 = g.logic_.getTerm_true <;> by_cases e4 : I2 = g.logic_.getTerm_false <;>
      simp [e1, e2, e3, e4]
  rw [compInterpLabelingInner_eq g info n a1 a2 I1 I2 hants h1 h2 _ hc]
  simp only [reduceCtorEq, if_false, if_true]
  refine ⟨?_, ?_, ?_⟩
  · intro h
    rw [if_pos (hd.mpr h)]
  · intro h
    rw [if_neg (fun hh => h (hd.mp hh))]
  · intro hne
    rw [← hd]
    by_cases hh : (g.usingAlternativeInterpolant &&
        decideOnAlternativeInterpolation I1 I2 g.logic_) = true
    · simp [hh]
    · rw [if_neg hh]
      constructor
      · intro e
        exact absurd (Except.ok.inj e).symm hne
      · intro e
        exact absurd e hh

/-- C9, instance: the root of scenario S1 with an AB-colored pivot `q`, both antecedent
interpolants `⊥` and the toggle enabled gets the alternative form, which the store
simplifies to `⊥`. -/
theorem compInterpLabelingInner_pivot_AB_witness :
    ((s1Graph .pudlak true).getPivotColor s1Info s1Node4).1 = .ok .I_AB ∧
    ((s1Graph .pudlak true).compInterpLabelingInner s1Info s1Node4).1 = .ok Term.ff :=
  ⟨rfl, (compInterpLabelingInner_pivot_AB (s1Graph .pudlak true) s1Info s1Node4 3 2
    Term.ff Term.ff rfl rfl rfl rfl).1 ⟨rfl, Or.inr (Or.inr ⟨rfl, rfl⟩)⟩⟩

/-- C10. For every resolvent whose pivot color is S, `compInterpLabelingInner` returns one
antecedent's partial interpolant verbatim: `I2` if the positive pivot literal is an
assumed literal, and `I1` otherwise; no term is built (the result is the same under every
term store and term mapper). -/
theorem compInterpLabelingInner_pivot_S [DecidableEq PTRef] (g : ProofGraph PTRef TS)
    (info : InterpolationInfo PTRef) (n : ProofNode) (a1 a2 : Nat) (I1 I2 : PTRef)
    (hants : n.ants = some (a1, a2))
    (h1 : info.getPartialInterpolant a1 = some I1)
    (h2 : info.getPartialInterpolant a2 = some I2)
    (hc : (g.getPivotColor info n).1 = .ok .I_S) :
    (g.compInterpLabelingInner info n).1 =
      .ok (if g.isAssumedLiteral (mkLit n.pivot) = true then I2 else I1) ∧
    (∀ (L : Logic PTRef) (f : Var → PTRef),
      (({ g with logic_ := L, varToPTRef := f } : ProofGraph PTRef TS).compInterpLabelingInner
          info n).1 = (g.compInterpLabelingInner info n).1) := by
  have e := compInterpLabelingInner_eq g info n a1 a2 I1 I2 hants h1 h2 _ hc
  simp only [if_true] at e
  refine ⟨?_, ?_⟩
  · rw [e]; split <;> rfl
  · intro L f
    have hc2 : (({ g with logic_ := L, varToPTRef := f } : ProofGraph PTRef TS).getPivotColor
        info n).1 = .ok .I_S := hc
    have e2 := compInterpLabelingInner_eq _ info n a1 a2 I1 I2 hants h1 h2 _ hc2
    simp only [if_true] at e2
    rw [e, e2]

/-- C10, instance: the root of scenario S4 resolves on the assumption variable `a`, whose
positive literal is assumed, and gets the second antecedent's interpolant `⊥` verbatim. -/
theorem compInterpLabelingInner_pivot_S_witness :
    (s4Graph.getPivotColor s4Info s4Node2).1 = .ok .I_S ∧
    (s4Graph.compInterpLabelingInner s4Info s4Node2).1 = .ok Term.ff :=
  ⟨rfl, (compInterpLabelingInner_pivot_S s4Graph s4Info s4Node2 0 1 Term.tt Term.ff
    rfl rfl rfl rfl).1⟩

/-! ## The reset of the interpolation info -/

theorem reset_fold_error (f : Var → Except Exn icolor_t) (vars : List Var) (e : Exn)
    (i : InterpolationInfo PTRef) :
    vars.foldl
      (fun (acc : Except Exn Unit × InterpolationInfo PTRef) v =>
        match acc with
        | (.error e, i) => (.error e, i)
        | (.ok _, i) =>
          match f v with
          | .error e => (.error e, i)
          | .ok c => (.ok (), { i with varClass := fun w => if w = v then c else i.varClass w }))
      (.error e, i) = (.error e, i) := by
  induction vars with
  | nil => rfl
  | cons a vars ih => simpa [List.foldl_cons] using ih

theorem reset_fold_spec (f : Var → Except Exn icolor_t) (vars : List Var) :
    ∀ (i info0 : InterpolationInfo PTRef) (u : Unit),
    vars.foldl
      (fun (acc : Except Exn Unit × InterpolationInfo PTRef) v =>
        match acc with
        | (.error e, i) => (.error e, i)
        | (.ok _, i) =>
          match f v with
          | .error e => (.error e, i)
          | .ok c => (.ok (), { i with varClass := fun w => if w = v then c else i.varClass w }))
      (.ok (), i) = (.ok u, info0) →
    info0.colA = i.colA ∧ info0.colB = i.colB ∧
    info0.partialInterpolant = i.partialInterpolant ∧
    (∀ v, info0.varClass v = i.varClass v ∨ f v = .ok (info0.varClass v)) ∧
    (∀ v ∈ vars, f v = .ok (info0.varClass v)) := by
  induction vars with
  | nil =>
    intro i info0 u h
    simp only [List.foldl_nil, Prod.mk.injEq] at h
    obtain ⟨_, rfl⟩ := h
    simp
  | cons a vars ih =>
    intro i info0 u h
    simp only [List.foldl_cons] at h
    cases hf : f a with
    | error e =>
      simp only [hf] at h
      rw [reset_fold_error] at h
      simp at h
    | ok c =>
      simp only [hf] at h
      obtain ⟨hA, hB, hP, hV, hM⟩ := ih _ info0 u h
      refine ⟨hA, hB, hP, ?_, ?_⟩
      · intro v
        rcases hV v with hv | hv
        · by_cases hva : v = a
          · subst hva
            simp only [if_true] at hv
            right; rw [hv]; exact hf
          · simp only [hva, if_false] at hv
            exact Or.inl hv
        · exact Or.inr hv
      · intro v hv
        rcases List.mem_cons.mp hv with rfl | hv
        · rcases hV v with h1 | h1
          · simp only [if_true] at h1
            rw [h1]; exact hf
          · exact h1
        · exact hM v hv

theorem reset_spec (vars : List Var) (f : Var → Except Exn icolor_t)
    (info0 : InterpolationInfo PTRef) (u : Unit)
    (h : InterpolationInfo.reset vars f = (.ok u, info0)) :
    info0.colA = (fun _ _ => false) ∧ info0.colB = (fun _ _ => false) ∧
    info0.partialInterpolant = (fun _ => none) ∧
    (∀ v, info0.varClass v = .I_UNDEF ∨ f v = .ok (info0.varClass v)) ∧
    (∀ v ∈ vars, f v = .ok (info0.varClass v)) := by
  unfold InterpolationInfo.reset at h
  exact reset_fold_spec f vars _ info0 u h

theorem reset_fold_ok (f : Var → Except Exn icolor_t) (vars : List Var)
    (hf : ∀ v ∈ vars, ∃ c, f v = .ok c) :
    ∀ (i : InterpolationInfo PTRef), ∃ info0,
    vars.foldl
      (fun (acc : Except Exn Unit × InterpolationInfo PTRef) v =>
        match acc with
        | (.error e, i) => (.error e, i)
        | (.ok _, i) =>
          match f v with
          | .error e => (.error e, i)
          | .ok c => (.ok (), { i with varClass := fun w => if w = v then c else i.varClass w }))
      (.ok (), i) = (.ok (), info0) := by
  induction vars with
  | nil => intro i; exact ⟨i, rfl⟩
  | cons a vars ih =>
    intro i
    obtain ⟨c, hc⟩ := hf a (List.mem_cons_self _ _)
    simp only [List.foldl_cons, hc]
    exact ih (fun v hv => hf v (List.mem_cons_of_mem _ hv)) _

theorem reset_ok (vars : List Var) (f : Var → Except Exn icolor_t)
    (hf : ∀ v ∈ vars, ∃ c, f v = .ok c) :
    ∃ info0 : InterpolationInfo PTRef, InterpolationInfo.reset vars f = (.ok (), info0) :=
  reset_fold_ok f vars hf _

/-! ## Leaf labeling -/

theorem setLeafLabeling_fold_error (g : ProofGraph PTRef TS) (node : ProofNode)
    (f : InterpolationInfo PTRef → ProofNode → Var → Except Exn Unit × InterpolationInfo PTRef)
    (cl : List Lit) (e : Exn) (i : InterpolationInfo PTRef) :
    cl.foldl
      (fun (acc : Except Exn Unit × InterpolationInfo PTRef) l =>
        match acc with
        | (.error e, i) => (.error e, i)
        | (.ok _, i) =>
          let v := var l
          if g.isAssumedVar v then (.ok (), i)
          else if i.getVarClass v = .I_AB then f i node v
          else (.ok (), i))
      (.error e, i) = (.error e, i) := by
  induction cl with
  | nil => rfl
  | cons a cl ih => simpa [List.foldl_cons] using ih

theorem setLeafLabeling_fold_spec (g : ProofGraph PTRef TS) (node : ProofNode)
    (f : InterpolationInfo PTRef → ProofNode → Var → Except Exn Unit × InterpolationInfo PTRef)
    (hf : ∀ i v r i2, f i node v = (r, i2) →
      i2.varClass = i.varClass ∧ i2.partialInterpolant = i.partialInterpolant ∧
      (∀ m w, (m ≠ node.id ∨ w ≠ v) → i2.colA m w = i.colA m w ∧ i2.colB m w = i.colB m w) ∧
      (r = .ok () → (i2.colA node.id v = true ∨ i2.colB node.id v = true)))
    (cl : List Lit) :
    ∀ (i info1 : InterpolationInfo PTRef) (u : Unit),
    cl.foldl
      (fun (acc : Except Exn Unit × InterpolationInfo PTRef) l =>
        match acc with
        | (.error e, i) => (.error e, i)
        | (.ok _, i) =>
          let v := var l
          if g.isAssumedVar v then (.ok (), i)
          else if i.getVarClass v = .I_AB then f i node v
          else (.ok (), i))
      (.ok (), i) = (.ok u, info1) →
    info1.varClass = i.varClass ∧ info1.partialInterpolant = i.partialInterpolant ∧
    (∀ m w, (m ≠ node.id ∨ ¬ (∃ l ∈ cl, var l = w ∧ g.isAssumedVar w = false ∧
        i.varClass w = .I_AB)) → info1.colA m w = i.colA m w ∧ info1.colB m w = i.colB m w) ∧
    (∀ w, (i.colA node.id w = true ∨ i.colB node.id w = true) →
      (info1.colA node.id w = true ∨ info1.colB node.id w = true)) ∧
    (∀ l ∈ cl, g.isAssumedVar (var l) = false → i.varClass (var l) = .I_AB →
      (info1.colA node.id (var l) = true ∨ info1.colB node.id (var l) = true)) := by
  induction cl with
  | nil =>
    intro i info1 u h
    simp only [List.foldl_nil, Prod.mk.injEq] at h
    obtain ⟨_, rfl⟩ := h
    simp
  | cons a cl ih =>
    intro i info1 u h
    simp only [List.foldl_cons] at h
    by_cases hass : g.isAssumedVar (var a) = true
    · simp only [hass, if_true] at h
      obtain ⟨h1, h2, h3, h4, h5⟩ := ih _ _ _ h
      refine ⟨h1, h2, ?_, h4, ?_⟩
      · intro m w hc
        apply h3
        rcases hc with hc | hc
        · exact Or.inl hc
        · right
          rintro ⟨l, hl, hx⟩
          exact hc ⟨l, List.mem_cons_of_mem _ hl, hx⟩
      · intro l hl hna hcl
        rcases List.mem_cons.mp hl with rfl | hl
        · simp [hass] at hna
        · exact h5 l hl hna hcl
    · have hass2 : g.isAssumedVar (var a) = false := by simpa using hass
      simp only [hass2, Bool.false_eq_true, if_false] at h
      by_cases hAB : i.getVarClass (var a) = .I_AB
      · simp only [hAB, if_true] at h
        rcases hfa : f i node (var a) with ⟨r, i2⟩
        rw [hfa] at h
        cases r with
        | error e =>
          rw [setLeafLabeling_fold_error] at h
          simp at h
        | ok u2 =>
          obtain ⟨f1, f2, f3, f4⟩ := hf i (var a) _ i2 hfa
          obtain ⟨h1, h2, h3, h4, h5⟩ := ih _ _ _ h
          have f4' := f4 rfl
          refine ⟨h1.trans f1, h2.trans f2, ?_, ?_, ?_⟩
          · intro m w hc
            have hc1 : m ≠ node.id ∨ ¬ (∃ l ∈ cl, var l = w ∧ g.isAssumedVar w = false ∧
                i2.varClass w = .I_AB) := by
              rcases hc with hc | hc
              · exact Or.inl hc
              · right
                rintro ⟨l, hl, hx1, hx2, hx3⟩
                exact hc ⟨l, List.mem_cons_of_mem _ hl, hx1, hx2, by rw [← f1]; exact hx3⟩
            have hc2 : m ≠ node.id ∨ w ≠ var a := by
              rcases hc with hc | hc
              · exact Or.inl hc
              · right
                intro hw
                apply hc
                refine ⟨a, List.mem_cons_self _ _, hw.symm, ?_, ?_⟩
                · rw [hw]; simpa using hass
                · rw [hw]; exact hAB
            obtain ⟨e1, e2⟩ := h3 m w hc1
            obtain ⟨e3, e4⟩ := f3 m w hc2
            exact ⟨e1.trans e3, e2.trans e4⟩
          · intro w hw
            apply h4
            by_cases hwa : w = var a
            · rw [hwa]; exact f4'
            · obtain ⟨e3, e4⟩ := f3 node.id w (Or.inr hwa)
              rw [e3, e4]; exact hw
          · intro l hl hna hcl
            rcases List.mem_cons.mp hl with rfl | hl
            · exact h4 _ f4'
            · exact h5 l hl hna (by rw [f1]; exact hcl)
      · simp only [hAB, if_false] at h
        obtain ⟨h1, h2, h3, h4, h5⟩ := ih _ _ _ h
        refine ⟨h1, h2, ?_, h4, ?_⟩
        · intro m w hc
          apply h3
          rcases hc with hc | hc
          · exact Or.inl hc
          · right
            rintro ⟨l, hl, hx⟩
            exact hc ⟨l, List.mem_cons_of_mem _ hl, hx⟩
        · intro l hl hna hcl
          rcases List.mem_cons.mp hl with rfl | hl
          · exact absurd hcl hAB
          · exact h5 l hl hna hcl


theorem setLeafLabeling_fold_ok (g : ProofGraph PTRef TS) (node : ProofNode)
    (f : InterpolationInfo PTRef → ProofNode → Var → Except Exn Unit × InterpolationInfo PTRef)
    (hf : ∀ i v r i2, f i node v = (r, i2) → i2.varClass = i.varClass)
    (cl : List Lit) :
    ∀ (i : InterpolationInfo PTRef),
    (∀ l ∈ cl, g.isAssumedVar (var l) = false → i.varClass (var l) = .I_AB →
      ∀ i1 : InterpolationInfo PTRef, ∃ i2, f i1 node (var l) = (.ok (), i2)) →
    ∃ info1,
    cl.foldl
      (fun (acc : Except Exn Unit × InterpolationInfo PTRef) l =>
        match acc with
        | (.error e, i) => (.error e, i)
        | (.ok _, i) =>
          let v := var l
          if g.isAssumedVar v then (.ok (), i)
          else if i.getVarClass v = .I_AB then f i node v
          else (.ok (), i))
      (.ok (), i) = (.ok (), info1) := by
  induction cl with
  | nil => intro i _; exact ⟨i, rfl⟩
  | cons a cl ih =>
    intro i htot
    simp only [List.foldl_cons]
    by_cases hass : g.isAssumedVar (var a) = true
    · simp only [hass, if_true]
      exact ih i (fun l hl => htot l (List.mem_cons_of_mem _ hl))
    · have hass2 : g.isAssumedVar (var a) = false := by simpa using hass
      simp only [hass2, Bool.false_eq_true, if_false]
      by_cases hAB : i.getVarClass (var a) = .I_AB
      · simp only [hAB, if_true]
        obtain ⟨i2, hi2⟩ := htot a (List.mem_cons_self _ _) hass2 hAB i
        rw [hi2]
        have hv := hf i (var a) _ i2 hi2
        exact ih i2 (fun l hl h1 h2 => htot l (List.mem_cons_of_mem _ hl) h1 (by rw [← hv]; exact h2))
      · simp only [hAB, if_false]
        exact ih i (fun l hl => htot l (List.mem_cons_of_mem _ hl))

theorem colorA_frame (i : InterpolationInfo PTRef) (node : ProofNode) (v : Var) :
    (i.colorA node v).varClass = i.varClass ∧
    (i.colorA node v).partialInterpolant = i.partialInterpolant ∧
    (∀ m w, (m ≠ node.id ∨ w ≠ v) →
      (i.colorA node v).colA m w = i.colA m w ∧ (i.colorA node v).colB m w = i.colB m w) ∧
    ((i.colorA node v).colA node.id v = true ∨ (i.colorA node v).colB node.id v = true) := by
  refine ⟨rfl, rfl, ?_, ?_⟩
  · intro m w h
    have : ¬ (m = node.id ∧ w = v) := by
      rintro ⟨h1, h2⟩
      rcases h with h | h
      · exact h h1
      · exact h h2
    constructor <;> simp only [InterpolationInfo.colorA, if_neg this]
  · simp [InterpolationInfo.colorA]

theorem colorB_frame (i : InterpolationInfo PTRef) (node : ProofNode) (v : Var) :
    (i.colorB node v).varClass = i.varClass ∧
    (i.colorB node v).partialInterpolant = i.partialInterpolant ∧
    (∀ m w, (m ≠ node.id ∨ w ≠ v) →
      (i.colorB node v).colA m w = i.colA m w ∧ (i.colorB node v).colB m w = i.colB m w) ∧
    ((i.colorB node v).colA node.id v = true ∨ (i.colorB node v).colB node.id v = true) := by
  refine ⟨rfl, rfl, ?_, ?_⟩
  · intro m w h
    have : ¬ (m = node.id ∧ w = v) := by
      rintro ⟨h1, h2⟩
      rcases h with h | h
      · exact h h1
      · exact h h2
    constructor <;> simp only [InterpolationInfo.colorB, if_neg this]
  · simp [InterpolationInfo.colorB]

theorem colorAB_frame (i : InterpolationInfo PTRef) (node : ProofNode) (v : Var) :
    (i.colorAB node v).varClass = i.varClass ∧
    (i.colorAB node v).partialInterpolant = i.partialInterpolant ∧
    (∀ m w, (m ≠ node.id ∨ w ≠ v) →
      (i.colorAB node v).colA m w = i.colA m w ∧ (i.colorAB node v).colB m w = i.colB m w) ∧
    ((i.colorAB node v).colA node.id v = true ∨ (i.colorAB node v).colB node.id v = true) := by
  refine ⟨rfl, rfl, ?_, ?_⟩
  · intro m w h
    have : ¬ (m = node.id ∧ w = v) := by
      rintro ⟨h1, h2⟩
      rcases h with h | h
      · exact h h1
      · exact h h2
    constructor <;> simp only [InterpolationInfo.colorAB, if_neg this]
  · simp [InterpolationInfo.colorAB]

/-- What every color function used by `labelLeaf` satisfies: it touches only the entry
of the given variable in the given node, and on success that entry exists. -/
theorem labelLeaf_colorFn (labels : Option (StdMap icolor_t))
    (c1 c2 : InterpolationInfo PTRef → ProofNode → Var → InterpolationInfo PTRef)
    (h1 : ∀ i node v, (c1 i node v).varClass = i.varClass ∧
      (c1 i node v).partialInterpolant = i.partialInterpolant ∧
      (∀ m w, (m ≠ node.id ∨ w ≠ v) →
        (c1 i node v).colA m w = i.colA m w ∧ (c1 i node v).colB m w = i.colB m w) ∧
      ((c1 i node v).colA node.id v = true ∨ (c1 i node v).colB node.id v = true))
    (h2 : ∀ i node v, (c2 i node v).varClass = i.varClass ∧
      (c2 i node v).partialInterpolant = i.partialInterpolant ∧
      (∀ m w, (m ≠ node.id ∨ w ≠ v) →
        (c2 i node v).colA m w = i.colA m w ∧ (c2 i node v).colB m w = i.colB m w) ∧
      ((c2 i node v).colA node.id v = true ∨ (c2 i node v).colB node.id v = true))
    (node : ProofNode) :
    ∀ (i : InterpolationInfo PTRef) (v : Var) (r : Except Exn Unit)
      (i2 : InterpolationInfo PTRef),
      (match labels with
        | none => (.ok (), c1 i node v)
        | some ls =>
          match StdMap.find ls v with
          | none => (.error .undefined_reference, i)
          | some c => if c = .I_A then (.ok (), c1 i node v) else (.ok (), c2 i node v))
        = (r, i2) →
      i2.varClass = i.varClass ∧ i2.partialInterpolant = i.partialInterpolant ∧
      (∀ m w, (m ≠ node.id ∨ w ≠ v) → i2.colA m w = i.colA m w ∧ i2.colB m w = i.colB m w) ∧
      (r = .ok () → (i2.colA node.id v = true ∨ i2.colB node.id v = true)) := by
  intro i v r i2 h
  cases labels with
  | none =>
    simp only [Prod.mk.injEq] at h
    obtain ⟨rfl, rfl⟩ := h
    obtain ⟨a, b, c, d⟩ := h1 i node v
    exact ⟨a, b, c, fun _ => d⟩
  | some ls =>
    simp only at h
    cases hfind : StdMap.find ls v with
    | none =>
      simp only [hfind, Prod.mk.injEq] at h
      obtain ⟨rfl, rfl⟩ := h
      simp
    | some c =>
      simp only [hfind] at h
      by_cases hc : c = .I_A
      · simp only [hc, if_true, Prod.mk.injEq] at h
        obtain ⟨rfl, rfl⟩ := h
        obtain ⟨a, b, c, d⟩ := h1 i node v
        exact ⟨a, b, c, fun _ => d⟩
      · simp only [hc, if_false, Prod.mk.injEq] at h
        obtain ⟨rfl, rfl⟩ := h
        obtain ⟨a, b, c, d⟩ := h2 i node v
        exact ⟨a, b, c, fun _ => d⟩

theorem labelLeaf_spec (g : ProofGraph PTRef TS) (info info1 : InterpolationInfo PTRef)
    (n : ProofNode) (ps : Option (StdMap icolor_t)) (u : Unit)
    (h : g.labelLeaf info n ps = (.ok u, info1)) :
    info1.varClass = info.varClass ∧ info1.partialInterpolant = info.partialInterpolant ∧
    (∀ m w, (m ≠ n.id ∨ ¬ (∃ l ∈ n.clause, var l = w ∧ g.isAssumedVar w = false ∧
        info.varClass w = .I_AB)) →
      info1.colA m w = info.colA m w ∧ info1.colB m w = info.colB m w) ∧
    (∀ l ∈ n.clause, g.isAssumedVar (var l) = false → info.varClass (var l) = .I_AB →
      (info1.colA n.id (var l) = true ∨ info1.colB n.id (var l) = true)) := by
  have key : ∀ (f : InterpolationInfo PTRef → ProofNode → Var →
        Except Exn Unit × InterpolationInfo PTRef),
      (∀ i v r i2, f i n v = (r, i2) →
        i2.varClass = i.varClass ∧ i2.partialInterpolant = i.partialInterpolant ∧
        (∀ m w, (m ≠ n.id ∨ w ≠ v) → i2.colA m w = i.colA m w ∧ i2.colB m w = i.colB m w) ∧
        (r = .ok () → (i2.colA n.id v = true ∨ i2.colB n.id v = true))) →
      g.setLeafLabeling info n f = (.ok u, info1) →
      info1.varClass = info.varClass ∧ info1.partialInterpolant = info.partialInterpolant ∧
      (∀ m w, (m ≠ n.id ∨ ¬ (∃ l ∈ n.clause, var l = w ∧ g.isAssumedVar w = false ∧
          info.varClass w = .I_AB)) →
        info1.colA m w = info.colA m w ∧ info1.colB m w = info.colB m w) ∧
      (∀ l ∈ n.clause, g.isAssumedVar (var l) = false → info.varClass (var l) = .I_AB →
        (info1.colA n.id (var l) = true ∨ info1.colB n.id (var l) = true)) := by
    intro f hf hrun
    obtain ⟨a, b, c, _, e⟩ := setLeafLabeling_fold_spec g n f hf n.clause info info1 u hrun
    exact ⟨a, b, c, e⟩
  unfold ProofGraph.labelLeaf at h
  split_ifs at h
  · cases ps with
    | none => simp at h
    | some labels =>
      exact key _ (labelLeaf_colorFn (some labels) _ _ colorA_frame colorB_frame n) h
  · cases ps with
    | none => simp at h
    | some labels =>
      exact key _ (labelLeaf_colorFn (some labels) _ _ colorA_frame colorAB_frame n) h
  · cases ps with
    | none => simp at h
    | some labels =>
      exact key _ (labelLeaf_colorFn (some labels) _ _ colorAB_frame colorB_frame n) h
  · exact key _ (labelLeaf_colorFn none _ _ colorB_frame colorB_frame n) h
  · exact key _ (labelLeaf_colorFn none _ _ colorAB_frame colorAB_frame n) h
  · exact key _ (labelLeaf_colorFn none _ _ colorA_frame colorA_frame n) h
  · simp at h

/-! ## Shape of a successful step -/

theorem getPivotColor_frame (g : ProofGraph PTRef TS) (info : InterpolationInfo PTRef)
    (n : ProofNode) :
    (g.getPivotColor info n).2.varClass = info.varClass ∧
    (g.getPivotColor info n).2.partialInterpolant = info.partialInterpolant ∧
    (∀ m, m ≠ n.id → (g.getPivotColor info n).2.colA m = info.colA m ∧
      (g.getPivotColor info n).2.colB m = info.colB m) := by
  unfold ProofGraph.getPivotColor
  simp only
  split_ifs <;>
    (refine ⟨?_, ?_, ?_⟩
     · simp only [InterpolationInfo.updateColoringfromAnts,
         InterpolationInfo.clearPivotColoring]
       try (cases n.ants <;> rfl)
     · simp only [InterpolationInfo.updateColoringfromAnts,
         InterpolationInfo.clearPivotColoring]
       try (cases n.ants <;> rfl)
     · intro m hm
       simp only [InterpolationInfo.updateColoringfromAnts,
         InterpolationInfo.clearPivotColoring]
       cases hants : n.ants <;> simp [hm])

theorem getPivotColor_bits (g : ProofGraph PTRef TS) (info : InterpolationInfo PTRef)
    (n : ProofNode) (a1 a2 : Nat) (hants : n.ants = some (a1, a2)) (c : icolor_t)
    (hc : (g.getPivotColor info n).1 = .ok c) (w : Var) :
    ((g.getPivotColor info n).2.colA n.id w =
      if info.varClass n.pivot = .I_AB ∧ w = n.pivot then false
      else (info.colA a1 w || info.colA a2 w)) ∧
    ((g.getPivotColor info n).2.colB n.id w =
      if info.varClass n.pivot = .I_AB ∧ w = n.pivot then false
      else (info.colB a1 w || info.colB a2 w)) := by
  unfold ProofGraph.getPivotColor at hc ⊢
  simp only [InterpolationInfo.getVarClass] at hc ⊢
  by_cases hA : info.varClass n.pivot = .I_A
  · simp [hA, InterpolationInfo.updateColoringfromAnts, hants]
    split_ifs <;> simp [hants]
  · by_cases hB : info.varClass n.pivot = .I_B
    · simp [hB, InterpolationInfo.updateColoringfromAnts, hants]
      split_ifs <;> simp [hants]
    · by_cases hAB : info.varClass n.pivot = .I_AB
      · simp [hAB, InterpolationInfo.updateColoringfromAnts,
          InterpolationInfo.clearPivotColoring, hants]
        split_ifs <;> simp [hants]
      · simp [hA, hB, hAB] at hc


theorem getPivotColor_value (g : ProofGraph PTRef TS) (info : InterpolationInfo PTRef)
    (n : ProofNode) (a1 a2 : Nat) (hants : n.ants = some (a1, a2))
    (hna : g.isAssumedVar n.pivot = false)
    (hcls : info.varClass n.pivot = .I_A ∨ info.varClass n.pivot = .I_B ∨
      info.varClass n.pivot = .I_AB) :
    ((hasA info a1 n.pivot ∨ hasA info a2 n.pivot) →
      ¬ (hasB info a1 n.pivot ∨ hasB info a2 n.pivot) →
      (g.getPivotColor info n).1 = .ok .I_A) ∧
    (¬ (hasA info a1 n.pivot ∨ hasA info a2 n.pivot) →
      (hasB info a1 n.pivot ∨ hasB info a2 n.pivot) →
      (g.getPivotColor info n).1 = .ok .I_B) ∧
    ((hasA info a1 n.pivot ∨ hasA info a2 n.pivot) →
      (hasB info a1 n.pivot ∨ hasB info a2 n.pivot) →
      (g.getPivotColor info n).1 = .ok .I_AB) := by
  unfold ProofGraph.getPivotColor hasA hasB
  simp only [InterpolationInfo.getVarClass, hna]
  rcases hcls with h | h | h
  · simp [h]
  · simp [h]
  · simp only [h, getSharedVarColorInNode, InterpolationInfo.updateColoringfromAnts, hants]
    cases e1 : info.colA a1 n.pivot <;> cases e2 : info.colA a2 n.pivot <;>
      cases e3 : info.colB a1 n.pivot <;> cases e4 : info.colB a2 n.pivot <;> simp

theorem getPivotColor_AB_class (g : ProofGraph PTRef TS) (info : InterpolationInfo PTRef)
    (n : ProofNode) (h : (g.getPivotColor info n).1 = .ok .I_AB) :
    info.varClass n.pivot = .I_AB ∧ g.isAssumedVar n.pivot = false := by
  unfold ProofGraph.getPivotColor at h
  simp only [InterpolationInfo.getVarClass] at h
  by_cases hA : info.varClass n.pivot = .I_A
  · cases hass : g.isAssumedVar n.pivot <;> simp [hA, hass] at h
  · by_cases hB : info.varClass n.pivot = .I_B
    · cases hass : g.isAssumedVar n.pivot <;> simp [hB, hass] at h
    · by_cases hAB : info.varClass n.pivot = .I_AB
      · cases hass : g.isAssumedVar n.pivot
        · exact ⟨hAB, rfl⟩
        · simp [hAB, hass] at h
      · simp [hA, hB, hAB] at h

theorem compInterpLabelingInner_ok [DecidableEq PTRef] (g : ProofGraph PTRef TS)
    (info info1 : InterpolationInfo PTRef) (n : ProofNode) (t : PTRef)
    (h : g.compInterpLabelingInner info n = (.ok t, info1)) :
    ∃ a1 a2 I1 I2 c, n.ants = some (a1, a2) ∧
      info.partialInterpolant a1 = some I1 ∧ info.partialInterpolant a2 = some I2 ∧
      g.getPivotColor info n = (.ok c, info1) ∧
      (g.compInterpLabelingInner info n).1 = .ok t := by
  have h0 := h
  unfold ProofGraph.compInterpLabelingInner at h
  cases hants : n.ants with
  | none => simp [hants] at h
  | some p =>
    obtain ⟨a1, a2⟩ := p
    simp only [hants, InterpolationInfo.getPartialInterpolant] at h
    cases h1 : info.partialInterpolant a1 with
    | none => simp [h1] at h
    | some I1 =>
      cases h2 : info.partialInterpolant a2 with
      | none => simp [h1, h2] at h
      | some I2 =>
        simp only [h1, h2] at h
        rcases hp : g.getPivotColor info n with ⟨r, i⟩
        rw [hp] at h
        cases r with
        | error e => simp at h
        | ok c =>
          refine ⟨a1, a2, I1, I2, c, rfl, h1, h2, ?_, by rw [h0]⟩
          simp only at h
          split_ifs at h <;> simp only [Prod.mk.injEq] at h <;>
            (obtain ⟨_, rfl⟩ := h; rfl)


theorem theoryClause_ok [DecidableEq PTRef] (g : ProofGraph PTRef TS)
    (info : InterpolationInfo PTRef) (ts ts1 : TS) (n : ProofNode) (A_mask : ipartitions_t)
    (t : PTRef)
    (h : g.computePartialInterpolantForTheoryClause info ts n A_mask = (.ok t, ts1)) :
    ∃ cm ts2 ts3, g.thandler.getInterpolant A_mask cm ts2 = (.ok t, ts3) := by
  unfold ProofGraph.computePartialInterpolantForTheoryClause at h
  simp only at h
  repeat' split at h
  all_goals first
    | (simp at h; done)
    | (rename_i heq
       simp only [Prod.mk.injEq, Except.ok.injEq] at h
       obtain ⟨rfl, _⟩ := h
       exact ⟨_, _, _, heq⟩)

theorem processNode_ok [DecidableEq PTRef] (g : ProofGraph PTRef TS)
    (A_mask : ipartitions_t) (ps : Option (StdMap icolor_t)) (st st1 : RunState PTRef TS)
    (id : Nat) (u : Unit) (h : g.processNode A_mask ps st id = (.ok u, st1)) :
    ∃ n, g.getNode id = some n ∧
      ((n.isLeaf = true ∧ ∃ info1 t,
          g.labelLeaf st.interpolationInfo n ps = (.ok (), info1) ∧
          st1.interpolationInfo = info1.setPartialInterpolant n t ∧
          ((n.type = .CLA_ORIG ∧
              g.computePartialInterpolantForOriginalClause info1 n A_mask = .ok t) ∨
           (n.type = .CLA_THEORY ∧ ∃ ts1,
              g.computePartialInterpolantForTheoryClause info1 st.tstate n A_mask =
                (.ok t, ts1)) ∨
           (n.type ≠ .CLA_ORIG ∧ n.type ≠ .CLA_THEORY ∧
              (t = g.logic_.getTerm_false ∨ t = g.logic_.getTerm_true)))) ∨
       (n.isLeaf = false ∧ ∃ info1 t,
          g.compInterpLabelingInner st.interpolationInfo n = (.ok t, info1) ∧
          st1.interpolationInfo = info1.setPartialInterpolant n t)) := by
  unfold ProofGraph.processNode at h
  cases hn : g.getNode id with
  | none => simp [hn] at h
  | some n =>
    refine ⟨n, rfl, ?_⟩
    simp only [hn] at h
    cases hleaf : n.isLeaf with
    | false =>
      right
      simp only [hleaf, Bool.false_eq_true, if_false] at h
      rcases hc : g.compInterpLabelingInner st.interpolationInfo n with ⟨r, i1⟩
      rw [hc] at h
      cases r with
      | error e => simp at h
      | ok t =>
        simp only [Prod.mk.injEq] at h
        exact ⟨rfl, i1, t, rfl, by rw [← h.2]⟩
    | true =>
      left
      simp only [hleaf, if_true] at h
      by_cases hlt : (!isLeafClauseType n.type) = true
      · simp [hlt] at h
      · have hlt2 : (!isLeafClauseType n.type) = false := by simpa using hlt
        simp only [hlt2, Bool.false_eq_true, if_false] at h
        rcases hl : g.labelLeaf st.interpolationInfo n ps with ⟨r, i1⟩
        rw [hl] at h
        cases r with
        | error e => simp at h
        | ok u1 =>
          simp only at h
          by_cases hO : n.type = .CLA_ORIG
          · simp only [hO, if_true] at h
            cases ho : g.computePartialInterpolantForOriginalClause i1 n A_mask with
            | error e => simp [ho] at h
            | ok t =>
              simp only [ho, Prod.mk.injEq] at h
              exact ⟨rfl, i1, t, rfl, by rw [← h.2], Or.inl ⟨hO, ho⟩⟩
          · simp only [hO, if_false] at h
            by_cases hT : n.type = .CLA_THEORY
            · simp only [hT, if_true] at h
              rcases ht : g.computePartialInterpolantForTheoryClause i1 st.tstate n A_mask with
                ⟨r, ts1⟩
              rw [ht] at h
              cases r with
              | error e => simp at h
              | ok t =>
                simp only [Prod.mk.injEq] at h
                exact ⟨rfl, i1, t, rfl, by rw [← h.2], Or.inr (Or.inl ⟨hT, ts1, ht⟩)⟩
            · simp only [hT, if_false] at h
              by_cases hS : n.type = .CLA_SPLIT
              · simp only [hS, if_true] at h
                cases hh : n.clause.head? with
                | none => simp [hh] at h
                | some l0 =>
                  simp only [hh, Prod.mk.injEq] at h
                  refine ⟨rfl, i1, _, rfl, by rw [← h.2], Or.inr (Or.inr ⟨hO, hT, ?_⟩)⟩
                  split_ifs <;> simp
              · simp only [hS, if_false, Prod.mk.injEq] at h
                exact ⟨rfl, i1, _, rfl, by rw [← h.2],
                  Or.inr (Or.inr ⟨hO, hT, Or.inr rfl⟩)⟩

theorem traverse_ok_induct [DecidableEq PTRef] (g : ProofGraph PTRef TS)
    (A_mask : ipartitions_t) (ps : Option (StdMap icolor_t))
    (Q : List Nat → RunState PTRef TS → Prop)
    (hstep : ∀ seen st id st1 u, Q seen st → id ∈ g.DFSv →
      g.processNode A_mask ps st id = (.ok u, st1) → Q (id :: seen) st1) :
    ∀ (ids seen : List Nat) (st st1 : RunState PTRef TS) (u : Unit),
      (∀ id ∈ ids, id ∈ g.DFSv) → Q seen st →
      g.traverse A_mask ps ids st = (.ok u, st1) → Q (ids.reverse ++ seen) st1 := by
  intro ids
  induction ids with
  | nil =>
    intro seen st st1 u _ hQ h
    simp only [ProofGraph.traverse, Prod.mk.injEq] at h
    rw [← h.2]
    simpa using hQ
  | cons id rest ih =>
    intro seen st st1 u hmem hQ h
    simp only [ProofGraph.traverse] at h
    rcases hp : g.processNode A_mask ps st id with ⟨r, st2⟩
    rw [hp] at h
    cases r with
    | error e => simp at h
    | ok u2 =>
      simp only at h
      have hQ2 := hstep seen st id st2 u2 hQ (hmem id (List.mem_cons_self _ _)) hp
      have := ih (id :: seen) st2 st1 u (fun x hx => hmem x (List.mem_cons_of_mem _ hx)) hQ2 h
      simpa using this

/-! ## Variables of the stored partial interpolants -/

theorem origClause_occurs (g : ProofGraph PTRef TS) (occurs : Var → PTRef → Prop)
    (hocc : LogicOccurrence g.logic_ g.varToPTRef occurs)
    (info : InterpolationInfo PTRef) (n : ProofNode) (A_mask : ipartitions_t) (t : PTRef)
    (h : g.computePartialInterpolantForOriginalClause info n A_mask = .ok t)
    (v : Var) (hv : occurs v t) :
    ∃ c, g.getClauseColor n.clauseRef A_mask = .ok c ∧
      ∃ l ∈ g.getRestrictedNodeClause info n (if c = .I_B then .I_A else .I_B), var l = v := by
  unfold ProofGraph.computePartialInterpolantForOriginalClause at h
  cases hc : g.getClauseColor n.clauseRef A_mask with
  | error e => simp [hc] at h
  | ok c =>
    refine ⟨c, rfl, ?_⟩
    simp only [hc] at h
    have hA : ∀ t, g.getInterpolantForOriginalClause info n .I_A = .ok t → occurs v t →
        ∃ l ∈ g.getRestrictedNodeClause info n .I_B, var l = v := by
      intro t ht hv
      rw [getInterpolantForOriginalClause_A] at ht
      simp only [Except.ok.injEq] at ht
      subst ht
      split_ifs at hv with hR
      · exact absurd hv (hocc.false_closed v)
      · obtain ⟨t1, ht1, hv1⟩ := hocc.of_or v _ hv
        obtain ⟨l, hl, rfl⟩ := List.mem_map.mp ht1
        refine ⟨l, hl, ?_⟩
        split_ifs at hv1
        · exact (hocc.of_var _ _ (hocc.of_not _ _ hv1)).symm
        · exact (hocc.of_var _ _ hv1).symm
    have hB : ∀ t, g.getInterpolantForOriginalClause info n .I_B = .ok t → occurs v t →
        ∃ l ∈ g.getRestrictedNodeClause info n .I_A, var l = v := by
      intro t ht hv
      rw [getInterpolantForOriginalClause_B] at ht
      simp only [Except.ok.injEq] at ht
      subst ht
      split_ifs at hv with hR
      · exact absurd hv (hocc.true_closed v)
      · obtain ⟨t1, ht1, hv1⟩ := hocc.of_and v _ hv
        obtain ⟨l, hl, rfl⟩ := List.mem_map.mp ht1
        refine ⟨l, hl, ?_⟩
        split_ifs at hv1
        · exact (hocc.of_var _ _ hv1).symm
        · exact (hocc.of_var _ _ (hocc.of_not _ _ hv1)).symm
    rcases getClauseColor_ne_undef g _ _ _ hc with rfl | rfl | rfl
    · simpa using hA t (by simpa using h) hv
    · simpa using hB t (by simpa using h) hv
    · simpa using hA t (by simpa using h) hv

theorem labelLeaf_bitsOK (g : ProofGraph PTRef TS) (info info1 : InterpolationInfo PTRef)
    (n : ProofNode) (ps : Option (StdMap icolor_t)) (u : Unit)
    (h : g.labelLeaf info n ps = (.ok u, info1)) (hb : BitsOK info) : BitsOK info1 := by
  obtain ⟨h1, _, h3, _⟩ := labelLeaf_spec g info info1 n ps u h
  intro m v hv
  rw [h1]
  by_cases hc : m ≠ n.id ∨ ¬ (∃ l ∈ n.clause, var l = v ∧ g.isAssumedVar v = false ∧
      info.varClass v = .I_AB)
  · obtain ⟨e1, e2⟩ := h3 m v hc
    rw [e1, e2] at hv
    exact hb m v hv
  · simp only [not_or, not_not] at hc
    obtain ⟨_, l, _, _, _, hcl⟩ := hc
    exact hcl

theorem getPivotColor_bitsOK (g : ProofGraph PTRef TS) (info info1 : InterpolationInfo PTRef)
    (n : ProofNode) (a1 a2 : Nat) (hants : n.ants = some (a1, a2)) (c : icolor_t)
    (h : g.getPivotColor info n = (.ok c, info1)) (hb : BitsOK info) : BitsOK info1 := by
  have hc : (g.getPivotColor info n).1 = .ok c := by rw [h]
  have hf := getPivotColor_frame g info n
  have hbits := getPivotColor_bits g info n a1 a2 hants c hc
  rw [h] at hf hbits
  obtain ⟨f1, _, f3⟩ := hf
  intro m v hv
  simp only at f1 f3 hbits
  rw [f1]
  by_cases hm : m = n.id
  · subst hm
    obtain ⟨b1, b2⟩ := hbits v
    rw [b1, b2] at hv
    split_ifs at hv with hp
    · simp at hv
    · simp only [Bool.or_eq_true] at hv
      rcases hv with (hv | hv) | (hv | hv)
      · exact hb a1 v (Or.inl hv)
      · exact hb a2 v (Or.inl hv)
      · exact hb a1 v (Or.inr hv)
      · exact hb a2 v (Or.inr hv)
  · obtain ⟨e1, e2⟩ := f3 m hm
    rw [e1, e2] at hv
    exact hb m v hv

theorem processNode_terms [DecidableEq PTRef] (g : ProofGraph PTRef TS)
    (occurs : Var → PTRef → Prop) (hocc : LogicOccurrence g.logic_ g.varToPTRef occurs)
    (P : Var → Prop) (A_mask : ipartitions_t) (ps : Option (StdMap icolor_t))
    (hleaf : ∀ id ∈ g.DFSv, ∀ n, g.getNode id = some n → n.type = .CLA_ORIG →
      ∀ info : InterpolationInfo PTRef, ClassesOK g A_mask info → BitsOK info →
      ∀ c, g.getClauseColor n.clauseRef A_mask = .ok c →
      ∀ l ∈ g.getRestrictedNodeClause info n (if c = .I_B then .I_A else .I_B), P (var l))
    (hth : ∀ cm ts t ts1, g.thandler.getInterpolant A_mask cm ts = (.ok t, ts1) →
      ∀ v, occurs v t → P v)
    (hpiv : ∀ v, g.getVarClass v A_mask = .ok .I_AB → g.isAssumedVar v = false → P v)
    (st st1 : RunState PTRef TS) (id : Nat) (u : Unit) (hid : id ∈ g.DFSv)
    (hinv : ClassesOK g A_mask st.interpolationInfo ∧ BitsOK st.interpolationInfo ∧
      TermsOK occurs P st.interpolationInfo)
    (h : g.processNode A_mask ps st id = (.ok u, st1)) :
    ClassesOK g A_mask st1.interpolationInfo ∧ BitsOK st1.interpolationInfo ∧
      TermsOK occurs P st1.interpolationInfo := by
  obtain ⟨hC, hB, hT⟩ := hinv
  have hset : ∀ (info1 : InterpolationInfo PTRef) (n : ProofNode) (t : PTRef),
      ClassesOK g A_mask info1 → BitsOK info1 → TermsOK occurs P info1 →
      (∀ v, occurs v t → P v) →
      ClassesOK g A_mask (info1.setPartialInterpolant n t) ∧
      BitsOK (info1.setPartialInterpolant n t) ∧
      TermsOK occurs P (info1.setPartialInterpolant n t) := by
    intro info1 n t c b tm ht
    refine ⟨c, b, ?_⟩
    intro m t2 hm v hv
    simp only [InterpolationInfo.setPartialInterpolant] at hm
    split_ifs at hm
    · simp only [Option.some.injEq] at hm
      subst hm
      exact ht v hv
    · exact tm m t2 hm v hv
  obtain ⟨n, hn, hcase⟩ := processNode_ok g A_mask ps st st1 id u h
  rcases hcase with ⟨_, info1, t, hl, hst, hkind⟩ | ⟨_, info1, t, hc, hst⟩
  · obtain ⟨l1, l2, _, _⟩ := labelLeaf_spec g _ info1 n ps () hl
    have hC1 : ClassesOK g A_mask info1 := by
      intro v; rw [l1]; exact hC v
    have hB1 : BitsOK info1 := labelLeaf_bitsOK g _ info1 n ps () hl hB
    have hT1 : TermsOK occurs P info1 := by
      intro m t2 hm; rw [l2] at hm; exact hT m t2 hm
    rw [hst]
    apply hset info1 n t hC1 hB1 hT1
    rcases hkind with ⟨hO, ho⟩ | ⟨_, ts1, ht⟩ | ⟨_, _, ht⟩
    · intro v hv
      obtain ⟨c, hc, l, hl, rfl⟩ := origClause_occurs g occurs hocc info1 n A_mask t ho v hv
      exact hleaf id hid n hn hO info1 hC1 hB1 c hc l hl
    · obtain ⟨cm, ts2, ts3, hg⟩ := theoryClause_ok g info1 _ ts1 n A_mask t ht
      exact hth cm ts2 t ts3 hg
    · intro v hv
      rcases ht with rfl | rfl
      · exact absurd hv (hocc.false_closed v)
      · exact absurd hv (hocc.true_closed v)
  · obtain ⟨a1, a2, I1, I2, c, hants, h1, h2, hp, hval⟩ :=
      compInterpLabelingInner_ok g _ info1 n t hc
    have hf := getPivotColor_frame g st.interpolationInfo n
    rw [hp] at hf
    obtain ⟨f1, f2, _⟩ := hf
    simp only at f1 f2
    have hC1 : ClassesOK g A_mask info1 := by
      intro v; rw [f1]; exact hC v
    have hB1 : BitsOK info1 := getPivotColor_bitsOK g _ info1 n a1 a2 hants c hp hB
    have hT1 : TermsOK occurs P info1 := by
      intro m t2 hm; rw [f2] at hm; exact hT m t2 hm
    rw [hst]
    apply hset info1 n t hC1 hB1 hT1
    have hc1 : (g.getPivotColor st.interpolationInfo n).1 = .ok c := by rw [hp]
    have e := compInterpLabelingInner_eq g _ n a1 a2 I1 I2 hants h1 h2 c hc1
    rw [hval] at e
    have hI1 : ∀ v, occurs v I1 → P v := hT a1 I1 h1
    have hI2 : ∀ v, occurs v I2 → P v := hT a2 I2 h2
    have hpair : ∀ (x y : PTRef) (v : Var), (∀ v, occurs v x → P v) → (∀ v, occurs v y → P v) →
        (∀ t ∈ [x, y], occurs v t → P v) := by
      intro x y v hx hy t ht
      simp only [List.mem_cons, List.mem_singleton, List.not_mem_nil, or_false] at ht
      rcases ht with rfl | rfl
      · exact hx v
      · exact hy v
    intro v hv
    split_ifs at e with hS hal hA hBc hAB halt
    all_goals simp only [Except.ok.injEq] at e
    · subst e; exact hI2 v hv
    · subst e; exact hI1 v hv
    · subst e
      obtain ⟨t1, ht1, hv1⟩ := hocc.of_or v _ hv
      exact hpair I1 I2 v hI1 hI2 t1 ht1 hv1
    · subst e
      obtain ⟨t1, ht1, hv1⟩ := hocc.of_and v _ hv
      exact hpair I1 I2 v hI1 hI2 t1 ht1 hv1
    · subst hAB
      obtain ⟨k1, k2⟩ := getPivotColor_AB_class g _ n hc1
      have hPp : P n.pivot := by
        apply hpiv _ _ k2
        rcases hC n.pivot with hu | hu
        · rw [k1] at hu; cases hu
        · rw [hu, k1]
      have hpt : ∀ v, occurs v (g.varToPTRef n.pivot) → P v := by
        intro v hv; rw [hocc.of_var _ _ hv]; exact hPp
      have hnpt : ∀ v, occurs v (g.logic_.mkNot (g.varToPTRef n.pivot)) → P v :=
        fun v hv => hpt v (hocc.of_not _ _ hv)
      subst e
      obtain ⟨t1, ht1, hv1⟩ := hocc.of_or v _ hv
      simp only [List.mem_cons, List.mem_singleton, List.not_mem_nil, or_false] at ht1
      rcases ht1 with rfl | rfl
      · obtain ⟨t2, ht2, hv2⟩ := hocc.of_and v _ hv1
        exact hpair _ _ v hI1 hnpt t2 ht2 hv2
      · obtain ⟨t2, ht2, hv2⟩ := hocc.of_and v _ hv1
        exact hpair _ _ v hI2 hpt t2 ht2 hv2
    · subst hAB
      obtain ⟨k1, k2⟩ := getPivotColor_AB_class g _ n hc1
      have hPp : P n.pivot := by
        apply hpiv _ _ k2
        rcases hC n.pivot with hu | hu
        · rw [k1] at hu; cases hu
        · rw [hu, k1]
      have hpt : ∀ v, occurs v (g.varToPTRef n.pivot) → P v := by
        intro v hv; rw [hocc.of_var _ _ hv]; exact hPp
      have hnpt : ∀ v, occurs v (g.logic_.mkNot (g.varToPTRef n.pivot)) → P v :=
        fun v hv => hpt v (hocc.of_not _ _ hv)
      subst e
      obtain ⟨t1, ht1, hv1⟩ := hocc.of_and v _ hv
      simp only [List.mem_cons, List.mem_singleton, List.not_mem_nil, or_false] at ht1
      rcases ht1 with rfl | rfl
      · obtain ⟨t2, ht2, hv2⟩ := hocc.of_or v _ hv1
        exact hpair _ _ v hI1 hpt t2 ht2 hv2
      · obtain ⟨t2, ht2, hv2⟩ := hocc.of_or v _ hv1
        exact hpair _ _ v hI2 hnpt t2 ht2 hv2

/-! ## Shape of a successful run -/

theorem produceSingleInterpolant_ok [DecidableEq PTRef] (g : ProofGraph PTRef TS)
    (interpolants : List PTRef) (A_mask : ipartitions_t) (st : RunState PTRef TS)
    (h : (g.produceSingleInterpolant interpolants A_mask st).result = .ok ()) :
    ∃ info0 ps st1 rootNode I,
      g.checkInterAlgo = .ok () ∧
      InterpolationInfo.reset g.proof_variables (fun v => g.getVarClass v A_mask) =
        (.ok (), info0) ∧
      g.traverse A_mask ps g.DFSv { st with interpolationInfo := info0 } = (.ok (), st1) ∧
      g.getNode g.root = some rootNode ∧
      st1.interpolationInfo.partialInterpolant rootNode.id = some I ∧
      g.produceSingleInterpolant interpolants A_mask st =
        { result := .ok (), state := st1, interpolants := interpolants ++ [I] } := by
  unfold ProofGraph.produceSingleInterpolant at h ⊢
  cases hchk : g.checkInterAlgo with
  | error e => simp [hchk] at h
  | ok u0 =>
    simp only [hchk] at h ⊢
    rcases hr : InterpolationInfo.reset g.proof_variables (fun v => g.getVarClass v A_mask)
      with ⟨r, info0⟩
    rw [hr] at h
    cases r with
    | error e => simp at h
    | ok u1 =>
      simp only at h ⊢
      rcases hps : g.selectPSFunction info0 A_mask with e | ps
      · simp [hps] at h
      · simp only [hps] at h ⊢
        rcases ht : g.traverse A_mask ps g.DFSv { st with interpolationInfo := info0 }
          with ⟨r2, st1⟩
        rw [ht] at h
        cases r2 with
        | error e => simp at h
        | ok u2 =>
          simp only at h ⊢
          cases hroot : g.getNode g.root with
          | none => simp [hroot] at h
          | some rootNode =>
            simp only [hroot] at h ⊢
            cases hI : st1.interpolationInfo.getPartialInterpolant rootNode.id with
            | none => simp [hI] at h
            | some I =>
              exact ⟨info0, ps, st1, rootNode, I, trivial, rfl, ht, rfl, hI, by simp [hI]⟩

theorem produceSingleInterpolant_terms [DecidableEq PTRef] (g : ProofGraph PTRef TS)
    (occurs : Var → PTRef → Prop) (hocc : LogicOccurrence g.logic_ g.varToPTRef occurs)
    (P : Var → Prop) (A_mask : ipartitions_t)
    (hleaf : ∀ id ∈ g.DFSv, ∀ n, g.getNode id = some n → n.type = .CLA_ORIG →
      ∀ info : InterpolationInfo PTRef, ClassesOK g A_mask info → BitsOK info →
      ∀ c, g.getClauseColor n.clauseRef A_mask = .ok c →
      ∀ l ∈ g.getRestrictedNodeClause info n (if c = .I_B then .I_A else .I_B), P (var l))
    (hth : ∀ cm ts t ts1, g.thandler.getInterpolant A_mask cm ts = (.ok t, ts1) →
      ∀ v, occurs v t → P v)
    (hpiv : ∀ v, g.getVarClass v A_mask = .ok .I_AB → g.isAssumedVar v = false → P v)
    (interpolants : List PTRef) (st : RunState PTRef TS)
    (h : (g.produceSingleInterpolant interpolants A_mask st).result = .ok ()) :
    ∃ I, (g.produceSingleInterpolant interpolants A_mask st).interpolants =
        interpolants ++ [I] ∧ ∀ v, occurs v I → P v := by
  obtain ⟨info0, ps, st1, rootNode, I, _, hreset, htrav, _, hI, hrun⟩ :=
    produceSingleInterpolant_ok g interpolants A_mask st h
  refine ⟨I, by rw [hrun], ?_⟩
  obtain ⟨r1, r2, r3, r4, _⟩ := reset_spec _ _ info0 () hreset
  have hinv0 : ClassesOK g A_mask info0 ∧ BitsOK info0 ∧ TermsOK occurs P info0 := by
    refine ⟨r4, ?_, ?_⟩
    · intro m v hv; simp [r1, r2] at hv
    · intro m t hm; simp [r3] at hm
  have := traverse_ok_induct g A_mask ps
    (fun _ s => ClassesOK g A_mask s.interpolationInfo ∧ BitsOK s.interpolationInfo ∧
      TermsOK occurs P s.interpolationInfo)
    (fun seen s id s1 u hQ hid hstep =>
      processNode_terms g occurs hocc P A_mask ps hleaf hth hpiv s s1 id u hid hQ hstep)
    g.DFSv [] _ st1 () (fun _ hx => hx) hinv0 htrav
  exact this.2.2 _ I hI

/-! ## The concrete term store satisfies the laws -/

theorem Term.vars_mkNot (v : Var) (t : Term) (h : v ∈ Term.vars (Term.mkNot t)) :
    v ∈ Term.vars t := by
  cases t <;> simp [Term.mkNot, Term.vars] at h ⊢ <;> exact h

theorem Term.vars_foldl_disj (v : Var) (rest : List Term) :
    ∀ t : Term, v ∈ Term.vars (rest.foldl Term.disj t) →
      v ∈ Term.vars t ∨ ∃ r ∈ rest, v ∈ Term.vars r := by
  induction rest with
  | nil => intro t h; exact Or.inl h
  | cons a rest ih =>
    intro t h
    simp only [List.foldl_cons] at h
    rcases ih _ h with h1 | ⟨r, hr, hv⟩
    · simp only [Term.vars, List.mem_append] at h1
      rcases h1 with h1 | h1
      · exact Or.inl h1
      · exact Or.inr ⟨a, List.mem_cons_self _ _, h1⟩
    · exact Or.inr ⟨r, List.mem_cons_of_mem _ hr, hv⟩

theorem Term.vars_foldl_conj (v : Var) (rest : List Term) :
    ∀ t : Term, v ∈ Term.vars (rest.foldl Term.conj t) →
      v ∈ Term.vars t ∨ ∃ r ∈ rest, v ∈ Term.vars r := by
  induction rest with
  | nil => intro t h; exact Or.inl h
  | cons a rest ih =>
    intro t h
    simp only [List.foldl_cons] at h
    rcases ih _ h with h1 | ⟨r, hr, hv⟩
    · simp only [Term.vars, List.mem_append] at h1
      rcases h1 with h1 | h1
      · exact Or.inl h1
      · exact Or.inr ⟨a, List.mem_cons_self _ _, h1⟩
    · exact Or.inr ⟨r, List.mem_cons_of_mem _ hr, hv⟩

theorem Term.vars_mkOr (v : Var) (ts : List Term) (h : v ∈ Term.vars (Term.mkOr ts)) :
    ∃ t ∈ ts, v ∈ Term.vars t := by
  unfold Term.mkOr at h
  simp only at h
  split_ifs at h
  · simp [Term.vars] at h
  · cases hargs : ts.filter (fun t => decide (t ≠ Term.ff)) with
    | nil => rw [hargs] at h; simp [Term.vars] at h
    | cons a rest =>
      rw [hargs] at h
      simp only at h
      have hsub : ∀ r ∈ a :: rest, r ∈ ts := by
        intro r hr
        rw [← hargs] at hr
        exact (List.mem_filter.mp hr).1
      rcases Term.vars_foldl_disj v rest a h with h1 | ⟨r, hr, hv⟩
      · exact ⟨a, hsub a (List.mem_cons_self _ _), h1⟩
      · exact ⟨r, hsub r (List.mem_cons_of_mem _ hr), hv⟩

theorem Term.vars_mkAnd (v : Var) (ts : List Term) (h : v ∈ Term.vars (Term.mkAnd ts)) :
    ∃ t ∈ ts, v ∈ Term.vars t := by
  unfold Term.mkAnd at h
  simp only at h
  split_ifs at h
  · simp [Term.vars] at h
  · cases hargs : ts.filter (fun t => decide (t ≠ Term.tt)) with
    | nil => rw [hargs] at h; simp [Term.vars] at h
    | cons a rest =>
      rw [hargs] at h
      simp only at h
      have hsub : ∀ r ∈ a :: rest, r ∈ ts := by
        intro r hr
        rw [← hargs] at hr
        exact (List.mem_filter.mp hr).1
      rcases Term.vars_foldl_conj v rest a h with h1 | ⟨r, hr, hv⟩
      · exact ⟨a, hsub a (List.mem_cons_self _ _), h1⟩
      · exact ⟨r, hsub r (List.mem_cons_of_mem _ hr), hv⟩

theorem termLogic_occurrence :
    LogicOccurrence termLogic Term.atom (fun v t => v ∈ Term.vars t) where
  true_closed := by intro v; simp [termLogic, Term.vars]
  false_closed := by intro v; simp [termLogic, Term.vars]
  of_not := fun v t h => Term.vars_mkNot v t h
  of_and := fun v ts h => Term.vars_mkAnd v ts h
  of_or := fun v ts h => Term.vars_mkOr v ts h
  of_var := by intro v w h; simpa [Term.vars] using h

theorem Term.eval_mkNot (σ : Var → Bool) (t : Term) :
    Term.eval σ (Term.mkNot t) = !Term.eval σ t := by
  cases t <;> simp [Term.mkNot, Term.eval]

theorem Term.eval_foldl_disj (σ : Var → Bool) (rest : List Term) :
    ∀ t : Term, Term.eval σ (rest.foldl Term.disj t) =
      (Term.eval σ t || rest.any (Term.eval σ)) := by
  induction rest with
  | nil => intro t; simp
  | cons a rest ih => intro t; simp [List.foldl_cons, ih, Term.eval, Bool.or_assoc]

theorem Term.eval_foldl_conj (σ : Var → Bool) (rest : List Term) :
    ∀ t : Term, Term.eval σ (rest.foldl Term.conj t) =
      (Term.eval σ t && rest.all (Term.eval σ)) := by
  induction rest with
  | nil => intro t; simp
  | cons a rest ih => intro t; simp [List.foldl_cons, ih, Term.eval, Bool.and_assoc]

theorem Term.any_filter_ff (σ : Var → Bool) (ts : List Term) :
    (ts.filter (fun t => decide (t ≠ Term.ff))).any (Term.eval σ) = ts.any (Term.eval σ) := by
  rw [List.any_filter]
  congr 1
  funext a
  by_cases ha : a = Term.ff
  · subst ha; simp [Term.eval]
  · simp [ha]

theorem Term.all_filter_tt (σ : Var → Bool) (ts : List Term) :
    (ts.filter (fun t => decide (t ≠ Term.tt))).all (Term.eval σ) = ts.all (Term.eval σ) := by
  rw [List.all_filter]
  congr 1
  funext a
  by_cases ha : a = Term.tt
  · subst ha; simp [Term.eval]
  · simp [ha]

theorem Term.eval_mkOr (σ : Var → Bool) (ts : List Term) :
    Term.eval σ (Term.mkOr ts) = ts.any (Term.eval σ) := by
  rw [← Term.any_filter_ff σ ts]
  unfold Term.mkOr
  simp only
  split_ifs with h
  · obtain ⟨t, ht, htt⟩ := List.any_eq_true.mp h
    simp only [decide_eq_true_eq] at htt
    subst htt
    symm
    simp only [Term.eval]
    exact List.any_eq_true.mpr ⟨Term.tt, ht, rfl⟩
  · cases hargs : ts.filter (fun t => decide (t ≠ Term.ff)) with
    | nil => simp [Term.eval]
    | cons a rest => simp [Term.eval_foldl_disj]

theorem Term.eval_mkAnd (σ : Var → Bool) (ts : List Term) :
    Term.eval σ (Term.mkAnd ts) = ts.all (Term.eval σ) := by
  rw [← Term.all_filter_tt σ ts]
  unfold Term.mkAnd
  simp only
  split_ifs with h
  · obtain ⟨t, ht, htt⟩ := List.any_eq_true.mp h
    simp only [decide_eq_true_eq] at htt
    subst htt
    symm
    simp only [Term.eval]
    rw [List.all_eq_false]
    exact ⟨Term.ff, ht, by simp [Term.eval]⟩
  · cases hargs : ts.filter (fun t => decide (t ≠ Term.tt)) with
    | nil => simp [Term.eval]
    | cons a rest => simp [Term.eval_foldl_conj]

theorem termLogic_semantics : LogicSemantics termLogic Term.atom Term.eval where
  eval_true := by intro σ; rfl
  eval_false := by intro σ; rfl
  eval_not := fun σ t => Term.eval_mkNot σ t
  eval_and := fun σ ts => Term.eval_mkAnd σ ts
  eval_or := fun σ ts => Term.eval_mkOr σ ts
  eval_var := by intro σ v; rfl

/-! ## Symbols of the root interpolant -/

theorem getVarColor_class (g : ProofGraph PTRef TS) (A_mask : ipartitions_t)
    (info : InterpolationInfo PTRef) (hC : ClassesOK g A_mask info) (hB : BitsOK info)
    (n : ProofNode) (v : Var) (w : icolor_t) (hw : w = .I_A ∨ w = .I_B)
    (h : getVarColor info n v = w) :
    g.getVarClass v A_mask = .ok w ∨ g.getVarClass v A_mask = .ok .I_AB := by
  unfold getVarColor at h
  simp only [InterpolationInfo.getVarClass] at h
  by_cases hcls : info.varClass v = .I_B ∨ info.varClass v = .I_A
  · simp only [hcls, if_true] at h
    left
    rcases hC v with hu | hu
    · rw [hu] at hcls; simp at hcls
    · rw [hu, h]
  · simp only [hcls, if_false] at h
    right
    have hbit : info.colA n.id v = true ∨ info.colB n.id v = true := by
      unfold getSharedVarColorInNode at h
      cases ea : info.colA n.id v <;> cases eb : info.colB n.id v <;> simp [ea, eb] at h ⊢
      rcases hw with rfl | rfl <;> cases h
    have hAB := hB n.id v hbit
    rcases hC v with hu | hu
    · rw [hAB] at hu; cases hu
    · rw [hu, hAB]

/-- C2. Interpolant symbols: let every variable of a leaf clause attributed to A (clause
mask of class A, or AB which the code treats as A) be A- or AB-class, every variable of a
B-class leaf clause be B- or AB-class, and the theory handler return terms over AB-class
variables only.  Then every variable occurring in the root's partial interpolant that
`produceSingleInterpolant` appends has class AB under the run's A-mask (the constants
contain no variable). -/
theorem root_interpolant_symbols_AB [DecidableEq PTRef] (g : ProofGraph PTRef TS)
    (occurs : Var → PTRef → Prop) (hocc : LogicOccurrence g.logic_ g.varToPTRef occurs)
    (A_mask : ipartitions_t) (interpolants : List PTRef) (st : RunState PTRef TS)
    (hlocA : ∀ id ∈ g.DFSv, ∀ n, g.getNode id = some n → n.type = .CLA_ORIG →
      g.attributedToA A_mask n → ∀ l ∈ n.clause,
        g.getVarClass (var l) A_mask = .ok .I_A ∨ g.getVarClass (var l) A_mask = .ok .I_AB)
    (hlocB : ∀ id ∈ g.DFSv, ∀ n, g.getNode id = some n → n.type = .CLA_ORIG →
      g.attributedToB A_mask n → ∀ l ∈ n.clause,
        g.getVarClass (var l) A_mask = .ok .I_B ∨ g.getVarClass (var l) A_mask = .ok .I_AB)
    (hth : ∀ cm ts t ts1, g.thandler.getInterpolant A_mask cm ts = (.ok t, ts1) →
      ∀ v, occurs v t → g.getVarClass v A_mask = .ok .I_AB)
    (hrun : (g.produceSingleInterpolant interpolants A_mask st).result = .ok ()) :
    ∃ I, (g.produceSingleInterpolant interpolants A_mask st).interpolants =
        interpolants ++ [I] ∧
      ∀ v, occurs v I → g.getVarClass v A_mask = .ok .I_AB := by
  apply produceSingleInterpolant_terms g occurs hocc
    (fun v => g.getVarClass v A_mask = .ok .I_AB) A_mask ?_ hth (fun v h _ => h)
    interpolants st hrun
  intro id hid n hn hO info hC hB c hc l hl
  rw [getRestrictedNodeClause_eq_filter] at hl
  obtain ⟨hlc, hcond⟩ := List.mem_filter.mp hl
  simp only [Bool.and_eq_true, Bool.not_eq_true', decide_eq_true_eq] at hcond
  obtain ⟨_, hcol⟩ := hcond
  rcases getClauseColor_ne_undef g _ _ _ hc with rfl | rfl | rfl
  · simp only [reduceCtorEq, if_false] at hcol
    rcases getVarColor_class g A_mask info hC hB n (var l) .I_B (Or.inr rfl) hcol with h | h
    · rcases hlocA id hid n hn hO (Or.inl hc) l hlc with h2 | h2
      · rw [h] at h2; cases h2
      · exact h2
    · exact h
  · simp only [if_true] at hcol
    rcases getVarColor_class g A_mask info hC hB n (var l) .I_A (Or.inl rfl) hcol with h | h
    · rcases hlocB id hid n hn hO hc l hlc with h2 | h2
      · rw [h] at h2; cases h2
      · exact h2
    · exact h
  · simp only [reduceCtorEq, if_false] at hcol
    rcases getVarColor_class g A_mask info hC hB n (var l) .I_B (Or.inr rfl) hcol with h | h
    · rcases hlocA id hid n hn hO (Or.inr hc) l hlc with h2 | h2
      · rw [h] at h2; cases h2
      · exact h2
    · exact h

theorem s1Graph_getNode (algo : ItpAlgorithm) (alt : Bool) (id : Nat) (n : ProofNode)
    (h : (s1Graph algo alt).getNode id = some n) :
    n = ⟨0, .CLA_ORIG, [⟨0, false⟩, ⟨1, false⟩], 0, none, 0⟩ ∨
    n = ⟨1, .CLA_ORIG, [⟨0, true⟩], 1, none, 0⟩ ∨
    n = ⟨2, .CLA_ORIG, [⟨1, true⟩], 2, none, 0⟩ ∨
    n = s1Node3 ∨ n = s1Node4 := by
  unfold ProofGraph.getNode s1Graph at h
  simp only at h
  match id, h with
  | 0, h => left; simpa using h.symm
  | 1, h => right; left; simpa using h.symm
  | 2, h => right; right; left; simpa using h.symm
  | 3, h => right; right; right; left; simpa [s1Node3] using h.symm
  | 4, h => right; right; right; right; simpa [s1Node4] using h.symm
  | (k + 5), h => simp at h

theorem s1Graph_class_p (algo : ItpAlgorithm) (alt : Bool) :
    (s1Graph algo alt).getVarClass 0 1 = .ok .I_A := by with_unfolding_all rfl

theorem s1Graph_class_q (algo : ItpAlgorithm) (alt : Bool) :
    (s1Graph algo alt).getVarClass 1 1 = .ok .I_AB := by with_unfolding_all rfl

theorem s1Graph_color_B (algo : ItpAlgorithm) (alt : Bool) :
    (s1Graph algo alt).getClauseColor 2 1 = .ok .I_B := by with_unfolding_all rfl

theorem s1Graph_color_A0 (algo : ItpAlgorithm) (alt : Bool) :
    (s1Graph algo alt).getClauseColor 0 1 = .ok .I_A := by with_unfolding_all rfl

theorem s1Graph_color_A1 (algo : ItpAlgorithm) (alt : Bool) :
    (s1Graph algo alt).getClauseColor 1 1 = .ok .I_A := by with_unfolding_all rfl

/-- C2, instance: scenario S1 under McMillan; the root interpolant is `q`, and `q` is the
only AB-class variable. -/
theorem root_interpolant_symbols_AB_witness :
    ((s1Graph .mcmillan false).produceSingleInterpolant [] 1
        ⟨InterpolationInfo.cleared, ()⟩).interpolants = [Term.atom 1] ∧
    ∃ I, ((s1Graph .mcmillan false).produceSingleInterpolant [] 1
        ⟨InterpolationInfo.cleared, ()⟩).interpolants = [] ++ [I] ∧
      ∀ v, v ∈ Term.vars I → (s1Graph .mcmillan false).getVarClass v 1 = .ok .I_AB :=
  ⟨by with_unfolding_all rfl,
   root_interpolant_symbols_AB (s1Graph .mcmillan false) (fun v t => v ∈ Term.vars t)
    termLogic_occurrence 1 [] ⟨InterpolationInfo.cleared, ()⟩
    (by
      intro id _ n hn _ hA l hl
      rcases s1Graph_getNode _ _ id n hn with rfl | rfl | rfl | rfl | rfl
      · simp only [List.mem_cons, List.mem_singleton, List.not_mem_nil, or_false] at hl
        rcases hl with rfl | rfl
        · exact Or.inl (s1Graph_class_p _ _)
        · exact Or.inr (s1Graph_class_q _ _)
      · simp only [List.mem_cons, List.mem_singleton, List.not_mem_nil, or_false] at hl
        subst hl
        exact Or.inl (s1Graph_class_p _ _)
      · unfold ProofGraph.attributedToA at hA
        rw [s1Graph_color_B] at hA
        rcases hA with hA | hA <;> cases hA
      · simp only [s1Node3, List.mem_cons, List.mem_singleton, List.not_mem_nil,
          or_false] at hl
        subst hl
        exact Or.inr (s1Graph_class_q _ _)
      · simp [s1Node4] at hl)
    (by
      intro id _ n hn _ hB l hl
      rcases s1Graph_getNode _ _ id n hn with rfl | rfl | rfl | rfl | rfl
      · unfold ProofGraph.attributedToB at hB
        rw [s1Graph_color_A0] at hB
        cases hB
      · unfold ProofGraph.attributedToB at hB
        rw [s1Graph_color_A1] at hB
        cases hB
      · simp only [List.mem_cons, List.mem_singleton, List.not_mem_nil, or_false] at hl
        subst hl
        exact Or.inr (s1Graph_class_q _ _)
      · simp only [s1Node3, List.mem_cons, List.mem_singleton, List.not_mem_nil,
          or_false] at hl
        subst hl
        exact Or.inr (s1Graph_class_q _ _)
      · simp [s1Node4] at hl)
    (by
      intro cm ts t ts1 h v hv
      simp only [s1Graph, idleHandler, Prod.mk.injEq, Except.ok.injEq] at h
      obtain ⟨rfl, _⟩ := h
      simp [Term.vars] at hv)
    (by with_unfolding_all rfl)⟩

/-! ## Assumption literals stay out of the interpolant -/

theorem getPivotColor_assumed (g : ProofGraph PTRef TS) (info : InterpolationInfo PTRef)
    (n : ProofNode) (hass : g.isAssumedVar n.pivot = true) (c : icolor_t)
    (h : (g.getPivotColor info n).1 = .ok c) : c = .I_S := by
  unfold ProofGraph.getPivotColor at h
  simp only [hass, if_true] at h
  split_ifs at h <;> simp at h <;> exact h.symm

/-- C3. Let every literal over an assumption variable in an ORIG leaf be the negation of
an assumed literal, and let the theory handler return terms without assumption variables.
Then no assumption variable occurs in the root interpolant that `produceSingleInterpolant`
appends.  The two mechanisms: `getRestrictedNodeClause` drops every literal whose negation
is assumed, and a resolvent whose pivot is an assumption variable gets one of its
antecedents' partial interpolants, never a term built from the pivot. -/
theorem root_interpolant_no_assumption [DecidableEq PTRef] (g : ProofGraph PTRef TS)
    (occurs : Var → PTRef → Prop) (hocc : LogicOccurrence g.logic_ g.varToPTRef occurs)
    (A_mask : ipartitions_t) (interpolants : List PTRef) (st : RunState PTRef TS)
    (horig : ∀ id ∈ g.DFSv, ∀ n, g.getNode id = some n → n.type = .CLA_ORIG →
      ∀ l ∈ n.clause, g.isAssumedVar (var l) = true → g.isAssumedLiteral l.neg = true)
    (hth : ∀ cm ts t ts1, g.thandler.getInterpolant A_mask cm ts = (.ok t, ts1) →
      ∀ v, occurs v t → g.isAssumedVar v = false)
    (hrun : (g.produceSingleInterpolant interpolants A_mask st).result = .ok ()) :
    (∃ I, (g.produceSingleInterpolant interpolants A_mask st).interpolants =
        interpolants ++ [I] ∧
      ∀ v, occurs v I → g.isAssumedVar v = false) ∧
    (∀ (info : InterpolationInfo PTRef) (n : ProofNode) (w : icolor_t) (l : Lit),
      l ∈ g.getRestrictedNodeClause info n w → g.isAssumedLiteral l.neg = false) ∧
    (∀ (info info1 : InterpolationInfo PTRef) (n : ProofNode) (t : PTRef),
      g.isAssumedVar n.pivot = true →
      g.compInterpLabelingInner info n = (.ok t, info1) →
      ∃ a1 a2, n.ants = some (a1, a2) ∧
        (info.partialInterpolant a1 = some t ∨ info.partialInterpolant a2 = some t)) := by
  have hdrop : ∀ (info : InterpolationInfo PTRef) (n : ProofNode) (w : icolor_t) (l : Lit),
      l ∈ g.getRestrictedNodeClause info n w → g.isAssumedLiteral l.neg = false := by
    intro info n w l hl
    rw [getRestrictedNodeClause_eq_filter] at hl
    have := (List.mem_filter.mp hl).2
    simp only [Bool.and_eq_true, Bool.not_eq_true', decide_eq_true_eq] at this
    exact this.1
  refine ⟨?_, hdrop, ?_⟩
  · apply produceSingleInterpolant_terms g occurs hocc
      (fun v => g.isAssumedVar v = false) A_mask ?_ hth (fun v _ h => h)
      interpolants st hrun
    intro id hid n hn hO info _ _ c _ l hl
    have hd := hdrop info n _ l hl
    rw [getRestrictedNodeClause_eq_filter] at hl
    have hlc := (List.mem_filter.mp hl).1
    cases hass : g.isAssumedVar (var l) with
    | false => rfl
    | true =>
      have := horig id hid n hn hO l hlc hass
      rw [hd] at this
      cases this
  · intro info info1 n t hass h
    obtain ⟨a1, a2, I1, I2, c, hants, h1, h2, hp, hval⟩ :=
      compInterpLabelingInner_ok g info info1 n t h
    have hc1 : (g.getPivotColor info n).1 = .ok c := by rw [hp]
    have hS := getPivotColor_assumed g info n hass c hc1
    subst hS
    have e := compInterpLabelingInner_eq g info n a1 a2 I1 I2 hants h1 h2 _ hc1
    rw [hval] at e
    simp only [if_true] at e
    refine ⟨a1, a2, hants, ?_⟩
    split_ifs at e
    · simp only [Except.ok.injEq] at e
      subst e
      exact Or.inr h2
    · simp only [Except.ok.injEq] at e
      subst e
      exact Or.inl h1

theorem s4Graph_getNode (id : Nat) (n : ProofNode) (h : s4Graph.getNode id = some n) :
    n = ⟨0, .CLA_ASSUMPTION, [⟨2, false⟩], 0, none, 0⟩ ∨
    n = ⟨1, .CLA_ORIG, [⟨2, true⟩], 1, none, 0⟩ ∨
    n = s4Node2 := by
  unfold ProofGraph.getNode s4Graph at h
  simp only at h
  match id, h with
  | 0, h => left; simpa using h.symm
  | 1, h => right; left; simpa using h.symm
  | 2, h => right; right; simpa [s4Node2] using h.symm
  | (k + 3), h => simp at h

/-- C3, instance: scenario S4; the ORIG leaf `¬a` carries the negation of the assumed
literal `a`, the root resolves on `a`, and the root interpolant `⊥` contains no
variable. -/
theorem root_interpolant_no_assumption_witness :
    (s4Graph.produceSingleInterpolant [] 1 ⟨InterpolationInfo.cleared, ()⟩).interpolants =
      [Term.ff] ∧
    ∃ I, (s4Graph.produceSingleInterpolant [] 1
        ⟨InterpolationInfo.cleared, ()⟩).interpolants = [] ++ [I] ∧
      ∀ v, v ∈ Term.vars I → s4Graph.isAssumedVar v = false :=
  ⟨by with_unfolding_all rfl,
   (root_interpolant_no_assumption s4Graph (fun v t => v ∈ Term.vars t)
    termLogic_occurrence 1 [] ⟨InterpolationInfo.cleared, ()⟩
    (by
      intro id _ n hn hO l hl _
      rcases s4Graph_getNode id n hn with rfl | rfl | rfl
      · cases hO
      · simp only [List.mem_cons, List.mem_singleton, List.not_mem_nil, or_false] at hl
        subst hl
        rfl
      · cases hO)
    (by
      intro cm ts t ts1 h v hv
      simp only [s4Graph, idleHandler, Prod.mk.injEq, Except.ok.injEq] at h
      obtain ⟨rfl, _⟩ := h
      simp [Term.vars] at hv)
    (by with_unfolding_all rfl)).1⟩

/-! ## What the proof check guarantees -/

theorem checkNode_spec (g : ProofGraph PTRef TS) (seen : List Nat) (id : Nat)
    (h : g.checkNode seen id = true) :
    ∃ n, g.getNode id = some n ∧ n.id = id ∧ id ∉ seen ∧
      (∀ l ∈ n.clause, var l ∈ g.proof_variables) ∧
      (∀ a1 a2, n.ants = some (a1, a2) →
        a1 ∈ seen ∧ a2 ∈ seen ∧
        ∃ n1 n2, g.getNode a1 = some n1 ∧ g.getNode a2 = some n2 ∧
          mkLit n.pivot ∈ n1.clause ∧ (mkLit n.pivot).neg ∈ n2.clause ∧
          (mkLit n.pivot).neg ∉ n1.clause ∧ mkLit n.pivot ∉ n2.clause ∧
          (∀ l ∈ n1.clause, var l = n.pivot ∨ l ∈ n.clause) ∧
          (∀ l ∈ n2.clause, var l = n.pivot ∨ l ∈ n.clause) ∧
          (∀ l ∈ n.clause, var l ≠ n.pivot ∧ (l ∈ n1.clause ∨ l ∈ n2.clause))) := by
  unfold ProofGraph.checkNode at h
  cases hn : g.getNode id with
  | none => simp [hn] at h
  | some n =>
    simp only [hn, Bool.and_eq_true, decide_eq_true_eq, Bool.not_eq_true',
      List.all_eq_true, List.elem_iff] at h
    obtain ⟨⟨⟨hid, hseen⟩, hvars⟩, hants⟩ := h
    refine ⟨n, rfl, hid, ?_, hvars, ?_⟩
    · intro hmem
      have : seen.contains id = true := List.elem_iff.mpr hmem
      rw [this] at hseen
      cases hseen
    · intro a1 a2 ha
      simp only [ha, Bool.and_eq_true, List.elem_iff] at hants
      obtain ⟨⟨h1, h2⟩, hrest⟩ := hants
      refine ⟨h1, h2, ?_⟩
      cases hn1 : g.getNode a1 with
      | none => simp [hn1] at hrest
      | some n1 =>
        cases hn2 : g.getNode a2 with
        | none => simp [hn1, hn2] at hrest
        | some n2 =>
          simp only [hn1, hn2, Bool.and_eq_true, Bool.or_eq_true, decide_eq_true_eq,
            Bool.not_eq_true', List.all_eq_true, List.elem_iff, ne_eq,
            decide_not, Bool.not_eq_true', decide_eq_false_iff_not] at hrest
          obtain ⟨⟨⟨⟨⟨⟨c1, c2⟩, c3⟩, c4⟩, c5⟩, c6⟩, c7⟩ := hrest
          refine ⟨n1, n2, rfl, rfl, c1, c2, ?_, ?_, c5, c6, c7⟩
          · intro hm
            have : n1.clause.contains (mkLit n.pivot).neg = true :=
              List.elem_iff.mpr hm
            rw [this] at c3
            cases c3
          · intro hm
            have : n2.clause.contains (mkLit n.pivot) = true :=
              List.elem_iff.mpr hm
            rw [this] at c4
            cases c4

theorem isRefutation_spec (g : ProofGraph PTRef TS) (h : g.isRefutation = true) :
    g.checkOrder [] g.DFSv = true ∧ g.root ∈ g.DFSv ∧
    ∃ r, g.getNode g.root = some r ∧ r.clause = [] := by
  unfold ProofGraph.isRefutation at h
  simp only [Bool.and_eq_true, List.elem_iff] at h
  obtain ⟨⟨h1, h2⟩, h3⟩ := h
  refine ⟨h1, h2, ?_⟩
  cases hr : g.getNode g.root with
  | none => simp [hr] at h3
  | some r =>
    simp only [hr, List.isEmpty_iff] at h3
    exact ⟨r, rfl, h3⟩

/-! ## Colors, and the value of a leaf interpolant -/

theorem getVarColor_eq_A (info : InterpolationInfo PTRef) (n : ProofNode) (v : Var)
    (hcls : info.varClass v = .I_A ∨ info.varClass v = .I_B ∨ info.varClass v = .I_AB) :
    getVarColor info n v = .I_A ↔ (hasA info n.id v ∧ ¬ hasB info n.id v) := by
  unfold getVarColor hasA hasB getSharedVarColorInNode
  simp only [InterpolationInfo.getVarClass]
  rcases hcls with h | h | h
  · simp [h]
  · simp [h]
  · cases ea : info.colA n.id v <;> cases eb : info.colB n.id v <;> simp [h, ea, eb]

theorem getVarColor_eq_B (info : InterpolationInfo PTRef) (n : ProofNode) (v : Var)
    (hcls : info.varClass v = .I_A ∨ info.varClass v = .I_B ∨ info.varClass v = .I_AB) :
    getVarColor info n v = .I_B ↔ (hasB info n.id v ∧ ¬ hasA info n.id v) := by
  unfold getVarColor hasA hasB getSharedVarColorInNode
  simp only [InterpolationInfo.getVarClass]
  rcases hcls with h | h | h
  · simp [h]
  · simp [h]
  · cases ea : info.colA n.id v <;> cases eb : info.colB n.id v <;> simp [h, ea, eb]

theorem eval_keep (g : ProofGraph PTRef TS) (eval : (Var → Bool) → PTRef → Bool)
    (hsem : LogicSemantics g.logic_ g.varToPTRef eval) (σ : Var → Bool) (l : Lit) :
    eval σ (if sign l = true then g.logic_.mkNot (g.varToPTRef (var l))
            else g.varToPTRef (var l)) = evalLit σ l := by
  unfold evalLit
  cases hs : sign l <;> simp [hsem.eval_not, hsem.eval_var]

theorem eval_flip (g : ProofGraph PTRef TS) (eval : (Var → Bool) → PTRef → Bool)
    (hsem : LogicSemantics g.logic_ g.varToPTRef eval) (σ : Var → Bool) (l : Lit) :
    eval σ (if sign l = true then g.varToPTRef (var l)
            else g.logic_.mkNot (g.varToPTRef (var l))) = !evalLit σ l := by
  unfold evalLit
  cases hs : sign l <;> simp [hsem.eval_not, hsem.eval_var]

theorem eval_interpolant_A (g : ProofGraph PTRef TS) (eval : (Var → Bool) → PTRef → Bool)
    (hsem : LogicSemantics g.logic_ g.varToPTRef eval) (σ : Var → Bool)
    (info : InterpolationInfo PTRef) (n : ProofNode) (t : PTRef)
    (h : g.getInterpolantForOriginalClause info n .I_A = .ok t) :
    eval σ t = (g.getRestrictedNodeClause info n .I_B).any (evalLit σ) := by
  rw [getInterpolantForOriginalClause_A] at h
  simp only [Except.ok.injEq] at h
  subst h
  split_ifs with hR
  · rw [hR, hsem.eval_false]; rfl
  · rw [hsem.eval_or]
    induction g.getRestrictedNodeClause info n .I_B with
    | nil => rfl
    | cons a rest ih =>
      simp only [List.map_cons, List.any_cons, ih, eval_keep g eval hsem σ a]

theorem eval_interpolant_B (g : ProofGraph PTRef TS) (eval : (Var → Bool) → PTRef → Bool)
    (hsem : LogicSemantics g.logic_ g.varToPTRef eval) (σ : Var → Bool)
    (info : InterpolationInfo PTRef) (n : ProofNode) (t : PTRef)
    (h : g.getInterpolantForOriginalClause info n .I_B = .ok t) :
    eval σ t = (g.getRestrictedNodeClause info n .I_A).all (fun l => !evalLit σ l) := by
  rw [getInterpolantForOriginalClause_B] at h
  simp only [Except.ok.injEq] at h
  subst h
  split_ifs with hR
  · rw [hR, hsem.eval_true]; rfl
  · rw [hsem.eval_and]
    induction g.getRestrictedNodeClause info n .I_A with
    | nil => rfl
    | cons a rest ih =>
      simp only [List.map_cons, List.all_cons, ih, eval_flip g eval hsem σ a]

theorem NodeGood_frame (g : ProofGraph PTRef TS) (A_mask : ipartitions_t)
    (eval : (Var → Bool) → PTRef → Bool) (info1 info2 : InterpolationInfo PTRef)
    (id : Nat) (hf : FrameAt id info1 info2) (n : ProofNode) (hne : n.id ≠ id)
    (h : NodeGood g A_mask eval info1 n) : NodeGood g A_mask eval info2 n := by
  obtain ⟨f1, f2⟩ := hf
  obtain ⟨e1, e2, e3⟩ := f2 n.id hne
  have hA : ∀ v, hasA info2 n.id v ↔ hasA info1 n.id v := by
    intro v; unfold hasA; rw [f1, e1]
  have hB : ∀ v, hasB info2 n.id v ↔ hasB info1 n.id v := by
    intro v; unfold hasB; rw [f1, e2]
  obtain ⟨I, hI, hcol, hP1, hP2⟩ := h
  refine ⟨I, by rw [e3]; exact hI, ?_, ?_, ?_⟩
  · intro l hl
    rcases hcol l hl with h | h
    · exact Or.inl ((hA _).mpr h)
    · exact Or.inr ((hB _).mpr h)
  · intro σ hs hfalse
    exact hP1 σ hs (fun l hl h => hfalse l hl ((hA _).mpr h))
  · intro σ hs hfalse
    exact hP2 σ hs (fun l hl h => hfalse l hl ((hB _).mpr h))

/-! ## The leaf step preserves the invariant -/

theorem evalClause_true (σ : Var → Bool) (c : List Lit) (h : evalClause σ c = true) :
    ∃ l ∈ c, evalLit σ l = true := by
  unfold evalClause at h
  exact List.any_eq_true.mp h

theorem leaf_step (g : ProofGraph PTRef TS) (A_mask : ipartitions_t)
    (eval : (Var → Bool) → PTRef → Bool)
    (hsem : LogicSemantics g.logic_ g.varToPTRef eval)
    (hnoassume : ∀ v ∈ g.proof_variables,
      g.isAssumedVar v = false ∧ ∀ s, g.isAssumedLiteral ⟨v, s⟩ = false)
    (ps : Option (StdMap icolor_t)) (seen : List Nat) (info info1 : InterpolationInfo PTRef)
    (id : Nat) (n : ProofNode) (t : PTRef)
    (hn : g.getNode id = some n) (hid : n.id = id) (hidD : id ∈ g.DFSv)
    (hvars : ∀ l ∈ n.clause, var l ∈ g.proof_variables)
    (hleaf : n.isLeaf = true)
    (hinv : RunInv g A_mask eval seen info) (hnew : id ∉ seen)
    (hl : g.labelLeaf info n ps = (.ok (), info1))
    (ho : g.computePartialInterpolantForOriginalClause info1 n A_mask = .ok t) :
    RunInv g A_mask eval (id :: seen) (info1.setPartialInterpolant n t) := by
  obtain ⟨hcls, hgood⟩ := hinv
  obtain ⟨l1, l2, l3, l4⟩ := labelLeaf_spec g info info1 n ps () hl
  have hcls1 : ∀ v ∈ g.proof_variables,
      info1.varClass v = .I_A ∨ info1.varClass v = .I_B ∨ info1.varClass v = .I_AB := by
    intro v hv; rw [l1]; exact hcls v hv
  refine ⟨hcls1, ?_⟩
  intro m hm
  rcases List.mem_cons.mp hm with hmid | hm
  · refine ⟨n, by rw [hmid]; exact hn, by rw [hmid]; exact hid, hvars, ?_⟩
    have hcolored : ∀ l ∈ n.clause, hasA info1 n.id (var l) ∨ hasB info1 n.id (var l) := by
      intro l hl
      have hv := hvars l hl
      rcases hcls1 _ hv with h | h | h
      · exact Or.inl (Or.inl h)
      · exact Or.inr (Or.inl h)
      · rcases l4 l hl (hnoassume _ hv).1 (by rw [← l1]; exact h) with hb | hb
        · exact Or.inl (Or.inr ⟨h, hb⟩)
        · exact Or.inr (Or.inr ⟨h, hb⟩)
    have hnotass : ∀ l ∈ n.clause, g.isAssumedLiteral l.neg = false := by
      intro l hl
      exact (hnoassume _ (hvars l hl)).2 (!l.sign)
    have hmemR : ∀ (w : icolor_t) (l : Lit), l ∈ g.getRestrictedNodeClause info1 n w ↔
        (l ∈ n.clause ∧ getVarColor info1 n (var l) = w) := by
      intro w l
      rw [getRestrictedNodeClause_eq_filter, List.mem_filter]
      constructor
      · rintro ⟨h1, h2⟩
        simp only [Bool.and_eq_true, Bool.not_eq_true', decide_eq_true_eq] at h2
        exact ⟨h1, h2.2⟩
      · rintro ⟨h1, h2⟩
        refine ⟨h1, ?_⟩
        simp only [Bool.and_eq_true, Bool.not_eq_true', decide_eq_true_eq]
        exact ⟨hnotass l h1, h2⟩
    refine ⟨t, by simp [InterpolationInfo.setPartialInterpolant], hcolored, ?_, ?_⟩
    · intro σ hσ hfalse
      have hfalse1 : ∀ l ∈ n.clause, hasA info1 n.id (var l) → evalLit σ l = false := hfalse
      unfold ProofGraph.computePartialInterpolantForOriginalClause at ho
      cases hc : g.getClauseColor n.clauseRef A_mask with
      | error e => simp [hc] at ho
      | ok c =>
        simp only [hc] at ho
        have hsideA : c = .I_A ∨ c = .I_AB →
            g.getInterpolantForOriginalClause info1 n .I_A = .ok t → eval σ t = true := by
          intro hcA hoA
          rw [eval_interpolant_A g eval hsem σ info1 n t hoA]
          have hsat := hσ id hidD n hn hleaf (by
            unfold ProofGraph.attributedToA
            rcases hcA with rfl | rfl
            · exact Or.inl hc
            · exact Or.inr hc)
          obtain ⟨l, hl, hlt⟩ := evalClause_true σ _ hsat
          apply List.any_eq_true.mpr
          refine ⟨l, (hmemR _ l).mpr ⟨hl, ?_⟩, hlt⟩
          rw [getVarColor_eq_B info1 n (var l) (hcls1 _ (hvars l hl))]
          have hnA : ¬ hasA info1 n.id (var l) := by
            intro hA
            rw [hfalse1 l hl hA] at hlt
            cases hlt
          rcases hcolored l hl with h | h
          · exact absurd h hnA
          · exact ⟨h, hnA⟩
        rcases getClauseColor_ne_undef g _ _ _ hc with rfl | rfl | rfl
        · exact hsideA (Or.inl rfl) (by simpa using ho)
        · have hoB : g.getInterpolantForOriginalClause info1 n .I_B = .ok t := by
            simpa using ho
          rw [eval_interpolant_B g eval hsem σ info1 n t hoB]
          apply List.all_eq_true.mpr
          intro l hl
          obtain ⟨hlc, hcol⟩ := (hmemR _ l).mp hl
          rw [getVarColor_eq_A info1 n (var l) (hcls1 _ (hvars l hlc))] at hcol
          rw [hfalse1 l hlc hcol.1]
          rfl
        · exact hsideA (Or.inr rfl) (by simpa using ho)
    · intro σ hσ hfalse
      have hfalse1 : ∀ l ∈ n.clause, hasB info1 n.id (var l) → evalLit σ l = false := hfalse
      unfold ProofGraph.computePartialInterpolantForOriginalClause at ho
      cases hc : g.getClauseColor n.clauseRef A_mask with
      | error e => simp [hc] at ho
      | ok c =>
        simp only [hc] at ho
        have hsideA : g.getInterpolantForOriginalClause info1 n .I_A = .ok t →
            eval σ t = false := by
          intro hoA
          rw [eval_interpolant_A g eval hsem σ info1 n t hoA]
          apply List.any_eq_false.mpr
          intro l hl
          obtain ⟨hlc, hcol⟩ := (hmemR _ l).mp hl
          rw [getVarColor_eq_B info1 n (var l) (hcls1 _ (hvars l hlc))] at hcol
          rw [hfalse1 l hlc hcol.1]
          simp
        rcases getClauseColor_ne_undef g _ _ _ hc with rfl | rfl | rfl
        · exact hsideA (by simpa using ho)
        · have hoB : g.getInterpolantForOriginalClause info1 n .I_B = .ok t := by
            simpa using ho
          rw [eval_interpolant_B g eval hsem σ info1 n t hoB]
          have hsat := hσ id hidD n hn hleaf (by
            unfold ProofGraph.attributedToB
            exact hc)
          obtain ⟨l, hl, hlt⟩ := evalClause_true σ _ hsat
          apply List.all_eq_false.mpr
          refine ⟨l, (hmemR _ l).mpr ⟨hl, ?_⟩, by simp [hlt]⟩
          rw [getVarColor_eq_A info1 n (var l) (hcls1 _ (hvars l hl))]
          have hnB : ¬ hasB info1 n.id (var l) := by
            intro hB
            rw [hfalse1 l hl hB] at hlt
            cases hlt
          rcases hcolored l hl with h | h
          · exact ⟨h, hnB⟩
          · exact absurd h hnB
        · exact hsideA (by simpa using ho)
  · obtain ⟨n2, hn2, hid2, hv2, hg2⟩ := hgood m hm
    refine ⟨n2, hn2, hid2, hv2, ?_⟩
    have hne : n2.id ≠ id := by
      rw [hid2]; intro h; exact hnew (h ▸ hm)
    apply NodeGood_frame g A_mask eval info _ id ?_ n2 hne hg2
    refine ⟨l1, ?_⟩
    intro k hk
    have hk2 : k ≠ n.id := by rw [hid]; exact hk
    refine ⟨?_, ?_, ?_⟩
    · funext w; exact (l3 k w (Or.inl hk2)).1
    · funext w; exact (l3 k w (Or.inl hk2)).2
    · simp only [InterpolationInfo.setPartialInterpolant, hk2, if_false]
      rw [l2]

/-! ## The resolvent step preserves the invariant -/

theorem evalLit_mkLit (σ : Var → Bool) (p : Var) : evalLit σ (mkLit p) = σ p := by
  simp [evalLit, mkLit, sign, var]

theorem evalLit_mkLit_neg (σ : Var → Bool) (p : Var) :
    evalLit σ (mkLit p).neg = !σ p := by
  simp [evalLit, mkLit, Lit.neg, sign, var]

theorem lit_of_var (l : Lit) (p : Var) (h : var l = p) : l = mkLit p ∨ l = (mkLit p).neg := by
  obtain ⟨x, s⟩ := l
  simp only [var] at h
  subst h
  cases s
  · left; rfl
  · right; rfl

theorem hasA_merge (info info1 : InterpolationInfo PTRef) (nid a1 a2 : Nat) (w : Var)
    (hcls : info1.varClass = info.varClass)
    (hbit : info1.colA nid w = (info.colA a1 w || info.colA a2 w)) :
    hasA info1 nid w ↔ (hasA info a1 w ∨ hasA info a2 w) := by
  unfold hasA
  rw [hcls, hbit, Bool.or_eq_true]
  constructor
  · rintro (h | ⟨h, h1 | h2⟩)
    · exact Or.inl (Or.inl h)
    · exact Or.inl (Or.inr ⟨h, h1⟩)
    · exact Or.inr (Or.inr ⟨h, h2⟩)
  · rintro ((h | ⟨h, h1⟩) | (h | ⟨h, h2⟩))
    · exact Or.inl h
    · exact Or.inr ⟨h, Or.inl h1⟩
    · exact Or.inl h
    · exact Or.inr ⟨h, Or.inr h2⟩

theorem hasB_merge (info info1 : InterpolationInfo PTRef) (nid a1 a2 : Nat) (w : Var)
    (hcls : info1.varClass = info.varClass)
    (hbit : info1.colB nid w = (info.colB a1 w || info.colB a2 w)) :
    hasB info1 nid w ↔ (hasB info a1 w ∨ hasB info a2 w) := by
  unfold hasB
  rw [hcls, hbit, Bool.or_eq_true]
  constructor
  · rintro (h | ⟨h, h1 | h2⟩)
    · exact Or.inl (Or.inl h)
    · exact Or.inl (Or.inr ⟨h, h1⟩)
    · exact Or.inr (Or.inr ⟨h, h2⟩)
  · rintro ((h | ⟨h, h1⟩) | (h | ⟨h, h2⟩))
    · exact Or.inl h
    · exact Or.inr ⟨h, Or.inl h1⟩
    · exact Or.inl h
    · exact Or.inr ⟨h, Or.inr h2⟩

theorem inner_step [DecidableEq PTRef] (g : ProofGraph PTRef TS) (A_mask : ipartitions_t)
    (eval : (Var → Bool) → PTRef → Bool)
    (hsem : LogicSemantics g.logic_ g.varToPTRef eval)
    (hnoassume : ∀ v ∈ g.proof_variables,
      g.isAssumedVar v = false ∧ ∀ s, g.isAssumedLiteral ⟨v, s⟩ = false)
    (seen : List Nat) (info : InterpolationInfo PTRef) (id : Nat)
    (hck : g.checkNode seen id = true)
    (hinv : RunInv g A_mask eval seen info)
    (n : ProofNode) (hn : g.getNode id = some n) (a1 a2 : Nat)
    (hants : n.ants = some (a1, a2)) :
    ∃ t info1, g.compInterpLabelingInner info n = (.ok t, info1) ∧
      RunInv g A_mask eval (id :: seen) (info1.setPartialInterpolant n t) := by
  obtain ⟨n0, hn0, hid, hnew, hvars, hres⟩ := checkNode_spec g seen id hck
  rw [hn] at hn0
  obtain rfl : n = n0 := Option.some.inj hn0
  obtain ⟨ha1, ha2, n1, n2, hn1, hn2, cp1, cp2, cn1, cn2, c5, c6, c7⟩ := hres a1 a2 hants
  obtain ⟨hcls, hgood⟩ := hinv
  obtain ⟨m1, hm1, hid1, hv1, I1, hI1, hcol1, hP1a, hP1b⟩ := hgood a1 ha1
  obtain ⟨m2, hm2, hid2, hv2, I2, hI2, hcol2, hP2a, hP2b⟩ := hgood a2 ha2
  rw [hn1] at hm1
  obtain rfl : n1 = m1 := Option.some.inj hm1
  rw [hn2] at hm2
  obtain rfl : n2 = m2 := Option.some.inj hm2
  rw [hid1] at hI1 hcol1 hP1a hP1b
  rw [hid2] at hI2 hcol2 hP2a hP2b
  -- the pivot
  have hpv : n.pivot ∈ g.proof_variables := hv1 _ cp1
  have hpna := (hnoassume _ hpv).1
  have hpcls := hcls _ hpv
  have hpcol : hasA info a1 n.pivot ∨ hasB info a1 n.pivot := hcol1 _ cp1
  -- the color and the new info
  obtain ⟨vA, vB, vAB⟩ := getPivotColor_value g info n a1 a2 hants hpna hpcls
  have hcolor : ∃ c, (g.getPivotColor info n).1 = .ok c ∧
      ((c = .I_A ∧ (hasA info a1 n.pivot ∨ hasA info a2 n.pivot) ∧
          ¬ (hasB info a1 n.pivot ∨ hasB info a2 n.pivot)) ∨
       (c = .I_B ∧ ¬ (hasA info a1 n.pivot ∨ hasA info a2 n.pivot) ∧
          (hasB info a1 n.pivot ∨ hasB info a2 n.pivot)) ∨
       (c = .I_AB ∧ (hasA info a1 n.pivot ∨ hasA info a2 n.pivot) ∧
          (hasB info a1 n.pivot ∨ hasB info a2 n.pivot))) := by
    by_cases hA : hasA info a1 n.pivot ∨ hasA info a2 n.pivot
    · by_cases hB : hasB info a1 n.pivot ∨ hasB info a2 n.pivot
      · exact ⟨_, vAB hA hB, Or.inr (Or.inr ⟨rfl, hA, hB⟩)⟩
      · exact ⟨_, vA hA hB, Or.inl ⟨rfl, hA, hB⟩⟩
    · have hB : hasB info a1 n.pivot ∨ hasB info a2 n.pivot := by
        rcases hpcol with h | h
        · exact absurd (Or.inl h) hA
        · exact Or.inl h
      exact ⟨_, vB hA hB, Or.inr (Or.inl ⟨rfl, hA, hB⟩)⟩
  obtain ⟨c, hc, hccase⟩ := hcolor
  have hI1' : info.getPartialInterpolant a1 = some I1 := hI1
  have hI2' : info.getPartialInterpolant a2 = some I2 := hI2
  have hval := compInterpLabelingInner_eq g info n a1 a2 I1 I2 hants hI1' hI2' c hc
  have hcS : c ≠ .I_S := by
    rcases hccase with ⟨rfl, _⟩ | ⟨rfl, _⟩ | ⟨rfl, _⟩ <;> simp
  simp only [hcS, if_false] at hval
  have hsnd : (g.compInterpLabelingInner info n).2 = (g.getPivotColor info n).2 := by
    unfold ProofGraph.compInterpLabelingInner
    simp only [hants, hI1', hI2']
    rcases hp : g.getPivotColor info n with ⟨r, i⟩
    rw [hp] at hc
    simp only at hc
    subst hc
    simp only
    split_ifs <;> rfl
  obtain ⟨f1, f2, f3⟩ := getPivotColor_frame g info n
  have hbits := getPivotColor_bits g info n a1 a2 hants c hc
  -- abbreviations
  have key : ∃ t, (g.compInterpLabelingInner info n).1 = .ok t ∧
      (∀ σ, (σ n.pivot = false → eval σ I1 = true) → (σ n.pivot = true → eval σ I2 = true) →
        ((¬ (hasA info a1 n.pivot ∨ hasA info a2 n.pivot)) →
          eval σ I1 = true ∧ eval σ I2 = true) → eval σ t = true) ∧
      (∀ σ, (σ n.pivot = false → eval σ I1 = false) → (σ n.pivot = true → eval σ I2 = false) →
        ((¬ (hasB info a1 n.pivot ∨ hasB info a2 n.pivot)) →
          eval σ I1 = false ∧ eval σ I2 = false) → eval σ t = false) := by
    rcases hccase with ⟨rfl, hA, hB⟩ | ⟨rfl, hA, hB⟩ | ⟨rfl, hA, hB⟩
    · simp only [if_true] at hval
      refine ⟨_, hval, ?_, ?_⟩
      · intro σ e1 e2 _
        rw [hsem.eval_or]
        cases hσ : σ n.pivot
        · simp [e1 hσ]
        · simp [e2 hσ]
      · intro σ _ _ e3
        rw [hsem.eval_or]
        simp [(e3 hB).1, (e3 hB).2]
    · simp only [reduceCtorEq, if_false, if_true] at hval
      refine ⟨_, hval, ?_, ?_⟩
      · intro σ _ _ e3
        rw [hsem.eval_and]
        simp [(e3 hA).1, (e3 hA).2]
      · intro σ e1 e2 _
        rw [hsem.eval_and]
        cases hσ : σ n.pivot
        · simp [e1 hσ]
        · simp [e2 hσ]
    · simp only [reduceCtorEq, if_false, if_true] at hval
      split_ifs at hval
      · refine ⟨_, hval, ?_, ?_⟩
        · intro σ e1 e2 _
          simp only [hsem.eval_or, hsem.eval_and, hsem.eval_not, hsem.eval_var,
            List.any_cons, List.all_cons, List.any_nil, List.all_nil]
          cases hσ : σ n.pivot
          · simp [e1 hσ]
          · simp [e2 hσ]
        · intro σ e1 e2 _
          simp only [hsem.eval_or, hsem.eval_and, hsem.eval_not, hsem.eval_var,
            List.any_cons, List.all_cons, List.any_nil, List.all_nil]
          cases hσ : σ n.pivot
          · simp [e1 hσ]
          · simp [e2 hσ]
      · refine ⟨_, hval, ?_, ?_⟩
        · intro σ e1 e2 _
          simp only [hsem.eval_or, hsem.eval_and, hsem.eval_not, hsem.eval_var,
            List.any_cons, List.all_cons, List.any_nil, List.all_nil]
          cases hσ : σ n.pivot
          · simp [e1 hσ]
          · simp [e2 hσ]
        · intro σ e1 e2 _
          simp only [hsem.eval_or, hsem.eval_and, hsem.eval_not, hsem.eval_var,
            List.any_cons, List.all_cons, List.any_nil, List.all_nil]
          cases hσ : σ n.pivot
          · simp [e1 hσ]
          · simp [e2 hσ]
  obtain ⟨t, ht, hT, hF⟩ := key
  refine ⟨t, (g.getPivotColor info n).2, ?_, ?_⟩
  · exact Prod.ext ht hsnd
  -- the invariant
  have hcls1 : (g.getPivotColor info n).2.varClass = info.varClass := f1
  have keyA : ∀ w, w ≠ n.pivot →
      (hasA (g.getPivotColor info n).2 n.id w ↔ (hasA info a1 w ∨ hasA info a2 w)) := by
    intro w hw
    apply hasA_merge info _ n.id a1 a2 w hcls1
    rw [(hbits w).1]
    have : ¬ (info.varClass n.pivot = .I_AB ∧ w = n.pivot) := fun h => hw h.2
    simp only [this, if_false]
  have keyB : ∀ w, w ≠ n.pivot →
      (hasB (g.getPivotColor info n).2 n.id w ↔ (hasB info a1 w ∨ hasB info a2 w)) := by
    intro w hw
    apply hasB_merge info _ n.id a1 a2 w hcls1
    rw [(hbits w).2]
    have : ¬ (info.varClass n.pivot = .I_AB ∧ w = n.pivot) := fun h => hw h.2
    simp only [this, if_false]
  refine ⟨fun v hv => by
    have e : ((g.getPivotColor info n).2.setPartialInterpolant n t).varClass = info.varClass :=
      hcls1
    rw [e]; exact hcls v hv, ?_⟩
  intro m hm
  rcases List.mem_cons.mp hm with hmid | hm
  · refine ⟨n, by rw [hmid]; exact hn, by rw [hmid]; exact hid, hvars, ?_⟩
    refine ⟨t, by simp [InterpolationInfo.setPartialInterpolant], ?_, ?_, ?_⟩
    · intro l hl
      obtain ⟨hne, hmem⟩ := c7 l hl
      show hasA (g.getPivotColor info n).2 n.id (var l) ∨
        hasB (g.getPivotColor info n).2 n.id (var l)
      rw [keyA _ hne, keyB _ hne]
      rcases hmem with h | h
      · rcases hcol1 l h with h | h
        · exact Or.inl (Or.inl h)
        · exact Or.inr (Or.inl h)
      · rcases hcol2 l h with h | h
        · exact Or.inl (Or.inr h)
        · exact Or.inr (Or.inr h)
    · intro σ hσ hfalse
      have hfalse1 : ∀ l ∈ n.clause, hasA (g.getPivotColor info n).2 n.id (var l) →
          evalLit σ l = false := hfalse
      have G1 : (σ n.pivot = false ∨ ¬ hasA info a1 n.pivot) →
          ∀ l ∈ n1.clause, hasA info a1 (var l) → evalLit σ l = false := by
        intro hside l hl hA
        rcases c5 l hl with hv | hc
        · rcases lit_of_var l _ hv with rfl | rfl
          · rcases hside with h | h
            · rw [evalLit_mkLit]; exact h
            · exact absurd hA h
          · exact absurd hl cn1
        · exact hfalse1 l hc ((keyA _ (c7 l hc).1).mpr (Or.inl hA))
      have G2 : (σ n.pivot = true ∨ ¬ hasA info a2 n.pivot) →
          ∀ l ∈ n2.clause, hasA info a2 (var l) → evalLit σ l = false := by
        intro hside l hl hA
        rcases c6 l hl with hv | hc
        · rcases lit_of_var l _ hv with rfl | rfl
          · exact absurd hl cn2
          · rcases hside with h | h
            · rw [evalLit_mkLit_neg, h]; rfl
            · exact absurd hA h
        · exact hfalse1 l hc ((keyA _ (c7 l hc).1).mpr (Or.inr hA))
      apply hT σ
      · intro h; exact hP1a σ hσ (G1 (Or.inl h))
      · intro h; exact hP2a σ hσ (G2 (Or.inl h))
      · intro h
        exact ⟨hP1a σ hσ (G1 (Or.inr (fun h1 => h (Or.inl h1)))),
               hP2a σ hσ (G2 (Or.inr (fun h1 => h (Or.inr h1))))⟩
    · intro σ hσ hfalse
      have hfalse1 : ∀ l ∈ n.clause, hasB (g.getPivotColor info n).2 n.id (var l) →
          evalLit σ l = false := hfalse
      have G1 : (σ n.pivot = false ∨ ¬ hasB info a1 n.pivot) →
          ∀ l ∈ n1.clause, hasB info a1 (var l) → evalLit σ l = false := by
        intro hside l hl hB
        rcases c5 l hl with hv | hc
        · rcases lit_of_var l _ hv with rfl | rfl
          · rcases hside with h | h
            · rw [evalLit_mkLit]; exact h
            · exact absurd hB h
          · exact absurd hl cn1
        · exact hfalse1 l hc ((keyB _ (c7 l hc).1).mpr (Or.inl hB))
      have G2 : (σ n.pivot = true ∨ ¬ hasB info a2 n.pivot) →
          ∀ l ∈ n2.clause, hasB info a2 (var l) → evalLit σ l = false := by
        intro hside l hl hB
        rcases c6 l hl with hv | hc
        · rcases lit_of_var l _ hv with rfl | rfl
          · exact absurd hl cn2
          · rcases hside with h | h
            · rw [evalLit_mkLit_neg, h]; rfl
            · exact absurd hB h
        · exact hfalse1 l hc ((keyB _ (c7 l hc).1).mpr (Or.inr hB))
      apply hF σ
      · intro h; exact hP1b σ hσ (G1 (Or.inl h))
      · intro h; exact hP2b σ hσ (G2 (Or.inl h))
      · intro h
        exact ⟨hP1b σ hσ (G1 (Or.inr (fun h1 => h (Or.inl h1)))),
               hP2b σ hσ (G2 (Or.inr (fun h1 => h (Or.inr h1))))⟩
  · obtain ⟨k, hk, hidk, hvk, hgk⟩ := hgood m hm
    refine ⟨k, hk, hidk, hvk, ?_⟩
    have hne : k.id ≠ id := by
      rw [hidk]; intro h; exact hnew (h ▸ hm)
    apply NodeGood_frame g A_mask eval info _ id ?_ k hne hgk
    refine ⟨f1, ?_⟩
    intro j hj
    have hj2 : j ≠ n.id := by rw [hid]; exact hj
    refine ⟨(f3 j hj2).1, (f3 j hj2).2, ?_⟩
    simp only [InterpolationInfo.setPartialInterpolant, hj2, if_false]
    rw [f2]

/-! ## Totality of the leaf step -/

theorem getClass_ok (M α : ipartitions_t) (h : M ≠ 0) : ∃ c, getClass M α = .ok c := by
  rw [getClass_cases]
  have hz := mask_split M α
  by_cases hA : Int.land M α = 0 <;> by_cases hB : Int.land M (Int.lnot α) = 0
  · exact absurd (hz.mp ⟨hA, hB⟩) h
  · exact ⟨.I_B, by simp [hA, hB]⟩
  · exact ⟨.I_A, by simp [hA, hB]⟩
  · exact ⟨.I_AB, by simp [hA, hB]⟩

theorem origClause_total (g : ProofGraph PTRef TS) (info : InterpolationInfo PTRef)
    (n : ProofNode) (A_mask : ipartitions_t) (h : g.getClauseClassMask n.clauseRef ≠ 0) :
    ∃ t, g.computePartialInterpolantForOriginalClause info n A_mask = .ok t := by
  obtain ⟨c, hc⟩ := getClass_ok (g.getClauseClassMask n.clauseRef) A_mask h
  have hc2 : g.getClauseColor n.clauseRef A_mask = .ok c := hc
  unfold ProofGraph.computePartialInterpolantForOriginalClause
  simp only [hc2]
  rcases getClauseColor_ne_undef g _ _ _ hc2 with rfl | rfl | rfl
  · exact ⟨_, by simpa using getInterpolantForOriginalClause_A g info n⟩
  · exact ⟨_, by simpa using getInterpolantForOriginalClause_B g info n⟩
  · exact ⟨_, by simpa using getInterpolantForOriginalClause_A g info n⟩

theorem labelLeaf_total (g : ProofGraph PTRef TS) (info : InterpolationInfo PTRef)
    (n : ProofNode) (ps : Option (StdMap icolor_t)) (halgo : g.itp_bool_algo ≠ .unset)
    (hps : g.needProofStatistics = true → ∃ labels, ps = some labels ∧
      ∀ l ∈ n.clause, g.isAssumedVar (var l) = false → info.varClass (var l) = .I_AB →
        ∃ c, StdMap.find labels (var l) = some c) :
    ∃ info1, g.labelLeaf info n ps = (.ok (), info1) := by
  have plain : ∀ (c : InterpolationInfo PTRef → ProofNode → Var → InterpolationInfo PTRef),
      (∀ i node v, (c i node v).varClass = i.varClass) →
      ∃ info1, g.setLeafLabeling info n (fun i node v => (.ok (), c i node v)) =
        (.ok (), info1) := by
    intro c hc
    refine setLeafLabeling_fold_ok g n (fun i node v => (.ok (), c i node v)) ?_ n.clause
      info ?_
    rotate_left
    · intro l _ _ _ i1
      exact ⟨_, rfl⟩
    · intro i v r i2 h
      simp only [Prod.mk.injEq] at h
      rw [← h.2]
      exact hc i n v
  have stat : ∀ (labels : StdMap icolor_t)
      (c1 c2 : InterpolationInfo PTRef → ProofNode → Var → InterpolationInfo PTRef),
      (∀ i node v, (c1 i node v).varClass = i.varClass) →
      (∀ i node v, (c2 i node v).varClass = i.varClass) →
      (∀ l ∈ n.clause, g.isAssumedVar (var l) = false → info.varClass (var l) = .I_AB →
        ∃ c, StdMap.find labels (var l) = some c) →
      ∃ info1, g.setLeafLabeling info n (fun i node v =>
        match StdMap.find labels v with
        | none => (.error .undefined_reference, i)
        | some c => if c = .I_A then (.ok (), c1 i node v) else (.ok (), c2 i node v)) =
        (.ok (), info1) := by
    intro labels c1 c2 h1 h2 hcov
    refine setLeafLabeling_fold_ok g n (fun i node v =>
        match StdMap.find labels v with
        | none => (.error .undefined_reference, i)
        | some c => if c = .I_A then (.ok (), c1 i node v) else (.ok (), c2 i node v))
      ?_ n.clause info ?_
    rotate_left
    · intro l hl hna hAB i1
      obtain ⟨c, hc⟩ := hcov l hl hna hAB
      simp only [hc]
      split_ifs
      · exact ⟨_, rfl⟩
      · exact ⟨_, rfl⟩
    · intro i v r i2 h
      cases hf : StdMap.find labels v with
      | none =>
        simp only [hf, Prod.mk.injEq] at h
        rw [← h.2]
      | some c =>
        simp only [hf] at h
        split_ifs at h
        · simp only [Prod.mk.injEq] at h
          rw [← h.2]; exact h1 i n v
        · simp only [Prod.mk.injEq] at h
          rw [← h.2]; exact h2 i n v
  unfold ProofGraph.labelLeaf
  cases halg : g.itp_bool_algo
  case unset => exact absurd halg halgo
  case mcmillan =>
    simp only [ProofGraph.usingPSInterpolation, ProofGraph.usingPSWInterpolation,
      ProofGraph.usingPSSInterpolation, ProofGraph.usingMcMillanInterpolation, halg,
      reduceCtorEq, decide_False, Bool.false_eq_true, if_false, decide_True, if_true]
    exact plain _ (fun _ _ _ => rfl)
  case pudlak =>
    simp only [ProofGraph.usingPSInterpolation, ProofGraph.usingPSWInterpolation,
      ProofGraph.usingPSSInterpolation, ProofGraph.usingMcMillanInterpolation,
      ProofGraph.usingPudlakInterpolation, halg,
      reduceCtorEq, decide_False, Bool.false_eq_true, if_false, decide_True, if_true]
    exact plain _ (fun _ _ _ => rfl)
  case mcmillanp =>
    simp only [ProofGraph.usingPSInterpolation, ProofGraph.usingPSWInterpolation,
      ProofGraph.usingPSSInterpolation, ProofGraph.usingMcMillanInterpolation,
      ProofGraph.usingPudlakInterpolation, ProofGraph.usingMcMillanPrimeInterpolation, halg,
      reduceCtorEq, decide_False, Bool.false_eq_true, if_false, decide_True, if_true]
    exact plain _ (fun _ _ _ => rfl)
  case ps =>
    obtain ⟨labels, rfl, hcov⟩ := hps (by
      simp [ProofGraph.needProofStatistics, ProofGraph.usingPSInterpolation, halg])
    simp only [ProofGraph.usingPSInterpolation, halg, decide_True, if_true]
    exact stat labels _ _ (fun _ _ _ => rfl) (fun _ _ _ => rfl) hcov
  case psw =>
    obtain ⟨labels, rfl, hcov⟩ := hps (by
      simp [ProofGraph.needProofStatistics, ProofGraph.usingPSWInterpolation, halg])
    simp only [ProofGraph.usingPSInterpolation, ProofGraph.usingPSWInterpolation, halg,
      reduceCtorEq, decide_False, Bool.false_eq_true, if_false, decide_True, if_true]
    exact stat labels _ _ (fun _ _ _ => rfl) (fun _ _ _ => rfl) hcov
  case pss =>
    obtain ⟨labels, rfl, hcov⟩ := hps (by
      simp [ProofGraph.needProofStatistics, ProofGraph.usingPSSInterpolation, halg])
    simp only [ProofGraph.usingPSInterpolation, ProofGraph.usingPSWInterpolation,
      ProofGraph.usingPSSInterpolation, halg,
      reduceCtorEq, decide_False, Bool.false_eq_true, if_false, decide_True, if_true]
    exact stat labels _ _ (fun _ _ _ => rfl) (fun _ _ _ => rfl) hcov

/-! ## The traversal preserves the invariant and does not fail -/

theorem processNode_craig [DecidableEq PTRef] (g : ProofGraph PTRef TS)
    (A_mask : ipartitions_t) (eval : (Var → Bool) → PTRef → Bool)
    (hsem : LogicSemantics g.logic_ g.varToPTRef eval)
    (hnoassume : ∀ v ∈ g.proof_variables,
      g.isAssumedVar v = false ∧ ∀ s, g.isAssumedLiteral ⟨v, s⟩ = false)
    (hleaves : ∀ id ∈ g.DFSv, ∀ n, g.getNode id = some n → n.isLeaf = true →
      n.type = .CLA_ORIG ∧ g.getClauseClassMask n.clauseRef ≠ 0)
    (ps : Option (StdMap icolor_t)) (seen : List Nat) (st : RunState PTRef TS) (id : Nat)
    (hidD : id ∈ g.DFSv) (hck : g.checkNode seen id = true)
    (hinv : RunInv g A_mask eval seen st.interpolationInfo) :
    (∀ st1 u, g.processNode A_mask ps st id = (.ok u, st1) →
      RunInv g A_mask eval (id :: seen) st1.interpolationInfo ∧
      st1.interpolationInfo.varClass = st.interpolationInfo.varClass) ∧
    ((∀ n, g.getNode id = some n → n.isLeaf = true →
        ∃ info1, g.labelLeaf st.interpolationInfo n ps = (.ok (), info1)) →
      ∃ st1, g.processNode A_mask ps st id = (.ok (), st1)) := by
  obtain ⟨n, hn, hid, hnew, hvars, _⟩ := checkNode_spec g seen id hck
  cases hants : n.ants with
  | none =>
    have hleaf : n.isLeaf = true := by simp [ProofNode.isLeaf, hants]
    obtain ⟨hO, hmask⟩ := hleaves id hidD n hn hleaf
    constructor
    · intro st1 u h
      obtain ⟨n2, hn2, hcase⟩ := processNode_ok g A_mask ps st st1 id u h
      rw [hn] at hn2
      obtain rfl : n = n2 := Option.some.inj hn2
      rcases hcase with ⟨_, info1, t, hl, hst, hkind⟩ | ⟨hf, _⟩
      · rcases hkind with ⟨_, ho⟩ | ⟨hT, _⟩ | ⟨hnO, _⟩
        · rw [hst]
          refine ⟨leaf_step g A_mask eval hsem hnoassume ps seen _ info1 id n t hn hid hidD
            hvars hleaf hinv hnew hl ho, ?_⟩
          exact (labelLeaf_spec g _ info1 n ps () hl).1
        · rw [hO] at hT; cases hT
        · exact absurd hO hnO
      · rw [hleaf] at hf; cases hf
    · intro hlab
      obtain ⟨info1, hl⟩ := hlab n hn hleaf
      obtain ⟨t, ho⟩ := origClause_total g info1 n A_mask hmask
      refine ⟨{ st with interpolationInfo := info1.setPartialInterpolant n t }, ?_⟩
      unfold ProofGraph.processNode
      simp only [hn, hleaf, if_true, hO, isLeafClauseType, Bool.not_true, Bool.false_eq_true,
        if_false, hl, ho]
  | some p =>
    obtain ⟨a1, a2⟩ := p
    have hleaf : n.isLeaf = false := by simp [ProofNode.isLeaf, hants]
    obtain ⟨t, info1, hc, hR⟩ := inner_step g A_mask eval hsem hnoassume seen
      st.interpolationInfo id hck hinv n hn a1 a2 hants
    constructor
    · intro st1 u h
      obtain ⟨n2, hn2, hcase⟩ := processNode_ok g A_mask ps st st1 id u h
      rw [hn] at hn2
      obtain rfl : n = n2 := Option.some.inj hn2
      rcases hcase with ⟨hf, _⟩ | ⟨_, info2, t2, hc2, hst⟩
      · rw [hleaf] at hf; cases hf
      · rw [hc] at hc2
        simp only [Prod.mk.injEq, Except.ok.injEq] at hc2
        obtain ⟨rfl, rfl⟩ := hc2
        rw [hst]
        refine ⟨hR, ?_⟩
        obtain ⟨_, _, _, _, c, _, _, _, hp, _⟩ :=
          compInterpLabelingInner_ok g _ info1 n t hc
        have hf := (getPivotColor_frame g st.interpolationInfo n).1
        rw [hp] at hf
        exact hf
    · intro _
      refine ⟨{ st with interpolationInfo := info1.setPartialInterpolant n t }, ?_⟩
      unfold ProofGraph.processNode
      simp only [hn, hleaf, Bool.false_eq_true, if_false, hc]

theorem traverse_craig [DecidableEq PTRef] (g : ProofGraph PTRef TS)
    (A_mask : ipartitions_t) (eval : (Var → Bool) → PTRef → Bool)
    (hsem : LogicSemantics g.logic_ g.varToPTRef eval)
    (hnoassume : ∀ v ∈ g.proof_variables,
      g.isAssumedVar v = false ∧ ∀ s, g.isAssumedLiteral ⟨v, s⟩ = false)
    (hleaves : ∀ id ∈ g.DFSv, ∀ n, g.getNode id = some n → n.isLeaf = true →
      n.type = .CLA_ORIG ∧ g.getClauseClassMask n.clauseRef ≠ 0)
    (ps : Option (StdMap icolor_t)) (cls : Var → icolor_t) :
    ∀ (ids seen : List Nat) (st : RunState PTRef TS),
      g.checkOrder seen ids = true → (∀ id ∈ ids, id ∈ g.DFSv) →
      RunInv g A_mask eval seen st.interpolationInfo →
      st.interpolationInfo.varClass = cls →
      (∀ st1 u, g.traverse A_mask ps ids st = (.ok u, st1) →
        RunInv g A_mask eval (ids.reverse ++ seen) st1.interpolationInfo) ∧
      ((∀ id ∈ ids, ∀ n, g.getNode id = some n → n.isLeaf = true →
          ∀ info : InterpolationInfo PTRef, info.varClass = cls →
          ∃ info1, g.labelLeaf info n ps = (.ok (), info1)) →
        ∃ st1, g.traverse A_mask ps ids st = (.ok (), st1)) := by
  intro ids
  induction ids with
  | nil =>
    intro seen st _ _ hinv _
    refine ⟨?_, fun _ => ⟨st, rfl⟩⟩
    intro st1 u h
    simp only [ProofGraph.traverse, Prod.mk.injEq] at h
    rw [← h.2]
    simpa using hinv
  | cons id rest ih =>
    intro seen st hck hmem hinv hcls
    simp only [ProofGraph.checkOrder, Bool.and_eq_true] at hck
    obtain ⟨hck1, hck2⟩ := hck
    have hidD := hmem id (List.mem_cons_self _ _)
    obtain ⟨hpart, htot⟩ := processNode_craig g A_mask eval hsem hnoassume hleaves ps seen st
      id hidD hck1 hinv
    constructor
    · intro st1 u h
      simp only [ProofGraph.traverse] at h
      rcases hp : g.processNode A_mask ps st id with ⟨r, st2⟩
      rw [hp] at h
      cases r with
      | error e => simp at h
      | ok u2 =>
        simp only at h
        obtain ⟨hinv2, hcls2⟩ := hpart st2 u2 hp
        have := (ih (id :: seen) st2 hck2 (fun x hx => hmem x (List.mem_cons_of_mem _ hx))
          hinv2 (hcls2.trans hcls)).1 st1 u h
        simpa using this
    · intro hlab
      obtain ⟨st2, hp⟩ := htot (fun n hn hleaf =>
        hlab id (List.mem_cons_self _ _) n hn hleaf _ hcls)
      obtain ⟨hinv2, hcls2⟩ := hpart st2 () hp
      obtain ⟨st1, h1⟩ := (ih (id :: seen) st2 hck2
        (fun x hx => hmem x (List.mem_cons_of_mem _ hx)) hinv2 (hcls2.trans hcls)).2
        (fun x hx => hlab x (List.mem_cons_of_mem _ hx))
      refine ⟨st1, ?_⟩
      simp only [ProofGraph.traverse, hp]
      exact h1

/-! ## The proof-statistics map covers the AB variables of the A and B leaves -/

theorem StdMap.find_assign {α : Type} (m : StdMap α) (k : Var) (a : α) (k2 : Var) :
    StdMap.find (StdMap.assign m k a) k2 = if k2 = k then some a else StdMap.find m k2 := by
  induction m with
  | nil =>
    simp only [StdMap.assign, StdMap.find, List.lookup]
    by_cases h : k2 = k
    · simp [h]
    · have : (k2 == k) = false := by simpa using h
      simp [h, this]
  | cons e rest ih =>
    obtain ⟨k1, a1⟩ := e
    simp only [StdMap.assign]
    by_cases h1 : k < k1
    · simp only [h1, if_true, StdMap.find, List.lookup]
      by_cases h : k2 = k
      · simp [h]
      · have : (k2 == k) = false := by simpa using h
        simp [h, this]
    · simp only [h1, if_false]
      by_cases h2 : k = k1
      · subst h2
        simp only [if_true, StdMap.find, List.lookup]
        by_cases h : k2 = k
        · simp [h]
        · have : (k2 == k) = false := by simpa using h
          simp [h, this]
      · simp only [h2, if_false, StdMap.find, List.lookup]
        by_cases h : k2 = k1
        · subst h
          have hne : ¬ k2 = k := fun e => h2 e.symm
          simp [hne]
        · have : (k2 == k1) = false := by simpa using h
          simp only [this]
          exact ih

theorem StdMap.find_increment (m : StdMap Int) (k k2 : Var) :
    (∃ c, StdMap.find (StdMap.increment m k) k2 = some c) ↔
      (k2 = k ∨ ∃ c, StdMap.find m k2 = some c) := by
  unfold StdMap.increment
  rw [StdMap.find_assign]
  by_cases h : k2 = k
  · simp [h]
  · simp [h]

theorem StdMap.find_ensureKey (m : StdMap Int) (k k2 : Var) :
    (∃ c, StdMap.find (StdMap.ensureKey m k) k2 = some c) ↔
      (k2 = k ∨ ∃ c, StdMap.find m k2 = some c) := by
  unfold StdMap.ensureKey
  cases hf : StdMap.find m k with
  | none =>
    simp only
    rw [StdMap.find_assign]
    by_cases h : k2 = k
    · simp [h]
    · simp [h]
  | some c =>
    simp only
    by_cases h : k2 = k
    · subst h; simp [hf]
    · simp [h]

theorem countOccurrences_cons (info : InterpolationInfo PTRef) (col : icolor_t) (a : Lit)
    (rest : List Lit) (occ : StdMap Int × StdMap Int) :
    countOccurrences info col (a :: rest) occ =
      countOccurrences info col rest
        (if info.getVarClass (var a) ≠ .I_AB then occ
         else if col = .I_A then (StdMap.increment occ.1 (var a), StdMap.ensureKey occ.2 (var a))
         else if col = .I_B then (StdMap.ensureKey occ.1 (var a), StdMap.increment occ.2 (var a))
         else occ) := rfl

theorem countOccurrences_step_dom (info : InterpolationInfo PTRef) (col : icolor_t) (a : Lit)
    (occ : StdMap Int × StdMap Int) (k : Var) :
    ((∃ c, StdMap.find
        (if info.getVarClass (var a) ≠ .I_AB then occ
         else if col = .I_A then (StdMap.increment occ.1 (var a), StdMap.ensureKey occ.2 (var a))
         else if col = .I_B then (StdMap.ensureKey occ.1 (var a), StdMap.increment occ.2 (var a))
         else occ).1 k = some c) ↔
      ((∃ c, StdMap.find occ.1 k = some c) ∨
        ((col = .I_A ∨ col = .I_B) ∧ var a = k ∧ info.varClass k = .I_AB))) ∧
    ((∃ c, StdMap.find
        (if info.getVarClass (var a) ≠ .I_AB then occ
         else if col = .I_A then (StdMap.increment occ.1 (var a), StdMap.ensureKey occ.2 (var a))
         else if col = .I_B then (StdMap.ensureKey occ.1 (var a), StdMap.increment occ.2 (var a))
         else occ).2 k = some c) ↔
      ((∃ c, StdMap.find occ.2 k = some c) ∨
        ((col = .I_A ∨ col = .I_B) ∧ var a = k ∧ info.varClass k = .I_AB))) := by
  have hcase : ∀ (P : Prop), (k = var a ∨ P) ↔
      (P ∨ (var a = k ∧ info.varClass k = .I_AB)) ∨ (k = var a ∧ ¬ info.varClass k = .I_AB) := by
    intro P
    constructor
    · rintro (h | h)
      · by_cases hk : info.varClass k = .I_AB
        · exact Or.inl (Or.inr ⟨h.symm, hk⟩)
        · exact Or.inr ⟨h, hk⟩
      · exact Or.inl (Or.inl h)
    · rintro ((h | h) | h)
      · exact Or.inr h
      · exact Or.inl h.1.symm
      · exact Or.inl h.1
  simp only [InterpolationInfo.getVarClass]
  by_cases hAB : info.varClass (var a) = .I_AB
  · have hk : ∀ (P : Prop), (k = var a ∨ P) ↔ (P ∨ (var a = k ∧ info.varClass k = .I_AB)) := by
      intro P
      rw [hcase P]
      constructor
      · rintro (h | ⟨h1, h2⟩)
        · exact h
        · rw [h1] at h2; exact absurd hAB h2
      · intro h; exact Or.inl h
    by_cases hA : col = .I_A
    · simp only [hAB, ne_eq, not_true_eq_false, if_false, hA, if_true, true_or, true_and]
      rw [StdMap.find_increment, StdMap.find_ensureKey, hk, hk]
      exact ⟨Iff.rfl, Iff.rfl⟩
    · by_cases hB : col = .I_B
      · simp only [hAB, ne_eq, not_true_eq_false, if_false, hB, reduceCtorEq, if_true,
          or_true, true_and]
        rw [StdMap.find_increment, StdMap.find_ensureKey, hk, hk]
        exact ⟨Iff.rfl, Iff.rfl⟩
      · simp [hAB, hA, hB]
  · simp only [ne_eq, hAB, not_false_eq_true, if_true]
    have : ¬ (var a = k ∧ info.varClass k = .I_AB) := by
      rintro ⟨h1, h2⟩
      rw [← h1] at h2
      exact hAB h2
    simp [this]

theorem countOccurrences_dom (info : InterpolationInfo PTRef) (col : icolor_t)
    (clause : List Lit) :
    ∀ (occ : StdMap Int × StdMap Int) (k : Var),
      ((∃ c, StdMap.find (countOccurrences info col clause occ).1 k = some c) ↔
        ((∃ c, StdMap.find occ.1 k = some c) ∨
          ((col = .I_A ∨ col = .I_B) ∧ ∃ l ∈ clause, var l = k ∧ info.varClass k = .I_AB))) ∧
      ((∃ c, StdMap.find (countOccurrences info col clause occ).2 k = some c) ↔
        ((∃ c, StdMap.find occ.2 k = some c) ∨
          ((col = .I_A ∨ col = .I_B) ∧ ∃ l ∈ clause, var l = k ∧ info.varClass k = .I_AB))) := by
  induction clause with
  | nil => intro occ k; simp [countOccurrences]
  | cons a rest ih =>
    intro occ k
    rw [countOccurrences_cons]
    obtain ⟨i1, i2⟩ := ih _ k
    obtain ⟨s1, s2⟩ := countOccurrences_step_dom info col a occ k
    rw [i1, i2, s1, s2]
    simp only [List.mem_cons, exists_eq_or_imp]
    constructor
    · constructor
      · rintro ((h | ⟨hc, h⟩) | ⟨hc, h⟩)
        · exact Or.inl h
        · exact Or.inr ⟨hc, Or.inl h⟩
        · exact Or.inr ⟨hc, Or.inr h⟩
      · rintro (h | ⟨hc, h | h⟩)
        · exact Or.inl (Or.inl h)
        · exact Or.inl (Or.inr ⟨hc, h⟩)
        · exact Or.inr ⟨hc, h⟩
    · constructor
      · rintro ((h | ⟨hc, h⟩) | ⟨hc, h⟩)
        · exact Or.inl h
        · exact Or.inr ⟨hc, Or.inl h⟩
        · exact Or.inr ⟨hc, Or.inr h⟩
      · rintro (h | ⟨hc, h | h⟩)
        · exact Or.inl (Or.inl h)
        · exact Or.inl (Or.inr ⟨hc, h⟩)
        · exact Or.inr ⟨hc, h⟩

theorem StdMap.find_insert {α : Type} (m : StdMap α) (k : Var) (a : α) (k2 : Var) :
    (∃ c, StdMap.find (StdMap.insert m k a) k2 = some c) ↔
      (k2 = k ∨ ∃ c, StdMap.find m k2 = some c) := by
  unfold StdMap.insert
  cases hf : StdMap.find m k with
  | none =>
    simp only
    rw [StdMap.find_assign]
    by_cases h : k2 = k
    · simp [h]
    · simp [h]
  | some c =>
    simp only
    by_cases h : k2 = k
    · subst h; simp [hf]
    · simp [h]

theorem StdMap.find_iff_mem {α : Type} (m : StdMap α) (k : Var) :
    (∃ c, StdMap.find m k = some c) ↔ ∃ e ∈ m, e.1 = k := by
  induction m with
  | nil => simp [StdMap.find, List.lookup]
  | cons e rest ih =>
    obtain ⟨k1, a1⟩ := e
    unfold StdMap.find at ih ⊢
    simp only [List.lookup, List.mem_cons, exists_eq_or_imp]
    by_cases h : k = k1
    · subst h
      simp
    · have : (k == k1) = false := by simpa using h
      simp only [this]
      rw [ih]
      constructor
      · intro hx; exact Or.inr hx
      · rintro (hx | hx)
        · exact absurd hx.symm h
        · exact hx

theorem collectOccurrences_spec (g : ProofGraph PTRef TS) (info : InterpolationInfo PTRef)
    (A_mask : ipartitions_t) (leaves : List Nat) :
    ∀ occ : StdMap Int × StdMap Int,
    (∀ id ∈ leaves, ∃ n, g.getNode id = some n ∧
      (n.type = .CLA_ORIG → g.getClauseClassMask n.clauseRef ≠ 0)) →
    ∃ r, g.collectOccurrences info A_mask leaves occ = .ok r ∧ ∀ k,
      ((∃ c, StdMap.find r.1 k = some c) ↔
        ((∃ c, StdMap.find occ.1 k = some c) ∨
          ∃ id ∈ leaves, ∃ n, g.getNode id = some n ∧ n.type = .CLA_ORIG ∧
            (g.getClauseColor n.clauseRef A_mask = .ok .I_A ∨
              g.getClauseColor n.clauseRef A_mask = .ok .I_B) ∧
            ∃ l ∈ n.clause, var l = k ∧ info.varClass k = .I_AB)) ∧
      ((∃ c, StdMap.find r.2 k = some c) ↔
        ((∃ c, StdMap.find occ.2 k = some c) ∨
          ∃ id ∈ leaves, ∃ n, g.getNode id = some n ∧ n.type = .CLA_ORIG ∧
            (g.getClauseColor n.clauseRef A_mask = .ok .I_A ∨
              g.getClauseColor n.clauseRef A_mask = .ok .I_B) ∧
            ∃ l ∈ n.clause, var l = k ∧ info.varClass k = .I_AB)) := by
  induction leaves with
  | nil =>
    intro occ _
    exact ⟨occ, rfl, fun k => by simp⟩
  | cons id rest ih =>
    intro occ hnodes
    obtain ⟨n, hn, hmask⟩ := hnodes id (List.mem_cons_self _ _)
    have hrest := fun x hx => hnodes x (List.mem_cons_of_mem _ hx)
    unfold ProofGraph.collectOccurrences
    simp only [hn]
    by_cases hO : n.type = .CLA_ORIG
    · obtain ⟨col, hcol⟩ := getClass_ok (g.getClauseClassMask n.clauseRef) A_mask (hmask hO)
      have hcol2 : g.getClauseColor n.clauseRef A_mask = .ok col := hcol
      simp only [hO, ne_eq, not_true_eq_false, if_false, hcol2]
      obtain ⟨r, hr, hdom⟩ := ih (countOccurrences info col n.clause occ) hrest
      refine ⟨r, hr, ?_⟩
      intro k
      obtain ⟨d1, d2⟩ := hdom k
      obtain ⟨e1, e2⟩ := countOccurrences_dom info col n.clause occ k
      rw [d1, d2, e1, e2]
      have hmid : ((col = .I_A ∨ col = .I_B) ∧
            ∃ l ∈ n.clause, var l = k ∧ info.varClass k = .I_AB) ↔
          (∃ n2, g.getNode id = some n2 ∧ n2.type = .CLA_ORIG ∧
            (g.getClauseColor n2.clauseRef A_mask = .ok .I_A ∨
              g.getClauseColor n2.clauseRef A_mask = .ok .I_B) ∧
            ∃ l ∈ n2.clause, var l = k ∧ info.varClass k = .I_AB) := by
        constructor
        · rintro ⟨hc, hl⟩
          refine ⟨n, hn, hO, ?_, hl⟩
          rcases hc with rfl | rfl
          · exact Or.inl hcol2
          · exact Or.inr hcol2
        · rintro ⟨n2, hn2, _, hc, hl⟩
          rw [hn] at hn2
          obtain rfl : n = n2 := Option.some.inj hn2
          refine ⟨?_, hl⟩
          rw [hcol2] at hc
          rcases hc with hc | hc
          · exact Or.inl (Except.ok.inj hc)
          · exact Or.inr (Except.ok.inj hc)
      rw [hmid]
      simp only [List.mem_cons, exists_eq_or_imp]
      constructor
      · constructor
        · rintro ((h | h) | h)
          · exact Or.inl h
          · exact Or.inr (Or.inl h)
          · exact Or.inr (Or.inr h)
        · rintro (h | h | h)
          · exact Or.inl (Or.inl h)
          · exact Or.inl (Or.inr h)
          · exact Or.inr h
      · constructor
        · rintro ((h | h) | h)
          · exact Or.inl h
          · exact Or.inr (Or.inl h)
          · exact Or.inr (Or.inr h)
        · rintro (h | h | h)
          · exact Or.inl (Or.inl h)
          · exact Or.inl (Or.inr h)
          · exact Or.inr h
    · simp only [ne_eq, hO, not_false_eq_true, if_true]
      obtain ⟨r, hr, hdom⟩ := ih occ hrest
      refine ⟨r, hr, ?_⟩
      intro k
      obtain ⟨d1, d2⟩ := hdom k
      rw [d1, d2]
      have hno : ¬ (∃ n2, g.getNode id = some n2 ∧ n2.type = .CLA_ORIG ∧
            (g.getClauseColor n2.clauseRef A_mask = .ok .I_A ∨
              g.getClauseColor n2.clauseRef A_mask = .ok .I_B) ∧
            ∃ l ∈ n2.clause, var l = k ∧ info.varClass k = .I_AB) := by
        rintro ⟨n2, hn2, hO2, _⟩
        rw [hn] at hn2
        obtain rfl : n = n2 := Option.some.inj hn2
        exact hO hO2
      simp only [List.mem_cons, exists_eq_or_imp, hno, false_or]
      exact ⟨trivial, trivial⟩

theorem buildLabels_spec (occ_b : StdMap Int) (entries : List (Var × Int)) :
    ∀ labels : StdMap icolor_t,
    (∀ e ∈ entries, ∃ c, StdMap.find occ_b e.1 = some c) →
    ∃ r, buildLabels occ_b entries labels = .ok r ∧ ∀ k,
      ((∃ c, StdMap.find r k = some c) ↔
        ((∃ c, StdMap.find labels k = some c) ∨ ∃ e ∈ entries, e.1 = k)) := by
  induction entries with
  | nil =>
    intro labels _
    exact ⟨labels, rfl, fun k => by simp⟩
  | cons e rest ih =>
    intro labels hcov
    obtain ⟨v, qtta⟩ := e
    obtain ⟨qttb, hq⟩ := hcov (v, qtta) (List.mem_cons_self _ _)
    unfold buildLabels
    simp only at hq
    simp only [hq]
    obtain ⟨r, hr, hdom⟩ := ih
      (StdMap.insert labels v (if qtta > qttb then icolor_t.I_A else icolor_t.I_B))
      (fun x hx => hcov x (List.mem_cons_of_mem _ hx))
    refine ⟨r, hr, ?_⟩
    intro k
    rw [hdom k, StdMap.find_insert]
    simp only [List.mem_cons, exists_eq_or_imp]
    constructor
    · rintro ((h | h) | h)
      · exact Or.inr (Or.inl h.symm)
      · exact Or.inl h
      · exact Or.inr (Or.inr h)
    · rintro (h | h | h)
      · exact Or.inl (Or.inr h)
      · exact Or.inl (Or.inl h.symm)
      · exact Or.inr h

theorem computePSFunction_spec (g : ProofGraph PTRef TS) (info : InterpolationInfo PTRef)
    (A_mask : ipartitions_t)
    (hnodes : ∀ id ∈ g.leaves_ids, ∃ n, g.getNode id = some n ∧
      (n.type = .CLA_ORIG → g.getClauseClassMask n.clauseRef ≠ 0)) :
    ∃ labels, g.computePSFunction info A_mask = .ok labels ∧ ∀ k,
      ((∃ c, StdMap.find labels k = some c) ↔
        ∃ id ∈ g.leaves_ids, ∃ n, g.getNode id = some n ∧ n.type = .CLA_ORIG ∧
          (g.getClauseColor n.clauseRef A_mask = .ok .I_A ∨
            g.getClauseColor n.clauseRef A_mask = .ok .I_B) ∧
          ∃ l ∈ n.clause, var l = k ∧ info.varClass k = .I_AB) := by
  obtain ⟨r, hr, hdom⟩ := collectOccurrences_spec g info A_mask g.leaves_ids ([], []) hnodes
  have hnil : ∀ k : Var, ¬ ∃ c, StdMap.find ([] : StdMap Int) k = some c := by
    intro k; simp [StdMap.find, List.lookup]
  have hsame : ∀ k, (∃ c, StdMap.find r.1 k = some c) ↔ (∃ c, StdMap.find r.2 k = some c) := by
    intro k
    rw [(hdom k).1, (hdom k).2]
  obtain ⟨labels, hl, hldom⟩ := buildLabels_spec r.2 r.1 []
    (fun e he => (hsame e.1).mp ((StdMap.find_iff_mem r.1 e.1).mpr ⟨e, he, rfl⟩))
  refine ⟨labels, ?_, ?_⟩
  · unfold ProofGraph.computePSFunction
    rw [hr]
    exact hl
  · intro k
    rw [hldom k, ← StdMap.find_iff_mem, (hdom k).1]
    have h1 := hnil k
    constructor
    · rintro (h | h | h)
      · exact absurd h (by simp [StdMap.find, List.lookup])
      · exact absurd h h1
      · exact h
    · intro h; exact Or.inr (Or.inr h)

/-! ## Craig interpolation -/

theorem getClass_ok_cases (M α : ipartitions_t) (c : icolor_t) (h : getClass M α = .ok c) :
    (c = .I_A ∨ c = .I_B ∨ c = .I_AB) ∧ M ≠ 0 := by
  have hz := mask_split M α
  rw [getClass_cases] at h
  by_cases hA : Int.land M α = 0 <;> by_cases hB : Int.land M (Int.lnot α) = 0 <;>
    simp [hA, hB] at h hz <;> subst h <;> simp [hz]

theorem getVarClass_ok_cases (g : ProofGraph PTRef TS) (v : Var) (A_mask : ipartitions_t)
    (c : icolor_t) (h : g.getVarClass v A_mask = .ok c) :
    c = .I_A ∨ c = .I_B ∨ c = .I_AB := by
  unfold ProofGraph.getVarClass at h
  split_ifs at h
  · simp only [Except.ok.injEq] at h
    subst h
    simp
  · exact (getClass_ok_cases _ _ _ h).1

theorem checkOrder_nodes (g : ProofGraph PTRef TS) :
    ∀ (ids seen : List Nat), g.checkOrder seen ids = true →
      ∀ id ∈ ids, ∃ n, g.getNode id = some n := by
  intro ids
  induction ids with
  | nil => intro _ _ id hid; cases hid
  | cons a rest ih =>
    intro seen h id hid
    simp only [ProofGraph.checkOrder, Bool.and_eq_true] at h
    rcases List.mem_cons.mp hid with rfl | hid
    · obtain ⟨n, hn, _⟩ := checkNode_spec g seen _ h.1
      exact ⟨n, hn⟩
    · exact ih _ h.2 id hid

/-- C1 (amended). For every valid resolution refutation whose leaves are all ORIG clauses
and in which no assumption variable occurs, every A-mask under which each leaf clause has a
class, each of the six labeling systems and every term store with truth-value semantics:
the term that `produceSingleInterpolant` appends for the root is a Craig interpolant (the
conjunction of the leaf clauses attributed to A implies it, and it is false wherever the
conjunction of the leaf clauses attributed to B holds).  The run does return a term when
every proof variable has a non-zero partition mask and, for the proof-sensitive systems,
`leaves_ids` lists the leaves of the proof and no leaf clause mask yields AB. -/
theorem produceSingleInterpolant_craig [DecidableEq PTRef] (g : ProofGraph PTRef TS)
    (eval : (Var → Bool) → PTRef → Bool)
    (hsem : LogicSemantics g.logic_ g.varToPTRef eval)
    (A_mask : ipartitions_t) (interpolants : List PTRef) (st : RunState PTRef TS)
    (hvalid : g.isRefutation = true)
    (hleaves : ∀ id ∈ g.DFSv, ∀ n, g.getNode id = some n → n.isLeaf = true →
      n.type = .CLA_ORIG ∧ ∃ c, g.getClauseColor n.clauseRef A_mask = .ok c)
    (hnoassume : ∀ v ∈ g.proof_variables,
      g.isAssumedVar v = false ∧ ∀ s, g.isAssumedLiteral ⟨v, s⟩ = false)
    (halgo : g.itp_bool_algo ≠ .unset) :
    ((g.produceSingleInterpolant interpolants A_mask st).result = .ok () →
      ∃ I, (g.produceSingleInterpolant interpolants A_mask st).interpolants =
          interpolants ++ [I] ∧ g.isInterpolant A_mask eval I) ∧
    ((∀ v ∈ g.proof_variables, g.getVarPartition v ≠ 0) →
      (g.needProofStatistics = true →
        (∀ id ∈ g.leaves_ids, id ∈ g.DFSv ∧ ∀ n, g.getNode id = some n → n.isLeaf = true) ∧
        (∀ id ∈ g.DFSv, ∀ n, g.getNode id = some n → n.isLeaf = true →
          id ∈ g.leaves_ids ∧ g.getClauseColor n.clauseRef A_mask ≠ .ok .I_AB)) →
      (g.produceSingleInterpolant interpolants A_mask st).result = .ok ()) := by
  obtain ⟨hord, hrootD, r, hr, hrc⟩ := isRefutation_spec g hvalid
  have hleaves2 : ∀ id ∈ g.DFSv, ∀ n, g.getNode id = some n → n.isLeaf = true →
      n.type = .CLA_ORIG ∧ g.getClauseClassMask n.clauseRef ≠ 0 := by
    intro id hid n hn hl
    obtain ⟨hO, c, hc⟩ := hleaves id hid n hn hl
    exact ⟨hO, (getClass_ok_cases _ _ _ hc).2⟩
  have hinit : ∀ info0 : InterpolationInfo PTRef,
      InterpolationInfo.reset g.proof_variables (fun v => g.getVarClass v A_mask) =
        (.ok (), info0) → RunInv g A_mask eval [] info0 := by
    intro info0 hreset
    obtain ⟨_, _, _, _, r5⟩ := reset_spec _ _ info0 () hreset
    refine ⟨?_, ?_⟩
    · intro v hv
      exact getVarClass_ok_cases g v A_mask _ (r5 v hv)
    · intro m hm; cases hm
  have hfinal : ∀ info : InterpolationInfo PTRef, RunInv g A_mask eval (g.DFSv.reverse ++ []) info →
      ∃ I, info.partialInterpolant r.id = some I ∧ g.isInterpolant A_mask eval I := by
    intro info hinv
    obtain ⟨r2, hr2, _, _, I, hI, _, hP1, hP2⟩ := hinv.2 g.root (by simpa using hrootD)
    rw [hr] at hr2
    obtain rfl : r = r2 := Option.some.inj hr2
    refine ⟨I, hI, ?_, ?_⟩
    · intro σ hσ
      exact hP1 σ hσ (by rw [hrc]; intro l hl; cases hl)
    · intro σ hσ
      exact hP2 σ hσ (by rw [hrc]; intro l hl; cases hl)
  constructor
  · intro hrun
    obtain ⟨info0, ps, st1, rootNode, I, _, hreset, htrav, hroot, hI, hres⟩ :=
      produceSingleInterpolant_ok g interpolants A_mask st hrun
    refine ⟨I, by rw [hres], ?_⟩
    have hinv := (traverse_craig g A_mask eval hsem hnoassume hleaves2 ps info0.varClass
      g.DFSv [] _ hord (fun _ h => h) (hinit info0 hreset) rfl).1 st1 () htrav
    obtain ⟨I2, hI2, hint⟩ := hfinal _ hinv
    rw [hr] at hroot
    obtain rfl : r = rootNode := Option.some.inj hroot
    rw [hI] at hI2
    obtain rfl : I = I2 := Option.some.inj hI2
    exact hint
  · intro hmask hps
    have hchk : g.checkInterAlgo = .ok () := by
      unfold ProofGraph.checkInterAlgo
      cases halg : g.itp_bool_algo <;>
        simp [ProofGraph.usingMcMillanInterpolation, ProofGraph.usingPudlakInterpolation,
          ProofGraph.usingMcMillanPrimeInterpolation, ProofGraph.usingPSInterpolation,
          ProofGraph.usingPSWInterpolation, ProofGraph.usingPSSInterpolation, halg]
      exact halgo halg
    obtain ⟨info0, hreset⟩ : ∃ info0 : InterpolationInfo PTRef,
        InterpolationInfo.reset g.proof_variables (fun v => g.getVarClass v A_mask) =
          (.ok (), info0) := by
      apply reset_ok
      intro v hv
      unfold ProofGraph.getVarClass
      simp only [(hnoassume v hv).1, Bool.false_eq_true, if_false]
      exact getClass_ok _ _ (hmask v hv)
    have hsel : ∃ ps, g.selectPSFunction info0 A_mask = .ok ps ∧
        (g.needProofStatistics = true → ∃ labels, ps = some labels ∧
          ∀ id ∈ g.DFSv, ∀ n, g.getNode id = some n → n.isLeaf = true →
          ∀ l ∈ n.clause, info0.varClass (var l) = .I_AB →
            ∃ c, StdMap.find labels (var l) = some c) := by
      unfold ProofGraph.selectPSFunction
      cases hneed : g.needProofStatistics with
      | false => exact ⟨none, by simp, by intro h; cases h⟩
      | true =>
        obtain ⟨hp1, hp2⟩ := hps hneed
        have hnodes : ∀ id ∈ g.leaves_ids, ∃ n, g.getNode id = some n ∧
            (n.type = .CLA_ORIG → g.getClauseClassMask n.clauseRef ≠ 0) := by
          intro id hid
          obtain ⟨hidD, hl⟩ := hp1 id hid
          obtain ⟨n, hn⟩ := checkOrder_nodes g g.DFSv [] hord id hidD
          exact ⟨n, hn, fun _ => (hleaves2 id hidD n hn (hl n hn)).2⟩
        obtain ⟨labels, hlab, hdom⟩ := computePSFunction_spec g info0 A_mask hnodes
        refine ⟨some labels, by simp [hlab], ?_⟩
        intro _
        refine ⟨labels, rfl, ?_⟩
        intro id hid n hn hleaf l hl hAB
        obtain ⟨hidL, hnAB⟩ := hp2 id hid n hn hleaf
        obtain ⟨hO, c, hc⟩ := hleaves id hid n hn hleaf
        rw [hdom]
        refine ⟨id, hidL, n, hn, hO, ?_, l, hl, rfl, hAB⟩
        rcases (getClass_ok_cases _ _ _ hc).1 with rfl | rfl | rfl
        · exact Or.inl hc
        · exact Or.inr hc
        · exact absurd hc hnAB
    obtain ⟨ps, hsel1, hsel2⟩ := hsel
    have htc := traverse_craig g A_mask eval hsem hnoassume hleaves2 ps info0.varClass
      g.DFSv [] { st with interpolationInfo := info0 } hord (fun _ h => h)
      (hinit info0 hreset) rfl
    obtain ⟨st1, htrav⟩ := htc.2 (by
      intro id hid n hn hleaf info hcls
      apply labelLeaf_total g info n ps halgo
      intro hneed
      obtain ⟨labels, hlabels, hcov⟩ := hsel2 hneed
      refine ⟨labels, hlabels, ?_⟩
      intro l hl _ hAB
      exact hcov id hid n hn hleaf l hl (by rw [← hcls]; exact hAB))
    obtain ⟨I, hI, _⟩ := hfinal _ (htc.1 st1 () htrav)
    have hI2 : st1.interpolationInfo.getPartialInterpolant r.id = some I := hI
    unfold ProofGraph.produceSingleInterpolant
    simp only [hchk, hreset, hsel1, htrav, hr, hI2]

theorem s1Graph_getNode_leaf (algo : ItpAlgorithm) (alt : Bool) (id : Nat) (n : ProofNode)
    (h : (s1Graph algo alt).getNode id = some n) (hleaf : n.isLeaf = true) :
    n.type = .CLA_ORIG ∧ ∃ c, (s1Graph algo alt).getClauseColor n.clauseRef 1 = .ok c := by
  rcases s1Graph_getNode algo alt id n h with rfl | rfl | rfl | rfl | rfl
  · exact ⟨rfl, _, s1Graph_color_A0 algo alt⟩
  · exact ⟨rfl, _, s1Graph_color_A1 algo alt⟩
  · exact ⟨rfl, _, s1Graph_color_B algo alt⟩
  · cases hleaf
  · cases hleaf

/-- Witness for C1 (amended): scenario S1 under McMillan; the run returns `q`, which is implied by
A = {p ∨ q, ¬p} and contradicts B = {¬q}. -/
theorem produceSingleInterpolant_craig_witness :
    ((s1Graph .mcmillan false).produceSingleInterpolant [] 1
        ⟨InterpolationInfo.cleared, ()⟩).interpolants = [Term.atom 1] ∧
    ∃ I, ((s1Graph .mcmillan false).produceSingleInterpolant [] 1
        ⟨InterpolationInfo.cleared, ()⟩).interpolants = [] ++ [I] ∧
      (s1Graph .mcmillan false).isInterpolant 1 Term.eval I :=
  ⟨by with_unfolding_all rfl,
   (produceSingleInterpolant_craig (s1Graph .mcmillan false) Term.eval termLogic_semantics 1 []
    ⟨InterpolationInfo.cleared, ()⟩ (by decide)
    (fun id _ n hn hleaf => s1Graph_getNode_leaf _ _ id n hn hleaf)
    (by
      intro v _
      exact ⟨rfl, fun _ => rfl⟩)
    (by decide)).1 (by with_unfolding_all rfl)⟩

/-! ## The pivot color of a resolvent -/

/-- C11. On a resolvent `n` with antecedents `a1` and `a2`: if the cached class of the
pivot is A, B or AB, `getPivotColor` merges the colorings of the two antecedents into `n`
(the entry of every variable in `n` becomes the union of its entries in `a1` and `a2`,
nothing else changes) and returns `S` for an assumption variable, otherwise the class when
it is A or B, otherwise the pivot's shared color in `n` in the merged coloring; the info it
leaves is the merged one, with the pivot's entry cleared when the class is AB.  If the
class is none of A, B, AB, it raises "Pivot has no class" and the info is unchanged. -/
theorem getPivotColor_contract (g : ProofGraph PTRef TS) (info : InterpolationInfo PTRef)
    (n : ProofNode) (a1 a2 : Nat) (hants : n.ants = some (a1, a2)) :
    ((info.getVarClass n.pivot = .I_A ∨ info.getVarClass n.pivot = .I_B ∨
        info.getVarClass n.pivot = .I_AB) →
      (∀ w, (info.updateColoringfromAnts n).colA n.id w = (info.colA a1 w || info.colA a2 w) ∧
        (info.updateColoringfromAnts n).colB n.id w = (info.colB a1 w || info.colB a2 w)) ∧
      (∀ m, m ≠ n.id → (info.updateColoringfromAnts n).colA m = info.colA m ∧
        (info.updateColoringfromAnts n).colB m = info.colB m) ∧
      (info.updateColoringfromAnts n).varClass = info.varClass ∧
      (info.updateColoringfromAnts n).partialInterpolant = info.partialInterpolant ∧
      (g.getPivotColor info n).1 =
        .ok (if g.isAssumedVar n.pivot then icolor_t.I_S
             else if info.getVarClass n.pivot = .I_A ∨ info.getVarClass n.pivot = .I_B then
               info.getVarClass n.pivot
             else getSharedVarColorInNode (info.updateColoringfromAnts n) n.pivot n) ∧
      (g.getPivotColor info n).2 =
        if info.getVarClass n.pivot = .I_AB then
          (info.updateColoringfromAnts n).clearPivotColoring n
        else info.updateColoringfromAnts n) ∧
    (¬ (info.getVarClass n.pivot = .I_A ∨ info.getVarClass n.pivot = .I_B ∨
        info.getVarClass n.pivot = .I_AB) →
      g.getPivotColor info n = (.error (.pivot_has_no_class n.pivot), info)) := by
  constructor
  · intro hcls
    refine ⟨?_, ?_, ?_, ?_, ?_, ?_⟩
    · intro w
      simp [InterpolationInfo.updateColoringfromAnts, hants]
    · intro m hm
      constructor <;> funext w <;>
        simp [InterpolationInfo.updateColoringfromAnts, hants, hm]
    · simp [InterpolationInfo.updateColoringfromAnts, hants]
    · simp [InterpolationInfo.updateColoringfromAnts, hants]
    · unfold ProofGraph.getPivotColor
      rcases hcls with h | h | h <;> simp only [h] <;>
        cases hav : g.isAssumedVar n.pivot <;> simp
    · unfold ProofGraph.getPivotColor
      rcases hcls with h | h | h <;> simp only [h] <;>
        cases hav : g.isAssumedVar n.pivot <;> simp
  · intro hcls
    simp only [not_or] at hcls
    unfold ProofGraph.getPivotColor
    simp only [ne_eq, hcls.1, hcls.2.1, hcls.2.2, not_false_eq_true, and_self, if_true]

/-- Witness for C11: node 3 of scenario S1 (resolving on `p`, antecedents 0 and 1). -/
theorem getPivotColor_contract_witness :
    s1Node3.ants = some (0, 1) ∧
    (((s1Info.getVarClass s1Node3.pivot = .I_A ∨ s1Info.getVarClass s1Node3.pivot = .I_B ∨
        s1Info.getVarClass s1Node3.pivot = .I_AB) →
      (∀ w, (s1Info.updateColoringfromAnts s1Node3).colA s1Node3.id w =
          (s1Info.colA 0 w || s1Info.colA 1 w) ∧
        (s1Info.updateColoringfromAnts s1Node3).colB s1Node3.id w =
          (s1Info.colB 0 w || s1Info.colB 1 w)) ∧
      (∀ m, m ≠ s1Node3.id → (s1Info.updateColoringfromAnts s1Node3).colA m = s1Info.colA m ∧
        (s1Info.updateColoringfromAnts s1Node3).colB m = s1Info.colB m) ∧
      (s1Info.updateColoringfromAnts s1Node3).varClass = s1Info.varClass ∧
      (s1Info.updateColoringfromAnts s1Node3).partialInterpolant = s1Info.partialInterpolant ∧
      ((s1Graph .mcmillan false).getPivotColor s1Info s1Node3).1 =
        .ok (if (s1Graph .mcmillan false).isAssumedVar s1Node3.pivot then icolor_t.I_S
             else if s1Info.getVarClass s1Node3.pivot = .I_A ∨
                 s1Info.getVarClass s1Node3.pivot = .I_B then
               s1Info.getVarClass s1Node3.pivot
             else getSharedVarColorInNode (s1Info.updateColoringfromAnts s1Node3)
               s1Node3.pivot s1Node3) ∧
      ((s1Graph .mcmillan false).getPivotColor s1Info s1Node3).2 =
        if s1Info.getVarClass s1Node3.pivot = .I_AB then
          (s1Info.updateColoringfromAnts s1Node3).clearPivotColoring s1Node3
        else s1Info.updateColoringfromAnts s1Node3) ∧
    (¬ (s1Info.getVarClass s1Node3.pivot = .I_A ∨ s1Info.getVarClass s1Node3.pivot = .I_B ∨
        s1Info.getVarClass s1Node3.pivot = .I_AB) →
      (s1Graph .mcmillan false).getPivotColor s1Info s1Node3 =
        (.error (.pivot_has_no_class s1Node3.pivot), s1Info))) :=
  ⟨rfl, getPivotColor_contract (s1Graph .mcmillan false) s1Info s1Node3 0 1 rfl⟩

/-! ## The color that leaf labeling stores -/

theorem StdMap.find_increment_val (m : StdMap Int) (k k2 : Var) :
    (StdMap.find (StdMap.increment m k) k2).getD 0 =
      (StdMap.find m k2).getD 0 + (if k2 = k then 1 else 0) := by
  unfold StdMap.increment
  rw [StdMap.find_assign]
  by_cases h : k2 = k
  · subst h; simp
  · simp [h]

theorem StdMap.find_ensureKey_val (m : StdMap Int) (k k2 : Var) :
    (StdMap.find (StdMap.ensureKey m k) k2).getD 0 = (StdMap.find m k2).getD 0 := by
  unfold StdMap.ensureKey
  cases hf : StdMap.find m k with
  | none =>
    simp only
    rw [StdMap.find_assign]
    by_cases h : k2 = k
    · subst h; simp [hf]
    · simp [h]
  | some c => rfl

theorem countOccurrences_val (info : InterpolationInfo PTRef) (col : icolor_t)
    (clause : List Lit) :
    ∀ (occ : StdMap Int × StdMap Int) (k : Var),
      (StdMap.find (countOccurrences info col clause occ).1 k).getD 0 =
        (StdMap.find occ.1 k).getD 0 +
          (if info.varClass k = .I_AB ∧ col = .I_A then
            ((clause.countP (fun l => decide (var l = k)) : Nat) : Int) else 0) ∧
      (StdMap.find (countOccurrences info col clause occ).2 k).getD 0 =
        (StdMap.find occ.2 k).getD 0 +
          (if info.varClass k = .I_AB ∧ col = .I_B then
            ((clause.countP (fun l => decide (var l = k)) : Nat) : Int) else 0) := by
  induction clause with
  | nil => intro occ k; simp [countOccurrences]
  | cons a rest ih =>
    intro occ k
    rw [countOccurrences_cons]
    obtain ⟨i1, i2⟩ := ih
      (if info.getVarClass (var a) ≠ .I_AB then occ
         else if col = .I_A then (StdMap.increment occ.1 (var a), StdMap.ensureKey occ.2 (var a))
         else if col = .I_B then (StdMap.ensureKey occ.1 (var a), StdMap.increment occ.2 (var a))
         else occ) k
    rw [i1, i2]
    simp only [InterpolationInfo.getVarClass, List.countP_cons]
    by_cases hk : var a = k
    · subst hk
      by_cases hAB : info.varClass (var a) = .I_AB
      · by_cases hA : col = .I_A
        · subst hA
          simp [hAB, StdMap.find_increment_val, StdMap.find_ensureKey_val]
          ring
        · by_cases hB : col = .I_B
          · subst hB
            simp [hAB, StdMap.find_increment_val, StdMap.find_ensureKey_val]
            ring
          · simp [hAB, hA, hB]
      · simp [hAB]
    · have hk2 : ¬ k = var a := fun e => hk e.symm
      by_cases hAB : info.varClass (var a) = .I_AB
      · by_cases hA : col = .I_A
        · subst hA
          simp [hAB, hk, hk2, StdMap.find_increment_val, StdMap.find_ensureKey_val]
        · by_cases hB : col = .I_B
          · subst hB
            simp [hAB, hk, hk2, StdMap.find_increment_val, StdMap.find_ensureKey_val]
          · simp [hAB, hA, hB, hk]
      · simp [hAB, hk]

theorem countP_var_nodup (k : Var) (cl : List Lit) (h : (cl.map var).Nodup) :
    cl.countP (fun l => decide (var l = k)) =
      if cl.any (fun l => decide (var l = k)) then 1 else 0 := by
  induction cl with
  | nil => simp
  | cons a rest ih =>
    simp only [List.map_cons, List.nodup_cons] at h
    obtain ⟨hnot, hrest⟩ := h
    have ih2 := ih hrest
    rw [List.countP_cons, ih2]
    by_cases hk : var a = k
    · subst hk
      have hany : rest.any (fun l => decide (var l = var a)) = false := by
        rw [Bool.eq_false_iff]
        intro hx
        rw [List.any_eq_true] at hx
        obtain ⟨l, hl, hv⟩ := hx
        apply hnot
        rw [List.mem_map]
        exact ⟨l, hl, by simpa using hv⟩
      simp [hany]
    · simp [hk]

theorem collectOccurrences_val (g : ProofGraph PTRef TS) (info : InterpolationInfo PTRef)
    (A_mask : ipartitions_t) (leaves : List Nat) :
    ∀ (occ r : StdMap Int × StdMap Int),
    g.collectOccurrences info A_mask leaves occ = .ok r →
    (∀ id ∈ leaves, ∀ n, g.getNode id = some n → n.type = .CLA_ORIG →
      (n.clause.map var).Nodup) →
    ∀ k,
      (StdMap.find r.1 k).getD 0 =
        (StdMap.find occ.1 k).getD 0 +
          (if info.varClass k = .I_AB then
            ((leaves.countP (g.isOrigLeafOver A_mask .I_A k) : Nat) : Int) else 0) ∧
      (StdMap.find r.2 k).getD 0 =
        (StdMap.find occ.2 k).getD 0 +
          (if info.varClass k = .I_AB then
            ((leaves.countP (g.isOrigLeafOver A_mask .I_B k) : Nat) : Int) else 0) := by
  induction leaves with
  | nil =>
    intro occ r h _ k
    simp only [ProofGraph.collectOccurrences, Except.ok.injEq] at h
    subst h
    simp
  | cons id rest ih =>
    intro occ r h hcl k
    unfold ProofGraph.collectOccurrences at h
    cases hn : g.getNode id with
    | none => simp [hn] at h
    | some n =>
      simp only [hn] at h
      have hrest := fun x hx => hcl x (List.mem_cons_of_mem _ hx)
      by_cases hO : n.type = .CLA_ORIG
      · simp only [hO, ne_eq, not_true_eq_false, if_false] at h
        cases hcol : g.getClauseColor n.clauseRef A_mask with
        | error e => simp [hcol] at h
        | ok col =>
          simp only [hcol] at h
          obtain ⟨i1, i2⟩ := ih _ r h hrest k
          obtain ⟨c1, c2⟩ := countOccurrences_val info col n.clause occ k
          have hnd := hcl id (List.mem_cons_self _ _) n hn hO
          rw [i1, i2, c1, c2, countP_var_nodup k n.clause hnd]
          have eA : g.isOrigLeafOver A_mask .I_A k id =
              (decide (col = .I_A) && n.clause.any (fun l => decide (var l = k))) := by
            simp [ProofGraph.isOrigLeafOver, hn, hO, hcol]
          have eB : g.isOrigLeafOver A_mask .I_B k id =
              (decide (col = .I_B) && n.clause.any (fun l => decide (var l = k))) := by
            simp [ProofGraph.isOrigLeafOver, hn, hO, hcol]
          rw [List.countP_cons, List.countP_cons, eA, eB]
          by_cases hAB : info.varClass k = .I_AB <;>
            by_cases hA : col = .I_A <;> by_cases hB : col = .I_B <;>
            cases hany : n.clause.any (fun l => decide (var l = k)) <;>
            simp [hAB, hA, hB, hany] <;> ring
      · simp only [ne_eq, hO, not_false_eq_true, if_true] at h
        obtain ⟨i1, i2⟩ := ih _ r h hrest k
        have eA : g.isOrigLeafOver A_mask .I_A k id = false := by
          simp [ProofGraph.isOrigLeafOver, hn, hO]
        have eB : g.isOrigLeafOver A_mask .I_B k id = false := by
          simp [ProofGraph.isOrigLeafOver, hn, hO]
        rw [i1, i2, List.countP_cons, List.countP_cons, eA, eB]
        simp

theorem StdMap.find_insert_val {α : Type} (m : StdMap α) (k : Var) (a : α) (k2 : Var) :
    StdMap.find (StdMap.insert m k a) k2 =
      if (StdMap.find m k2).isSome then StdMap.find m k2
      else if k2 = k then some a else none := by
  unfold StdMap.insert
  cases hf : StdMap.find m k with
  | none =>
    simp only
    rw [StdMap.find_assign]
    by_cases h : k2 = k
    · subst h; simp [hf]
    · cases hf2 : StdMap.find m k2 <;> simp [h]
  | some c =>
    simp only
    by_cases h : k2 = k
    · subst h; simp [hf]
    · cases hf2 : StdMap.find m k2 <;> simp [h]

theorem buildLabels_val (occ_b : StdMap Int) (entries : List (Var × Int)) :
    ∀ (labels r : StdMap icolor_t), buildLabels occ_b entries labels = .ok r →
    ∀ k, StdMap.find r k =
      if (StdMap.find labels k).isSome then StdMap.find labels k
      else (StdMap.find entries k).map
        (fun qtta => if qtta > (StdMap.find occ_b k).getD 0 then icolor_t.I_A
          else icolor_t.I_B) := by
  induction entries with
  | nil =>
    intro labels r h k
    simp only [buildLabels, Except.ok.injEq] at h
    subst h
    cases hf : StdMap.find labels k <;> simp [StdMap.find, List.lookup]
  | cons e rest ih =>
    intro labels r h k
    obtain ⟨v, qtta⟩ := e
    unfold buildLabels at h
    cases hq : StdMap.find occ_b v with
    | none => simp [hq] at h
    | some qttb =>
      simp only [hq] at h
      rw [ih _ r h k, StdMap.find_insert_val]
      by_cases hk : k = v
      · subst hk
        have hb : (k == k) = true := by simp
        cases hf : StdMap.find labels k with
        | some c => simp
        | none =>
          have hq2 : List.lookup k occ_b = some qttb := hq
          simp [StdMap.find, List.lookup, hq2]
      · have hb : (k == v) = false := by simpa using hk
        cases hf : StdMap.find labels k with
        | some c => simp
        | none => simp [StdMap.find, List.lookup, hb, hk]

theorem StdMap.mem_assign {α : Type} (m : StdMap α) (k : Var) (a : α) (e : Var × α)
    (h : e ∈ StdMap.assign m k a) : e = (k, a) ∨ e ∈ m := by
  induction m with
  | nil =>
    simp only [StdMap.assign, List.mem_singleton] at h
    exact Or.inl h
  | cons e1 rest ih =>
    obtain ⟨k1, a1⟩ := e1
    simp only [StdMap.assign] at h
    by_cases h1 : k < k1
    · simp only [h1, if_true, List.mem_cons] at h
      rcases h with h | h | h
      · exact Or.inl h
      · exact Or.inr (List.mem_cons.mpr (Or.inl h))
      · exact Or.inr (List.mem_cons_of_mem _ h)
    · simp only [h1, if_false] at h
      by_cases h2 : k = k1
      · simp only [h2, if_true, List.mem_cons] at h
        rcases h with h | h
        · exact Or.inl (by rw [h, h2])
        · exact Or.inr (List.mem_cons_of_mem _ h)
      · simp only [h2, if_false, List.mem_cons] at h
        rcases h with h | h
        · exact Or.inr (List.mem_cons.mpr (Or.inl h))
        · rcases ih h with h3 | h3
          · exact Or.inl h3
          · exact Or.inr (List.mem_cons_of_mem _ h3)

theorem StdMap.assign_ordered {α : Type} (m : StdMap α) (k : Var) (a : α)
    (h : m.Pairwise (fun x y => x.1 < y.1)) :
    (StdMap.assign m k a).Pairwise (fun x y => x.1 < y.1) := by
  induction m with
  | nil => simp [StdMap.assign]
  | cons e1 rest ih =>
    obtain ⟨k1, a1⟩ := e1
    rw [List.pairwise_cons] at h
    obtain ⟨hhead, htail⟩ := h
    simp only [StdMap.assign]
    by_cases h1 : k < k1
    · simp only [h1, if_true]
      rw [List.pairwise_cons]
      refine ⟨?_, List.pairwise_cons.mpr ⟨hhead, htail⟩⟩
      intro y hy
      rcases List.mem_cons.mp hy with rfl | hy
      · exact h1
      · exact lt_trans h1 (hhead y hy)
    · simp only [h1, if_false]
      by_cases h2 : k = k1
      · simp only [h2, if_true]
        rw [List.pairwise_cons]
        exact ⟨hhead, htail⟩
      · simp only [h2, if_false]
        rw [List.pairwise_cons]
        refine ⟨?_, ih htail⟩
        intro y hy
        rcases StdMap.mem_assign rest k a y hy with rfl | hy
        · exact lt_of_le_of_ne (not_lt.mp h1) (fun e => h2 e.symm)
        · exact hhead y hy

theorem countOccurrences_ordered (info : InterpolationInfo PTRef) (col : icolor_t)
    (clause : List Lit) :
    ∀ (occ : StdMap Int × StdMap Int),
      occ.1.Pairwise (fun x y => x.1 < y.1) → occ.2.Pairwise (fun x y => x.1 < y.1) →
      (countOccurrences info col clause occ).1.Pairwise (fun x y => x.1 < y.1) ∧
      (countOccurrences info col clause occ).2.Pairwise (fun x y => x.1 < y.1) := by
  have hinc : ∀ (m : StdMap Int) (k : Var), m.Pairwise (fun x y => x.1 < y.1) →
      (StdMap.increment m k).Pairwise (fun x y => x.1 < y.1) := by
    intro m k hm
    exact StdMap.assign_ordered m k _ hm
  have hens : ∀ (m : StdMap Int) (k : Var), m.Pairwise (fun x y => x.1 < y.1) →
      (StdMap.ensureKey m k).Pairwise (fun x y => x.1 < y.1) := by
    intro m k hm
    unfold StdMap.ensureKey
    cases StdMap.find m k with
    | none => exact StdMap.assign_ordered m k _ hm
    | some c => exact hm
  induction clause with
  | nil => intro occ h1 h2; exact ⟨h1, h2⟩
  | cons a rest ih =>
    intro occ h1 h2
    rw [countOccurrences_cons]
    apply ih
    · split_ifs
      · exact h1
      · exact hinc _ _ h1
      · exact hens _ _ h1
      · exact h1
    · split_ifs
      · exact h2
      · exact hens _ _ h2
      · exact hinc _ _ h2
      · exact h2

theorem collectOccurrences_ordered (g : ProofGraph PTRef TS) (info : InterpolationInfo PTRef)
    (A_mask : ipartitions_t) (leaves : List Nat) :
    ∀ (occ r : StdMap Int × StdMap Int),
      g.collectOccurrences info A_mask leaves occ = .ok r →
      occ.1.Pairwise (fun x y => x.1 < y.1) → occ.2.Pairwise (fun x y => x.1 < y.1) →
      r.1.Pairwise (fun x y => x.1 < y.1) ∧ r.2.Pairwise (fun x y => x.1 < y.1) := by
  induction leaves with
  | nil =>
    intro occ r h h1 h2
    simp only [ProofGraph.collectOccurrences, Except.ok.injEq] at h
    subst h
    exact ⟨h1, h2⟩
  | cons id rest ih =>
    intro occ r h h1 h2
    unfold ProofGraph.collectOccurrences at h
    cases hn : g.getNode id with
    | none => simp [hn] at h
    | some n =>
      simp only [hn] at h
      by_cases hO : n.type = .CLA_ORIG
      · simp only [hO, ne_eq, not_true_eq_false, if_false] at h
        cases hcol : g.getClauseColor n.clauseRef A_mask with
        | error e => simp [hcol] at h
        | ok col =>
          simp only [hcol] at h
          obtain ⟨o1, o2⟩ := countOccurrences_ordered info col n.clause occ h1 h2
          exact ih _ r h o1 o2
      · simp only [ne_eq, hO, not_false_eq_true, if_true] at h
        exact ih _ r h h1 h2

/-- Two key-ordered maps with the same key set have the same number of entries. -/
theorem StdMap.length_eq_of_same_keys {α β : Type} (m1 : StdMap α) (m2 : StdMap β)
    (h1 : m1.Pairwise (fun x y => x.1 < y.1)) (h2 : m2.Pairwise (fun x y => x.1 < y.1))
    (hk : ∀ k, (∃ c, StdMap.find m1 k = some c) ↔ (∃ c, StdMap.find m2 k = some c)) :
    m1.length = m2.length := by
  have n1 : (m1.map Prod.fst).Nodup := by
    rw [List.Nodup, List.pairwise_map]
    exact h1.imp (fun h => ne_of_lt h)
  have n2 : (m2.map Prod.fst).Nodup := by
    rw [List.Nodup, List.pairwise_map]
    exact h2.imp (fun h => ne_of_lt h)
  have hmem : ∀ k, k ∈ m1.map Prod.fst ↔ k ∈ m2.map Prod.fst := by
    intro k
    rw [List.mem_map, List.mem_map, ← StdMap.find_iff_mem, ← StdMap.find_iff_mem]
    exact hk k
  have hp := (List.perm_ext_iff_of_nodup n1 n2).mpr hmem
  simpa using hp.length_eq

theorem occRef_eq_countP (g : ProofGraph PTRef TS) (A_mask : ipartitions_t) (side : icolor_t)
    (v : Var) (hset : g.leaves_ids.Nodup) :
    g.occRef A_mask side v = g.leaves_ids.countP (g.isOrigLeafOver A_mask side v) := by
  unfold ProofGraph.occRef
  rw [List.countP_eq_length_filter, ← List.toFinset_filter,
    List.toFinset_card_of_nodup (hset.filter _)]

/-- C14 (amended). Let every leaf of the set of leaves exist, with a clause mask that determines a
class.  Then `computePSFunction` returns a map, and with `occ_a`, `occ_b` the two
occurrence tables at the end of the first loop: the tables have the same key set and the
same size, the keys of `occ_a` are exactly the domain of the returned map (so the lookup
in `occ_b` cannot miss), every key is an AB-class variable, the label of `v` is A if the
count of `v` in `occ_a` exceeds its count in `occ_b` and B otherwise (ties go to B), and a
theory, split or assumption leaf or a resolvent is skipped without touching the tables.
When moreover the leaf ids are listed once each and no original leaf clause mentions a
variable twice, the two counts of a key `v` are the reference counts `occ_A(v)` and
`occ_B(v)` and the returned label of `v` is the reference label. -/
theorem computePSFunction_reference (g : ProofGraph PTRef TS) (info : InterpolationInfo PTRef)
    (A_mask : ipartitions_t)
    (hnodes : ∀ id ∈ g.leaves_ids, ∃ n, g.getNode id = some n ∧
      (n.type = .CLA_ORIG → g.getClauseClassMask n.clauseRef ≠ 0)) :
    ∃ occ_a occ_b labels,
      g.collectOccurrences info A_mask g.leaves_ids ([], []) = .ok (occ_a, occ_b) ∧
      g.computePSFunction info A_mask = .ok labels ∧
      (∀ v, (∃ a, StdMap.find occ_a v = some a) ↔ (∃ b, StdMap.find occ_b v = some b)) ∧
      occ_a.length = occ_b.length ∧
      (∀ v, (∃ c, StdMap.find labels v = some c) ↔ (∃ a, StdMap.find occ_a v = some a)) ∧
      (∀ v, (∃ a, StdMap.find occ_a v = some a) → info.getVarClass v = .I_AB) ∧
      (∀ v c, StdMap.find labels v = some c →
        ∃ a b, StdMap.find occ_a v = some a ∧ StdMap.find occ_b v = some b ∧
          c = if a > b then icolor_t.I_A else icolor_t.I_B) ∧
      (∀ id n rest occ, g.getNode id = some n →
        (n.type = .CLA_THEORY ∨ n.type = .CLA_SPLIT ∨ n.type = .CLA_ASSUMPTION ∨
          n.type = .CLA_RESOLVENT) →
        g.collectOccurrences info A_mask (id :: rest) occ =
          g.collectOccurrences info A_mask rest occ) ∧
      (g.leaves_ids.Nodup →
        (∀ id ∈ g.leaves_ids, ∀ n, g.getNode id = some n → n.type = .CLA_ORIG →
          (n.clause.map var).Nodup) →
        (∀ v a, StdMap.find occ_a v = some a → a = (g.occRef A_mask .I_A v : Int)) ∧
        (∀ v b, StdMap.find occ_b v = some b → b = (g.occRef A_mask .I_B v : Int)) ∧
        (∀ v c, StdMap.find labels v = some c → c = g.psLabelRef A_mask v)) := by
  obtain ⟨r, hr, hdom⟩ := collectOccurrences_spec g info A_mask g.leaves_ids ([], []) hnodes
  obtain ⟨occ_a, occ_b⟩ := r
  have hord := collectOccurrences_ordered g info A_mask g.leaves_ids ([], []) _ hr
    List.Pairwise.nil List.Pairwise.nil
  have hsame : ∀ k, (∃ c, StdMap.find occ_a k = some c) ↔ (∃ c, StdMap.find occ_b k = some c) := by
    intro k
    rw [(hdom k).1, (hdom k).2]
  have hAB : ∀ k, (∃ c, StdMap.find occ_a k = some c) → info.getVarClass k = .I_AB := by
    intro k hk
    rcases (hdom k).1.mp hk with h | ⟨_, _, _, _, _, _, _, _, _, h⟩
    · simp [StdMap.find, List.lookup] at h
    · exact h
  obtain ⟨labels, hl, hldom⟩ := buildLabels_spec occ_b occ_a []
    (fun e he => (hsame e.1).mp ((StdMap.find_iff_mem occ_a e.1).mpr ⟨e, he, rfl⟩))
  have hlval := buildLabels_val occ_b occ_a [] labels hl
  have hlab : ∀ v c, StdMap.find labels v = some c →
      ∃ a b, StdMap.find occ_a v = some a ∧ StdMap.find occ_b v = some b ∧
        c = if a > b then icolor_t.I_A else icolor_t.I_B := by
    intro v c hc
    have h1 := hlval v
    rw [hc] at h1
    have e1 : (StdMap.find ([] : StdMap icolor_t) v) = none := rfl
    cases ha : StdMap.find occ_a v with
    | none =>
      rw [e1, ha] at h1
      simp at h1
    | some a =>
      obtain ⟨b, hb⟩ := (hsame v).mp ⟨a, ha⟩
      refine ⟨a, b, rfl, hb, ?_⟩
      rw [e1, ha, hb] at h1
      simp only [Option.isSome_none, Bool.false_eq_true, if_false, Option.map_some',
        Option.getD_some, Option.some.injEq] at h1
      exact h1
  refine ⟨occ_a, occ_b, labels, hr, ?_, hsame, ?_, ?_, hAB, hlab, ?_, ?_⟩
  · unfold ProofGraph.computePSFunction
    rw [hr]
    exact hl
  · exact StdMap.length_eq_of_same_keys occ_a occ_b hord.1 hord.2 hsame
  · intro v
    rw [hldom v, ← StdMap.find_iff_mem]
    constructor
    · rintro (h | h)
      · simp [StdMap.find, List.lookup] at h
      · exact h
    · intro h; exact Or.inr h
  · intro id n rest occ hn ht
    have hO : n.type ≠ .CLA_ORIG := by
      rcases ht with h | h | h | h <;> rw [h] <;> simp
    conv_lhs => unfold ProofGraph.collectOccurrences
    simp only [hn, ne_eq, hO, not_false_eq_true, if_true]
  · intro hset hclauses
    have hval := collectOccurrences_val g info A_mask g.leaves_ids ([], []) _ hr hclauses
    have hcA : ∀ v a, StdMap.find occ_a v = some a → a = (g.occRef A_mask .I_A v : Int) := by
      intro v a ha
      have h1 := (hval v).1
      have hc := hAB v ⟨a, ha⟩
      simp only [InterpolationInfo.getVarClass] at hc
      have e0 : StdMap.find ([] : StdMap Int) v = none := rfl
      simp only [ha, e0, Option.getD_some, Option.getD_none, zero_add, hc, if_true] at h1
      rw [h1, occRef_eq_countP g A_mask .I_A v hset]
    have hcB : ∀ v b, StdMap.find occ_b v = some b → b = (g.occRef A_mask .I_B v : Int) := by
      intro v b hb
      have h1 := (hval v).2
      have hc := hAB v ((hsame v).mpr ⟨b, hb⟩)
      simp only [InterpolationInfo.getVarClass] at hc
      have e0 : StdMap.find ([] : StdMap Int) v = none := rfl
      simp only [hb, e0, Option.getD_some, Option.getD_none, zero_add, hc, if_true] at h1
      rw [h1, occRef_eq_countP g A_mask .I_B v hset]
    refine ⟨hcA, hcB, ?_⟩
    intro v c hc
    obtain ⟨a, b, ha, hb, hcab⟩ := hlab v c hc
    rw [hcab, hcA v a ha, hcB v b hb]
    unfold ProofGraph.psLabelRef
    simp only [gt_iff_lt, Nat.cast_lt]

/-- Witness for C14 (amended): scenario S3 (`v` in three A-leaves and one B-leaf); the returned map
is `v ↦ A`, the reference label of `v`. -/
theorem computePSFunction_reference_witness :
    (s3Graph .ps).psLabelRef 1 0 = .I_A ∧
    (s3Graph .ps).computePSFunction s3Info 1 = .ok [(0, .I_A)] ∧
    ∃ labels, (s3Graph .ps).computePSFunction s3Info 1 = .ok labels ∧
      ∀ v c, StdMap.find labels v = some c → c = (s3Graph .ps).psLabelRef 1 v := by
  refine ⟨by with_unfolding_all rfl, by with_unfolding_all rfl, ?_⟩
  obtain ⟨_, _, labels, _, h2, _, _, _, _, _, _, h9⟩ :=
    computePSFunction_reference (s3Graph .ps) s3Info 1
      (by
        intro id hid
        simp only [s3Graph, List.mem_cons, List.mem_singleton, List.not_mem_nil, or_false] at hid
        rcases hid with rfl | rfl | rfl | rfl <;> exact ⟨_, rfl, fun _ => by decide⟩)
  have h10 := h9 (by decide)
    (by
      intro id hid n hn _
      simp only [s3Graph, List.mem_cons, List.mem_singleton, List.not_mem_nil, or_false] at hid
      rcases hid with rfl | rfl | rfl | rfl <;>
        (simp [ProofGraph.getNode, s3Graph] at hn; subst hn; decide))
  exact ⟨labels, h2, h10.2.2⟩

/-! ## The domain of the proof-statistics map -/

theorem isOrigLeafOver_iff (g : ProofGraph PTRef TS) (A_mask : ipartitions_t)
    (side : icolor_t) (v : Var) (id : Nat) :
    g.isOrigLeafOver A_mask side v id = true ↔
      ∃ n, g.getNode id = some n ∧ n.type = .CLA_ORIG ∧
        g.getClauseColor n.clauseRef A_mask = .ok side ∧ ∃ l ∈ n.clause, var l = v := by
  unfold ProofGraph.isOrigLeafOver
  cases hn : g.getNode id with
  | none => simp
  | some n =>
    simp only [Option.some.injEq, exists_eq_left']
    cases hc : g.getClauseColor n.clauseRef A_mask with
    | error e => simp
    | ok c =>
      simp only [Bool.and_eq_true, decide_eq_true_eq, List.any_eq_true, Except.ok.injEq]
      constructor
      · rintro ⟨⟨h1, h2⟩, l, hl, hv⟩
        exact ⟨h1, h2, l, hl, hv⟩
      · rintro ⟨h1, h2, l, hl, hv⟩
        exact ⟨⟨h1, h2⟩, l, hl, hv⟩

theorem occRef_pos_iff (g : ProofGraph PTRef TS) (A_mask : ipartitions_t) (side : icolor_t)
    (v : Var) :
    0 < g.occRef A_mask side v ↔
      ∃ id ∈ g.leaves_ids, ∃ n, g.getNode id = some n ∧ n.type = .CLA_ORIG ∧
        g.getClauseColor n.clauseRef A_mask = .ok side ∧ ∃ l ∈ n.clause, var l = v := by
  unfold ProofGraph.occRef
  rw [Finset.card_pos]
  constructor
  · rintro ⟨id, hid⟩
    rw [Finset.mem_filter, List.mem_toFinset] at hid
    exact ⟨id, hid.1, (isOrigLeafOver_iff g A_mask side v id).mp hid.2⟩
  · rintro ⟨id, hid, h⟩
    exact ⟨id, by
      rw [Finset.mem_filter, List.mem_toFinset]
      exact ⟨hid, (isOrigLeafOver_iff g A_mask side v id).mpr h⟩⟩

/-- The domain of the map as the code builds it.  When every leaf exists with a clause
mask that determines a class,
`computePSFunction` returns a map whose domain is exactly the set of AB-class variables
with at least one occurrence in an A-class or a B-class original leaf; an AB-class
variable with zero occurrences on both sides (one that occurs only in theory, split or
assumption leaves, or only in original leaves of class AB) has no entry. -/
theorem computePSFunction_domain (g : ProofGraph PTRef TS) (info : InterpolationInfo PTRef)
    (A_mask : ipartitions_t)
    (hnodes : ∀ id ∈ g.leaves_ids, ∃ n, g.getNode id = some n ∧
      (n.type = .CLA_ORIG → g.getClauseClassMask n.clauseRef ≠ 0)) :
    ∃ labels, g.computePSFunction info A_mask = .ok labels ∧
      (∀ v, (∃ c, StdMap.find labels v = some c) ↔
        (info.getVarClass v = .I_AB ∧
          (0 < g.occRef A_mask .I_A v ∨ 0 < g.occRef A_mask .I_B v))) ∧
      (∀ v, g.occRef A_mask .I_A v = 0 → g.occRef A_mask .I_B v = 0 →
        StdMap.find labels v = none) := by
  obtain ⟨labels, hl, hdom⟩ := computePSFunction_spec g info A_mask hnodes
  have hiff : ∀ v, (∃ c, StdMap.find labels v = some c) ↔
      (info.getVarClass v = .I_AB ∧
        (0 < g.occRef A_mask .I_A v ∨ 0 < g.occRef A_mask .I_B v)) := by
    intro v
    rw [hdom v, occRef_pos_iff, occRef_pos_iff]
    constructor
    · rintro ⟨id, hid, n, hn, hO, hc, l, hl, hv, hAB⟩
      refine ⟨hAB, ?_⟩
      rcases hc with hc | hc
      · exact Or.inl ⟨id, hid, n, hn, hO, hc, l, hl, hv⟩
      · exact Or.inr ⟨id, hid, n, hn, hO, hc, l, hl, hv⟩
    · rintro ⟨hAB, ⟨id, hid, n, hn, hO, hc, l, hl, hv⟩ | ⟨id, hid, n, hn, hO, hc, l, hl, hv⟩⟩
      · exact ⟨id, hid, n, hn, hO, Or.inl hc, l, hl, hv, hAB⟩
      · exact ⟨id, hid, n, hn, hO, Or.inr hc, l, hl, hv, hAB⟩
  refine ⟨labels, hl, hiff, ?_⟩
  intro v hA hB
  cases hf : StdMap.find labels v with
  | none => rfl
  | some c =>
    obtain ⟨_, h | h⟩ := (hiff v).mp ⟨c, hf⟩
    · omega
    · omega

/-- Scenario S3: the domain of the map is `v` alone. -/
theorem computePSFunction_domain_s3 :
    ∃ labels, (s3Graph .ps).computePSFunction s3Info 1 = .ok labels ∧
      ((∃ c, StdMap.find labels 0 = some c) ↔
        (s3Info.getVarClass 0 = .I_AB ∧
          (0 < (s3Graph .ps).occRef 1 .I_A 0 ∨ 0 < (s3Graph .ps).occRef 1 .I_B 0))) := by
  obtain ⟨labels, h1, h2, _⟩ := computePSFunction_domain (s3Graph .ps) s3Info 1
    (by
      intro id hid
      simp only [s3Graph, List.mem_cons, List.mem_singleton, List.not_mem_nil, or_false] at hid
      rcases hid with rfl | rfl | rfl | rfl <;> exact ⟨_, rfl, fun _ => by decide⟩)
  exact ⟨labels, h1, h2 0⟩

/-- C15.  `psGapGraph` is a refutation whose only variable `t` is AB-class
(by `getVarClass` and in the class cache after the reset) and occurs in a theory leaf and
in an original leaf of class AB, so it has zero occurrences in A-class and in B-class
original leaves; `computePSFunction` returns the empty map, which has no entry for `t`
(in particular not the label B). -/
theorem computePSFunction_missing_entry :
    (psGapGraph .ps).isRefutation = true ∧
    0 ∈ (psGapGraph .ps).proof_variables ∧
    (psGapGraph .ps).getVarClass 0 1 = .ok .I_AB ∧
    (InterpolationInfo.reset (psGapGraph .ps).proof_variables
      (fun v => (psGapGraph .ps).getVarClass v 1) :
        Except Exn Unit × InterpolationInfo Term).2.getVarClass 0 = .I_AB ∧
    (psGapGraph .ps).getClauseColor 1 1 = .ok .I_AB ∧
    (psGapGraph .ps).occRef 1 .I_A 0 = 0 ∧ (psGapGraph .ps).occRef 1 .I_B 0 = 0 ∧
    (psGapGraph .ps).computePSFunction
      (InterpolationInfo.reset (psGapGraph .ps).proof_variables
        (fun v => (psGapGraph .ps).getVarClass v 1) :
          Except Exn Unit × InterpolationInfo Term).2 1 = .ok [] ∧
    StdMap.find ([] : StdMap icolor_t) 0 ≠ some .I_B := by
  refine ⟨by decide, by decide, ?_, ?_, ?_, ?_, ?_, ?_, by decide⟩ <;>
    with_unfolding_all rfl

/-! ## What a step leaves untouched, and the final value of a slot -/

/-- A successful step on node `n` changes neither the class cache nor the coloring or the
partial interpolant of any other node. -/
theorem processNode_frame [DecidableEq PTRef] (g : ProofGraph PTRef TS)
    (A_mask : ipartitions_t) (ps : Option (StdMap icolor_t)) (st st1 : RunState PTRef TS)
    (id : Nat) (u : Unit) (h : g.processNode A_mask ps st id = (.ok u, st1))
    (n : ProofNode) (hn : g.getNode id = some n) :
    FrameAt n.id st.interpolationInfo st1.interpolationInfo := by
  obtain ⟨n2, hn2, hcase⟩ := processNode_ok g A_mask ps st st1 id u h
  rw [hn] at hn2
  obtain rfl : n = n2 := Option.some.inj hn2
  rcases hcase with ⟨_, info1, t, hl, hst, _⟩ | ⟨_, info1, t, hc, hst⟩
  · obtain ⟨f1, f2, f3, _⟩ := labelLeaf_spec g _ info1 n ps () hl
    rw [hst]
    refine ⟨f1, ?_⟩
    intro m hm
    refine ⟨?_, ?_, ?_⟩
    · funext w; exact (f3 m w (Or.inl hm)).1
    · funext w; exact (f3 m w (Or.inl hm)).2
    · simp only [InterpolationInfo.setPartialInterpolant, if_neg hm]
      rw [f2]
  · obtain ⟨a1, a2, I1, I2, c, _, _, _, hp, _⟩ :=
      compInterpLabelingInner_ok g _ info1 n t hc
    have hf := getPivotColor_frame g st.interpolationInfo n
    rw [hp] at hf
    obtain ⟨f1, f2, f3⟩ := hf
    rw [hst]
    refine ⟨f1, ?_⟩
    intro m hm
    refine ⟨(f3 m hm).1, (f3 m hm).2, ?_⟩
    simp only [InterpolationInfo.setPartialInterpolant, if_neg hm]
    exact congrFun f2 m

/-- A successful traversal of `ids` changes neither the class cache nor the coloring or
the partial interpolant of a node that is not among `ids`. -/
theorem traverse_frame [DecidableEq PTRef] (g : ProofGraph PTRef TS)
    (A_mask : ipartitions_t) (ps : Option (StdMap icolor_t)) (m : Nat) :
    ∀ (ids : List Nat) (st st1 : RunState PTRef TS) (u : Unit),
      g.traverse A_mask ps ids st = (.ok u, st1) →
      (∀ id ∈ ids, ∀ n, g.getNode id = some n → n.id = id) → m ∉ ids →
      st1.interpolationInfo.varClass = st.interpolationInfo.varClass ∧
      st1.interpolationInfo.colA m = st.interpolationInfo.colA m ∧
      st1.interpolationInfo.colB m = st.interpolationInfo.colB m ∧
      st1.interpolationInfo.partialInterpolant m = st.interpolationInfo.partialInterpolant m := by
  intro ids
  induction ids with
  | nil =>
    intro st st1 u h _ _
    simp only [ProofGraph.traverse, Prod.mk.injEq] at h
    rw [← h.2]
    exact ⟨rfl, rfl, rfl, rfl⟩
  | cons id rest ih =>
    intro st st1 u h hids hm
    simp only [ProofGraph.traverse] at h
    rcases hp : g.processNode A_mask ps st id with ⟨r, st2⟩
    rw [hp] at h
    cases r with
    | error e => simp at h
    | ok u2 =>
      simp only at h
      obtain ⟨n, hn, _⟩ := processNode_ok g A_mask ps st st2 id u2 hp
      have hid := hids id (List.mem_cons_self _ _) n hn
      obtain ⟨f1, f2⟩ := processNode_frame g A_mask ps st st2 id u2 hp n hn
      have hne : m ≠ n.id := by
        rw [hid]
        intro e
        exact hm (by rw [e]; exact List.mem_cons_self _ _)
      obtain ⟨e1, e2, e3⟩ := f2 m hne
      obtain ⟨i1, i2, i3, i4⟩ := ih st2 st1 u h
        (fun x hx => hids x (List.mem_cons_of_mem _ hx))
        (fun hx => hm (List.mem_cons_of_mem _ hx))
      exact ⟨i1.trans f1, i2.trans e1, i3.trans e2, i4.trans e3⟩

/-- A successful traversal splits at each of its nodes into a successful traversal of the
nodes before it, a successful step, and a successful traversal of the nodes after it. -/
theorem traverse_split [DecidableEq PTRef] (g : ProofGraph PTRef TS)
    (A_mask : ipartitions_t) (ps : Option (StdMap icolor_t)) (id : Nat) (post : List Nat) :
    ∀ (pre : List Nat) (st st1 : RunState PTRef TS) (u : Unit),
      g.traverse A_mask ps (pre ++ id :: post) st = (.ok u, st1) →
      ∃ sa sb, g.traverse A_mask ps pre st = (.ok (), sa) ∧
        g.processNode A_mask ps sa id = (.ok (), sb) ∧
        g.traverse A_mask ps post sb = (.ok (), st1) := by
  intro pre
  induction pre with
  | nil =>
    intro st st1 u h
    simp only [List.nil_append, ProofGraph.traverse] at h
    rcases hp : g.processNode A_mask ps st id with ⟨r, st2⟩
    rw [hp] at h
    cases r with
    | error e => simp at h
    | ok u2 =>
      simp only at h
      exact ⟨st, st2, rfl, hp, h⟩
  | cons a pre ih =>
    intro st st1 u h
    simp only [List.cons_append, ProofGraph.traverse] at h
    rcases hp : g.processNode A_mask ps st a with ⟨r, st2⟩
    rw [hp] at h
    cases r with
    | error e => simp at h
    | ok u2 =>
      simp only at h
      obtain ⟨sa, sb, h1, h2, h3⟩ := ih st2 st1 u h
      refine ⟨sa, sb, ?_, h2, h3⟩
      simp only [ProofGraph.traverse, hp]
      exact h1

/-- In a successful traversal of a duplicate-free order whose nodes carry their own ids,
the step of a node `id` of the order ran from some state `sa` to some state `sb`, and the
final state agrees with `sb` on the class cache and on the coloring and the partial
interpolant of `id`; on the slots of nodes before `id` the state `sa`, the state `sb` and
the final state agree. -/
theorem traverse_step_final [DecidableEq PTRef] (g : ProofGraph PTRef TS)
    (A_mask : ipartitions_t) (ps : Option (StdMap icolor_t)) (ids : List Nat)
    (st st1 : RunState PTRef TS) (u : Unit)
    (h : g.traverse A_mask ps ids st = (.ok u, st1))
    (hids : ∀ id ∈ ids, ∀ n, g.getNode id = some n → n.id = id) (hnodup : ids.Nodup)
    (id : Nat) (hid : id ∈ ids) :
    ∃ pre post sa sb, ids = pre ++ id :: post ∧
      g.traverse A_mask ps pre st = (.ok (), sa) ∧
      g.processNode A_mask ps sa id = (.ok (), sb) ∧
      st1.interpolationInfo.varClass = sb.interpolationInfo.varClass ∧
      sb.interpolationInfo.varClass = sa.interpolationInfo.varClass ∧
      st1.interpolationInfo.colA id = sb.interpolationInfo.colA id ∧
      st1.interpolationInfo.colB id = sb.interpolationInfo.colB id ∧
      st1.interpolationInfo.partialInterpolant id = sb.interpolationInfo.partialInterpolant id ∧
      (∀ m, m ≠ id → m ∉ post →
        st1.interpolationInfo.partialInterpolant m = sa.interpolationInfo.partialInterpolant m ∧
        st1.interpolationInfo.colA m = sa.interpolationInfo.colA m ∧
        st1.interpolationInfo.colB m = sa.interpolationInfo.colB m) := by
  obtain ⟨pre, post, rfl⟩ := List.append_of_mem hid
  obtain ⟨sa, sb, h1, h2, h3⟩ := traverse_split g A_mask ps id post pre st st1 u h
  have hnd : id ∉ post := by
    have := (List.nodup_append.mp hnodup).2.1
    exact (List.nodup_cons.mp this).1
  have hpost : ∀ x ∈ post, ∀ n, g.getNode x = some n → n.id = x := by
    intro x hx
    exact hids x (List.mem_append_right _ (List.mem_cons_of_mem _ hx))
  obtain ⟨e1, e2, e3, e4⟩ := traverse_frame g A_mask ps id post sb st1 () h3 hpost hnd
  obtain ⟨n, hn, _⟩ := processNode_ok g A_mask ps sa sb id () h2
  have hnid := hids id hid n hn
  obtain ⟨f1, f2⟩ := processNode_frame g A_mask ps sa sb id () h2 n hn
  refine ⟨pre, post, sa, sb, rfl, h1, h2, e1, f1, e2, e3, e4, ?_⟩
  intro m hm hmp
  obtain ⟨g1, g2, g3, g4⟩ := traverse_frame g A_mask ps m post sb st1 () h3 hpost hmp
  obtain ⟨k1, k2, k3⟩ := f2 m (by rw [hnid]; exact hm)
  exact ⟨g4.trans k3, g2.trans k1, g3.trans k2⟩

/-! ## Split and assumption leaves -/

theorem getVarColor_congr (info info2 : InterpolationInfo PTRef) (n : ProofNode) (v : Var)
    (h1 : info2.varClass = info.varClass) (h2 : info2.colA n.id = info.colA n.id)
    (h3 : info2.colB n.id = info.colB n.id) :
    getVarColor info2 n v = getVarColor info n v := by
  unfold getVarColor getSharedVarColorInNode InterpolationInfo.getVarClass
  rw [h1, h2, h3]

/-- The step of the traversal on a SPLIT leaf whose labeling succeeds. -/
theorem processNode_split [DecidableEq PTRef] (g : ProofGraph PTRef TS)
    (A_mask : ipartitions_t) (ps : Option (StdMap icolor_t)) (st : RunState PTRef TS)
    (id : Nat) (n : ProofNode) (l0 : Lit) (rest : List Lit)
    (hn : g.getNode id = some n) (hleaf : n.isLeaf = true) (htype : n.type = .CLA_SPLIT)
    (hclause : n.clause = l0 :: rest) (info1 : InterpolationInfo PTRef)
    (hl : g.labelLeaf st.interpolationInfo n ps = (.ok (), info1)) :
    g.processNode A_mask ps st id =
      (.ok (), { st with interpolationInfo := (info1.setPartialInterpolant n
        (if getVarColor info1 n (var l0) = .I_A then g.logic_.getTerm_false
         else if getVarColor info1 n (var l0) = .I_B then g.logic_.getTerm_true
         else g.logic_.getTerm_false)) }) := by
  unfold ProofGraph.processNode
  simp [hn, hleaf, htype, isLeafClauseType, hl, hclause]

/-- C16. For a SPLIT leaf `n` with the binary clause `[l0, l1]`: the step of the traversal
on `n`, once the labeling of `n` has succeeded, succeeds and stores for `n` the constant
false if the color the two atoms share in the node is A, true if it is B and false if it
is AB, without touching the theory handler; and after a successful run of
`produceSingleInterpolant` over a duplicate-free order whose nodes carry their own ids,
the partial interpolant stored for `n` is that constant. -/
theorem split_leaf_interpolant [DecidableEq PTRef] (g : ProofGraph PTRef TS)
    (A_mask : ipartitions_t) (id : Nat) (n : ProofNode) (l0 l1 : Lit)
    (hn : g.getNode id = some n) (hleaf : n.isLeaf = true) (htype : n.type = .CLA_SPLIT)
    (hclause : n.clause = [l0, l1]) :
    (∀ (ps : Option (StdMap icolor_t)) (st : RunState PTRef TS)
        (info1 : InterpolationInfo PTRef),
      g.labelLeaf st.interpolationInfo n ps = (.ok (), info1) →
      ∃ t, g.processNode A_mask ps st id =
          (.ok (), { st with interpolationInfo := info1.setPartialInterpolant n t }) ∧
        ∀ c, getVarColor info1 n (var l0) = c → getVarColor info1 n (var l1) = c →
          (c = .I_A → t = g.logic_.getTerm_false) ∧
          (c = .I_B → t = g.logic_.getTerm_true) ∧
          (c = .I_AB → t = g.logic_.getTerm_false)) ∧
    (∀ (interpolants : List PTRef) (st : RunState PTRef TS),
      (∀ x ∈ g.DFSv, ∀ m, g.getNode x = some m → m.id = x) → g.DFSv.Nodup → id ∈ g.DFSv →
      (g.produceSingleInterpolant interpolants A_mask st).result = .ok () →
      ∃ t, (g.produceSingleInterpolant interpolants A_mask st).state.interpolationInfo.getPartialInterpolant
            n.id = some t ∧
        ∀ c, getVarColor (g.produceSingleInterpolant interpolants A_mask st).state.interpolationInfo
              n (var l0) = c →
          getVarColor (g.produceSingleInterpolant interpolants A_mask st).state.interpolationInfo
              n (var l1) = c →
          (c = .I_A → t = g.logic_.getTerm_false) ∧
          (c = .I_B → t = g.logic_.getTerm_true) ∧
          (c = .I_AB → t = g.logic_.getTerm_false)) := by
  have hval : ∀ (info1 : InterpolationInfo PTRef) (c : icolor_t),
      getVarColor info1 n (var l0) = c →
      (c = .I_A → (if getVarColor info1 n (var l0) = .I_A then g.logic_.getTerm_false
         else if getVarColor info1 n (var l0) = .I_B then g.logic_.getTerm_true
         else g.logic_.getTerm_false) = g.logic_.getTerm_false) ∧
      (c = .I_B → (if getVarColor info1 n (var l0) = .I_A then g.logic_.getTerm_false
         else if getVarColor info1 n (var l0) = .I_B then g.logic_.getTerm_true
         else g.logic_.getTerm_false) = g.logic_.getTerm_true) ∧
      (c = .I_AB → (if getVarColor info1 n (var l0) = .I_A then g.logic_.getTerm_false
         else if getVarColor info1 n (var l0) = .I_B then g.logic_.getTerm_true
         else g.logic_.getTerm_false) = g.logic_.getTerm_false) := by
    intro info1 c hc
    rw [hc]
    refine ⟨?_, ?_, ?_⟩ <;> intro h <;> subst h <;> simp
  constructor
  · intro ps st info1 hl
    exact ⟨_, processNode_split g A_mask ps st id n l0 [l1] hn hleaf htype hclause info1 hl,
      fun c hc _ => hval info1 c hc⟩
  · intro interpolants st hids hnodup hid hok
    obtain ⟨info0, ps, st1, rootNode, I, _, _, htr, _, _, hrun⟩ :=
      produceSingleInterpolant_ok g interpolants A_mask st hok
    rw [hrun]
    simp only
    obtain ⟨pre, post, sa, sb, _, _, hstep, e1, _, e3, e4, e5, _⟩ :=
      traverse_step_final g A_mask ps g.DFSv _ st1 () htr hids hnodup id hid
    have hnid : n.id = id := hids id hid n hn
    obtain ⟨n2, hn2, hcase⟩ := processNode_ok g A_mask ps sa sb id () hstep
    rw [hn] at hn2
    obtain rfl : n = n2 := Option.some.inj hn2
    rcases hcase with ⟨_, info1, t0, hl, _, _⟩ | ⟨hnl, _⟩
    · have hsplit := processNode_split g A_mask ps sa id n l0 [l1] hn hleaf htype hclause
        info1 hl
      rw [hstep] at hsplit
      have hsb : sb.interpolationInfo = info1.setPartialInterpolant n
          (if getVarColor info1 n (var l0) = .I_A then g.logic_.getTerm_false
           else if getVarColor info1 n (var l0) = .I_B then g.logic_.getTerm_true
           else g.logic_.getTerm_false) :=
        congrArg RunState.interpolationInfo (Prod.mk.inj hsplit).2
      refine ⟨(if getVarColor info1 n (var l0) = .I_A then g.logic_.getTerm_false
           else if getVarColor info1 n (var l0) = .I_B then g.logic_.getTerm_true
           else g.logic_.getTerm_false), ?_, ?_⟩
      · show st1.interpolationInfo.partialInterpolant n.id = _
        rw [hnid, e5, hsb]
        simp only [InterpolationInfo.setPartialInterpolant, hnid, if_true]
      · intro c hc _
        have hcol : getVarColor st1.interpolationInfo n (var l0) =
            getVarColor info1 n (var l0) := by
          apply getVarColor_congr
          · rw [e1, hsb]; rfl
          · rw [hnid, e3, hsb]; rfl
          · rw [hnid, e4, hsb]; rfl
        rw [hcol] at hc
        exact hval info1 c hc
    · rw [hleaf] at hnl
      cases hnl

/-- Witness for C16: scenario S5; the SPLIT leaf over two B-local atoms gets `⊤`. -/
theorem split_leaf_interpolant_witness :
    (s5Graph.produceSingleInterpolant [] 1
      ⟨InterpolationInfo.cleared, ()⟩).state.interpolationInfo.getPartialInterpolant 0 =
      some Term.tt := by
  obtain ⟨t, ht, hc⟩ := (split_leaf_interpolant s5Graph 1 0 s5Node0 ⟨0, false⟩ ⟨1, false⟩
    rfl rfl rfl rfl).2 [] ⟨InterpolationInfo.cleared, ()⟩
    (by
      intro x hx m hm
      simp only [s5Graph, List.mem_cons, List.mem_singleton, List.not_mem_nil, or_false] at hx
      rcases hx with rfl | rfl | rfl | rfl | rfl <;>
        (simp [ProofGraph.getNode, s5Graph] at hm; subst hm; rfl))
    (by decide) (by decide) (by with_unfolding_all rfl)
  have hB := (hc .I_B (by with_unfolding_all rfl) (by with_unfolding_all rfl)).2.1 rfl
  rw [hB] at ht
  exact ht

/-- The step of the traversal on an ASSUMPTION leaf whose labeling succeeds. -/
theorem processNode_assumption [DecidableEq PTRef] (g : ProofGraph PTRef TS)
    (A_mask : ipartitions_t) (ps : Option (StdMap icolor_t)) (st : RunState PTRef TS)
    (id : Nat) (n : ProofNode)
    (hn : g.getNode id = some n) (hleaf : n.isLeaf = true) (htype : n.type = .CLA_ASSUMPTION)
    (info1 : InterpolationInfo PTRef)
    (hl : g.labelLeaf st.interpolationInfo n ps = (.ok (), info1)) :
    g.processNode A_mask ps st id =
      (.ok (), { st with
        interpolationInfo := info1.setPartialInterpolant n g.logic_.getTerm_true }) := by
  unfold ProofGraph.processNode
  simp [hn, hleaf, htype, isLeafClauseType, hl]

/-- C17. For an ASSUMPTION leaf `n`, whatever its clause, the A-mask and the labeling
system: the labeling of `n` succeeds when a system is selected and, for a proof-sensitive
system, the label map has an entry for every AB-class variable of the clause that is not
an assumption variable; once the labeling has succeeded, the step of the traversal on `n`
succeeds, leaves the theory handler alone, and its only change to the table of partial
interpolants is one store, of the constant true, into the slot of `n`; and after a
successful run of `produceSingleInterpolant` over a duplicate-free order whose nodes
carry their own ids, the partial interpolant stored for `n` is the constant true. -/
theorem assumption_leaf_interpolant [DecidableEq PTRef] (g : ProofGraph PTRef TS)
    (A_mask : ipartitions_t) (id : Nat) (n : ProofNode)
    (hn : g.getNode id = some n) (hleaf : n.isLeaf = true)
    (htype : n.type = .CLA_ASSUMPTION) :
    (∀ (ps : Option (StdMap icolor_t)) (info : InterpolationInfo PTRef),
      g.itp_bool_algo ≠ .unset →
      (g.needProofStatistics = true → ∃ labels, ps = some labels ∧
        ∀ l ∈ n.clause, g.isAssumedVar (var l) = false → info.varClass (var l) = .I_AB →
          ∃ c, StdMap.find labels (var l) = some c) →
      ∃ info1, g.labelLeaf info n ps = (.ok (), info1)) ∧
    (∀ (ps : Option (StdMap icolor_t)) (st : RunState PTRef TS)
        (info1 : InterpolationInfo PTRef),
      g.labelLeaf st.interpolationInfo n ps = (.ok (), info1) →
      g.processNode A_mask ps st id =
        (.ok (), { st with
          interpolationInfo := info1.setPartialInterpolant n g.logic_.getTerm_true }) ∧
      (info1.setPartialInterpolant n g.logic_.getTerm_true).partialInterpolant =
        (fun m => if m = n.id then some g.logic_.getTerm_true
          else st.interpolationInfo.partialInterpolant m)) ∧
    (∀ (interpolants : List PTRef) (st : RunState PTRef TS),
      (∀ x ∈ g.DFSv, ∀ m, g.getNode x = some m → m.id = x) → g.DFSv.Nodup → id ∈ g.DFSv →
      (g.produceSingleInterpolant interpolants A_mask st).result = .ok () →
      (g.produceSingleInterpolant interpolants A_mask st).state.interpolationInfo.getPartialInterpolant
        n.id = some g.logic_.getTerm_true) := by
  refine ⟨?_, ?_, ?_⟩
  · intro ps info halgo hps
    exact labelLeaf_total g info n ps halgo hps
  · intro ps st info1 hl
    refine ⟨processNode_assumption g A_mask ps st id n hn hleaf htype info1 hl, ?_⟩
    have hpi := (labelLeaf_spec g _ info1 n ps () hl).2.1
    simp only [InterpolationInfo.setPartialInterpolant, hpi]
  · intro interpolants st hids hnodup hid hok
    obtain ⟨info0, ps, st1, rootNode, I, _, _, htr, _, _, hrun⟩ :=
      produceSingleInterpolant_ok g interpolants A_mask st hok
    rw [hrun]
    simp only
    obtain ⟨pre, post, sa, sb, _, _, hstep, _, _, _, _, e5, _⟩ :=
      traverse_step_final g A_mask ps g.DFSv _ st1 () htr hids hnodup id hid
    have hnid : n.id = id := hids id hid n hn
    obtain ⟨n2, hn2, hcase⟩ := processNode_ok g A_mask ps sa sb id () hstep
    rw [hn] at hn2
    obtain rfl : n = n2 := Option.some.inj hn2
    rcases hcase with ⟨_, info1, t0, hl, _, _⟩ | ⟨hnl, _⟩
    · have hasm := processNode_assumption g A_mask ps sa id n hn hleaf htype info1 hl
      rw [hstep] at hasm
      have hsb : sb.interpolationInfo =
          info1.setPartialInterpolant n g.logic_.getTerm_true :=
        congrArg RunState.interpolationInfo (Prod.mk.inj hasm).2
      show st1.interpolationInfo.partialInterpolant n.id = _
      rw [hnid, e5, hsb]
      simp only [InterpolationInfo.setPartialInterpolant, hnid, if_true]
    · rw [hleaf] at hnl
      cases hnl

/-- Witness for C17: scenario S4; the ASSUMPTION leaf `a` (node 0) ends with `⊤`. -/
theorem assumption_leaf_interpolant_witness :
    (s4Graph.produceSingleInterpolant [] 1
      ⟨InterpolationInfo.cleared, ()⟩).state.interpolationInfo.getPartialInterpolant 0 =
      some Term.tt :=
  (assumption_leaf_interpolant s4Graph 1 0 s4Node0 rfl rfl rfl).2.2 []
    ⟨InterpolationInfo.cleared, ()⟩
    (by
      intro x hx m hm
      simp only [s4Graph, List.mem_cons, List.mem_singleton, List.not_mem_nil, or_false] at hx
      rcases hx with rfl | rfl | rfl <;>
        (simp [ProofGraph.getNode, s4Graph] at hm; subst hm; rfl))
    (by decide) (by decide) (by with_unfolding_all rfl)

/-! ## The alternative form of the AB-pivot rule -/

theorem setLeafLabeling_slots (g : ProofGraph PTRef TS) (node : ProofNode)
    (f : InterpolationInfo PTRef → ProofNode → Var → Except Exn Unit × InterpolationInfo PTRef)
    (hf : ∀ i v (p : Nat → Option PTRef), f { i with partialInterpolant := p } node v =
      ((f i node v).1, { (f i node v).2 with partialInterpolant := p }))
    (p : Nat → Option PTRef) (cl : List Lit) :
    ∀ (acc : Except Exn Unit × InterpolationInfo PTRef),
    cl.foldl
      (fun (acc : Except Exn Unit × InterpolationInfo PTRef) l =>
        match acc with
        | (.error e, i) => (.error e, i)
        | (.ok _, i) =>
          let v := var l
          if g.isAssumedVar v then (.ok (), i)
          else if i.getVarClass v = .I_AB then f i node v
          else (.ok (), i))
      (acc.1, { acc.2 with partialInterpolant := p }) =
    ((cl.foldl
      (fun (acc : Except Exn Unit × InterpolationInfo PTRef) l =>
        match acc with
        | (.error e, i) => (.error e, i)
        | (.ok _, i) =>
          let v := var l
          if g.isAssumedVar v then (.ok (), i)
          else if i.getVarClass v = .I_AB then f i node v
          else (.ok (), i))
      acc).1,
     { (cl.foldl
      (fun (acc : Except Exn Unit × InterpolationInfo PTRef) l =>
        match acc with
        | (.error e, i) => (.error e, i)
        | (.ok _, i) =>
          let v := var l
          if g.isAssumedVar v then (.ok (), i)
          else if i.getVarClass v = .I_AB then f i node v
          else (.ok (), i))
      acc).2 with partialInterpolant := p }) := by
  induction cl with
  | nil => intro acc; rfl
  | cons a cl ih =>
    intro acc
    simp only [List.foldl_cons]
    obtain ⟨r, i⟩ := acc
    cases r with
    | error e => exact ih (.error e, i)
    | ok u =>
      simp only
      by_cases hass : g.isAssumedVar (var a) = true
      · simp only [hass, if_true]
        exact ih (.ok (), i)
      · simp only [hass, if_false]
        by_cases hAB : i.getVarClass (var a) = .I_AB
        · have hAB2 : ({ i with partialInterpolant := p } : InterpolationInfo PTRef).getVarClass
              (var a) = .I_AB := hAB
          simp only [hAB, hAB2, if_true]
          rw [hf i (var a) p]
          exact ih (f i node (var a))
        · have hAB2 : ¬ ({ i with partialInterpolant := p } : InterpolationInfo PTRef).getVarClass
              (var a) = .I_AB := hAB
          simp only [hAB, hAB2, if_false]
          exact ih (.ok (), i)

/-- Leaf labeling neither reads nor writes the table of partial interpolants. -/
theorem labelLeaf_slots (g : ProofGraph PTRef TS) (info : InterpolationInfo PTRef)
    (n : ProofNode) (ps : Option (StdMap icolor_t)) (p : Nat → Option PTRef) :
    g.labelLeaf { info with partialInterpolant := p } n ps =
      ((g.labelLeaf info n ps).1, { (g.labelLeaf info n ps).2 with partialInterpolant := p }) := by
  have key : ∀ (f : InterpolationInfo PTRef → ProofNode → Var →
        Except Exn Unit × InterpolationInfo PTRef),
      (∀ i v (p : Nat → Option PTRef), f { i with partialInterpolant := p } n v =
        ((f i n v).1, { (f i n v).2 with partialInterpolant := p })) →
      g.setLeafLabeling { info with partialInterpolant := p } n f =
        ((g.setLeafLabeling info n f).1,
          { (g.setLeafLabeling info n f).2 with partialInterpolant := p }) := by
    intro f hf
    exact setLeafLabeling_slots g n f hf p n.clause (.ok (), info)
  unfold ProofGraph.labelLeaf
  split_ifs
  · cases ps with
    | none => rfl
    | some labels =>
      refine key _ ?_
      intro i v p
      simp only
      cases StdMap.find labels v with
      | none => rfl
      | some c => by_cases hc : c = .I_A <;> simp only [hc, if_true, if_false] <;> rfl
  · cases ps with
    | none => rfl
    | some labels =>
      refine key _ ?_
      intro i v p
      simp only
      cases StdMap.find labels v with
      | none => rfl
      | some c => by_cases hc : c = .I_A <;> simp only [hc, if_true, if_false] <;> rfl
  · cases ps with
    | none => rfl
    | some labels =>
      refine key _ ?_
      intro i v p
      simp only
      cases StdMap.find labels v with
      | none => rfl
      | some c => by_cases hc : c = .I_A <;> simp only [hc, if_true, if_false] <;> rfl
  · exact key _ (fun _ _ _ => rfl)
  · exact key _ (fun _ _ _ => rfl)
  · exact key _ (fun _ _ _ => rfl)
  · rfl

/-- The pivot color neither reads nor writes the table of partial interpolants. -/
theorem getPivotColor_slots (g : ProofGraph PTRef TS) (info : InterpolationInfo PTRef)
    (n : ProofNode) (p : Nat → Option PTRef) :
    g.getPivotColor { info with partialInterpolant := p } n =
      ((g.getPivotColor info n).1,
        { (g.getPivotColor info n).2 with partialInterpolant := p }) := by
  unfold ProofGraph.getPivotColor
  simp only [InterpolationInfo.getVarClass]
  split_ifs <;>
    simp only [InterpolationInfo.updateColoringfromAnts,
      InterpolationInfo.clearPivotColoring, getSharedVarColorInNode] <;>
    cases n.ants <;> rfl

/-- The two forms of the AB-pivot rule denote the same truth value, also when built from
logically equivalent antecedent interpolants. -/
theorem alternative_form_eval (L : Logic PTRef) (varToPTRef : Var → PTRef)
    (eval : (Var → Bool) → PTRef → Bool) (hsem : LogicSemantics L varToPTRef eval)
    (I1 I2 J1 J2 p : PTRef) (σ : Var → Bool)
    (h1 : eval σ I1 = eval σ J1) (h2 : eval σ I2 = eval σ J2) :
    eval σ (L.mkAnd [L.mkOr [I1, p], L.mkOr [I2, L.mkNot p]]) =
      eval σ (L.mkOr [L.mkAnd [J1, L.mkNot p], L.mkAnd [J2, p]]) ∧
    eval σ (L.mkAnd [L.mkOr [I1, p], L.mkOr [I2, L.mkNot p]]) =
      eval σ (L.mkAnd [L.mkOr [J1, p], L.mkOr [J2, L.mkNot p]]) ∧
    eval σ (L.mkOr [L.mkAnd [I1, L.mkNot p], L.mkAnd [I2, p]]) =
      eval σ (L.mkOr [L.mkAnd [J1, L.mkNot p], L.mkAnd [J2, p]]) := by
  simp only [hsem.eval_and, hsem.eval_or, hsem.eval_not, List.all_cons, List.all_nil,
    List.any_cons, List.any_nil, h1, h2]
  cases eval σ J1 <;> cases eval σ J2 <;> cases eval σ p <;> simp

/-- The resolvent combinator under two settings of the toggle, on interpolation infos
that differ only by logically equivalent partial interpolants: the same coloring comes
out, the same error if any, and logically equivalent terms otherwise. -/
theorem compInterpLabelingInner_equiv [DecidableEq PTRef] (g : ProofGraph PTRef TS)
    (eval : (Var → Bool) → PTRef → Bool)
    (hsem : LogicSemantics g.logic_ g.varToPTRef eval) (b1 b2 : Bool)
    (info : InterpolationInfo PTRef) (p2 : Nat → Option PTRef)
    (hE : EquivSlots eval info.partialInterpolant p2) (n : ProofNode) :
    ((g.withAlternative b2).compInterpLabelingInner
        { info with partialInterpolant := p2 } n).2 =
      { ((g.withAlternative b1).compInterpLabelingInner info n).2 with
        partialInterpolant := p2 } ∧
    ((∃ e, ((g.withAlternative b1).compInterpLabelingInner info n).1 = .error e ∧
        ((g.withAlternative b2).compInterpLabelingInner
          { info with partialInterpolant := p2 } n).1 = .error e) ∨
     (∃ t1 t2, ((g.withAlternative b1).compInterpLabelingInner info n).1 = .ok t1 ∧
        ((g.withAlternative b2).compInterpLabelingInner
          { info with partialInterpolant := p2 } n).1 = .ok t2 ∧
        ∀ σ, eval σ t1 = eval σ t2)) := by
  unfold ProofGraph.compInterpLabelingInner
  cases hants : n.ants with
  | none => exact ⟨rfl, Or.inl ⟨_, rfl, rfl⟩⟩
  | some a =>
    obtain ⟨a1, a2⟩ := a
    simp only [InterpolationInfo.getPartialInterpolant]
    obtain ⟨d1, q1⟩ := hE a1
    obtain ⟨d2, q2⟩ := hE a2
    cases h1 : info.partialInterpolant a1 with
    | none =>
      have h1b : p2 a1 = none := d1.mp h1
      simp only [h1b]
      exact ⟨by first | rfl | trivial, Or.inl ⟨_, rfl, rfl⟩⟩
    | some I1 =>
      cases h1b : p2 a1 with
      | none => rw [d1.mpr h1b] at h1; cases h1
      | some J1 =>
        cases h2 : info.partialInterpolant a2 with
        | none =>
          have h2b : p2 a2 = none := d2.mp h2
          simp only [h2b]
          exact ⟨by first | rfl | trivial, Or.inl ⟨_, rfl, rfl⟩⟩
        | some I2 =>
          cases h2b : p2 a2 with
          | none => rw [d2.mpr h2b] at h2; cases h2
          | some J2 =>
            have e1 := q1 I1 J1 h1 h1b
            have e2 := q2 I2 J2 h2 h2b
            simp only
            have hpc : (g.withAlternative b2).getPivotColor
                { info with partialInterpolant := p2 } n =
                (((g.withAlternative b1).getPivotColor info n).1,
                  { ((g.withAlternative b1).getPivotColor info n).2 with
                    partialInterpolant := p2 }) :=
              getPivotColor_slots g info n p2
            rw [hpc]
            rcases hp : (g.withAlternative b1).getPivotColor info n with ⟨r, info1⟩
            cases r with
            | error e => exact ⟨rfl, Or.inl ⟨_, rfl, rfl⟩⟩
            | ok c =>
              simp only
              by_cases hS : c = .I_S
              · simp only [hS, if_true]
                have hlit : (g.withAlternative b2).isAssumedLiteral (mkLit n.pivot) =
                    (g.withAlternative b1).isAssumedLiteral (mkLit n.pivot) := rfl
                rw [hlit]
                cases (g.withAlternative b1).isAssumedLiteral (mkLit n.pivot)
                · exact ⟨rfl, Or.inr ⟨_, _, rfl, rfl, e1⟩⟩
                · exact ⟨rfl, Or.inr ⟨_, _, rfl, rfl, e2⟩⟩
              · simp only [hS, if_false]
                by_cases hA : c = .I_A
                · simp only [hA, if_true]
                  refine ⟨by first | rfl | trivial, Or.inr ⟨_, _, rfl, rfl, ?_⟩⟩
                  intro σ
                  show eval σ (g.logic_.mkOr [I1, I2]) = eval σ (g.logic_.mkOr [J1, J2])
                  simp only [hsem.eval_or, List.any_cons, List.any_nil, e1 σ, e2 σ]
                · simp only [hA, if_false]
                  by_cases hB : c = .I_B
                  · simp only [hB, if_true]
                    refine ⟨by first | rfl | trivial, Or.inr ⟨_, _, rfl, rfl, ?_⟩⟩
                    intro σ
                    show eval σ (g.logic_.mkAnd [I1, I2]) = eval σ (g.logic_.mkAnd [J1, J2])
                    simp only [hsem.eval_and, List.all_cons, List.all_nil, e1 σ, e2 σ]
                  · simp only [hB, if_false]
                    by_cases hAB : c = .I_AB
                    · simp only [hAB, if_true]
                      have hf := fun σ => alternative_form_eval g.logic_ g.varToPTRef eval hsem
                        I1 I2 J1 J2 (g.varToPTRef n.pivot) σ (e1 σ) (e2 σ)
                      have hb := fun σ => alternative_form_eval g.logic_ g.varToPTRef eval hsem
                        J1 J2 I1 I2 (g.varToPTRef n.pivot) σ (e1 σ).symm (e2 σ).symm
                      split_ifs <;>
                        first
                        | exact ⟨rfl, Or.inr ⟨_, _, rfl, rfl, fun σ => (hf σ).2.2⟩⟩
                        | exact ⟨rfl, Or.inr ⟨_, _, rfl, rfl, fun σ => ((hb σ).1).symm⟩⟩
                        | exact ⟨rfl, Or.inr ⟨_, _, rfl, rfl, fun σ => (hf σ).1⟩⟩
                        | exact ⟨rfl, Or.inr ⟨_, _, rfl, rfl, fun σ => (hf σ).2.1⟩⟩
                    · simp only [hAB, if_false]
                      exact ⟨by first | rfl | trivial, Or.inl ⟨_, rfl, rfl⟩⟩

theorem EquivSlots_set (eval : (Var → Bool) → PTRef → Bool) (p1 p2 : Nat → Option PTRef)
    (hE : EquivSlots eval p1 p2) (k : Nat) (t1 t2 : PTRef) (ht : ∀ σ, eval σ t1 = eval σ t2) :
    EquivSlots eval (fun m => if m = k then some t1 else p1 m)
      (fun m => if m = k then some t2 else p2 m) := by
  intro m
  by_cases hm : m = k
  · simp only [hm, if_true, Option.some.injEq]
    refine ⟨by simp, ?_⟩
    intro a b ha hb
    rw [← ha, ← hb]
    exact ht
  · simp only [hm, if_false]
    exact hE m

theorem labelLeaf_slots_eq (g : ProofGraph PTRef TS) (info : InterpolationInfo PTRef)
    (n : ProofNode) (ps : Option (StdMap icolor_t)) :
    (g.labelLeaf info n ps).2.partialInterpolant = info.partialInterpolant := by
  have h := labelLeaf_slots g info n ps info.partialInterpolant
  have h2 := congrArg (fun r => r.2.partialInterpolant) h
  simp only at h2
  exact h2

/-- One step of the traversal under two settings of the toggle, from states that differ
only by logically equivalent partial interpolants: the same outcome, the same state of the
theory handler, and interpolation infos that again differ only by logically equivalent
partial interpolants. -/
theorem processNode_equiv [DecidableEq PTRef] (g : ProofGraph PTRef TS)
    (eval : (Var → Bool) → PTRef → Bool)
    (hsem : LogicSemantics g.logic_ g.varToPTRef eval) (b1 b2 : Bool)
    (A_mask : ipartitions_t) (ps : Option (StdMap icolor_t))
    (st : RunState PTRef TS) (p2 : Nat → Option PTRef)
    (hE : EquivSlots eval st.interpolationInfo.partialInterpolant p2) (id : Nat) :
    ((g.withAlternative b2).processNode A_mask ps
        { interpolationInfo := { st.interpolationInfo with partialInterpolant := p2 },
          tstate := st.tstate } id).1 =
      ((g.withAlternative b1).processNode A_mask ps st id).1 ∧
    ((g.withAlternative b2).processNode A_mask ps
        { interpolationInfo := { st.interpolationInfo with partialInterpolant := p2 },
          tstate := st.tstate } id).2.tstate =
      ((g.withAlternative b1).processNode A_mask ps st id).2.tstate ∧
    ∃ q2, ((g.withAlternative b2).processNode A_mask ps
        { interpolationInfo := { st.interpolationInfo with partialInterpolant := p2 },
          tstate := st.tstate } id).2.interpolationInfo =
        { ((g.withAlternative b1).processNode A_mask ps st id).2.interpolationInfo with
          partialInterpolant := q2 } ∧
      EquivSlots eval
        ((g.withAlternative b1).processNode A_mask ps st id).2.interpolationInfo.partialInterpolant
        q2 := by
  obtain ⟨info, ts⟩ := st
  simp only at hE ⊢
  unfold ProofGraph.processNode
  have hnode : (g.withAlternative b2).getNode id = (g.withAlternative b1).getNode id := rfl
  rw [hnode]
  cases hn : (g.withAlternative b1).getNode id with
  | none => exact ⟨rfl, rfl, p2, rfl, hE⟩
  | some n =>
    simp only
    cases hleaf : n.isLeaf with
    | false =>
      simp only [Bool.false_eq_true, if_false]
      obtain ⟨k1, k2⟩ := compInterpLabelingInner_equiv g eval hsem b1 b2 info p2 hE n
      rcases hc1 : (g.withAlternative b1).compInterpLabelingInner info n with ⟨r1, i1⟩
      rcases hc2 : (g.withAlternative b2).compInterpLabelingInner
        { info with partialInterpolant := p2 } n with ⟨r2, i2⟩
      rw [hc1, hc2] at k1 k2
      simp only at k1 k2
      have hi1 : i1.partialInterpolant = info.partialInterpolant := by
        have hx := (compInterpLabelingInner_equiv g eval hsem b1 b1 info
          info.partialInterpolant (fun m => ⟨Iff.rfl, fun t1 t2 h1 h2 σ => by
            rw [h1] at h2; rw [Option.some.inj h2]⟩) n).1
        have hy := congrArg (fun r => r.partialInterpolant) hx
        simp only at hy
        rw [hc1] at hy
        exact hy
      rcases k2 with ⟨e, he1, he2⟩ | ⟨t1, t2, ht1, ht2, heq⟩
      · subst he1
        subst he2
        refine ⟨rfl, rfl, p2, k1, ?_⟩
        show EquivSlots eval i1.partialInterpolant p2
        rw [hi1]; exact hE
      · subst ht1
        subst ht2
        refine ⟨rfl, rfl, (fun m => if m = n.id then some t2 else p2 m), ?_, ?_⟩
        · show i2.setPartialInterpolant n t2 = _
          rw [k1]
          rfl
        · show EquivSlots eval (i1.setPartialInterpolant n t1).partialInterpolant _
          simp only [InterpolationInfo.setPartialInterpolant, hi1]
          exact EquivSlots_set eval _ _ hE n.id t1 t2 heq
    | true =>
      simp only [if_true]
      by_cases hlt : (!isLeafClauseType n.type) = true
      · simp only [hlt, if_true]
        exact ⟨trivial, trivial, p2, rfl, hE⟩
      · simp only [hlt, if_false]
        have hl2 : (g.withAlternative b2).labelLeaf { info with partialInterpolant := p2 } n ps =
            (((g.withAlternative b1).labelLeaf info n ps).1,
              { ((g.withAlternative b1).labelLeaf info n ps).2 with partialInterpolant := p2 }) :=
          labelLeaf_slots g info n ps p2
        have hl3 : ((g.withAlternative b1).labelLeaf info n ps).2.partialInterpolant =
            info.partialInterpolant := labelLeaf_slots_eq g info n ps
        rw [hl2]
        rcases hl : (g.withAlternative b1).labelLeaf info n ps with ⟨r, info1⟩
        rw [hl] at hl3
        simp only at hl3
        have hE1 : EquivSlots eval info1.partialInterpolant p2 := by rw [hl3]; exact hE
        cases r with
        | error e => exact ⟨rfl, rfl, p2, rfl, hE1⟩
        | ok u =>
          simp only
          by_cases hO : n.type = .CLA_ORIG
          · simp only [hO, if_true]
            have ho : (g.withAlternative b2).computePartialInterpolantForOriginalClause
                { info1 with partialInterpolant := p2 } n A_mask =
                (g.withAlternative b1).computePartialInterpolantForOriginalClause info1 n
                  A_mask := rfl
            rw [ho]
            cases (g.withAlternative b1).computePartialInterpolantForOriginalClause info1 n
                A_mask with
            | error e => exact ⟨rfl, rfl, p2, rfl, hE1⟩
            | ok t =>
              refine ⟨rfl, rfl, (fun m => if m = n.id then some t else p2 m), rfl, ?_⟩
              exact EquivSlots_set eval _ _ hE1 n.id t t (fun _ => rfl)
          · simp only [hO, if_false]
            by_cases hT : n.type = .CLA_THEORY
            · simp only [hT, if_true]
              have ht : (g.withAlternative b2).computePartialInterpolantForTheoryClause
                  { info1 with partialInterpolant := p2 } ts n A_mask =
                  (g.withAlternative b1).computePartialInterpolantForTheoryClause info1 ts n
                    A_mask := rfl
              rw [ht]
              rcases (g.withAlternative b1).computePartialInterpolantForTheoryClause info1 ts n
                  A_mask with ⟨r, ts1⟩
              cases r with
              | error e => exact ⟨rfl, rfl, p2, rfl, hE1⟩
              | ok t =>
                refine ⟨rfl, rfl, (fun m => if m = n.id then some t else p2 m), rfl, ?_⟩
                exact EquivSlots_set eval _ _ hE1 n.id t t (fun _ => rfl)
            · simp only [hT, if_false]
              by_cases hS : n.type = .CLA_SPLIT
              · simp only [hS, if_true]
                cases n.clause.head? with
                | none => exact ⟨rfl, rfl, p2, rfl, hE1⟩
                | some l0 =>
                  refine ⟨rfl, rfl, (fun m => if m = n.id then some _ else p2 m), rfl, ?_⟩
                  exact EquivSlots_set eval _ _ hE1 n.id _ _ (fun _ => rfl)
              · simp only [hS, if_false]
                refine ⟨rfl, rfl, (fun m => if m = n.id then some _ else p2 m), rfl, ?_⟩
                exact EquivSlots_set eval _ _ hE1 n.id _ _ (fun _ => rfl)

theorem collectOccurrences_withAlternative (g : ProofGraph PTRef TS) (b : Bool)
    (info : InterpolationInfo PTRef) (A_mask : ipartitions_t) (leaves : List Nat) :
    ∀ occ, (g.withAlternative b).collectOccurrences info A_mask leaves occ =
      g.collectOccurrences info A_mask leaves occ := by
  induction leaves with
  | nil => intro occ; rfl
  | cons id rest ih =>
    intro occ
    unfold ProofGraph.collectOccurrences
    have hnode : (g.withAlternative b).getNode id = g.getNode id := rfl
    rw [hnode]
    cases g.getNode id with
    | none => rfl
    | some n =>
      simp only
      by_cases hO : n.type = .CLA_ORIG
      · simp only [hO, ne_eq, not_true_eq_false, if_false]
        have hcol : (g.withAlternative b).getClauseColor n.clauseRef A_mask =
            g.getClauseColor n.clauseRef A_mask := rfl
        rw [hcol]
        cases g.getClauseColor n.clauseRef A_mask with
        | error e => rfl
        | ok col => exact ih _
      · simp only [ne_eq, hO, not_false_eq_true, if_true]
        exact ih _

theorem selectPSFunction_withAlternative (g : ProofGraph PTRef TS) (b : Bool)
    (info : InterpolationInfo PTRef) (A_mask : ipartitions_t) :
    (g.withAlternative b).selectPSFunction info A_mask = g.selectPSFunction info A_mask := by
  unfold ProofGraph.selectPSFunction ProofGraph.computePSFunction
  have hneed : (g.withAlternative b).needProofStatistics = g.needProofStatistics := rfl
  have hleaves : (g.withAlternative b).leaves_ids = g.leaves_ids := rfl
  rw [hneed, hleaves, collectOccurrences_withAlternative]

theorem EquivSlots_refl (eval : (Var → Bool) → PTRef → Bool) (p : Nat → Option PTRef) :
    EquivSlots eval p p := by
  intro m
  refine ⟨Iff.rfl, ?_⟩
  intro t1 t2 h1 h2 σ
  rw [h1] at h2
  rw [Option.some.inj h2]

/-- The traversal under two settings of the toggle, from states that differ only by
logically equivalent partial interpolants. -/
theorem traverse_equiv [DecidableEq PTRef] (g : ProofGraph PTRef TS)
    (eval : (Var → Bool) → PTRef → Bool)
    (hsem : LogicSemantics g.logic_ g.varToPTRef eval) (b1 b2 : Bool)
    (A_mask : ipartitions_t) (ps : Option (StdMap icolor_t)) (ids : List Nat) :
    ∀ (st : RunState PTRef TS) (p2 : Nat → Option PTRef),
    EquivSlots eval st.interpolationInfo.partialInterpolant p2 →
    ((g.withAlternative b2).traverse A_mask ps ids
        { interpolationInfo := { st.interpolationInfo with partialInterpolant := p2 },
          tstate := st.tstate }).1 =
      ((g.withAlternative b1).traverse A_mask ps ids st).1 ∧
    ((g.withAlternative b2).traverse A_mask ps ids
        { interpolationInfo := { st.interpolationInfo with partialInterpolant := p2 },
          tstate := st.tstate }).2.tstate =
      ((g.withAlternative b1).traverse A_mask ps ids st).2.tstate ∧
    ∃ q2, ((g.withAlternative b2).traverse A_mask ps ids
        { interpolationInfo := { st.interpolationInfo with partialInterpolant := p2 },
          tstate := st.tstate }).2.interpolationInfo =
        { ((g.withAlternative b1).traverse A_mask ps ids st).2.interpolationInfo with
          partialInterpolant := q2 } ∧
      EquivSlots eval
        ((g.withAlternative b1).traverse A_mask ps ids st).2.interpolationInfo.partialInterpolant
        q2 := by
  induction ids with
  | nil =>
    intro st p2 hE
    exact ⟨rfl, rfl, p2, rfl, hE⟩
  | cons id rest ih =>
    intro st p2 hE
    obtain ⟨k1, k2, q2, k3, k4⟩ := processNode_equiv g eval hsem b1 b2 A_mask ps st p2 hE id
    simp only [ProofGraph.traverse]
    rcases hp1 : (g.withAlternative b1).processNode A_mask ps st id with ⟨r1, s1⟩
    rcases hp2 : (g.withAlternative b2).processNode A_mask ps
      { interpolationInfo := { st.interpolationInfo with partialInterpolant := p2 },
        tstate := st.tstate } id with ⟨r2, s2⟩
    rw [hp1, hp2] at k1 k2 k3
    rw [hp1] at k4
    simp only at k1 k2 k3 k4
    subst k1
    cases r2 with
    | error e => exact ⟨rfl, k2, q2, k3, k4⟩
    | ok u =>
      simp only
      have hs2 : s2 = { interpolationInfo :=
          { s1.interpolationInfo with partialInterpolant := q2 }, tstate := s1.tstate } := by
        obtain ⟨i2, t2⟩ := s2
        simp only at k2 k3
        rw [k2, k3]
      rw [hs2]
      exact ih s1 q2 k4

/-- A run of `produceSingleInterpolant` under two settings of the toggle: the same
outcome, and on success one appended term each, the two terms logically equivalent. -/
theorem produceSingleInterpolant_equiv [DecidableEq PTRef] (g : ProofGraph PTRef TS)
    (eval : (Var → Bool) → PTRef → Bool)
    (hsem : LogicSemantics g.logic_ g.varToPTRef eval) (b1 b2 : Bool)
    (A_mask : ipartitions_t) (interpolants : List PTRef) (st : RunState PTRef TS) :
    ((g.withAlternative b2).produceSingleInterpolant interpolants A_mask st).result =
      ((g.withAlternative b1).produceSingleInterpolant interpolants A_mask st).result ∧
    (((g.withAlternative b1).produceSingleInterpolant interpolants A_mask st).result = .ok () →
      ∃ I1 I2,
        ((g.withAlternative b1).produceSingleInterpolant interpolants A_mask st).interpolants =
          interpolants ++ [I1] ∧
        ((g.withAlternative b2).produceSingleInterpolant interpolants A_mask st).interpolants =
          interpolants ++ [I2] ∧
        ∀ σ, eval σ I1 = eval σ I2) := by
  unfold ProofGraph.produceSingleInterpolant
  have hchk : (g.withAlternative b2).checkInterAlgo = (g.withAlternative b1).checkInterAlgo := rfl
  rw [hchk]
  cases (g.withAlternative b1).checkInterAlgo with
  | error e => exact ⟨rfl, fun h => by simp at h⟩
  | ok u =>
    simp only
    have hreset : (InterpolationInfo.reset (g.withAlternative b2).proof_variables
          (fun v => (g.withAlternative b2).getVarClass v A_mask) :
          Except Exn Unit × InterpolationInfo PTRef) =
        InterpolationInfo.reset (g.withAlternative b1).proof_variables
          (fun v => (g.withAlternative b1).getVarClass v A_mask) := rfl
    rw [hreset]
    rcases InterpolationInfo.reset (g.withAlternative b1).proof_variables
        (fun v => (g.withAlternative b1).getVarClass v A_mask) with ⟨r0, info0⟩
    cases r0 with
    | error e => exact ⟨rfl, fun h => by simp at h⟩
    | ok u0 =>
      simp only
      have hsel : (g.withAlternative b2).selectPSFunction info0 A_mask =
          (g.withAlternative b1).selectPSFunction info0 A_mask := by
        rw [selectPSFunction_withAlternative, selectPSFunction_withAlternative]
      rw [hsel]
      cases (g.withAlternative b1).selectPSFunction info0 A_mask with
      | error e => exact ⟨rfl, fun h => by simp at h⟩
      | ok ps =>
        simp only
        obtain ⟨k1, _, q2, k3, k4⟩ := traverse_equiv g eval hsem b1 b2 A_mask ps g.DFSv
          { st with interpolationInfo := info0 } info0.partialInterpolant
          (EquivSlots_refl eval _)
        have hd : (g.withAlternative b2).DFSv = g.DFSv := rfl
        have hd1 : (g.withAlternative b1).DFSv = g.DFSv := rfl
        rw [hd, hd1]
        rcases ht1 : (g.withAlternative b1).traverse A_mask ps g.DFSv
            { st with interpolationInfo := info0 } with ⟨r1, s1⟩
        have ht2' : (g.withAlternative b2).traverse A_mask ps g.DFSv
            { st with interpolationInfo := info0 } =
            (g.withAlternative b2).traverse A_mask ps g.DFSv
              { interpolationInfo := { info0 with partialInterpolant := info0.partialInterpolant },
                tstate := st.tstate } := rfl
        rw [ht2']
        rcases ht2 : (g.withAlternative b2).traverse A_mask ps g.DFSv
            { interpolationInfo := { info0 with partialInterpolant := info0.partialInterpolant },
              tstate := st.tstate } with ⟨r2, s2⟩
        simp only [ht1, ht2] at k1 k3 k4
        subst k1
        cases r2 with
        | error e => exact ⟨rfl, fun h => by simp at h⟩
        | ok u1 =>
          simp only
          have hroot : (g.withAlternative b2).getNode (g.withAlternative b2).root =
              (g.withAlternative b1).getNode (g.withAlternative b1).root := rfl
          rw [hroot]
          cases (g.withAlternative b1).getNode (g.withAlternative b1).root with
          | none => exact ⟨rfl, fun h => by simp at h⟩
          | some rootNode =>
            simp only [InterpolationInfo.getPartialInterpolant]
            obtain ⟨d, q⟩ := k4 rootNode.id
            have hq2 : s2.interpolationInfo.partialInterpolant rootNode.id = q2 rootNode.id := by
              rw [k3]
            cases h1 : s1.interpolationInfo.partialInterpolant rootNode.id with
            | none =>
              have h2 : s2.interpolationInfo.partialInterpolant rootNode.id = none := by
                rw [hq2]; exact d.mp h1
              simp only [h2]
              exact ⟨trivial, fun h => by simp at h⟩
            | some I1 =>
              cases h2 : s2.interpolationInfo.partialInterpolant rootNode.id with
              | none =>
                rw [hq2] at h2
                rw [d.mpr h2] at h1
                cases h1
              | some I2 =>
                simp only
                refine ⟨trivial, fun _ => ⟨I1, I2, rfl, rfl, ?_⟩⟩
                rw [hq2] at h2
                exact q I1 I2 h1 h2

/-- C18. In a term store with the truth-value semantics `eval`: for all `I1`, `I2` and
`p` the standard form `(I1 ∨ p) ∧ (I2 ∨ ¬p)` and the alternative form
`(I1 ∧ ¬p) ∨ (I2 ∧ p)` have the same truth value under every valuation; and for every
proof, A-mask, output vector and initial state, the run of `produceSingleInterpolant` with
the alternative-interpolant toggle enabled and the run with it disabled end the same way
(both succeed or both raise the same error), and when they succeed each appends one term,
the two root interpolants having the same truth value under every valuation. -/
theorem alternative_form_equivalence [DecidableEq PTRef] (g : ProofGraph PTRef TS)
    (eval : (Var → Bool) → PTRef → Bool)
    (hsem : LogicSemantics g.logic_ g.varToPTRef eval)
    (A_mask : ipartitions_t) (interpolants : List PTRef) (st : RunState PTRef TS) :
    (∀ (I1 I2 p : PTRef) (σ : Var → Bool),
      eval σ (g.logic_.mkAnd [g.logic_.mkOr [I1, p], g.logic_.mkOr [I2, g.logic_.mkNot p]]) =
        eval σ (g.logic_.mkOr [g.logic_.mkAnd [I1, g.logic_.mkNot p],
          g.logic_.mkAnd [I2, p]])) ∧
    ((g.withAlternative true).produceSingleInterpolant interpolants A_mask st).result =
      ((g.withAlternative false).produceSingleInterpolant interpolants A_mask st).result ∧
    (((g.withAlternative true).produceSingleInterpolant interpolants A_mask st).result =
        .ok () →
      ∃ Ion Ioff,
        ((g.withAlternative true).produceSingleInterpolant interpolants A_mask
          st).interpolants = interpolants ++ [Ion] ∧
        ((g.withAlternative false).produceSingleInterpolant interpolants A_mask
          st).interpolants = interpolants ++ [Ioff] ∧
        ∀ σ, eval σ Ion = eval σ Ioff) := by
  refine ⟨?_, ?_, ?_⟩
  · intro I1 I2 p σ
    exact (alternative_form_eval g.logic_ g.varToPTRef eval hsem I1 I2 I1 I2 p σ rfl rfl).1
  · exact (produceSingleInterpolant_equiv g eval hsem true false A_mask interpolants st).1.symm
  · exact (produceSingleInterpolant_equiv g eval hsem true false A_mask interpolants st).2

/-- Witness for C18: scenario S2 under Pudlak.  With the toggle enabled the first
resolvent (AB pivot `p`, both antecedent interpolants `⊥`) takes the alternative form and
the root interpolant is `q`; with the toggle disabled it is `(p ∧ ¬p) ∨ q`; the two are
logically equivalent. -/
theorem alternative_form_equivalence_witness :
    ((s2Graph true).produceSingleInterpolant [] 1
      ⟨InterpolationInfo.cleared, ()⟩).interpolants = [Term.atom 1] ∧
    ((s2Graph false).produceSingleInterpolant [] 1
      ⟨InterpolationInfo.cleared, ()⟩).interpolants =
      [Term.disj (Term.conj (Term.atom 0) (Term.neg (Term.atom 0))) (Term.atom 1)] ∧
    ∀ σ, Term.eval σ (Term.atom 1) =
      Term.eval σ (Term.disj (Term.conj (Term.atom 0) (Term.neg (Term.atom 0)))
        (Term.atom 1)) := by
  have hon : ((s2Graph true).produceSingleInterpolant [] 1
      ⟨InterpolationInfo.cleared, ()⟩).interpolants = [Term.atom 1] := by
    with_unfolding_all rfl
  have hoff : ((s2Graph false).produceSingleInterpolant [] 1
      ⟨InterpolationInfo.cleared, ()⟩).interpolants =
      [Term.disj (Term.conj (Term.atom 0) (Term.neg (Term.atom 0))) (Term.atom 1)] := by
    with_unfolding_all rfl
  refine ⟨hon, hoff, ?_⟩
  obtain ⟨Ion, Ioff, h1, h2, h3⟩ :=
    (alternative_form_equivalence (s2Graph false) Term.eval termLogic_semantics 1 []
      ⟨InterpolationInfo.cleared, ()⟩).2.2 (by with_unfolding_all rfl)
  have e1 : ((s2Graph false).withAlternative true) = s2Graph true := rfl
  have e2 : ((s2Graph false).withAlternative false) = s2Graph false := rfl
  rw [e1, hon] at h1
  rw [e2, hoff] at h2
  simp only [List.nil_append, List.cons.injEq, and_true] at h1 h2
  rw [← h1, ← h2] at h3
  exact h3

/-! ## Pivot elimination -/

/-- A successful step keeps the representation invariant of the coloring: only AB-class
variables carry entries. -/
theorem processNode_bitsOK [DecidableEq PTRef] (g : ProofGraph PTRef TS)
    (A_mask : ipartitions_t) (ps : Option (StdMap icolor_t)) (st st1 : RunState PTRef TS)
    (id : Nat) (u : Unit) (h : g.processNode A_mask ps st id = (.ok u, st1))
    (hb : BitsOK st.interpolationInfo) : BitsOK st1.interpolationInfo := by
  obtain ⟨n, _, hcase⟩ := processNode_ok g A_mask ps st st1 id u h
  rcases hcase with ⟨_, info1, t, hl, hst, _⟩ | ⟨_, info1, t, hc, hst⟩
  · have := labelLeaf_bitsOK g _ info1 n ps () hl hb
    rw [hst]
    exact this
  · obtain ⟨a1, a2, I1, I2, c, hants, _, _, hp, _⟩ :=
      compInterpLabelingInner_ok g _ info1 n t hc
    have := getPivotColor_bitsOK g _ info1 n a1 a2 hants c hp hb
    rw [hst]
    exact this

/-- After `getPivotColor` has returned a color for the resolvent `n`, the coloring of `n`
has no entry for the pivot, provided only AB-class variables carried entries before. -/
theorem getPivotColor_no_entry (g : ProofGraph PTRef TS) (info info1 : InterpolationInfo PTRef)
    (n : ProofNode) (a1 a2 : Nat) (hants : n.ants = some (a1, a2)) (c : icolor_t)
    (h : g.getPivotColor info n = (.ok c, info1)) (hb : BitsOK info) :
    info1.colA n.id n.pivot = false ∧ info1.colB n.id n.pivot = false := by
  have hc : (g.getPivotColor info n).1 = .ok c := by rw [h]
  obtain ⟨b1, b2⟩ := getPivotColor_bits g info n a1 a2 hants c hc n.pivot
  rw [h] at b1 b2
  simp only at b1 b2
  by_cases hAB : info.varClass n.pivot = .I_AB
  · simp only [hAB, and_self, if_true] at b1 b2
    exact ⟨b1, b2⟩
  · simp only [hAB, false_and, if_false] at b1 b2
    have hno : ∀ m, info.colA m n.pivot = false ∧ info.colB m n.pivot = false := by
      intro m
      constructor
      · cases hx : info.colA m n.pivot with
        | false => rfl
        | true => exact absurd (hb m n.pivot (Or.inl hx)) hAB
      · cases hx : info.colB m n.pivot with
        | false => rfl
        | true => exact absurd (hb m n.pivot (Or.inr hx)) hAB
    rw [b1, b2, (hno a1).1, (hno a2).1, (hno a1).2, (hno a2).2]
    exact ⟨rfl, rfl⟩

/-- C19. For a resolvent `n` with antecedents `a1` and `a2`, whatever the class of its
pivot: when only AB-class variables carry coloring entries (the representation invariant
of the coloring), after `getPivotColor` has returned a color, and after
`compInterpLabelingInner` has returned a term, the coloring stored for `n` has no entry
for the pivot of `n`; a resolvent `m` that has `n` as an antecedent then inherits, for that
variable, only the entry of its other antecedent; and after a successful run of
`produceSingleInterpolant` over a duplicate-free order whose nodes carry their own ids,
the coloring stored for `n` has no entry for the pivot of `n`. -/
theorem pivot_elimination [DecidableEq PTRef] (g : ProofGraph PTRef TS) (n : ProofNode)
    (a1 a2 : Nat) (hants : n.ants = some (a1, a2)) :
    (∀ (info : InterpolationInfo PTRef), BitsOK info →
      (info.getVarClass n.pivot = .I_A ∨ info.getVarClass n.pivot = .I_B ∨
        info.getVarClass n.pivot = .I_AB) →
      (∃ c, (g.getPivotColor info n).1 = .ok c) ∧
      (g.getPivotColor info n).2.colA n.id n.pivot = false ∧
      (g.getPivotColor info n).2.colB n.id n.pivot = false ∧
      getSharedVarColorInNode (g.getPivotColor info n).2 n.pivot n = .I_UNDEF) ∧
    (∀ (info info1 : InterpolationInfo PTRef) (t : PTRef), BitsOK info →
      g.compInterpLabelingInner info n = (.ok t, info1) →
      info1.colA n.id n.pivot = false ∧ info1.colB n.id n.pivot = false ∧
      getSharedVarColorInNode (info1.setPartialInterpolant n t) n.pivot n = .I_UNDEF) ∧
    (∀ (info1 : InterpolationInfo PTRef) (m : ProofNode) (b : Nat),
      info1.colA n.id n.pivot = false → info1.colB n.id n.pivot = false →
      (m.ants = some (n.id, b) ∨ m.ants = some (b, n.id)) →
      (info1.updateColoringfromAnts m).colA m.id n.pivot = info1.colA b n.pivot ∧
      (info1.updateColoringfromAnts m).colB m.id n.pivot = info1.colB b n.pivot) ∧
    (∀ (id : Nat) (A_mask : ipartitions_t) (interpolants : List PTRef)
        (st : RunState PTRef TS),
      g.getNode id = some n →
      (∀ x ∈ g.DFSv, ∀ m, g.getNode x = some m → m.id = x) → g.DFSv.Nodup → id ∈ g.DFSv →
      (g.produceSingleInterpolant interpolants A_mask st).result = .ok () →
      (g.produceSingleInterpolant interpolants A_mask st).state.interpolationInfo.colA
        n.id n.pivot = false ∧
      (g.produceSingleInterpolant interpolants A_mask st).state.interpolationInfo.colB
        n.id n.pivot = false) := by
  refine ⟨?_, ?_, ?_, ?_⟩
  · intro info hb hcls
    have hok : ∃ c, (g.getPivotColor info n).1 = .ok c := by
      unfold ProofGraph.getPivotColor
      rcases hcls with h | h | h <;> simp only [h] <;>
        cases g.isAssumedVar n.pivot <;> simp
    obtain ⟨c, hc⟩ := hok
    have hrun : g.getPivotColor info n = (.ok c, (g.getPivotColor info n).2) :=
      Prod.ext hc rfl
    obtain ⟨e1, e2⟩ := getPivotColor_no_entry g info _ n a1 a2 hants c hrun hb
    refine ⟨⟨c, hc⟩, e1, e2, ?_⟩
    simp only [getSharedVarColorInNode, e1, e2]
  · intro info info1 t hb h
    obtain ⟨b1, b2, I1, I2, c, hants2, _, _, hp, _⟩ :=
      compInterpLabelingInner_ok g info info1 n t h
    obtain ⟨e1, e2⟩ := getPivotColor_no_entry g info info1 n b1 b2 hants2 c hp hb
    refine ⟨e1, e2, ?_⟩
    simp only [getSharedVarColorInNode, InterpolationInfo.setPartialInterpolant, e1, e2]
  · intro info1 m b hA hB hm
    rcases hm with hm | hm <;>
      simp [InterpolationInfo.updateColoringfromAnts, hm, hA, hB]
  · intro id A_mask interpolants st hn hids hnodup hid hok
    obtain ⟨info0, ps, st1, rootNode, I, _, hreset, htr, _, _, hrun⟩ :=
      produceSingleInterpolant_ok g interpolants A_mask st hok
    rw [hrun]
    simp only
    obtain ⟨pre, post, sa, sb, hsplit, hpre, hstep, _, _, e3, e4, _, _⟩ :=
      traverse_step_final g A_mask ps g.DFSv _ st1 () htr hids hnodup id hid
    have hnid : n.id = id := hids id hid n hn
    obtain ⟨r1, r2, _, _, _⟩ := reset_spec _ _ info0 () hreset
    have hb0 : BitsOK info0 := by
      intro m v hv
      simp [r1, r2] at hv
    have hba := traverse_ok_induct g A_mask ps (fun _ s => BitsOK s.interpolationInfo)
      (fun seen s x s1 u hQ _ hs => processNode_bitsOK g A_mask ps s s1 x u hs hQ)
      pre [] _ sa ()
      (fun x hx => by rw [hsplit]; exact List.mem_append_left _ hx) hb0 hpre
    obtain ⟨n2, hn2, hcase⟩ := processNode_ok g A_mask ps sa sb id () hstep
    rw [hn] at hn2
    obtain rfl : n = n2 := Option.some.inj hn2
    rcases hcase with ⟨hleaf, _⟩ | ⟨_, info1, t, hc, hst⟩
    · simp [ProofNode.isLeaf, hants] at hleaf
    · obtain ⟨b1, b2, I1, I2, c, hants2, _, _, hp, _⟩ :=
        compInterpLabelingInner_ok g _ info1 n t hc
      obtain ⟨k1, k2⟩ := getPivotColor_no_entry g _ info1 n b1 b2 hants2 c hp hba
      rw [hnid] at k1 k2 ⊢
      rw [e3, e4, hst]
      exact ⟨k1, k2⟩

/-- Witness for C19: node 3 of scenario S1 (pivot `p`, class A) and node 4 (pivot `q`,
class AB): after the run neither coloring has an entry for its pivot. -/
theorem pivot_elimination_witness :
    (((s1Graph .pudlak false).produceSingleInterpolant [] 1
        ⟨InterpolationInfo.cleared, ()⟩).state.interpolationInfo.colA 4 1 = false ∧
      ((s1Graph .pudlak false).produceSingleInterpolant [] 1
        ⟨InterpolationInfo.cleared, ()⟩).state.interpolationInfo.colB 4 1 = false) ∧
    (((s1Graph .pudlak false).produceSingleInterpolant [] 1
        ⟨InterpolationInfo.cleared, ()⟩).state.interpolationInfo.colA 3 0 = false ∧
      ((s1Graph .pudlak false).produceSingleInterpolant [] 1
        ⟨InterpolationInfo.cleared, ()⟩).state.interpolationInfo.colB 3 0 = false) := by
  have hids : ∀ x ∈ (s1Graph .pudlak false).DFSv, ∀ m,
      (s1Graph .pudlak false).getNode x = some m → m.id = x := by
    intro x hx m hm
    simp only [s1Graph, List.mem_cons, List.mem_singleton, List.not_mem_nil, or_false] at hx
    rcases hx with rfl | rfl | rfl | rfl | rfl <;>
      (simp [ProofGraph.getNode, s1Graph] at hm; subst hm; rfl)
  exact ⟨(pivot_elimination (s1Graph .pudlak false) s1Node4 3 2 rfl).2.2.2 4 1 []
      ⟨InterpolationInfo.cleared, ()⟩ rfl hids (by decide) (by decide)
      (by with_unfolding_all rfl),
    (pivot_elimination (s1Graph .pudlak false) s1Node3 0 1 rfl).2.2.2 3 1 []
      ⟨InterpolationInfo.cleared, ()⟩ rfl hids (by decide) (by decide)
      (by with_unfolding_all rfl)⟩

/-! ## Resolving on an assumption variable -/

theorem checkOrder_append (g : ProofGraph PTRef TS) (rest : List Nat) :
    ∀ (pre seen : List Nat), g.checkOrder seen (pre ++ rest) = true →
      g.checkOrder seen pre = true ∧ g.checkOrder (pre.reverse ++ seen) rest = true := by
  intro pre
  induction pre with
  | nil => intro seen h; exact ⟨rfl, h⟩
  | cons a pre ih =>
    intro seen h
    simp only [List.cons_append, ProofGraph.checkOrder, Bool.and_eq_true] at h
    obtain ⟨i1, i2⟩ := ih (a :: seen) h.2
    refine ⟨?_, ?_⟩
    · simp only [ProofGraph.checkOrder, Bool.and_eq_true]
      exact ⟨h.1, i1⟩
    · simpa [List.reverse_cons, List.append_assoc] using i2

theorem checkOrder_nodup (g : ProofGraph PTRef TS) :
    ∀ (ids seen : List Nat), g.checkOrder seen ids = true →
      ids.Nodup ∧ (∀ x ∈ ids, x ∉ seen) ∧
      (∀ x ∈ ids, ∀ m, g.getNode x = some m → m.id = x) := by
  intro ids
  induction ids with
  | nil => intro seen _; exact ⟨List.nodup_nil, by simp, by simp⟩
  | cons a rest ih =>
    intro seen h
    simp only [ProofGraph.checkOrder, Bool.and_eq_true] at h
    obtain ⟨n, hn, hnid, hns, _⟩ := checkNode_spec g seen a h.1
    obtain ⟨i1, i2, i3⟩ := ih (a :: seen) h.2
    refine ⟨List.nodup_cons.mpr ⟨?_, i1⟩, ?_, ?_⟩
    · intro ha
      exact i2 a ha (List.mem_cons_self _ _)
    · intro x hx
      rcases List.mem_cons.mp hx with rfl | hx
      · exact hns
      · intro hxs
        exact i2 x hx (List.mem_cons_of_mem _ hxs)
    · intro x hx m hm
      rcases List.mem_cons.mp hx with rfl | hx
      · rw [hn] at hm
        rw [← Option.some.inj hm]
        exact hnid
      · exact i3 x hx m hm

/-- In a checked order, the antecedents of a resolvent come before it. -/
theorem checkOrder_ants (g : ProofGraph PTRef TS) (pre post : List Nat) (id : Nat)
    (h : g.checkOrder [] (pre ++ id :: post) = true) (n : ProofNode)
    (hn : g.getNode id = some n) (a1 a2 : Nat) (hants : n.ants = some (a1, a2)) :
    a1 ∈ pre ∧ a2 ∈ pre := by
  obtain ⟨_, h2⟩ := checkOrder_append g (id :: post) pre [] h
  simp only [ProofGraph.checkOrder, Bool.and_eq_true, List.append_nil] at h2
  obtain ⟨m, hm, _, _, _, hm2⟩ := checkNode_spec g _ id h2.1
  rw [hn] at hm
  obtain rfl : n = m := Option.some.inj hm
  obtain ⟨k1, k2, _⟩ := hm2 a1 a2 hants
  exact ⟨List.mem_reverse.mp k1, List.mem_reverse.mp k2⟩

/-- C20 (amended). For a resolvent `n` with antecedents `a1`, `a2` whose pivot is an
assumption variable `a`: when the antecedents have partial interpolants `I1`, `I2` and the
pivot has a class, `compInterpLabelingInner` returns `I2` if the positive literal `a` is
an assumed literal and `I1` otherwise; and when `n` is the root of a checked order, a
successful run of `produceSingleInterpolant` appends the partial interpolant stored for
`n`, which is the one stored for antecedent 2 if the positive literal `a` is an assumed
literal and the one stored for antecedent 1 otherwise. -/
theorem assumption_pivot_interpolant [DecidableEq PTRef] (g : ProofGraph PTRef TS)
    (n : ProofNode) (a1 a2 : Nat) (hants : n.ants = some (a1, a2))
    (hass : g.isAssumedVar n.pivot = true) :
    (∀ (info : InterpolationInfo PTRef) (I1 I2 : PTRef),
      info.getPartialInterpolant a1 = some I1 → info.getPartialInterpolant a2 = some I2 →
      (info.getVarClass n.pivot = .I_A ∨ info.getVarClass n.pivot = .I_B ∨
        info.getVarClass n.pivot = .I_AB) →
      (g.compInterpLabelingInner info n).1 =
        .ok (if g.isAssumedLiteral (mkLit n.pivot) then I2 else I1)) ∧
    (∀ (A_mask : ipartitions_t) (interpolants : List PTRef) (st : RunState PTRef TS),
      g.checkOrder [] g.DFSv = true → g.root ∈ g.DFSv → g.getNode g.root = some n →
      (g.produceSingleInterpolant interpolants A_mask st).result = .ok () →
      ∃ I, (g.produceSingleInterpolant interpolants A_mask st).interpolants =
          interpolants ++ [I] ∧
        (g.produceSingleInterpolant interpolants A_mask
          st).state.interpolationInfo.getPartialInterpolant n.id = some I ∧
        (g.isAssumedLiteral (mkLit n.pivot) = true →
          (g.produceSingleInterpolant interpolants A_mask
            st).state.interpolationInfo.getPartialInterpolant a2 = some I) ∧
        (g.isAssumedLiteral (mkLit n.pivot) = false →
          (g.produceSingleInterpolant interpolants A_mask
            st).state.interpolationInfo.getPartialInterpolant a1 = some I)) := by
  have hstepval : ∀ (info : InterpolationInfo PTRef) (I1 I2 : PTRef) (c : icolor_t),
      info.getPartialInterpolant a1 = some I1 → info.getPartialInterpolant a2 = some I2 →
      (g.getPivotColor info n).1 = .ok c →
      (g.compInterpLabelingInner info n).1 =
        .ok (if g.isAssumedLiteral (mkLit n.pivot) then I2 else I1) := by
    intro info I1 I2 c h1 h2 hc
    have hS := getPivotColor_assumed g info n hass c hc
    rw [compInterpLabelingInner_eq g info n a1 a2 I1 I2 hants h1 h2 c hc]
    simp only [hS, if_true]
    split_ifs <;> rfl
  constructor
  · intro info I1 I2 h1 h2 hcls
    have hok : ∃ c, (g.getPivotColor info n).1 = .ok c := by
      unfold ProofGraph.getPivotColor
      rcases hcls with h | h | h <;> simp only [h] <;>
        cases g.isAssumedVar n.pivot <;> simp
    obtain ⟨c, hc⟩ := hok
    exact hstepval info I1 I2 c h1 h2 hc
  · intro A_mask interpolants st hvalid hroot hn hok
    obtain ⟨info0, ps, st1, rootNode, I, _, _, htr, hrn, hI, hrun⟩ :=
      produceSingleInterpolant_ok g interpolants A_mask st hok
    rw [hn] at hrn
    obtain rfl : n = rootNode := Option.some.inj hrn
    rw [hrun]
    simp only
    obtain ⟨hnodup, _, hids⟩ := checkOrder_nodup g g.DFSv [] hvalid
    obtain ⟨pre, post, sa, sb, hsplit, _, hstep, _, _, _, _, e5, hrest⟩ :=
      traverse_step_final g A_mask ps g.DFSv _ st1 () htr hids hnodup g.root hroot
    have hnid : n.id = g.root := hids g.root hroot n hn
    have hv2 := hvalid
    rw [hsplit] at hv2
    obtain ⟨m1, m2⟩ := checkOrder_ants g pre post g.root hv2 n hn a1 a2 hants
    have hnd := hnodup
    rw [hsplit] at hnd
    have hdisj := (List.nodup_append.mp hnd).2.2
    have hpre : ∀ a, a ∈ pre → a ≠ g.root ∧ a ∉ post := by
      intro a ha
      constructor
      · intro e
        exact hdisj ha (by rw [e]; exact List.mem_cons_self _ _)
      · intro hp
        exact hdisj ha (List.mem_cons_of_mem _ hp)
    obtain ⟨n2, hn2, hcase⟩ := processNode_ok g A_mask ps sa sb g.root () hstep
    rw [hn] at hn2
    obtain rfl : n = n2 := Option.some.inj hn2
    rcases hcase with ⟨hleaf, _⟩ | ⟨_, info1, t, hc, hst⟩
    · simp [ProofNode.isLeaf, hants] at hleaf
    · obtain ⟨b1, b2, I1, I2, c, hants2, h1, h2, hp, hval⟩ :=
        compInterpLabelingInner_ok g _ info1 n t hc
      rw [hants] at hants2
      obtain ⟨rfl, rfl⟩ : a1 = b1 ∧ a2 = b2 := by
        have := Option.some.inj hants2
        exact ⟨congrArg Prod.fst this, congrArg Prod.snd this⟩
      have hcv : (g.getPivotColor sa.interpolationInfo n).1 = .ok c := by rw [hp]
      have ht := hstepval sa.interpolationInfo I1 I2 c h1 h2 hcv
      rw [hval] at ht
      have ht2 : t = if g.isAssumedLiteral (mkLit n.pivot) then I2 else I1 := Except.ok.inj ht
      have hfin : st1.interpolationInfo.partialInterpolant n.id = some t := by
        rw [hnid, e5, hst]
        simp only [InterpolationInfo.setPartialInterpolant, hnid, if_true]
      have hIt : I = t := by
        rw [hI] at hfin
        exact Option.some.inj hfin
      refine ⟨I, rfl, hI, ?_, ?_⟩
      · intro hlit
        show st1.interpolationInfo.partialInterpolant a2 = some I
        rw [(hrest a2 (hpre a2 m2).1 (hpre a2 m2).2).1, h2, hIt, ht2]
        simp only [hlit, if_true]
      · intro hlit
        show st1.interpolationInfo.partialInterpolant a1 = some I
        rw [(hrest a1 (hpre a1 m1).1 (hpre a1 m1).2).1, h1, hIt, ht2]
        simp [hlit]

/-- Witness for C20 (amended): scenario S4, where the assumed literal is `a` itself; the
root interpolant is the partial interpolant `⊥` of antecedent 2. -/
theorem assumption_pivot_interpolant_witness :
    ∃ I, (s4Graph.produceSingleInterpolant [] 1
        ⟨InterpolationInfo.cleared, ()⟩).interpolants = [] ++ [I] ∧
      (s4Graph.produceSingleInterpolant [] 1
        ⟨InterpolationInfo.cleared, ()⟩).state.interpolationInfo.getPartialInterpolant 1 =
        some I := by
  obtain ⟨I, h1, _, h3, _⟩ := (assumption_pivot_interpolant s4Graph s4Node2 0 1 rfl rfl).2 1 []
    ⟨InterpolationInfo.cleared, ()⟩ (by decide) (by decide) rfl (by with_unfolding_all rfl)
  exact ⟨I, h1, h3 rfl⟩

/-- C20 as stated fails: `s4NegGraph` is a checked refutation whose root (node 2)
resolves on the assumption variable `a`, which occurs positively in antecedent 1 (node 0)
and negatively in antecedent 2 (node 1); the assumed literal is `¬a`.  The run succeeds
and the root interpolant is `⊥`, the partial interpolant of antecedent 1, while the
partial interpolant of antecedent 2 is `⊤`. -/
theorem assumption_pivot_interpolant_counterexample :
    s4NegGraph.isRefutation = true ∧
    s4NegGraph.getNode s4NegGraph.root = some ⟨2, .CLA_RESOLVENT, [], 0, some (0, 1), 2⟩ ∧
    s4NegGraph.isAssumedVar 2 = true ∧
    s4NegGraph.getNode 0 = some ⟨0, .CLA_ORIG, [⟨2, false⟩], 0, none, 0⟩ ∧
    s4NegGraph.getNode 1 = some ⟨1, .CLA_ASSUMPTION, [⟨2, true⟩], 1, none, 0⟩ ∧
    (s4NegGraph.produceSingleInterpolant [] 1 ⟨InterpolationInfo.cleared, ()⟩).result =
      .ok () ∧
    (s4NegGraph.produceSingleInterpolant [] 1 ⟨InterpolationInfo.cleared, ()⟩).interpolants =
      [Term.ff] ∧
    (s4NegGraph.produceSingleInterpolant [] 1
      ⟨InterpolationInfo.cleared, ()⟩).state.interpolationInfo.getPartialInterpolant 2 =
      some Term.ff ∧
    (s4NegGraph.produceSingleInterpolant [] 1
      ⟨InterpolationInfo.cleared, ()⟩).state.interpolationInfo.getPartialInterpolant 0 =
      some Term.ff ∧
    (s4NegGraph.produceSingleInterpolant [] 1
      ⟨InterpolationInfo.cleared, ()⟩).state.interpolationInfo.getPartialInterpolant 1 =
      some Term.tt ∧
    (s4NegGraph.produceSingleInterpolant [] 1
      ⟨InterpolationInfo.cleared, ()⟩).state.interpolationInfo.getPartialInterpolant 2 ≠
    (s4NegGraph.produceSingleInterpolant [] 1
      ⟨InterpolationInfo.cleared, ()⟩).state.interpolationInfo.getPartialInterpolant 1 := by
  have h2 : (s4NegGraph.produceSingleInterpolant [] 1
      ⟨InterpolationInfo.cleared, ()⟩).state.interpolationInfo.getPartialInterpolant 2 =
      some Term.ff := by with_unfolding_all rfl
  have h1 : (s4NegGraph.produceSingleInterpolant [] 1
      ⟨InterpolationInfo.cleared, ()⟩).state.interpolationInfo.getPartialInterpolant 1 =
      some Term.tt := by with_unfolding_all rfl
  refine ⟨by decide, rfl, rfl, rfl, rfl, ?_, ?_, h2, ?_, h1, ?_⟩
  · with_unfolding_all rfl
  · with_unfolding_all rfl
  · with_unfolding_all rfl
  · rw [h2, h1]
    decide

/-! ## Scenario S1 under McMillan -/

/-- C21.  Scenario S1 (atoms `p` = 0, `q` = 1; A = {p ∨ q, ¬p}, B = {¬q}; McMillan; resolve
on `p`, then on `q`): `produceSingleInterpolant` returns and appends the term `q` to the
output vector.  Along the run `p` is A-class and `q` is AB-class, the leaves get the
partial interpolants `q`, `⊥` and `⊤`, the step on the A-class pivot `p` gets
`mkOr [q, ⊥]`, the step on the pivot `q` (colored B in both antecedents) gets
`mkAnd [q, ⊤]`, and both simplify to `q` in the term store. -/
theorem scenario_S1_mcmillan :
    ((s1Graph .mcmillan false).produceSingleInterpolant [] 1
        ⟨InterpolationInfo.cleared, ()⟩).result = .ok () ∧
    ((s1Graph .mcmillan false).produceSingleInterpolant [] 1
        ⟨InterpolationInfo.cleared, ()⟩).interpolants = [Term.atom 1] ∧
    (∀ old : List Term,
      ((s1Graph .mcmillan false).produceSingleInterpolant old 1
        ⟨InterpolationInfo.cleared, ()⟩).interpolants = old ++ [Term.atom 1]) ∧
    (((s1Graph .mcmillan false).produceSingleInterpolant [] 1
        ⟨InterpolationInfo.cleared, ()⟩).state.interpolationInfo.partialInterpolant 0
      = some (Term.atom 1) ∧
     ((s1Graph .mcmillan false).produceSingleInterpolant [] 1
        ⟨InterpolationInfo.cleared, ()⟩).state.interpolationInfo.partialInterpolant 1
      = some Term.ff ∧
     ((s1Graph .mcmillan false).produceSingleInterpolant [] 1
        ⟨InterpolationInfo.cleared, ()⟩).state.interpolationInfo.partialInterpolant 2
      = some Term.tt ∧
     ((s1Graph .mcmillan false).produceSingleInterpolant [] 1
        ⟨InterpolationInfo.cleared, ()⟩).state.interpolationInfo.partialInterpolant 3
      = some (termLogic.mkOr [Term.atom 1, Term.ff]) ∧
     ((s1Graph .mcmillan false).produceSingleInterpolant [] 1
        ⟨InterpolationInfo.cleared, ()⟩).state.interpolationInfo.partialInterpolant 4
      = some (termLogic.mkAnd [Term.atom 1, Term.tt])) ∧
    (termLogic.mkOr [Term.atom 1, Term.ff] = Term.atom 1 ∧
     termLogic.mkAnd [Term.atom 1, Term.tt] = Term.atom 1) ∧
    ((s1Graph .mcmillan false).getVarClass 0 1 = .ok .I_A ∧
     (s1Graph .mcmillan false).getVarClass 1 1 = .ok .I_AB ∧
     getVarColor ((s1Graph .mcmillan false).produceSingleInterpolant [] 1
        ⟨InterpolationInfo.cleared, ()⟩).state.interpolationInfo
        ⟨0, .CLA_ORIG, [⟨0, false⟩, ⟨1, false⟩], 0, none, 0⟩ 1 = .I_B ∧
     getVarColor ((s1Graph .mcmillan false).produceSingleInterpolant [] 1
        ⟨InterpolationInfo.cleared, ()⟩).state.interpolationInfo
        ⟨2, .CLA_ORIG, [⟨1, true⟩], 2, none, 0⟩ 1 = .I_B ∧
     getVarColor ((s1Graph .mcmillan false).produceSingleInterpolant [] 1
        ⟨InterpolationInfo.cleared, ()⟩).state.interpolationInfo s1Node3 1 = .I_B) := by
  refine ⟨by with_unfolding_all rfl, by with_unfolding_all rfl, ?_,
    ⟨by with_unfolding_all rfl, by with_unfolding_all rfl, by with_unfolding_all rfl,
     by with_unfolding_all rfl, by with_unfolding_all rfl⟩,
    ⟨by with_unfolding_all rfl, by with_unfolding_all rfl⟩,
    ⟨by with_unfolding_all rfl, by with_unfolding_all rfl, by with_unfolding_all rfl,
     by with_unfolding_all rfl, by with_unfolding_all rfl⟩⟩
  intro old
  with_unfolding_all rfl

/-! ## Where exceptions come from -/

theorem getClass_error (M α : ipartitions_t) (e : Exn) (h : getClass M α = .error e) :
    e = .no_class_determined := by
  unfold getClass at h
  simp only at h
  split_ifs at h
  injection h with h1
  exact h1.symm

theorem reset_fold_error_origin (f : Var → Except Exn icolor_t) (vars : List Var) :
    ∀ (i info0 : InterpolationInfo PTRef) (e : Exn),
    vars.foldl
      (fun (acc : Except Exn Unit × InterpolationInfo PTRef) v =>
        match acc with
        | (.error e, i) => (.error e, i)
        | (.ok _, i) =>
          match f v with
          | .error e => (.error e, i)
          | .ok c => (.ok (), { i with varClass := fun w => if w = v then c else i.varClass w }))
      (.ok (), i) = (.error e, info0) →
    ∃ v, f v = .error e := by
  induction vars with
  | nil =>
    intro i info0 e h
    simp at h
  | cons a vars ih =>
    intro i info0 e h
    simp only [List.foldl_cons] at h
    cases hf : f a with
    | error e1 =>
      simp only [hf] at h
      have he := reset_fold_error f vars e1 i
      have hbad := he.symm.trans h
      simp only [Prod.mk.injEq, Except.error.injEq] at hbad
      exact ⟨a, by rw [hf, hbad.1]⟩
    | ok c =>
      simp only [hf] at h
      exact ih _ info0 e h

theorem reset_error (g : ProofGraph PTRef TS) (A_mask : ipartitions_t)
    (info0 : InterpolationInfo PTRef) (e : Exn)
    (h : InterpolationInfo.reset g.proof_variables (fun v => g.getVarClass v A_mask) =
      (.error e, info0)) :
    e = .no_class_determined := by
  unfold InterpolationInfo.reset at h
  obtain ⟨v, hv⟩ := reset_fold_error_origin _ _ _ info0 e h
  change g.getVarClass v A_mask = .error e at hv
  unfold ProofGraph.getVarClass at hv
  by_cases ha : g.isAssumedVar v = true
  · rw [if_pos ha] at hv
    cases hv
  · rw [if_neg ha] at hv
    exact getClass_error _ _ e hv

theorem setLeafLabeling_fold_error_origin (g : ProofGraph PTRef TS) (node : ProofNode)
    (f : InterpolationInfo PTRef → ProofNode → Var → Except Exn Unit × InterpolationInfo PTRef)
    (cl : List Lit) :
    ∀ (i info1 : InterpolationInfo PTRef) (e : Exn),
    cl.foldl
      (fun (acc : Except Exn Unit × InterpolationInfo PTRef) l =>
        match acc with
        | (.error e, i) => (.error e, i)
        | (.ok _, i) =>
          let v := var l
          if g.isAssumedVar v then (.ok (), i)
          else if i.getVarClass v = .I_AB then f i node v
          else (.ok (), i))
      (.ok (), i) = (.error e, info1) →
    ∃ i1 v i2, f i1 node v = (.error e, i2) := by
  induction cl with
  | nil =>
    intro i info1 e h
    simp at h
  | cons a cl ih =>
    intro i info1 e h
    simp only [List.foldl_cons] at h
    by_cases ha : g.isAssumedVar (var a) = true
    · simp only [ha, if_true] at h
      exact ih _ info1 e h
    · simp only [ha, Bool.false_eq_true, if_false] at h
      by_cases hc : i.getVarClass (var a) = .I_AB
      · simp only [hc, if_true] at h
        rcases hfa : f i node (var a) with ⟨r, i2⟩
        rw [hfa] at h
        cases r with
        | error e1 =>
          have he := setLeafLabeling_fold_error g node f cl e1 i2
          have hbad := he.symm.trans h
          simp only [Prod.mk.injEq, Except.error.injEq] at hbad
          exact ⟨i, var a, i2, by rw [hfa, hbad.1]⟩
        | ok u => exact ih _ info1 e h
      · simp only [hc, if_false] at h
        exact ih _ info1 e h

theorem setLeafLabeling_error (g : ProofGraph PTRef TS) (info info1 : InterpolationInfo PTRef)
    (node : ProofNode)
    (f : InterpolationInfo PTRef → ProofNode → Var → Except Exn Unit × InterpolationInfo PTRef)
    (e : Exn) (h : g.setLeafLabeling info node f = (.error e, info1)) :
    ∃ i1 v i2, f i1 node v = (.error e, i2) :=
  setLeafLabeling_fold_error_origin g node f node.clause info info1 e h

theorem labelLeaf_error (g : ProofGraph PTRef TS) (info info1 : InterpolationInfo PTRef)
    (n : ProofNode) (ps : Option (StdMap icolor_t)) (e : Exn)
    (h : g.labelLeaf info n ps = (.error e, info1)) :
    e = .undefined_reference ∨ (e = .api_no_algorithm_chosen ∧ g.itp_bool_algo = .unset) := by
  have hps : ∀ (labels : StdMap icolor_t) (a b : InterpolationInfo PTRef → ProofNode → Var →
      InterpolationInfo PTRef) (i1 : InterpolationInfo PTRef) (v : Var)
      (i2 : InterpolationInfo PTRef),
      (match StdMap.find labels v with
        | none => ((.error .undefined_reference : Except Exn Unit), i1)
        | some c => if c = .I_A then (.ok (), a i1 n v) else (.ok (), b i1 n v)) = (.error e, i2) →
      e = .undefined_reference := by
    intro labels a b i1 v i2 hm
    cases hf : StdMap.find labels v with
    | none =>
      rw [hf] at hm
      simp only [Prod.mk.injEq, Except.error.injEq] at hm
      exact hm.1.symm
    | some c =>
      rw [hf] at hm
      simp only at hm
      split_ifs at hm <;> cases hm
  unfold ProofGraph.labelLeaf at h
  split_ifs at h with h1 h2 h3 h4 h5 h6
  · cases ps with
    | none => simp only [Prod.mk.injEq, Except.error.injEq] at h; exact Or.inl h.1.symm
    | some labels =>
      obtain ⟨i1, v, i2, hv⟩ := setLeafLabeling_error g info info1 n _ e h
      exact Or.inl (hps labels _ _ i1 v i2 hv)
  · cases ps with
    | none => simp only [Prod.mk.injEq, Except.error.injEq] at h; exact Or.inl h.1.symm
    | some labels =>
      obtain ⟨i1, v, i2, hv⟩ := setLeafLabeling_error g info info1 n _ e h
      exact Or.inl (hps labels _ _ i1 v i2 hv)
  · cases ps with
    | none => simp only [Prod.mk.injEq, Except.error.injEq] at h; exact Or.inl h.1.symm
    | some labels =>
      obtain ⟨i1, v, i2, hv⟩ := setLeafLabeling_error g info info1 n _ e h
      exact Or.inl (hps labels _ _ i1 v i2 hv)
  · obtain ⟨i1, v, i2, hv⟩ := setLeafLabeling_error g info info1 n _ e h
    cases hv
  · obtain ⟨i1, v, i2, hv⟩ := setLeafLabeling_error g info info1 n _ e h
    cases hv
  · obtain ⟨i1, v, i2, hv⟩ := setLeafLabeling_error g info info1 n _ e h
    cases hv
  · simp only [Prod.mk.injEq, Except.error.injEq] at h
    refine Or.inr ⟨h.1.symm, ?_⟩
    simp only [ProofGraph.usingPSInterpolation, ProofGraph.usingPSWInterpolation,
      ProofGraph.usingPSSInterpolation, ProofGraph.usingMcMillanInterpolation,
      ProofGraph.usingPudlakInterpolation, ProofGraph.usingMcMillanPrimeInterpolation,
      decide_eq_true_eq] at h1 h2 h3 h4 h5 h6
    cases hq : g.itp_bool_algo <;> simp_all

theorem collectOccurrences_error (g : ProofGraph PTRef TS) (info : InterpolationInfo PTRef)
    (A_mask : ipartitions_t) (leaves : List Nat) :
    ∀ (occ : StdMap Int × StdMap Int) (e : Exn),
      g.collectOccurrences info A_mask leaves occ = .error e →
      e = .undefined_reference ∨ e = .no_class_determined := by
  induction leaves with
  | nil =>
    intro occ e h
    simp [ProofGraph.collectOccurrences] at h
  | cons a leaves ih =>
    intro occ e h
    unfold ProofGraph.collectOccurrences at h
    cases hn : g.getNode a with
    | none =>
      simp only [hn] at h
      injection h with h1
      exact Or.inl h1.symm
    | some n =>
      simp only [hn] at h
      by_cases ht : n.type ≠ .CLA_ORIG
      · rw [if_pos ht] at h
        exact ih occ e h
      · rw [if_neg ht] at h
        cases hc : g.getClauseColor n.clauseRef A_mask with
        | error e1 =>
          simp only [hc] at h
          injection h with h1
          subst h1
          exact Or.inr (getClass_error _ _ _ hc)
        | ok col =>
          simp only [hc] at h
          exact ih _ e h

theorem buildLabels_error (occ_b : StdMap Int) (entries : List (Var × Int)) :
    ∀ (labels : StdMap icolor_t) (e : Exn),
      buildLabels occ_b entries labels = .error e → e = .undefined_reference := by
  induction entries with
  | nil =>
    intro labels e h
    simp [buildLabels] at h
  | cons a entries ih =>
    intro labels e h
    obtain ⟨v, qtta⟩ := a
    unfold buildLabels at h
    cases hf : StdMap.find occ_b v with
    | none =>
      simp only [hf] at h
      injection h with h1
      exact h1.symm
    | some qttb =>
      simp only [hf] at h
      exact ih _ e h

theorem selectPSFunction_error (g : ProofGraph PTRef TS) (info : InterpolationInfo PTRef)
    (A_mask : ipartitions_t) (e : Exn) (h : g.selectPSFunction info A_mask = .error e) :
    e = .undefined_reference ∨ e = .no_class_determined := by
  unfold ProofGraph.selectPSFunction at h
  by_cases hn : g.needProofStatistics = true
  · rw [if_pos hn] at h
    unfold ProofGraph.computePSFunction at h
    cases hc : g.collectOccurrences info A_mask g.leaves_ids ([], []) with
    | error e1 =>
      simp only [hc] at h
      injection h with h1
      subst h1
      exact collectOccurrences_error g info A_mask _ _ _ hc
    | ok occ =>
      obtain ⟨occ_a, occ_b⟩ := occ
      simp only [hc] at h
      cases hb : buildLabels occ_b occ_a [] with
      | error e1 =>
        simp only [hb] at h
        injection h with h1
        subst h1
        exact Or.inl (buildLabels_error _ _ _ _ hb)
      | ok labels => simp [hb] at h
  · rw [if_neg hn] at h
    cases h

theorem computePartialInterpolantForOriginalClause_error (g : ProofGraph PTRef TS)
    (info : InterpolationInfo PTRef) (n : ProofNode) (A_mask : ipartitions_t) (e : Exn)
    (h : g.computePartialInterpolantForOriginalClause info n A_mask = .error e) :
    e = .no_class_determined ∨ e = .unexpected_class := by
  unfold ProofGraph.computePartialInterpolantForOriginalClause at h
  cases hc : g.getClauseColor n.clauseRef A_mask with
  | error e1 =>
    simp only [hc] at h
    injection h with h1
    subst h1
    exact Or.inl (getClass_error _ _ _ hc)
  | ok col =>
    simp only [hc] at h
    unfold ProofGraph.getInterpolantForOriginalClause at h
    simp only at h
    split_ifs at h
    all_goals (injection h with h1; exact Or.inr h1.symm)

theorem getInterpolant_match_error (r : Except Exn PTRef × TS) (f : TS → TS) (e : Exn)
    (ts1 : TS)
    (h : (match r with
      | (.error e, ts1) => ((.error e : Except Exn PTRef), ts1)
      | (.ok interpolant, ts1) => (.ok interpolant, f ts1)) = (.error e, ts1)) :
    r = (.error e, ts1) := by
  obtain ⟨r, t2⟩ := r
  cases r with
  | error e1 => exact h
  | ok t => simp at h

theorem computePartialInterpolantForTheoryClause_error [DecidableEq PTRef]
    (g : ProofGraph PTRef TS) (info : InterpolationInfo PTRef) (ts ts1 : TS) (n : ProofNode)
    (A_mask : ipartitions_t) (e : Exn)
    (h : g.computePartialInterpolantForTheoryClause info ts n A_mask = (.error e, ts1)) :
    e = .theory_no_conflict ∨
      ∃ cm ts2, g.thandler.getInterpolant A_mask cm ts2 = (.error e, ts1) := by
  unfold ProofGraph.computePartialInterpolantForTheoryClause at h
  simp only at h
  split_ifs at h
  all_goals first
    | exact Or.inr ⟨_, _, getInterpolant_match_error _ _ _ _ h⟩
    | (simp only [Prod.mk.injEq, Except.error.injEq] at h
       exact Or.inl h.1.symm)

theorem compInterpLabelingInner_error [DecidableEq PTRef] (g : ProofGraph PTRef TS)
    (info info1 : InterpolationInfo PTRef) (n : ProofNode) (e : Exn)
    (h : g.compInterpLabelingInner info n = (.error e, info1)) :
    e = .undefined_reference ∨ e = .pivot_has_no_class n.pivot ∨ e = .pivot_has_no_color := by
  unfold ProofGraph.compInterpLabelingInner at h
  cases ha : n.ants with
  | none =>
    simp only [ha, Prod.mk.injEq, Except.error.injEq] at h
    exact Or.inl h.1.symm
  | some p =>
    obtain ⟨a1, a2⟩ := p
    simp only [ha] at h
    cases h1 : info.getPartialInterpolant a1 with
    | none =>
      simp only [h1, Prod.mk.injEq, Except.error.injEq] at h
      exact Or.inl h.1.symm
    | some t1 =>
      cases h2 : info.getPartialInterpolant a2 with
      | none =>
        simp only [h1, h2, Prod.mk.injEq, Except.error.injEq] at h
        exact Or.inl h.1.symm
      | some t2 =>
        simp only [h1, h2] at h
        rcases hp : g.getPivotColor info n with ⟨r, i1⟩
        rw [hp] at h
        cases r with
        | error e1 =>
          simp only [Prod.mk.injEq, Except.error.injEq] at h
          unfold ProofGraph.getPivotColor at hp
          simp only at hp
          split_ifs at hp
          all_goals first
            | (simp only [Prod.mk.injEq, Except.error.injEq] at hp
               exact Or.inr (Or.inl (h.1 ▸ hp.1.symm)))
            | simp at hp
        | ok c =>
          simp only at h
          split_ifs at h
          all_goals first
            | (simp only [Prod.mk.injEq, Except.error.injEq] at h
               exact Or.inr (Or.inr h.1.symm))
            | simp at h

theorem processNode_error [DecidableEq PTRef] (g : ProofGraph PTRef TS)
    (A_mask : ipartitions_t) (ps : Option (StdMap icolor_t)) (st st1 : RunState PTRef TS)
    (id : Nat) (e : Exn) (h : g.processNode A_mask ps st id = (.error e, st1)) :
    e.isApi = false ∨ (e = .api_no_algorithm_chosen ∧ g.itp_bool_algo = .unset) ∨
      ∃ cm ts2 ts3, g.thandler.getInterpolant A_mask cm ts2 = (.error e, ts3) := by
  unfold ProofGraph.processNode at h
  cases hn : g.getNode id with
  | none =>
    simp only [hn, Prod.mk.injEq, Except.error.injEq] at h
    exact Or.inl (h.1 ▸ rfl)
  | some n =>
    simp only [hn] at h
    cases hleaf : n.isLeaf with
    | false =>
      simp only [hleaf, Bool.false_eq_true, if_false] at h
      rcases hc : g.compInterpLabelingInner st.interpolationInfo n with ⟨r, i1⟩
      rw [hc] at h
      cases r with
      | ok t => simp at h
      | error e1 =>
        simp only [Prod.mk.injEq, Except.error.injEq] at h
        obtain ⟨rfl, -⟩ := h
        rcases compInterpLabelingInner_error g _ _ n e1 hc with rfl | rfl | rfl
        all_goals exact Or.inl rfl
    | true =>
      simp only [hleaf, if_true] at h
      by_cases hty : isLeafClauseType n.type = true
      · simp only [hty, Bool.not_true, Bool.false_eq_true, if_false] at h
        rcases hl : g.labelLeaf st.interpolationInfo n ps with ⟨r, info1⟩
        rw [hl] at h
        cases r with
        | error e1 =>
          simp only [Prod.mk.injEq, Except.error.injEq] at h
          obtain ⟨rfl, -⟩ := h
          rcases labelLeaf_error g _ _ n ps e1 hl with rfl | ⟨rfl, hu⟩
          · exact Or.inl rfl
          · exact Or.inr (Or.inl ⟨rfl, hu⟩)
        | ok u =>
          simp only at h
          by_cases h1 : n.type = .CLA_ORIG
          · simp only [h1, if_true] at h
            cases ho : g.computePartialInterpolantForOriginalClause info1 n A_mask with
            | ok t => simp [ho] at h
            | error e1 =>
              simp only [ho, Prod.mk.injEq, Except.error.injEq] at h
              obtain ⟨rfl, -⟩ := h
              rcases computePartialInterpolantForOriginalClause_error g _ n A_mask e1 ho
                with rfl | rfl
              all_goals exact Or.inl rfl
          · simp only [h1, if_false] at h
            by_cases h2 : n.type = .CLA_THEORY
            · simp only [h2, if_true] at h
              rcases ht : g.computePartialInterpolantForTheoryClause info1 st.tstate n A_mask
                with ⟨r, ts1⟩
              rw [ht] at h
              cases r with
              | ok t => simp at h
              | error e1 =>
                simp only [Prod.mk.injEq, Except.error.injEq] at h
                obtain ⟨rfl, -⟩ := h
                rcases computePartialInterpolantForTheoryClause_error g _ _ _ n A_mask e1 ht
                  with rfl | ⟨cm, ts2, hg⟩
                · exact Or.inl rfl
                · exact Or.inr (Or.inr ⟨cm, ts2, ts1, hg⟩)
            · simp only [h2, if_false] at h
              by_cases h3 : n.type = .CLA_SPLIT
              · simp only [h3, if_true] at h
                cases hh : n.clause.head? with
                | none =>
                  simp only [hh, Prod.mk.injEq, Except.error.injEq] at h
                  exact Or.inl (h.1 ▸ rfl)
                | some l0 => simp [hh] at h
              · simp [h3] at h
      · simp only [hty, Bool.not_false, if_true, Prod.mk.injEq, Except.error.injEq] at h
        exact Or.inl (h.1 ▸ rfl)

theorem traverse_error [DecidableEq PTRef] (g : ProofGraph PTRef TS)
    (A_mask : ipartitions_t) (ps : Option (StdMap icolor_t)) (ids : List Nat) :
    ∀ (st st1 : RunState PTRef TS) (e : Exn),
      g.traverse A_mask ps ids st = (.error e, st1) →
      e.isApi = false ∨ (e = .api_no_algorithm_chosen ∧ g.itp_bool_algo = .unset) ∨
        ∃ cm ts2 ts3, g.thandler.getInterpolant A_mask cm ts2 = (.error e, ts3) := by
  induction ids with
  | nil =>
    intro st st1 e h
    simp [ProofGraph.traverse] at h
  | cons id rest ih =>
    intro st st1 e h
    simp only [ProofGraph.traverse] at h
    rcases hp : g.processNode A_mask ps st id with ⟨r, st2⟩
    rw [hp] at h
    cases r with
    | error e1 =>
      simp only [Prod.mk.injEq, Except.error.injEq] at h
      obtain ⟨rfl, -⟩ := h
      exact processNode_error g A_mask ps st st2 id e1 hp
    | ok u => exact ih st2 st1 e h

theorem produceSingleInterpolant_error [DecidableEq PTRef] (g : ProofGraph PTRef TS)
    (interpolants : List PTRef) (A_mask : ipartitions_t) (st : RunState PTRef TS) (e : Exn)
    (h : (g.produceSingleInterpolant interpolants A_mask st).result = .error e) :
    g.checkInterAlgo = .error e ∨ (g.checkInterAlgo = .ok () ∧
      (e.isApi = false ∨ (e = .api_no_algorithm_chosen ∧ g.itp_bool_algo = .unset) ∨
        ∃ cm ts2 ts3, g.thandler.getInterpolant A_mask cm ts2 = (.error e, ts3))) := by
  unfold ProofGraph.produceSingleInterpolant at h
  cases hchk : g.checkInterAlgo with
  | error e1 =>
    simp only [hchk, Except.error.injEq] at h
    exact Or.inl (by rw [h])
  | ok u0 =>
    right
    refine ⟨rfl, ?_⟩
    simp only [hchk] at h
    rcases hr : InterpolationInfo.reset g.proof_variables (fun v => g.getVarClass v A_mask)
      with ⟨r, info0⟩
    rw [hr] at h
    cases r with
    | error e1 =>
      simp only [Except.error.injEq] at h
      subst h
      exact Or.inl (by rw [reset_error g A_mask info0 e1 hr]; rfl)
    | ok u1 =>
      simp only at h
      rcases hps : g.selectPSFunction info0 A_mask with e1 | ps
      · simp only [hps, Except.error.injEq] at h
        subst h
        rcases selectPSFunction_error g info0 A_mask e1 hps with rfl | rfl
        all_goals exact Or.inl rfl
      · simp only [hps] at h
        rcases ht : g.traverse A_mask ps g.DFSv { st with interpolationInfo := info0 }
          with ⟨r2, st1⟩
        rw [ht] at h
        cases r2 with
        | error e1 =>
          simp only [Except.error.injEq] at h
          subst h
          exact traverse_error g A_mask ps _ _ _ e1 ht
        | ok u2 =>
          simp only at h
          cases hroot : g.getNode g.root with
          | none =>
            simp only [hroot, Except.error.injEq] at h
            exact Or.inl (h ▸ rfl)
          | some rootNode =>
            simp only [hroot] at h
            cases hI : st1.interpolationInfo.getPartialInterpolant rootNode.id with
            | none =>
              simp only [hI, Except.error.injEq] at h
              exact Or.inl (h ▸ rfl)
            | some I => simp [hI] at h

theorem checkInterAlgo_unset (g : ProofGraph PTRef TS) :
    (g.itp_bool_algo = .unset → g.checkInterAlgo = .error .api_choose_itp_bool_algo) ∧
    (g.itp_bool_algo ≠ .unset → g.checkInterAlgo = .ok ()) := by
  unfold ProofGraph.checkInterAlgo ProofGraph.usingPSInterpolation
    ProofGraph.usingPSWInterpolation ProofGraph.usingPSSInterpolation
    ProofGraph.usingMcMillanInterpolation ProofGraph.usingPudlakInterpolation
    ProofGraph.usingMcMillanPrimeInterpolation
  cases hq : g.itp_bool_algo <;> simp

/-- C22.  `produceSingleInterpolant` fails with the user-facing configuration error
exactly when none of the six labeling systems is selected.  In that case `checkInterAlgo`
raises it, before the interpolation info is reset and before any node is labeled: the run
state and the output vector are the ones the call was given.  When a system is selected
`checkInterAlgo` passes and no exception of the run is an `OsmtApiException` (the theory
backend raising only its own exceptions); in particular the `throw` of `labelLeaf` is
never reached. -/
theorem produceSingleInterpolant_configuration_error [DecidableEq PTRef]
    (g : ProofGraph PTRef TS) (interpolants : List PTRef) (A_mask : ipartitions_t)
    (st : RunState PTRef TS) :
    (g.itp_bool_algo = .unset →
      g.checkInterAlgo = .error .api_choose_itp_bool_algo ∧
      g.produceSingleInterpolant interpolants A_mask st =
        { result := .error .api_choose_itp_bool_algo, state := st,
          interpolants := interpolants }) ∧
    (g.itp_bool_algo ≠ .unset →
      g.checkInterAlgo = .ok () ∧
      ((∀ cm ts e ts1, g.thandler.getInterpolant A_mask cm ts = (.error e, ts1) →
          e.isApi = false) →
        ∀ e, (g.produceSingleInterpolant interpolants A_mask st).result = .error e →
          e.isApi = false)) := by
  constructor
  · intro hu
    have hc := (checkInterAlgo_unset g).1 hu
    refine ⟨hc, ?_⟩
    unfold ProofGraph.produceSingleInterpolant
    rw [hc]
  · intro hs
    have hc := (checkInterAlgo_unset g).2 hs
    refine ⟨hc, ?_⟩
    intro hback e he
    rcases produceSingleInterpolant_error g interpolants A_mask st e he with h1 | ⟨-, h2⟩
    · rw [hc] at h1
      cases h1
    · rcases h2 with h2 | ⟨-, hu⟩ | ⟨cm, ts2, ts3, hg⟩
      · exact h2
      · exact absurd hu hs
      · exact hback cm ts2 e ts3 hg

/-! ## The output vector of a run -/

theorem produceSingleInterpolant_error_output [DecidableEq PTRef] (g : ProofGraph PTRef TS)
    (interpolants : List PTRef) (A_mask : ipartitions_t) (st : RunState PTRef TS) (e : Exn)
    (h : (g.produceSingleInterpolant interpolants A_mask st).result = .error e) :
    (g.produceSingleInterpolant interpolants A_mask st).interpolants = interpolants := by
  unfold ProofGraph.produceSingleInterpolant at h ⊢
  cases hchk : g.checkInterAlgo with
  | error e => simp
  | ok u0 =>
    simp only [hchk] at h ⊢
    rcases hr : InterpolationInfo.reset g.proof_variables (fun v => g.getVarClass v A_mask)
      with ⟨r, info0⟩
    rw [hr] at h
    cases r with
    | error e => simp
    | ok u1 =>
      simp only at h ⊢
      rcases hps : g.selectPSFunction info0 A_mask with e | ps
      · simp
      · simp only [hps] at h ⊢
        rcases ht : g.traverse A_mask ps g.DFSv { st with interpolationInfo := info0 }
          with ⟨r2, st1⟩
        rw [ht] at h
        cases r2 with
        | error e => simp
        | ok u2 =>
          simp only at h ⊢
          cases hroot : g.getNode g.root with
          | none => simp
          | some rootNode =>
            simp only [hroot] at h ⊢
            cases hI : st1.interpolationInfo.getPartialInterpolant rootNode.id with
            | none => simp
            | some I => simp [hI] at h

/-- C25.  On success `produceSingleInterpolant` appends exactly one term to the output
vector and keeps the earlier entries: the term is the partial interpolant stored for the
root node, and when the root is the last node of the topological order it is the term the
last step of the traversal stored.  Whenever the call raises, the output vector is the one
it was given. -/
theorem produceSingleInterpolant_output [DecidableEq PTRef] (g : ProofGraph PTRef TS)
    (interpolants : List PTRef) (A_mask : ipartitions_t) (st : RunState PTRef TS) :
    ((g.produceSingleInterpolant interpolants A_mask st).result = .ok () →
      ∃ rootNode I, g.getNode g.root = some rootNode ∧
        (g.produceSingleInterpolant interpolants A_mask st).state.interpolationInfo.getPartialInterpolant
          rootNode.id = some I ∧
        (g.produceSingleInterpolant interpolants A_mask st).interpolants
          = interpolants ++ [I] ∧
        (∀ pre, g.DFSv = pre ++ [g.root] →
          ∃ (ps : Option (StdMap icolor_t)) (info0 : InterpolationInfo PTRef)
              (sa : RunState PTRef TS) (info1 : InterpolationInfo PTRef),
            g.traverse A_mask ps pre { st with interpolationInfo := info0 } = (.ok (), sa) ∧
            g.processNode A_mask ps sa g.root =
              (.ok (), (g.produceSingleInterpolant interpolants A_mask st).state) ∧
            (g.produceSingleInterpolant interpolants A_mask st).state.interpolationInfo
              = info1.setPartialInterpolant rootNode I)) ∧
    (∀ e, (g.produceSingleInterpolant interpolants A_mask st).result = .error e →
      (g.produceSingleInterpolant interpolants A_mask st).interpolants = interpolants) := by
  refine ⟨?_, fun e h => produceSingleInterpolant_error_output g interpolants A_mask st e h⟩
  intro h
  obtain ⟨info0, ps, st1, rootNode, I, -, -, htr, hroot, hI, hrun⟩ :=
    produceSingleInterpolant_ok g interpolants A_mask st h
  rw [hrun]
  refine ⟨rootNode, I, hroot, hI, rfl, ?_⟩
  intro pre hpre
  rw [hpre] at htr
  obtain ⟨sa, sb, h1, h2, h3⟩ := traverse_split g A_mask ps g.root [] pre _ _ () htr
  simp only [ProofGraph.traverse, Prod.mk.injEq, true_and] at h3
  subst h3
  obtain ⟨n, hn, hcase⟩ := processNode_ok g A_mask ps sa sb g.root () h2
  rw [hroot] at hn
  cases hn
  have key : ∀ (info1 : InterpolationInfo PTRef) (t : PTRef), sb.interpolationInfo = info1.setPartialInterpolant rootNode t →
      sb.interpolationInfo = info1.setPartialInterpolant rootNode I := by
    intro info1 t heq
    have : sb.interpolationInfo.partialInterpolant rootNode.id = some t := by
      rw [heq]; simp [InterpolationInfo.setPartialInterpolant]
    rw [hI] at this
    cases this
    exact heq
  rcases hcase with ⟨-, info1, t, -, heq, -⟩ | ⟨-, info1, t, -, heq⟩
  · exact ⟨ps, info0, sa, info1, h1, h2, key info1 t heq⟩
  · exact ⟨ps, info0, sa, info1, h1, h2, key info1 t heq⟩

/-! ## The theory handler: `backtrack` -/

theorem backtrackLoop_spec [DecidableEq PTRef] {S : Type} (env : THandlerEnv PTRef S)
    (lev : Int) (rs : List PTRef) :
    ∀ c : Nat, THandler.backtrackLoop env lev rs c =
      (rs.drop (rs.length - (max lev 0).toNat),
       c + (rs.take (rs.length - (max lev 0).toNat)).countP env.isCounted) := by
  induction rs with
  | nil => intro c; simp [THandler.backtrackLoop]
  | cons e rest ih =>
    intro c
    have hm : (if lev > 0 then lev else 0) = max lev 0 := by
      split_ifs with h
      · exact (max_eq_left (le_of_lt h)).symm
      · exact (max_eq_right (not_lt.mp h)).symm
    unfold THandler.backtrackLoop
    rw [hm]
    by_cases hgt : ((rest.length + 1 : Nat) : Int) > max lev 0
    · rw [if_pos hgt]
      have hk : (max lev 0).toNat ≤ rest.length := by omega
      have hlen : (e :: rest).length - (max lev 0).toNat
          = (rest.length - (max lev 0).toNat) + 1 := by
        simp only [List.length_cons]; omega
      rw [hlen, List.drop_succ_cons, List.take_succ_cons, List.countP_cons]
      by_cases hc : e = env.getTerm_true ∨ e = env.getTerm_false
      · rw [if_pos hc, ih]
        have : env.isCounted e = false := by
          unfold THandlerEnv.isCounted
          rcases hc with h | h <;> simp [h]
        simp [this]
      · rw [if_neg hc]
        have hc1 : e ≠ env.getTerm_true := fun h => hc (Or.inl h)
        have hc2 : e ≠ env.getTerm_false := fun h => hc (Or.inr h)
        by_cases hd : env.isDeclared (var (env.PTRefToLit e)) = true
        · have : env.isCounted e = true := by
            unfold THandlerEnv.isCounted
            unfold THandlerEnv.PTRefToLit at hd
            simp [hc1, hc2, hd]
          simp only [hd, Bool.not_true, Bool.false_eq_true, if_false, ih, this, if_true]
          congr 1
          omega
        · have : env.isCounted e = false := by
            unfold THandlerEnv.isCounted
            unfold THandlerEnv.PTRefToLit at hd
            simp [hd]
          simp only [Bool.not_eq_true] at hd
          simp [hd, ih, this]
    · rw [if_neg hgt]
      have hlen : (e :: rest).length - (max lev 0).toNat = 0 := by
        simp only [List.length_cons]; omega
      rw [hlen]
      simp

theorem reverse_drop_reverse {α : Type} (l : List α) (m : Nat) :
    (l.reverse.drop (l.length - m)).reverse = l.take m := by
  rcases Nat.lt_or_ge l.length m with h | h
  · rw [Nat.sub_eq_zero_of_le (le_of_lt h)]
    simp [List.take_of_length_le (le_of_lt h)]
  · rw [List.drop_reverse]
    simp
    omega

theorem countP_reverse_take {α : Type} (l : List α) (m : Nat) (f : α → Bool) :
    (l.reverse.take (l.length - m)).countP f = (l.drop m).countP f := by
  rcases Nat.lt_or_ge l.length m with h | h
  · rw [Nat.sub_eq_zero_of_le (le_of_lt h)]
    simp [List.drop_of_length_le (le_of_lt h)]
  · rw [List.take_reverse]
    simp
    congr 2
    omega

theorem backtrack_spec [DecidableEq PTRef] {S : Type} (env : THandlerEnv PTRef S)
    (lev : Int) (st : THandlerState PTRef S) :
    THandler.backtrack env lev st =
      { stack := st.stack.take (max lev 0).toNat
        checked_trail_size := (st.stack.take (max lev 0).toNat).length
        solvers := st.solvers.map
          (env.popBacktrackPoints
            ((st.stack.drop (max lev 0).toNat).countP env.isCounted)) } := by
  unfold THandler.backtrack
  simp only [backtrackLoop_spec, List.length_reverse, reverse_drop_reverse,
    countP_reverse_take, zero_add]

/-- C26.  For every handler state and every integer `lev`, after `THandler::backtrack(lev)`
the stack is the prefix of the previous stack of length min(previous size, max(lev, 0)),
`checked_trail_size` is the new stack size, and every solver of the schedule has been asked
to pop as many backtrack points as there were popped stack entries that are neither
constant and have a declared variable.  In particular `backtrack(-1)` leaves the stack
empty and `checked_trail_size` = 0; a second `backtrack(-1)` leaves the stack and
`checked_trail_size` as they are and pops zero backtrack points, so the whole state is
unchanged when popping zero points leaves a solver unchanged. -/
theorem THandler_backtrack_contract [DecidableEq PTRef] {S : Type} (env : THandlerEnv PTRef S)
    (lev : Int) (st : THandlerState PTRef S) :
    (THandler.backtrack env lev st).stack
      = st.stack.take (min st.stack.length (max lev 0).toNat) ∧
    (THandler.backtrack env lev st).stack.length = min st.stack.length (max lev 0).toNat ∧
    (THandler.backtrack env lev st).checked_trail_size
      = (THandler.backtrack env lev st).stack.length ∧
    (THandler.backtrack env lev st).solvers = st.solvers.map
      (env.popBacktrackPoints
        ((st.stack.drop (min st.stack.length (max lev 0).toNat)).countP env.isCounted)) ∧
    (THandler.backtrack env (-1) st).stack = [] ∧
    (THandler.backtrack env (-1) st).checked_trail_size = 0 ∧
    THandler.backtrack env (-1) (THandler.backtrack env (-1) st) =
      { stack := []
        checked_trail_size := 0
        solvers := (THandler.backtrack env (-1) st).solvers.map (env.popBacktrackPoints 0) } ∧
    ((∀ s, env.popBacktrackPoints 0 s = s) →
      THandler.backtrack env (-1) (THandler.backtrack env (-1) st)
        = THandler.backtrack env (-1) st) := by
  have htake : st.stack.take (min st.stack.length (max lev 0).toNat)
      = st.stack.take (max lev 0).toNat := by
    rw [List.take_eq_take]
    simp [min_comm]
  have hdrop : st.stack.drop (min st.stack.length (max lev 0).toNat)
      = st.stack.drop (max lev 0).toNat := by
    rcases Nat.lt_or_ge st.stack.length (max lev 0).toNat with h | h
    · rw [min_eq_left (le_of_lt h), List.drop_of_length_le (le_of_lt h),
        List.drop_of_length_le (le_refl _)]
    · rw [min_eq_right h]
  have hneg : (max (-1 : Int) 0).toNat = 0 := by decide
  have h1 : THandler.backtrack env (-1) st =
      { stack := [], checked_trail_size := 0,
        solvers := st.solvers.map
          (env.popBacktrackPoints (st.stack.countP env.isCounted)) } := by
    rw [backtrack_spec, hneg]
    simp
  refine ⟨?_, ?_, ?_, ?_, ?_, ?_, ?_, ?_⟩
  · rw [backtrack_spec, htake]
  · rw [backtrack_spec]
    simp only [List.length_take]
    omega
  · rw [backtrack_spec]
  · rw [backtrack_spec, hdrop]
  · rw [h1]
  · rw [h1]
  · rw [backtrack_spec, hneg, h1]
    simp
  · intro h0
    rw [backtrack_spec, hneg, h1]
    simp [h0]

/-! ## The theory handler: `assertLits` -/

theorem assertLitsLoop_false [DecidableEq PTRef] {S : Type} (env : THandlerEnv PTRef S)
    (ls : List Lit) (stack : List PTRef) (solvers : List S) :
    THandler.assertLitsLoop env ls false stack solvers = (false, stack, solvers) := by
  cases ls <;> simp [THandler.assertLitsLoop]

theorem assertLitsLoop_step [DecidableEq PTRef] {S : Type} (env : THandlerEnv PTRef S)
    (l : Lit) (rest : List Lit) (stack : List PTRef) (solvers : List S) :
    THandler.assertLitsLoop env (l :: rest) true stack solvers =
      if env.isSent l then
        THandler.assertLitsLoop env rest (env.assertLit (env.asgnOf l) solvers).1
          (stack ++ [env.varToPTRef (var l)]) (env.assertLit (env.asgnOf l) solvers).2
      else
        THandler.assertLitsLoop env rest true (stack ++ [env.varToPTRef (var l)]) solvers := by
  conv_lhs => rw [THandler.assertLitsLoop]
  unfold THandlerEnv.isSent THandlerEnv.assertLitH THandlerEnv.asgnOf
  by_cases hd : env.isDeclared (var l) = true
  · by_cases h1 : env.varToPTRef (var l) = env.getTerm_true
    · simp [hd, h1]
    · by_cases h2 : env.varToPTRef (var l) = env.getTerm_false
      · simp [hd, h1, h2]
      · simp [hd, h1, h2]
  · simp only [Bool.not_eq_true] at hd
    simp [hd]

theorem assertLitsLoop_accepts [DecidableEq PTRef] {S : Type} (env : THandlerEnv PTRef S)
    (ls : List Lit) :
    ∀ (stack : List PTRef) (solvers : List S), env.acceptsAll ls solvers = true →
      THandler.assertLitsLoop env ls true stack solvers =
        (true, stack ++ ls.map (fun l => env.varToPTRef (var l)), env.sendAll ls solvers) := by
  induction ls with
  | nil => intro stack solvers _; simp [THandler.assertLitsLoop, THandlerEnv.sendAll]
  | cons l rest ih =>
    intro stack solvers h
    rw [assertLitsLoop_step]
    unfold THandlerEnv.acceptsAll at h
    unfold THandlerEnv.sendAll
    by_cases hs : env.isSent l = true
    · simp only [hs, if_true, Bool.and_eq_true] at h ⊢
      rw [h.1, ih _ _ h.2]
      simp
    · simp only [hs, Bool.false_eq_true, if_false] at h ⊢
      rw [ih _ _ h]
      simp

theorem assertLitsLoop_reject [DecidableEq PTRef] {S : Type} (env : THandlerEnv PTRef S)
    (l : Lit) (post : List Lit) (pre : List Lit) :
    ∀ (stack : List PTRef) (solvers : List S), env.acceptsAll pre solvers = true →
      env.isSent l = true →
      (env.assertLit (env.asgnOf l) (env.sendAll pre solvers)).1 = false →
      THandler.assertLitsLoop env (pre ++ l :: post) true stack solvers =
        (false, stack ++ (pre ++ [l]).map (fun l => env.varToPTRef (var l)),
          (env.assertLit (env.asgnOf l) (env.sendAll pre solvers)).2) := by
  induction pre with
  | nil =>
    intro stack solvers _ hs hr
    simp only [List.nil_append, THandlerEnv.sendAll] at hr ⊢
    rw [assertLitsLoop_step, if_pos hs, hr, assertLitsLoop_false]
    simp
  | cons a pre ih =>
    intro stack solvers h hs hr
    simp only [List.cons_append]
    rw [assertLitsLoop_step]
    unfold THandlerEnv.acceptsAll at h
    unfold THandlerEnv.sendAll at hr ⊢
    by_cases ha : env.isSent a = true
    · simp only [ha, if_true, Bool.and_eq_true] at h hr ⊢
      rw [h.1, ih _ _ h.2 hs hr]
      simp
    · simp only [ha, Bool.false_eq_true, if_false] at h hr ⊢
      rw [ih _ _ h hs hr]
      simp

theorem acceptsAll_first_reject [DecidableEq PTRef] {S : Type} (env : THandlerEnv PTRef S)
    (ls : List Lit) :
    ∀ (solvers : List S), env.acceptsAll ls solvers = false →
      ∃ pre l post, ls = pre ++ l :: post ∧ env.acceptsAll pre solvers = true ∧
        env.isSent l = true ∧
        (env.assertLit (env.asgnOf l) (env.sendAll pre solvers)).1 = false := by
  induction ls with
  | nil => intro solvers h; simp [THandlerEnv.acceptsAll] at h
  | cons a rest ih =>
    intro solvers h
    unfold THandlerEnv.acceptsAll at h
    by_cases ha : env.isSent a = true
    · simp only [ha, if_true] at h
      by_cases hr : (env.assertLit (env.asgnOf a) solvers).1 = true
      · simp only [hr, Bool.true_and] at h
        obtain ⟨pre, l, post, h1, h2, h3, h4⟩ := ih _ h
        refine ⟨a :: pre, l, post, by rw [h1]; rfl, ?_, h3, ?_⟩
        · unfold THandlerEnv.acceptsAll
          simp [ha, hr, h2]
        · unfold THandlerEnv.sendAll
          simpa [ha] using h4
      · simp only [Bool.not_eq_true] at hr
        exact ⟨[], a, rest, rfl, rfl, ha, hr⟩
    · simp only [ha, Bool.false_eq_true, if_false] at h
      obtain ⟨pre, l, post, h1, h2, h3, h4⟩ := ih _ h
      refine ⟨a :: pre, l, post, by rw [h1]; rfl, ?_, h3, ?_⟩
      · unfold THandlerEnv.acceptsAll
        simp [ha, h2]
      · unfold THandlerEnv.sendAll
        simpa [ha] using h4

/-- C27.  `THandler::assertLits(trail)` processes the literals of the trail from index
`checked_trail_size` on, in order.  When the solvers accept every literal that is sent
(declared variable, term neither `true` nor `false`; polarity `l_False` exactly for a
negated literal), it returns true, the stack has grown by the terms of all those literals
and the solvers have received exactly the sent ones.  Otherwise there is a first rejected
literal: the call returns false, the stack has grown by the terms of the literals up to
and including that one, and the solvers have received the sent ones up to and including
it and nothing after.  The result is false exactly when a rejection occurred, and on
return `checked_trail_size` is the stack size. -/
theorem THandler_assertLits_contract [DecidableEq PTRef] {S : Type}
    (env : THandlerEnv PTRef S) (trail : List Lit) (st : THandlerState PTRef S) :
    (env.acceptsAll (trail.drop st.checked_trail_size) st.solvers = true →
      (THandler.assertLits env trail st).1 = true ∧
      (THandler.assertLits env trail st).2.stack =
        st.stack ++ (trail.drop st.checked_trail_size).map (fun l => env.varToPTRef (var l)) ∧
      (THandler.assertLits env trail st).2.solvers =
        env.sendAll (trail.drop st.checked_trail_size) st.solvers) ∧
    (∀ pre l post, trail.drop st.checked_trail_size = pre ++ l :: post →
      env.acceptsAll pre st.solvers = true → env.isSent l = true →
      (env.assertLit (env.asgnOf l) (env.sendAll pre st.solvers)).1 = false →
      (THandler.assertLits env trail st).1 = false ∧
      (THandler.assertLits env trail st).2.stack =
        st.stack ++ (pre ++ [l]).map (fun l => env.varToPTRef (var l)) ∧
      (THandler.assertLits env trail st).2.solvers =
        (env.assertLit (env.asgnOf l) (env.sendAll pre st.solvers)).2) ∧
    (env.acceptsAll (trail.drop st.checked_trail_size) st.solvers = false →
      ∃ pre l post, trail.drop st.checked_trail_size = pre ++ l :: post ∧
        env.acceptsAll pre st.solvers = true ∧ env.isSent l = true ∧
        (env.assertLit (env.asgnOf l) (env.sendAll pre st.solvers)).1 = false) ∧
    ((THandler.assertLits env trail st).1 = false ↔
      env.acceptsAll (trail.drop st.checked_trail_size) st.solvers = false) ∧
    (THandler.assertLits env trail st).2.checked_trail_size =
      (THandler.assertLits env trail st).2.stack.length := by
  have hA : env.acceptsAll (trail.drop st.checked_trail_size) st.solvers = true →
      THandler.assertLits env trail st =
        (true, { stack := st.stack ++
                    (trail.drop st.checked_trail_size).map (fun l => env.varToPTRef (var l))
                 checked_trail_size := (st.stack ++
                    (trail.drop st.checked_trail_size).map
                      (fun l => env.varToPTRef (var l))).length
                 solvers := env.sendAll (trail.drop st.checked_trail_size) st.solvers }) := by
    intro h
    unfold THandler.assertLits
    simp only [assertLitsLoop_accepts env _ st.stack st.solvers h]
  have hB : ∀ pre l post, trail.drop st.checked_trail_size = pre ++ l :: post →
      env.acceptsAll pre st.solvers = true → env.isSent l = true →
      (env.assertLit (env.asgnOf l) (env.sendAll pre st.solvers)).1 = false →
      THandler.assertLits env trail st =
        (false, { stack := st.stack ++ (pre ++ [l]).map (fun l => env.varToPTRef (var l))
                  checked_trail_size :=
                    (st.stack ++ (pre ++ [l]).map (fun l => env.varToPTRef (var l))).length
                  solvers := (env.assertLit (env.asgnOf l) (env.sendAll pre st.solvers)).2 }) := by
    intro pre l post hsplit h hs hr
    unfold THandler.assertLits
    simp only [hsplit, assertLitsLoop_reject env l post pre st.stack st.solvers h hs hr]
  refine ⟨?_, ?_, acceptsAll_first_reject env _ st.solvers, ?_, rfl⟩
  · intro h
    rw [hA h]
    exact ⟨rfl, rfl, rfl⟩
  · intro pre l post hsplit h hs hr
    rw [hB pre l post hsplit h hs hr]
    exact ⟨rfl, rfl, rfl⟩
  · constructor
    · intro hres
      by_contra hacc
      simp only [Bool.not_eq_false] at hacc
      rw [hA hacc] at hres
      cases hres
    · intro hacc
      obtain ⟨pre, l, post, h1, h2, h3, h4⟩ := acceptsAll_first_reject env _ st.solvers hacc
      rw [hB pre l post h1 h2 h3 h4]

/-! ## Theory leaves: the protocol with the theory handler -/

theorem theoryClause_unfold [DecidableEq PTRef] (g : ProofGraph PTRef TS)
    (info : InterpolationInfo PTRef) (ts : TS) (n : ProofNode) (A_mask : ipartitions_t) :
    g.computePartialInterpolantForTheoryClause info ts n A_mask =
      if (g.thandler.assertLits (n.clause.map Lit.neg) (g.thandler.backtrack (-1) ts)).1 = true
      then
        if (g.thandler.check true (g.thandler.assertLits (n.clause.map Lit.neg)
            (g.thandler.backtrack (-1) ts)).2).1 ≠ TRes.UNSAT
        then (.error .theory_no_conflict,
          (g.thandler.check true (g.thandler.assertLits (n.clause.map Lit.neg)
            (g.thandler.backtrack (-1) ts)).2).2)
        else
          match g.thandler.getInterpolant A_mask
              (n.clause.foldl (fun m l => colorMapInsert m (g.varToPTRef (var l))
                (getVarColor info n (var l))) [])
              (g.thandler.check true (g.thandler.assertLits (n.clause.map Lit.neg)
                (g.thandler.backtrack (-1) ts)).2).2 with
          | (.error e, ts1) => (.error e, ts1)
          | (.ok interpolant, ts1) => (.ok interpolant, g.thandler.backtrack (-1) ts1)
      else
        match g.thandler.getInterpolant A_mask
            (n.clause.foldl (fun m l => colorMapInsert m (g.varToPTRef (var l))
              (getVarColor info n (var l))) [])
            (g.thandler.assertLits (n.clause.map Lit.neg) (g.thandler.backtrack (-1) ts)).2 with
        | (.error e, ts1) => (.error e, ts1)
        | (.ok interpolant, ts1) => (.ok interpolant, g.thandler.backtrack (-1) ts1) := by
  unfold ProofGraph.computePartialInterpolantForTheoryClause ProofGraph.clearTSolver
    ProofGraph.assertLiteralsToTSolver
  simp only [foldl_push_map, List.nil_append]
  by_cases ha : (g.thandler.assertLits (n.clause.map Lit.neg)
      (g.thandler.backtrack (-1) ts)).1 = true
  · simp only [ha, if_true]
    by_cases hc : (g.thandler.check true (g.thandler.assertLits (n.clause.map Lit.neg)
        (g.thandler.backtrack (-1) ts)).2).1 = TRes.UNSAT
    · simp only [hc, ne_eq, not_true_eq_false, decide_False, Bool.false_eq_true, if_false]
    · simp [hc]
  · simp only [ha, if_false, Bool.false_eq_true]

/-- C23.  For a theory leaf `n`, `computePartialInterpolantForTheoryClause` first resets
the handler, then asserts exactly the complements of the literals of the clause, in clause
order (`a` is the outcome of that call), and calls `check(true)` only when the assertion
reported no conflict (`c` is the outcome of that call).  When the assertion succeeded and
`check` did not answer UNSAT it raises the internal-consistency error and the handler is
left as `check` left it: `getInterpolant` is not called, and the traversal step raises the
same error with the partial interpolants as they were.  In every other case the outcome
is that of `getInterpolant`, called on the state after `check`, or after the assertion
when it reported a conflict.  With a backend that does not raise this error itself, the
error is raised exactly in the first case. -/
theorem theory_leaf_protocol [DecidableEq PTRef] (g : ProofGraph PTRef TS)
    (info : InterpolationInfo PTRef) (ts : TS) (n : ProofNode) (A_mask : ipartitions_t)
    (a : Bool × TS) (c : TRes × TS) (cm : List (PTRef × icolor_t))
    (ha : a = g.thandler.assertLits (n.clause.map Lit.neg) (g.thandler.backtrack (-1) ts))
    (hc : c = g.thandler.check true a.2)
    (hcm : cm = n.clause.foldl (fun m l => colorMapInsert m (g.varToPTRef (var l))
      (getVarColor info n (var l))) []) :
    (a.1 = true → c.1 ≠ TRes.UNSAT →
      g.computePartialInterpolantForTheoryClause info ts n A_mask
        = (.error .theory_no_conflict, c.2) ∧
      ∀ (ps : Option (StdMap icolor_t)) (st : RunState PTRef TS) (id : Nat),
        g.getNode id = some n → n.isLeaf = true → n.type = .CLA_THEORY →
        st.tstate = ts → g.labelLeaf st.interpolationInfo n ps = (.ok (), info) →
        g.processNode A_mask ps st id
          = (.error .theory_no_conflict, { interpolationInfo := info, tstate := c.2 }) ∧
        info.partialInterpolant = st.interpolationInfo.partialInterpolant) ∧
    (a.1 = true → c.1 = TRes.UNSAT →
      (∀ e ts1, g.thandler.getInterpolant A_mask cm c.2 = (.error e, ts1) →
        g.computePartialInterpolantForTheoryClause info ts n A_mask = (.error e, ts1)) ∧
      (∀ t ts1, g.thandler.getInterpolant A_mask cm c.2 = (.ok t, ts1) →
        g.computePartialInterpolantForTheoryClause info ts n A_mask
          = (.ok t, g.thandler.backtrack (-1) ts1))) ∧
    (a.1 = false →
      (∀ e ts1, g.thandler.getInterpolant A_mask cm a.2 = (.error e, ts1) →
        g.computePartialInterpolantForTheoryClause info ts n A_mask = (.error e, ts1)) ∧
      (∀ t ts1, g.thandler.getInterpolant A_mask cm a.2 = (.ok t, ts1) →
        g.computePartialInterpolantForTheoryClause info ts n A_mask
          = (.ok t, g.thandler.backtrack (-1) ts1))) ∧
    ((∀ cm1 ts2 ts3, g.thandler.getInterpolant A_mask cm1 ts2 ≠ (.error .theory_no_conflict, ts3)) →
      ((g.computePartialInterpolantForTheoryClause info ts n A_mask).1
          = .error .theory_no_conflict ↔ (a.1 = true ∧ c.1 ≠ TRes.UNSAT))) := by
  subst ha
  subst hc
  subst hcm
  have hun := theoryClause_unfold g info ts n A_mask
  refine ⟨?_, ?_, ?_, ?_⟩
  · intro h1 h2
    have hres : g.computePartialInterpolantForTheoryClause info ts n A_mask
        = (.error .theory_no_conflict, (g.thandler.check true (g.thandler.assertLits
            (n.clause.map Lit.neg) (g.thandler.backtrack (-1) ts)).2).2) := by
      rw [hun, if_pos h1, if_pos h2]
    refine ⟨hres, ?_⟩
    intro ps st id hn hleaf hty hts hlab
    refine ⟨?_, (labelLeaf_spec g _ _ n ps () hlab).2.1⟩
    unfold ProofGraph.processNode
    simp only [hn, hleaf, if_true, hty, isLeafClauseType, Bool.not_true, Bool.false_eq_true,
      if_false, hlab, hts, hres]
    simp
  · intro h1 h2
    constructor
    · intro e ts1 hg
      rw [hun, if_pos h1, if_neg (not_not.mpr h2), hg]
    · intro t ts1 hg
      rw [hun, if_pos h1, if_neg (not_not.mpr h2), hg]
  · intro h1
    have h1' : ¬ (g.thandler.assertLits (n.clause.map Lit.neg)
        (g.thandler.backtrack (-1) ts)).1 = true := by rw [h1]; simp
    constructor
    · intro e ts1 hg
      rw [hun, if_neg h1', hg]
    · intro t ts1 hg
      rw [hun, if_neg h1', hg]
  · intro hback
    constructor
    · intro hres
      by_contra hne
      rcases hr : g.computePartialInterpolantForTheoryClause info ts n A_mask with ⟨r, ts1⟩
      rw [hr] at hres
      simp only at hres
      subst hres
      rcases computePartialInterpolantForTheoryClause_error g info ts ts1 n A_mask _ hr
        with _ | ⟨cm1, ts2, hg⟩
      · rw [hun] at hr
        by_cases h1 : (g.thandler.assertLits (n.clause.map Lit.neg)
            (g.thandler.backtrack (-1) ts)).1 = true
        · by_cases h2 : (g.thandler.check true (g.thandler.assertLits
              (n.clause.map Lit.neg) (g.thandler.backtrack (-1) ts)).2).1 = TRes.UNSAT
          · rw [if_pos h1, if_neg (not_not.mpr h2)] at hr
            exact hback _ _ _ (getInterpolant_match_error _ _ _ _ hr)
          · exact hne ⟨h1, h2⟩
        · rw [if_neg h1] at hr
          exact hback _ _ _ (getInterpolant_match_error _ _ _ _ hr)
      · exact hback cm1 ts2 ts1 hg
    · rintro ⟨h1, h2⟩
      rw [hun, if_pos h1, if_pos h2]

/-- Witness for C23: the theory leaf `s ∨ ¬t` of `thGraph` with a handler that still holds
an assertion, accepts `¬s` and `t` and answers SAT: the computation raises the
internal-consistency error and leaves the handler as `check` left it. -/
theorem theory_leaf_protocol_witness :
    ((thGraph (demoEnv 9 .SAT (fun _ _ => .ok Term.tt))).thandler.assertLits
        (thNode0.clause.map Lit.neg)
        ((thGraph (demoEnv 9 .SAT (fun _ _ => .ok Term.tt))).thandler.backtrack (-1)
          { stack := [Term.atom 3], checked_trail_size := 1,
            solvers := [[⟨Term.atom 3, .l_True⟩]] }))
      = (true, { stack := [Term.atom 0, Term.atom 1], checked_trail_size := 2,
                 solvers := [[⟨Term.atom 0, .l_False⟩, ⟨Term.atom 1, .l_True⟩]] }) ∧
    (thGraph (demoEnv 9 .SAT (fun _ _ => .ok Term.tt))).computePartialInterpolantForTheoryClause
        InterpolationInfo.cleared
        { stack := [Term.atom 3], checked_trail_size := 1,
          solvers := [[⟨Term.atom 3, .l_True⟩]] } thNode0 1
      = (.error .theory_no_conflict,
          { stack := [Term.atom 0, Term.atom 1], checked_trail_size := 2,
            solvers := [[⟨Term.atom 0, .l_False⟩, ⟨Term.atom 1, .l_True⟩]] }) :=
  ⟨by with_unfolding_all rfl,
   ((theory_leaf_protocol (thGraph (demoEnv 9 .SAT (fun _ _ => .ok Term.tt)))
      InterpolationInfo.cleared
      { stack := [Term.atom 3], checked_trail_size := 1,
        solvers := [[⟨Term.atom 3, .l_True⟩]] } thNode0 1
      (true, { stack := [Term.atom 0, Term.atom 1], checked_trail_size := 2,
               solvers := [[⟨Term.atom 0, .l_False⟩, ⟨Term.atom 1, .l_True⟩]] })
      (.SAT, { stack := [Term.atom 0, Term.atom 1], checked_trail_size := 2,
               solvers := [[⟨Term.atom 0, .l_False⟩, ⟨Term.atom 1, .l_True⟩]] })
      [(Term.atom 0, .I_UNDEF), (Term.atom 1, .I_UNDEF)]
      (by with_unfolding_all rfl) (by with_unfolding_all rfl)
      (by with_unfolding_all rfl)).1 rfl (by decide)).1⟩

/-! ## Theory leaves: the handler at the exit of the computation -/

/-- C24.  The state of the theory handler when `computePartialInterpolantForTheoryClause`
leaves the theory leaf `s ∨ ¬t` of `thGraph`, entered with an empty handler.  On the
successful return the handler has been backtracked: the stack is empty and the solver
holds nothing.  When the arithmetic backend of a logic with both sorts raises in
`getInterpolant`, and when `check` does not answer UNSAT, the exception leaves the function
with the two asserted literals still on the stack and in the solver: no `backtrack(-1)`
has happened after the assertion. -/
theorem theory_leaf_exit_state :
    (thGraph (demoEnv 9 .UNSAT (fun _ _ => .ok (Term.atom 0)))).computePartialInterpolantForTheoryClause
        InterpolationInfo.cleared thState0 thNode0 1
      = (.ok (Term.atom 0), { stack := [], checked_trail_size := 0, solvers := [[]] }) ∧
    (thGraph (demoEnv 9 .UNSAT (LATHandler.getInterpolant mixedLA))).computePartialInterpolantForTheoryClause
        InterpolationInfo.cleared thState0 thNode0 1
      = (.error Exn.mixed_arithmetic_not_supported,
          { stack := [Term.atom 0, Term.atom 1], checked_trail_size := 2,
            solvers := [[⟨Term.atom 0, .l_False⟩, ⟨Term.atom 1, .l_True⟩]] }) ∧
    (thGraph (demoEnv 9 .SAT (fun _ _ => .ok (Term.atom 0)))).computePartialInterpolantForTheoryClause
        InterpolationInfo.cleared thState0 thNode0 1
      = (.error .theory_no_conflict,
          { stack := [Term.atom 0, Term.atom 1], checked_trail_size := 2,
            solvers := [[⟨Term.atom 0, .l_False⟩, ⟨Term.atom 1, .l_True⟩]] }) ∧
    ((thGraph (demoEnv 9 .UNSAT (LATHandler.getInterpolant mixedLA))).computePartialInterpolantForTheoryClause
        InterpolationInfo.cleared thState0 thNode0 1).2.stack ≠ [] ∧
    ((thGraph (demoEnv 9 .UNSAT (LATHandler.getInterpolant mixedLA))).produceSingleInterpolant
        [] 1 ⟨InterpolationInfo.cleared, thState0⟩).result
      = .error Exn.mixed_arithmetic_not_supported ∧
    ((thGraph (demoEnv 9 .UNSAT (LATHandler.getInterpolant mixedLA))).produceSingleInterpolant
        [] 1 ⟨InterpolationInfo.cleared, thState0⟩).state.tstate.stack
      = [Term.atom 0, Term.atom 1] ∧
    (THandler.backtrack (demoEnv 9 .UNSAT (LATHandler.getInterpolant mixedLA)) (-1)
      ((thGraph (demoEnv 9 .UNSAT (LATHandler.getInterpolant mixedLA))).produceSingleInterpolant
        [] 1 ⟨InterpolationInfo.cleared, thState0⟩).state.tstate).stack = [] := by
  refine ⟨?_, ?_, ?_, by decide, ?_, ?_, ?_⟩ <;> with_unfolding_all rfl

/-! ## The arithmetic backend: `LATHandler::getInterpolant` -/

/-- C28.  `LATHandler::getInterpolant` returns the real-arithmetic interpolant when the
logic has reals and no integers, the integer interpolant (computed from the color map)
when it has integers, no reals and the color map is not null, and raises an internal
exception in every other case: integers only with a null map, and both sorts or neither.
It returns a term only in the first two cases, and then the term is the one of the
procedure that belongs to the case. -/
theorem LATHandler_getInterpolant_cases (env : LATHandlerEnv PTRef) (mask : ipartitions_t)
    (labels : Option (List (PTRef × icolor_t))) :
    (env.hasReals = true ∧ env.hasIntegers = false →
      LATHandler.getInterpolant env mask labels = .ok (env.getRealInterpolant mask labels)) ∧
    (env.hasIntegers = true ∧ env.hasReals = false →
      ∀ m, labels = some m →
        LATHandler.getInterpolant env mask labels = .ok (env.getIntegerInterpolant m)) ∧
    (env.hasIntegers = true ∧ env.hasReals = false → labels = none →
      LATHandler.getInterpolant env mask labels = .error Exn.lia_requires_partitioning_map) ∧
    (env.hasReals = env.hasIntegers →
      LATHandler.getInterpolant env mask labels = .error Exn.mixed_arithmetic_not_supported) ∧
    (∀ t, LATHandler.getInterpolant env mask labels = .ok t →
      (env.hasReals = true ∧ env.hasIntegers = false ∧ t = env.getRealInterpolant mask labels) ∨
      (env.hasIntegers = true ∧ env.hasReals = false ∧
        ∃ m, labels = some m ∧ t = env.getIntegerInterpolant m)) ∧
    (∀ e, LATHandler.getInterpolant env mask labels = .error e →
      (env.hasIntegers = true ∧ env.hasReals = false ∧ labels = none ∧
        e = Exn.lia_requires_partitioning_map) ∨
      (env.hasReals = env.hasIntegers ∧ e = Exn.mixed_arithmetic_not_supported)) := by
  unfold LATHandler.getInterpolant
  cases hr : env.hasReals <;> cases hi : env.hasIntegers <;> cases labels <;> simp

/-! ## Proof-sensitive labeling: the lookup of a leaf variable -/

/-- C29.  In the refutation `psGapGraph` the shared atom `t` = 0 is AB-class and occurs in
the theory leaf (node 0), but the map returned by `computePSFunction` for the run is empty:
`labels.find(t)` is the end iterator.  Labeling node 0 under PS, PSW and PSS reads through
it, and so does the whole run, which stops there. -/
theorem ps_label_lookup_undefined :
    (∀ algo, algo = ItpAlgorithm.ps ∨ algo = ItpAlgorithm.psw ∨ algo = ItpAlgorithm.pss →
      (psGapGraph algo).isRefutation = true ∧
      (psGapGraph algo).getNode 0 = some ⟨0, .CLA_THEORY, [⟨0, false⟩], 0, none, 0⟩ ∧
      (psGapGraph algo).getVarClass 0 1 = .ok .I_AB ∧
      (psGapGraph algo).isAssumedVar 0 = false ∧
      (psGapGraph algo).selectPSFunction
        (InterpolationInfo.reset (psGapGraph algo).proof_variables
          (fun v => (psGapGraph algo).getVarClass v 1) :
            Except Exn Unit × InterpolationInfo Term).2 1 = .ok (some []) ∧
      StdMap.find ([] : StdMap icolor_t) 0 = none ∧
      ((psGapGraph algo).labelLeaf
        (InterpolationInfo.reset (psGapGraph algo).proof_variables
          (fun v => (psGapGraph algo).getVarClass v 1) :
            Except Exn Unit × InterpolationInfo Term).2
        ⟨0, .CLA_THEORY, [⟨0, false⟩], 0, none, 0⟩ (some [])).1
        = .error .undefined_reference ∧
      ((psGapGraph algo).produceSingleInterpolant [] 1
        ⟨InterpolationInfo.cleared, ()⟩).result = .error .undefined_reference ∧
      ((psGapGraph algo).produceSingleInterpolant [] 1
        ⟨InterpolationInfo.cleared, ()⟩).interpolants = []) ∧
    ((psGapGraph .mcmillan).produceSingleInterpolant [] 1
        ⟨InterpolationInfo.cleared, ()⟩).result = .ok () := by
  refine ⟨?_, by with_unfolding_all rfl⟩
  intro algo h
  rcases h with rfl | rfl | rfl
  all_goals
    refine ⟨by decide, ?_, ?_, ?_, ?_, ?_, ?_, ?_, ?_⟩ <;> with_unfolding_all rfl

/-! ## The theory handler: balance of `assertLits` and `backtrack` -/

theorem sendAll_eq_foldl [DecidableEq PTRef] {S : Type} (env : THandlerEnv PTRef S)
    (ls : List Lit) :
    ∀ solvers : List S, env.sendAll ls solvers =
      (ls.filter env.isSent).foldl (fun s l => (env.assertLit (env.asgnOf l) s).2) solvers := by
  induction ls with
  | nil => intro solvers; rfl
  | cons a rest ih =>
    intro solvers
    unfold THandlerEnv.sendAll
    by_cases ha : env.isSent a = true
    · simp only [ha, if_true, List.filter_cons_of_pos, List.foldl_cons]
      exact ih _
    · simp only [ha, Bool.false_eq_true, if_false]
      rw [List.filter_cons_of_neg ha]
      exact ih _

theorem sendAll_append_sent [DecidableEq PTRef] {S : Type} (env : THandlerEnv PTRef S)
    (l : Lit) (hs : env.isSent l = true) (pre : List Lit) (solvers : List S) :
    env.sendAll (pre ++ [l]) solvers = (env.assertLit (env.asgnOf l) (env.sendAll pre solvers)).2 := by
  rw [sendAll_eq_foldl, sendAll_eq_foldl, List.filter_append, List.foldl_append]
  simp [hs]

theorem countP_isCounted_map [DecidableEq PTRef] {S : Type} (env : THandlerEnv PTRef S)
    (hbij : ∀ v, var (env.getLit (env.varToPTRef v)) = v) (ls : List Lit) :
    (ls.map (fun l => env.varToPTRef (var l))).countP env.isCounted
      = (ls.filter env.isSent).length := by
  rw [List.countP_map, ← List.countP_eq_length_filter]
  congr 1
  funext l
  simp only [Function.comp, THandlerEnv.isCounted, THandlerEnv.isSent, hbij]
  cases env.isDeclared (var l) <;> simp

/-- C30.  Starting from an empty stack with `checked_trail_size` = 0, with a term mapper
that gives back the variable of every term it maps a variable to, `assertLits(trail)`
processes a prefix of the trail, pushes the terms of its literals and calls `assertLit`
once for each of them that is declared and not constant, the rejected literal included;
the `backtrack(-1)` that follows asks every solver to pop exactly that many backtrack
points, which is the number of pushed terms that are declared and not constant.  After it
the stack is empty and `checked_trail_size` is 0, so the assertions at the entry of
`assertLits` hold again. -/
theorem THandler_assert_backtrack_balance [DecidableEq PTRef] {S : Type}
    (env : THandlerEnv PTRef S) (trail : List Lit) (st : THandlerState PTRef S)
    (hstack : st.stack = []) (hcts : st.checked_trail_size = 0)
    (hbij : ∀ v, var (env.getLit (env.varToPTRef v)) = v) :
    ∃ processed rest : List Lit, trail = processed ++ rest ∧
      (THandler.assertLits env trail st).2.stack
        = processed.map (fun l => env.varToPTRef (var l)) ∧
      (THandler.assertLits env trail st).2.solvers
        = (processed.filter env.isSent).foldl
            (fun s l => (env.assertLit (env.asgnOf l) s).2) st.solvers ∧
      ((THandler.assertLits env trail st).1 = false →
        ∃ pre l, processed = pre ++ [l] ∧ env.isSent l = true ∧
          (env.assertLit (env.asgnOf l) (env.sendAll pre st.solvers)).1 = false) ∧
      (THandler.backtrack env (-1) (THandler.assertLits env trail st).2).solvers
        = (THandler.assertLits env trail st).2.solvers.map
            (env.popBacktrackPoints (processed.filter env.isSent).length) ∧
      (processed.filter env.isSent).length
        = (THandler.assertLits env trail st).2.stack.countP env.isCounted ∧
      (THandler.backtrack env (-1) (THandler.assertLits env trail st).2).stack = [] ∧
      (THandler.backtrack env (-1) (THandler.assertLits env trail st).2).checked_trail_size
        = (THandler.backtrack env (-1) (THandler.assertLits env trail st).2).stack.length ∧
      ∀ next : List Lit,
        (THandler.backtrack env (-1) (THandler.assertLits env trail st).2).stack.length
          ≤ next.length := by
  have hneg : (max (-1 : Int) 0).toNat = 0 := by decide
  have key : ∀ processed : List Lit,
      (THandler.assertLits env trail st).2.stack
        = processed.map (fun l => env.varToPTRef (var l)) →
      (THandler.backtrack env (-1) (THandler.assertLits env trail st).2).solvers
        = (THandler.assertLits env trail st).2.solvers.map
            (env.popBacktrackPoints (processed.filter env.isSent).length) ∧
      (processed.filter env.isSent).length
        = (THandler.assertLits env trail st).2.stack.countP env.isCounted ∧
      (THandler.backtrack env (-1) (THandler.assertLits env trail st).2).stack = [] ∧
      (THandler.backtrack env (-1) (THandler.assertLits env trail st).2).checked_trail_size
        = (THandler.backtrack env (-1) (THandler.assertLits env trail st).2).stack.length ∧
      ∀ next : List Lit,
        (THandler.backtrack env (-1) (THandler.assertLits env trail st).2).stack.length
          ≤ next.length := by
    intro processed hst
    rw [backtrack_spec, hneg, hst]
    simp only [List.take_zero, List.drop_zero, List.length_nil, countP_isCounted_map env hbij]
    exact ⟨trivial, trivial, trivial, trivial, fun _ => Nat.zero_le _⟩
  have hdrop : trail.drop st.checked_trail_size = trail := by rw [hcts]; rfl
  cases hacc : env.acceptsAll trail st.solvers with
  | true =>
    have hrun : THandler.assertLits env trail st =
        (true, { stack := trail.map (fun l => env.varToPTRef (var l))
                 checked_trail_size := (trail.map (fun l => env.varToPTRef (var l))).length
                 solvers := env.sendAll trail st.solvers }) := by
      unfold THandler.assertLits
      rw [hdrop, hstack, assertLitsLoop_accepts env _ [] st.solvers hacc]
      simp
    refine ⟨trail, [], by simp, ?_, ?_, ?_, key trail ?_⟩
    · rw [hrun]
    · rw [hrun, sendAll_eq_foldl]
    · rw [hrun]; intro h; cases h
    · rw [hrun]
  | false =>
    obtain ⟨pre, l, post, h1, h2, h3, h4⟩ := acceptsAll_first_reject env _ st.solvers hacc
    have hrun : THandler.assertLits env trail st =
        (false, { stack := (pre ++ [l]).map (fun l => env.varToPTRef (var l))
                  checked_trail_size :=
                    ((pre ++ [l]).map (fun l => env.varToPTRef (var l))).length
                  solvers := env.sendAll (pre ++ [l]) st.solvers }) := by
      have hloop := assertLitsLoop_reject env l post pre [] st.solvers h2 h3 h4
      rw [← h1] at hloop
      unfold THandler.assertLits
      rw [hdrop, hstack, hloop, sendAll_append_sent env l h3]
      simp
    refine ⟨pre ++ [l], post, by rw [h1]; simp, ?_, ?_, ?_, key (pre ++ [l]) ?_⟩
    · rw [hrun]
    · rw [hrun, sendAll_eq_foldl]
    · intro _; exact ⟨pre, l, rfl, h3, h4⟩
    · rw [hrun]

theorem demoEnv_getLit (reject : Var) (checkRes : TRes)
    (itp : ipartitions_t → Option (List (Term × icolor_t)) → Except Exn Term) (v : Var) :
    var ((demoEnv reject checkRes itp).getLit ((demoEnv reject checkRes itp).varToPTRef v))
      = v := by
  unfold demoEnv
  by_cases h : v = 7
  · subst h; rfl
  · simp only [h, if_false]; rfl

/-- Witness for C30: a trail of five literals whose fourth is rejected; two `assertLit`
calls are made, the stack holds four terms, and `backtrack(-1)` pops two backtrack
points, which empties the solver. -/
theorem THandler_assert_backtrack_balance_witness :
    (THandler.assertLits (demoEnv 2 .UNSAT (fun _ _ => .ok Term.tt))
        [⟨0, false⟩, ⟨5, true⟩, ⟨7, false⟩, ⟨2, true⟩, ⟨3, false⟩] thState0).2.stack
      = [Term.atom 0, Term.atom 5, Term.tt, Term.atom 2] ∧
    (THandler.assertLits (demoEnv 2 .UNSAT (fun _ _ => .ok Term.tt))
        [⟨0, false⟩, ⟨5, true⟩, ⟨7, false⟩, ⟨2, true⟩, ⟨3, false⟩] thState0).2.solvers
      = [[⟨Term.atom 0, .l_True⟩, ⟨Term.atom 2, .l_False⟩]] ∧
    (THandler.backtrack (demoEnv 2 .UNSAT (fun _ _ => .ok Term.tt)) (-1)
      (THandler.assertLits (demoEnv 2 .UNSAT (fun _ _ => .ok Term.tt))
        [⟨0, false⟩, ⟨5, true⟩, ⟨7, false⟩, ⟨2, true⟩, ⟨3, false⟩] thState0).2).solvers
      = [[]] ∧
    ∃ processed rest : List Lit,
      [⟨0, false⟩, ⟨5, true⟩, ⟨7, false⟩, ⟨2, true⟩, ⟨3, false⟩] = processed ++ rest ∧
      (THandler.backtrack (demoEnv 2 .UNSAT (fun _ _ => .ok Term.tt)) (-1)
        (THandler.assertLits (demoEnv 2 .UNSAT (fun _ _ => .ok Term.tt))
          [⟨0, false⟩, ⟨5, true⟩, ⟨7, false⟩, ⟨2, true⟩, ⟨3, false⟩] thState0).2).solvers
        = (THandler.assertLits (demoEnv 2 .UNSAT (fun _ _ => .ok Term.tt))
            [⟨0, false⟩, ⟨5, true⟩, ⟨7, false⟩, ⟨2, true⟩, ⟨3, false⟩] thState0).2.solvers.map
          ((demoEnv 2 .UNSAT (fun _ _ => .ok Term.tt)).popBacktrackPoints
            (processed.filter (demoEnv 2 .UNSAT (fun _ _ => .ok Term.tt)).isSent).length) := by
  refine ⟨by decide, by decide, by decide, ?_⟩
  obtain ⟨processed, rest, h1, -, -, -, h5, -⟩ :=
    THandler_assert_backtrack_balance (demoEnv 2 .UNSAT (fun _ _ => .ok Term.tt))
      [⟨0, false⟩, ⟨5, true⟩, ⟨7, false⟩, ⟨2, true⟩, ⟨3, false⟩] thState0 rfl rfl
      (demoEnv_getLit 2 .UNSAT _)
  exact ⟨processed, rest, h1, h5⟩

/-! ## Worked instances -/

/-- Witness for C22: scenario S1 with no labeling system selected fails in
`checkInterAlgo` and leaves the state and the output vector as they were; with McMillan
selected the check passes. -/
theorem produceSingleInterpolant_configuration_error_witness :
    (s1Graph .unset false).produceSingleInterpolant [Term.atom 5] 1
        ⟨InterpolationInfo.cleared, ()⟩ =
      { result := .error .api_choose_itp_bool_algo, state := ⟨InterpolationInfo.cleared, ()⟩,
        interpolants := [Term.atom 5] } ∧
    (s1Graph .mcmillan false).checkInterAlgo = .ok () :=
  ⟨((produceSingleInterpolant_configuration_error (s1Graph .unset false) [Term.atom 5] 1
      ⟨InterpolationInfo.cleared, ()⟩).1 rfl).2,
   ((produceSingleInterpolant_configuration_error (s1Graph .mcmillan false) [] 1
      ⟨InterpolationInfo.cleared, ()⟩).2 (by decide)).1⟩

/-- Witness for C25: scenario S1 under McMillan, called with an output vector that already
holds one term, appends one term behind it; with no system selected the vector is
unchanged. -/
theorem produceSingleInterpolant_output_witness :
    (∃ I, ((s1Graph .mcmillan false).produceSingleInterpolant [Term.tt] 1
        ⟨InterpolationInfo.cleared, ()⟩).interpolants = [Term.tt] ++ [I]) ∧
    ((s1Graph .unset false).produceSingleInterpolant [Term.tt] 1
        ⟨InterpolationInfo.cleared, ()⟩).interpolants = [Term.tt] := by
  constructor
  · obtain ⟨rootNode, I, -, -, h, -⟩ :=
      (produceSingleInterpolant_output (s1Graph .mcmillan false) [Term.tt] 1
        ⟨InterpolationInfo.cleared, ()⟩).1 (by with_unfolding_all rfl)
    exact ⟨I, h⟩
  · exact (produceSingleInterpolant_output (s1Graph .unset false) [Term.tt] 1
      ⟨InterpolationInfo.cleared, ()⟩).2 .api_choose_itp_bool_algo rfl

/-- Witness for C26: a stack of four terms backtracked to level 2 keeps its first two
terms, and the solver is asked to pop the one backtrack point of the two popped terms
(`⊤` does not count). -/
theorem THandler_backtrack_contract_witness :
    (THandler.backtrack (demoEnv 9 .UNSAT (fun _ _ => .ok Term.tt)) 2
      { stack := [Term.atom 0, Term.atom 5, Term.tt, Term.atom 2], checked_trail_size := 4,
        solvers := [[⟨Term.atom 0, .l_True⟩, ⟨Term.atom 2, .l_False⟩]] }).stack
      = [Term.atom 0, Term.atom 5] ∧
    (THandler.backtrack (demoEnv 9 .UNSAT (fun _ _ => .ok Term.tt)) 2
      { stack := [Term.atom 0, Term.atom 5, Term.tt, Term.atom 2], checked_trail_size := 4,
        solvers := [[⟨Term.atom 0, .l_True⟩, ⟨Term.atom 2, .l_False⟩]] }).solvers
      = [[⟨Term.atom 0, .l_True⟩]] :=
  ⟨(THandler_backtrack_contract (demoEnv 9 .UNSAT (fun _ _ => .ok Term.tt)) 2
      { stack := [Term.atom 0, Term.atom 5, Term.tt, Term.atom 2], checked_trail_size := 4,
        solvers := [[⟨Term.atom 0, .l_True⟩, ⟨Term.atom 2, .l_False⟩]] }).1,
   (THandler_backtrack_contract (demoEnv 9 .UNSAT (fun _ _ => .ok Term.tt)) 2
      { stack := [Term.atom 0, Term.atom 5, Term.tt, Term.atom 2], checked_trail_size := 4,
        solvers := [[⟨Term.atom 0, .l_True⟩, ⟨Term.atom 2, .l_False⟩]] }).2.2.2.1⟩

/-- Witness for C27: on a trail of five literals whose fourth is rejected (the second is
not declared, the third is `⊤`), `assertLits` returns false, has pushed four terms and has
sent the first and the fourth literal. -/
theorem THandler_assertLits_contract_witness :
    (THandler.assertLits (demoEnv 2 .UNSAT (fun _ _ => .ok Term.tt))
        [⟨0, false⟩, ⟨5, true⟩, ⟨7, false⟩, ⟨2, true⟩, ⟨3, false⟩] thState0).1 = false ∧
    (THandler.assertLits (demoEnv 2 .UNSAT (fun _ _ => .ok Term.tt))
        [⟨0, false⟩, ⟨5, true⟩, ⟨7, false⟩, ⟨2, true⟩, ⟨3, false⟩] thState0).2.stack
      = [Term.atom 0, Term.atom 5, Term.tt, Term.atom 2] ∧
    (THandler.assertLits (demoEnv 2 .UNSAT (fun _ _ => .ok Term.tt))
        [⟨0, false⟩, ⟨5, true⟩, ⟨7, false⟩, ⟨2, true⟩, ⟨3, false⟩] thState0).2.solvers
      = [[⟨Term.atom 0, .l_True⟩, ⟨Term.atom 2, .l_False⟩]] :=
  (THandler_assertLits_contract (demoEnv 2 .UNSAT (fun _ _ => .ok Term.tt))
    [⟨0, false⟩, ⟨5, true⟩, ⟨7, false⟩, ⟨2, true⟩, ⟨3, false⟩] thState0).2.1
    [⟨0, false⟩, ⟨5, true⟩, ⟨7, false⟩] ⟨2, true⟩ [⟨3, false⟩] rfl (by decide) (by decide)
    (by decide)

/-- Witness for C28: a logic with both sorts gets the exception for mixed arithmetic; a
logic with integers only and a null color map gets the exception for the missing map. -/
theorem LATHandler_getInterpolant_cases_witness :
    LATHandler.getInterpolant mixedLA 1 none = .error Exn.mixed_arithmetic_not_supported ∧
    LATHandler.getInterpolant { mixedLA with hasReals := false } 1 none
      = .error Exn.lia_requires_partitioning_map :=
  ⟨(LATHandler_getInterpolant_cases mixedLA 1 none).2.2.2.1 rfl,
   (LATHandler_getInterpolant_cases { mixedLA with hasReals := false } 1 none).2.2.1
     ⟨rfl, rfl⟩ rfl⟩

/-! ## The difference-logic solver: negated edges -/

theorem Edge.negated_negated {Number : Type} [Ring Number] (e : Edge PTRef Number) :
    e.negated.negated = e := by
  cases e with
  | mk f t c =>
    simp only [Edge.negated, Edge.mk.injEq, true_and]
    simp

theorem Edge.negated_holds {Number : Type} [LinearOrderedRing Number]
    (e : Edge PTRef Number) (k : Int) (hk : e.cost = (k : Number)) (val : PTRef → Int) :
    Edge.holds val e.negated ↔ ¬ Edge.holds val e := by
  unfold Edge.holds Edge.negated
  simp only [hk, not_le]
  have h : (((val e.to_ - val e.from_ : Int) : Number) ≤ ((-(k + 1) : Int) : Number)) ↔
      (((k : Int) : Number) < ((val e.from_ - val e.to_ : Int) : Number)) := by
    rw [Int.cast_le, Int.cast_lt]
    omega
  push_cast at h
  exact h

theorem STPSolver.assertLit_parsed {Number G : Type} [Ring Number]
    (logic : LALogicOps PTRef Number) (addEdge : Edge PTRef Number → G → Bool × G)
    (tr : PTRef) (sgn : lbool) (b : Bool) (graph : G) (e : Edge PTRef Number)
    (hparse : STPSolver.parseEdge logic tr = .ok e) :
    STPSolver.assertLit logic addEdge ⟨tr, sgn⟩ b graph =
      .ok (addEdge (if sgn = lbool.l_False then e.negated else e) graph) := by
  unfold STPSolver.assertLit
  simp only [hparse]
  by_cases hs : sgn = lbool.l_False
  · simp [hs, Edge.negated]
  · simp [hs]

/-- C31 (amended).  When `parseEdge` gives the edge `(from, to, cost)`, `assertLit` with
negative polarity adds the edge `(to, from, -(cost + 1))` and with positive polarity it
adds the parsed edge unchanged; negating an edge twice gives back the edge.  When the cost
is an integer, the constraint of the negated edge holds under an integer valuation if and
only if the constraint of the edge is violated. -/
theorem STPSolver_assertLit_negated_edge {Number G : Type} [LinearOrderedRing Number]
    (logic : LALogicOps PTRef Number) (addEdge : Edge PTRef Number → G → Bool × G)
    (tr : PTRef) (b : Bool) (graph : G) (e : Edge PTRef Number)
    (hparse : STPSolver.parseEdge logic tr = .ok e) :
    STPSolver.assertLit logic addEdge ⟨tr, .l_False⟩ b graph
      = .ok (addEdge { from_ := e.to_, to_ := e.from_, cost := -(e.cost + 1) } graph) ∧
    STPSolver.assertLit logic addEdge ⟨tr, .l_True⟩ b graph = .ok (addEdge e graph) ∧
    e.negated = { from_ := e.to_, to_ := e.from_, cost := -(e.cost + 1) } ∧
    e.negated.negated = e ∧
    ∀ k : Int, e.cost = (k : Number) → ∀ val : PTRef → Int,
      (Edge.holds val e.negated ↔ ¬ Edge.holds val e) := by
  refine ⟨?_, ?_, rfl, Edge.negated_negated e, fun k hk val => Edge.negated_holds e k hk val⟩
  · rw [STPSolver.assertLit_parsed logic addEdge tr _ b graph e hparse]
    rfl
  · rw [STPSolver.assertLit_parsed logic addEdge tr _ b graph e hparse]
    rfl

/-- Witness for C31 (amended): the atom `x - y ≤ 3`.  Asserted negatively it adds the edge
`(y, x, -4)`, asserted positively the edge `(x, y, 3)`, and under every integer valuation
`y - x ≤ -4` holds exactly when `x - y ≤ 3` is violated. -/
theorem STPSolver_assertLit_negated_edge_witness :
    STPSolver.parseEdge (stpLogic 3) 10 = .ok ⟨1, 2, 3⟩ ∧
    STPSolver.assertLit (stpLogic 3) stpAddEdge ⟨10, .l_False⟩ true []
      = .ok (true, [⟨2, 1, -4⟩]) ∧
    STPSolver.assertLit (stpLogic 3) stpAddEdge ⟨10, .l_True⟩ true []
      = .ok (true, [⟨1, 2, 3⟩]) ∧
    ∀ val : Nat → Int,
      (Edge.holds val (Edge.negated (⟨1, 2, 3⟩ : Edge Nat ℚ)) ↔
        ¬ Edge.holds val (⟨1, 2, 3⟩ : Edge Nat ℚ)) :=
  ⟨by with_unfolding_all rfl, by with_unfolding_all rfl, by with_unfolding_all rfl,
   (STPSolver_assertLit_negated_edge (stpLogic 3) stpAddEdge 10 true [] ⟨1, 2, 3⟩
      (by with_unfolding_all rfl)).2.2.2.2 3 (by simp)⟩

/-- Counterexample for C31: the atom `x - y ≤ 1/2`.  Asserted negatively it adds the edge
`(y, x, -3/2)`; under the integer valuation `x` = 1, `y` = 0 the constraint `x - y ≤ 1/2`
is violated and the constraint `y - x ≤ -3/2` of the added edge does not hold. -/
theorem STPSolver_assertLit_negated_edge_counterexample :
    STPSolver.parseEdge (stpLogic (1/2)) 10 = .ok ⟨1, 2, 1/2⟩ ∧
    STPSolver.assertLit (stpLogic (1/2)) stpAddEdge ⟨10, .l_False⟩ true []
      = .ok (true, [⟨2, 1, -(1/2 + 1)⟩]) ∧
    ¬ Edge.holds (fun t => if t = 1 then 1 else 0) (⟨1, 2, 1/2⟩ : Edge Nat ℚ) ∧
    ¬ Edge.holds (fun t => if t = 1 then 1 else 0) (⟨2, 1, -(1/2 + 1)⟩ : Edge Nat ℚ) ∧
    ¬ (Edge.holds (fun t => if t = 1 then 1 else 0) (⟨2, 1, -(1/2 + 1)⟩ : Edge Nat ℚ) ↔
      ¬ Edge.holds (fun t => if t = 1 then 1 else 0) (⟨1, 2, 1/2⟩ : Edge Nat ℚ)) := by
  refine ⟨by with_unfolding_all rfl, by with_unfolding_all rfl, ?_, ?_, ?_⟩ <;>
    with_unfolding_all decide

/-! ## Refutations outside the amended claims -/

/-- C1 as stated fails: `asmGraph` is a valid refutation whose leaves are all ORIG clauses
with a class (`a` in A, `¬a` in B), but `a` is an assumption variable with assumed literal
`a`.  Under McMillan the run returns `⊤`: the leaf `¬a` drops its literal and gets `⊤`, and
the pivot `a` has color S, so the root takes the interpolant of antecedent 2.  `⊤` is not a
Craig interpolant: the valuation `a` = false satisfies the B-part. -/
theorem produceSingleInterpolant_craig_counterexample :
    asmGraph.isRefutation = true ∧
    (∀ id ∈ asmGraph.DFSv, ∀ n, asmGraph.getNode id = some n → n.isLeaf = true →
      n.type = .CLA_ORIG ∧ ∃ c, asmGraph.getClauseColor n.clauseRef 1 = .ok c) ∧
    asmGraph.getClauseColor 0 1 = .ok .I_A ∧ asmGraph.getClauseColor 1 1 = .ok .I_B ∧
    (asmGraph.produceSingleInterpolant [] 1 ⟨InterpolationInfo.cleared, ()⟩).result = .ok () ∧
    (asmGraph.produceSingleInterpolant [] 1 ⟨InterpolationInfo.cleared, ()⟩).interpolants
      = [Term.tt] ∧
    asmGraph.satisfiesB 1 (fun _ => false) ∧
    ¬ asmGraph.isInterpolant 1 Term.eval Term.tt := by
  have hnodes : ∀ id ∈ asmGraph.DFSv, ∀ n, asmGraph.getNode id = some n →
      n = ⟨0, .CLA_ORIG, [⟨2, false⟩], 0, none, 0⟩ ∨
      n = ⟨1, .CLA_ORIG, [⟨2, true⟩], 1, none, 0⟩ ∨
      n = ⟨2, .CLA_RESOLVENT, [], 0, some (0, 1), 2⟩ := by
    intro id hid n hn
    simp only [asmGraph, List.mem_cons, List.mem_singleton, List.not_mem_nil, or_false] at hid
    rcases hid with rfl | rfl | rfl <;>
      (simp [ProofGraph.getNode, asmGraph] at hn; subst hn; simp)
  have hB : asmGraph.satisfiesB 1 (fun _ => false) := by
    intro id hid n hn hleaf hb
    rcases hnodes id hid n hn with rfl | rfl | rfl
    · have h0 : asmGraph.getClauseColor 0 1 = .ok .I_A := by with_unfolding_all rfl
      have hb2 : asmGraph.getClauseColor 0 1 = .ok .I_B := hb
      rw [h0] at hb2
      cases hb2
    · rfl
    · exact absurd hleaf (by decide)
  refine ⟨by decide, ?_, by with_unfolding_all rfl, by with_unfolding_all rfl,
    by with_unfolding_all rfl, by with_unfolding_all rfl, hB, ?_⟩
  · intro id hid n hn hleaf
    rcases hnodes id hid n hn with rfl | rfl | rfl
    · exact ⟨rfl, _, by with_unfolding_all rfl⟩
    · exact ⟨rfl, _, by with_unfolding_all rfl⟩
    · exact absurd hleaf (by decide)
  · intro h
    have := h.2 (fun _ => false) hB
    exact absurd this (by decide)

/-- C14 as stated fails: in the refutation `dupGraph` the shared atom `v` occurs in one A-class original
leaf and in one B-class original leaf, so the reference counts are `occ_A(v)` = 1 and
`occ_B(v)` = 1 and the reference label is B (a tie); the A-leaf holds two literals over
`v`, the loop increments once per literal, the tables hold the counts 2 and 1, and the
returned map sends `v` to A. -/
theorem computePSFunction_reference_counterexample :
    dupGraph.isRefutation = true ∧
    dupGraph.getVarClass 0 1 = .ok .I_AB ∧
    dupGraph.getClauseColor 0 1 = .ok .I_A ∧ dupGraph.getClauseColor 1 1 = .ok .I_B ∧
    dupGraph.occRef 1 .I_A 0 = 1 ∧ dupGraph.occRef 1 .I_B 0 = 1 ∧
    dupGraph.psLabelRef 1 0 = .I_B ∧
    dupGraph.collectOccurrences
      (InterpolationInfo.reset dupGraph.proof_variables
        (fun v => dupGraph.getVarClass v 1) : Except Exn Unit × InterpolationInfo Term).2
      1 dupGraph.leaves_ids ([], []) = .ok ([(0, 2)], [(0, 1)]) ∧
    dupGraph.computePSFunction
      (InterpolationInfo.reset dupGraph.proof_variables
        (fun v => dupGraph.getVarClass v 1) : Except Exn Unit × InterpolationInfo Term).2
      1 = .ok [(0, .I_A)] ∧
    StdMap.find [(0, icolor_t.I_A)] 0 ≠ some (dupGraph.psLabelRef 1 0) := by
  refine ⟨by decide, ?_, ?_, ?_, ?_, ?_, ?_, ?_, ?_, ?_⟩ <;>
    first | with_unfolding_all rfl | with_unfolding_all decide

end OpenSMT
